import Mathlib

/-!
# Stubborn-set reduction of verifypn: a shallow embedding

Embedding of `PetriEngine::ReducingSuccessorGenerator`
(`src/PetriEngine/ReducingSuccessorGenerator.cpp`).

* C++ arrays are lists; a read is `List.getD` with the zero value of the
  element type, a write is `List.set`.  The theorems carry the bounds that
  keep every access inside its array.
* `uint32_t` quantities are natural numbers; token arithmetic is reduced
  modulo `2 ^ 32` where the source can wrap.
* The members of the class that are fixed by the constructor (the net, the
  flattened pre/post tables, the inhibitor table, the queries) are the
  structure `ReducingSuccessorGenerator`; the buffers that `prepare`, `next`
  and `reset` mutate are the structure `GenState`, threaded explicitly.
-/

namespace PetriEngine

/-! ## The net (`PetriNet.h`, consumed as is) -/

/-- Arc record of the flattened net: place id, token weight, inhibitor flag and
direction, as read through `_net._invariants[i]`. -/
structure Invariant where
  place : Nat
  tokens : Nat
  inhibitor : Bool
  direction : Int
deriving DecidableEq, Repr, Inhabited

/-- Per-transition pointer into the arc array: the input arcs of transition `t`
are `[inputs t, outputs t)`, its output arcs `[outputs t, inputs (t+1))`. -/
structure TransPtr where
  inputs : Nat
  outputs : Nat
deriving DecidableEq, Repr, Inhabited

/-- The flattened net with the members the generator reads. -/
structure PetriNet where
  _nplaces : Nat
  _ntransitions : Nat
  _invariants : List Invariant
  _transitions : List TransPtr
  _placeToPtrs : List Nat
deriving DecidableEq, Repr

/-- Read `_net._invariants[i]`. -/
def PetriNet.inv (net : PetriNet) (i : Nat) : Invariant :=
  net._invariants.getD i default

/-- Read `_net._transitions[t]`. -/
def PetriNet.tr (net : PetriNet) (t : Nat) : TransPtr :=
  net._transitions.getD t default

/-- Read `_net._placeToPtrs[p]`. -/
def PetriNet.ptr (net : PetriNet) (p : Nat) : Nat :=
  net._placeToPtrs.getD p 0

/-- Index range of the input arcs of `t`: the values taken by `finv` in
`for (finv = inputs; finv < outputs; finv++)`. -/
def PetriNet.inputArcs (net : PetriNet) (t : Nat) : List Nat :=
  List.range' (net.tr t).inputs ((net.tr t).outputs - (net.tr t).inputs)

/-- Index range of the output arcs of `t`: from `outputs` of `t` up to `inputs`
of `t + 1`. -/
def PetriNet.outputArcs (net : PetriNet) (t : Nat) : List Nat :=
  List.range' (net.tr t).outputs ((net.tr (t + 1)).inputs - (net.tr t).outputs)

/-- A marking: token count per place (`Structures::State::marking()`). -/
abbrev Marking := List Nat

/-- Read `marking()[p]`. -/
def mark (m : Marking) (p : Nat) : Nat := m.getD p 0

/-! ## The query capability (PQL, consumed as is) -/

/-- The four registration primitives of the generator a query may call from
`findInteresting`. -/
inductive StubCall where
  | addToStub (t : Nat)
  | presetOf (place : Nat)
  | postsetOf (place : Nat)
  | inhibitorPostsetOf (place : Nat)
deriving DecidableEq, Repr

/-- Modelled from the spec: `PQL::Condition` is not among the sources.  The spec
(section 6) gives its interface: `evaluate(marking, net) -> bool`, `isInvariant`,
`placeNameForBound` (empty for non-bound queries) and `findInteresting`, which
is "allowed to call back into the reduction engine's preset/postset/
inhibitor-postset registration primitives"; it is the sequence of such calls a
query makes for a marking (whose evaluation `evalAndSet` has cached). -/
structure Condition where
  evaluate : Marking → Bool
  findInteresting : Marking → List StubCall
  isInvariant : Bool
  placeNameForBound : List String

/-! ## The generator -/

/-- Entry of `_places`: start of the pre-range and start of the post-range of a
place inside `_transitions`. -/
structure place_t where
  pre : Nat
  post : Nat
deriving DecidableEq, Repr, Inhabited

/-- Members of `ReducingSuccessorGenerator` fixed by its constructor. -/
structure ReducingSuccessorGenerator where
  _net : PetriNet
  _places : List place_t
  _transitions : List Nat
  _inhibpost : List (List Nat)
  _netContainsInhibitorArcs : Bool
  _dependency : List Nat
  _queries : List Condition

/-- Buffers of `ReducingSuccessorGenerator` mutated by `prepare`, `next` and
`reset`.  `queryCalls` is a ghost counter of the `evalAndSet`/`findInteresting`
rounds made so far. -/
structure GenState where
  _enabled : List Bool
  _stubborn : List Bool
  _places_seen : List Nat
  _ordering : List Nat
  _unprocessed : List Nat
  _parent : Marking
  _current : Nat
  queryCalls : Nat
deriving DecidableEq, Repr

/-- Read `_places[p]`. -/
def ReducingSuccessorGenerator.pl (G : ReducingSuccessorGenerator) (p : Nat) : place_t :=
  G._places.getD p default

/-- Read `_transitions[i]` (the flattened pre/post table). -/
def ReducingSuccessorGenerator.tab (G : ReducingSuccessorGenerator) (i : Nat) : Nat :=
  G._transitions.getD i 0

/-- Indices of the pre-range of a place: `[_places[p].pre, _places[p].post)`. -/
def ReducingSuccessorGenerator.preRange (G : ReducingSuccessorGenerator) (p : Nat) : List Nat :=
  List.range' (G.pl p).pre ((G.pl p).post - (G.pl p).pre)

/-- Indices of the post-range of a place: `[_places[p].post, _places[p+1].pre)`. -/
def ReducingSuccessorGenerator.postRange (G : ReducingSuccessorGenerator) (p : Nat) : List Nat :=
  List.range' (G.pl p).post ((G.pl (p + 1)).pre - (G.pl p).post)

/-- Read `_stubborn[t]`. -/
def GenState.stub (s : GenState) (t : Nat) : Bool := s._stubborn.getD t false

/-- Read `_enabled[t]`. -/
def GenState.en (s : GenState) (t : Nat) : Bool := s._enabled.getD t false

/-- Read `_places_seen[p]`. -/
def GenState.seen (s : GenState) (p : Nat) : Nat := s._places_seen.getD p 0

/-! ### Construction -/

/-- The loop of `checkForInhibitor`: true as soon as one input arc of one
transition is an inhibitor arc. -/
def checkForInhibitor (net : PetriNet) : Bool :=
  (List.range net._ntransitions).any fun t =>
    (net.inputArcs t).any fun finv => (net.inv finv).inhibitor

/-- `v[p].push_back(t)` on a vector of vectors. -/
def pushAt (v : List (List Nat)) (p t : Nat) : List (List Nat) :=
  v.set p (v.getD p [] ++ [t])

/-- State of the first loop of `constructPrePost`: `tmp_places` split in its
`first` (pre) and `second` (post) components, `_inhibpost`, and the flag. -/
structure PrePostTmp where
  first : List (List Nat)
  second : List (List Nat)
  inhibpost : List (List Nat)
  containsInhibitor : Bool
deriving DecidableEq, Repr

/-- Body of the first loop of `constructPrePost` for transition `t`. -/
def collectTransition (net : PetriNet) (acc : PrePostTmp) (t : Nat) : PrePostTmp :=
  let acc1 := (net.inputArcs t).foldl (fun (a : PrePostTmp) finv =>
    if (net.inv finv).inhibitor then
      { a with inhibpost := pushAt a.inhibpost (net.inv finv).place t, containsInhibitor := true }
    else
      { a with second := pushAt a.second (net.inv finv).place t }) acc
  (net.outputArcs t).foldl (fun (a : PrePostTmp) finv =>
    { a with first := pushAt a.first (net.inv finv).place t }) acc1

/-- First loop of `constructPrePost`, over all transitions.  `flag` is the value
`_netContainsInhibitorArcs` has on entry. -/
def collectPrePost (net : PetriNet) (flag : Bool) : PrePostTmp :=
  (List.range net._ntransitions).foldl (collectTransition net)
    { first := List.replicate net._nplaces [], second := List.replicate net._nplaces [],
      inhibpost := List.replicate net._nplaces [], containsInhibitor := flag }

/-- `std::sort` on a vector of transition ids. -/
def sortIds (l : List Nat) : List Nat := l.insertionSort (· ≤ ·)

/-- State of the flattening loop of `constructPrePost`: the entries of `_places`
written so far, the prefix of `_transitions` written so far, and `offset`. -/
structure FlattenAcc where
  places : List place_t
  transitions : List Nat
  offset : Nat
deriving DecidableEq, Repr

/-- Body of the flattening loop for place `p`: the sorted `pre` is written at
`offset`, the sorted `post` right after it.  The source writes into an array of
`ntrans` cells at consecutive indices; the written prefix is built by
appending. -/
def flattenPlace (tmp : PrePostTmp) (acc : FlattenAcc) (p : Nat) : FlattenAcc :=
  let pre := sortIds (tmp.first.getD p [])
  let post := sortIds (tmp.second.getD p [])
  { places := acc.places ++ [{ pre := acc.offset, post := acc.offset + pre.length }],
    transitions := acc.transitions ++ pre ++ post,
    offset := acc.offset + pre.length + post.length }

/-- The flattening loop of `constructPrePost` followed by the sentinel entry
`_places[nplaces]`. -/
def flattenPrePost (net : PetriNet) (tmp : PrePostTmp) : List place_t × List Nat :=
  let acc := (List.range net._nplaces).foldl (flattenPlace tmp)
    { places := [], transitions := [], offset := 0 }
  (acc.places ++ [{ pre := acc.offset, post := acc.offset }], acc.transitions)

/-- The local `ntrans` of `constructPrePost`, a `size_t`: the sizes of the two
vectors of every entry of `tmp_places`, added up. -/
def ntransOf (net : PetriNet) (tmp : PrePostTmp) : Nat :=
  (List.range net._nplaces).foldl (fun ntrans p =>
    (ntrans + ((tmp.first.getD p []).length + (tmp.second.getD p []).length)) %
      18446744073709551616) 0

/-- The local `offset` of `constructPrePost` after the flattening loop.  It is a
`uint32_t`, so each `offset += size` wraps at 2^32 (`flattenPlace` carries the
unwrapped count, which is the same number as long as the table has fewer than
2^32 entries). -/
def offsetOf (net : PetriNet) (tmp : PrePostTmp) : Nat :=
  (List.range net._nplaces).foldl (fun offset p =>
    ((offset + (sortIds (tmp.first.getD p [])).length) % 4294967296 +
      (sortIds (tmp.second.getD p [])).length) % 4294967296) 0

/-- The condition of `assert(offset == ntrans)` at the end of
`constructPrePost`. -/
def offsetAssertion (net : PetriNet) : Bool :=
  offsetOf net (collectPrePost net false) == ntransOf net (collectPrePost net false)

/-- `constructDependency` for one transition: one increment per entry of the
post-range of the place of each input arc. -/
def dependencyOf (net : PetriNet) (places : List place_t) (t : Nat) : Nat :=
  ((net.inputArcs t).map fun finv =>
    let p := (net.inv finv).place
    ((places.getD (p + 1) default).pre + 4294967296 - (places.getD p default).post) % 4294967296).sum
    % 4294967296

/-- The constructor taking the queries: `constructPrePost`,
`constructDependency`, `checkForInhibitor`, then the queries are stored. -/
def ReducingSuccessorGenerator.construct (net : PetriNet) (queries : List Condition) :
    ReducingSuccessorGenerator :=
  let tmp := collectPrePost net false
  let flat := flattenPrePost net tmp
  { _net := net,
    _places := flat.1,
    _transitions := flat.2,
    _inhibpost := tmp.inhibpost,
    _netContainsInhibitorArcs := checkForInhibitor net,
    _dependency := (List.range net._ntransitions).map (dependencyOf net flat.1),
    _queries := queries }

/-- `reset`: both flag arrays are cleared.  (`SuccessorGenerator::reset` only
rewinds the counters of the unreduced generator, which this class never
reads.) -/
def reset (G : ReducingSuccessorGenerator) (s : GenState) : GenState :=
  { s with _enabled := List.replicate G._net._ntransitions false,
           _stubborn := List.replicate G._net._ntransitions false }

/-- The scratch state right after construction (and after `next` has returned
false): `_current = 0`, both flag arrays cleared, both queues empty.
`_places_seen` is allocated but not initialised by the constructor; it is given
as `seen`. -/
def GenState.init (G : ReducingSuccessorGenerator) (seen : List Nat) : GenState :=
  { _enabled := List.replicate G._net._ntransitions false,
    _stubborn := List.replicate G._net._ntransitions false,
    _places_seen := seen, _ordering := [], _unprocessed := [],
    _parent := [], _current := 0, queryCalls := 0 }

/-! ### Enabledness and firing (`SuccessorGenerator`, base class) -/

/-- Modelled from the spec: `SuccessorGenerator::checkPreset` is not among the
sources.  The spec: a transition is enabled when its "pre-conditions (and
inhibitor conditions) hold against the current marking"; "inhibitor arcs invert
the enabling condition (transition enabled only if marking at that place is
*below* the threshold)", "marking < threshold enables semantics strictly". -/
def checkPreset (net : PetriNet) (m : Marking) (t : Nat) : Bool :=
  (net.inputArcs t).all fun finv =>
    let inv := net.inv finv
    if inv.inhibitor then decide (mark m inv.place < inv.tokens)
    else decide (inv.tokens ≤ mark m inv.place)

/-- Modelled from the spec: `SuccessorGenerator::consumePreset` is not among the
sources.  The spec: `next` "consumes its pre-set"; inhibitor arcs only guard.
`MarkVal` is a 32-bit unsigned integer, so the subtraction wraps. -/
def consumePreset (net : PetriNet) (write : Marking) (t : Nat) : Marking :=
  (net.inputArcs t).foldl (fun w finv =>
    let inv := net.inv finv
    if inv.inhibitor then w
    else w.set inv.place ((mark w inv.place + 4294967296 - inv.tokens % 4294967296) % 4294967296))
    write

/-- Modelled from the spec: `SuccessorGenerator::producePostset` is not among
the sources.  The spec: `next` "produces its post-set". -/
def producePostset (net : PetriNet) (write : Marking) (t : Nat) : Marking :=
  (net.outputArcs t).foldl (fun w finv =>
    let inv := net.inv finv
    w.set inv.place ((mark w inv.place + inv.tokens) % 4294967296))
    write

/-- Inner loop body of `constructEnabled`. -/
def enableIfPreset (G : ReducingSuccessorGenerator) (s : GenState) (t : Nat) : GenState :=
  if !checkPreset G._net s._parent t then s
  else { s with _enabled := s._enabled.set t true, _ordering := s._ordering ++ [t] }

/-- The transitions filed under place `p` in `_placeToPtrs`: the values of `t`
in `for (t = _placeToPtrs[p]; t != _placeToPtrs[p+1]; ++t)`.  The source tests
`!=`; on a monotone table, the only kind the theorems consider, this is the
range below. -/
def PetriNet.filedUnder (net : PetriNet) (p : Nat) : List Nat :=
  List.range' (net.ptr p) (net.ptr (p + 1) - net.ptr p)

/-- Outer loop body of `constructEnabled` for place `p`. -/
def constructEnabledAt (G : ReducingSuccessorGenerator) (s : GenState) (p : Nat) : GenState :=
  if p == 0 || decide (mark s._parent p > 0) then
    (G._net.filedUnder p).foldl (enableIfPreset G) s
  else s

/-- `constructEnabled`. -/
def constructEnabled (G : ReducingSuccessorGenerator) (s : GenState) : GenState :=
  (List.range G._net._nplaces).foldl (constructEnabledAt G) s

/-! ### The registration primitives -/

/-- `addToStub`. -/
def addToStub (s : GenState) (t : Nat) : GenState :=
  if !s.stub t then
    { s with _stubborn := s._stubborn.set t true, _unprocessed := s._unprocessed ++ [t] }
  else s

/-- `presetOf`. -/
def presetOf (G : ReducingSuccessorGenerator) (s : GenState) (place : Nat) : GenState :=
  if s.seen place &&& 1 != 0 then s
  else
    (G.preRange place).foldl (fun s t => addToStub s (G.tab t))
      { s with _places_seen := s._places_seen.set place (s.seen place ||| 1) }

/-- `postsetOf`. -/
def postsetOf (G : ReducingSuccessorGenerator) (s : GenState) (place : Nat) : GenState :=
  if s.seen place &&& 2 != 0 then s
  else
    (G.postRange place).foldl (fun s t => addToStub s (G.tab t))
      { s with _places_seen := s._places_seen.set place (s.seen place ||| 2) }

/-- `inhibitorPostsetOf`. -/
def inhibitorPostsetOf (G : ReducingSuccessorGenerator) (s : GenState) (place : Nat) : GenState :=
  if s.seen place &&& 4 != 0 then s
  else
    (G._inhibpost.getD place []).foldl addToStub
      { s with _places_seen := s._places_seen.set place (s.seen place ||| 4) }

/-- One call a query makes from `findInteresting`. -/
def runStubCall (G : ReducingSuccessorGenerator) (s : GenState) : StubCall → GenState
  | .addToStub t => addToStub s t
  | .presetOf p => presetOf G s p
  | .postsetOf p => postsetOf G s p
  | .inhibitorPostsetOf p => inhibitorPostsetOf G s p

/-- Body of `for (auto &q : _queries)` in `prepare`: `evalAndSet` on the parent
marking, then `findInteresting`. -/
def seedQuery (G : ReducingSuccessorGenerator) (s : GenState) (q : Condition) : GenState :=
  (q.findInteresting s._parent).foldl (runStubCall G) { s with queryCalls := s.queryCalls + 1 }

/-! ### The closure loop of `prepare` -/

/-- The `if(_enabled[tr])` branch of the closure loop.  After the first loop
`finv` equals `outputs` (or `inputs` if that is larger); the inhibitor test and
every call of the second loop read the arc at that fixed index. -/
def processEnabled (G : ReducingSuccessorGenerator) (s : GenState) (tr : Nat) : GenState :=
  let finv := (G._net.tr tr).inputs
  let linv := (G._net.tr tr).outputs
  let s1 := (G._net.inputArcs tr).foldl (fun s i =>
    if (G._net.inv i).direction > 0 then postsetOf G s (G._net.inv i).place else s) s
  let finv1 := max finv linv
  if G._netContainsInhibitorArcs && decide ((G._net.inv finv1).direction < 0) then
    (G._net.outputArcs tr).foldl (fun s _ => inhibitorPostsetOf G s (G._net.inv finv1).place) s1
  else s1

/-- Local variables `ok`, `inhib`, `cand` of the disabled branch. -/
structure Cause where
  ok : Bool
  inhib : Bool
  cand : Nat
deriving DecidableEq, Repr

/-- The search loop of the disabled branch over the remaining arc indices, with
its `break` on `ok`. -/
def findCause (G : ReducingSuccessorGenerator) (s : GenState) : List Nat → Cause → Cause
  | [], c => c
  | finv :: rest, c =>
    let inv := G._net.inv finv
    let c1 : Cause :=
      if decide (mark s._parent inv.place < inv.tokens) && !inv.inhibitor then
        { cand := inv.place, inhib := false,
          ok := (s.seen inv.place &&& 1 != 0) || decide (inv.direction > 0) }
      else if decide (mark s._parent inv.place ≥ inv.tokens) && inv.inhibitor then
        { cand := inv.place, inhib := true,
          ok := (s.seen inv.place &&& 2 != 0) || decide (inv.direction < 0) }
      else c
    if c1.ok then c1 else findCause G s rest c1

/-- The `else` branch of the closure loop (transition not flagged enabled). -/
def processDisabled (G : ReducingSuccessorGenerator) (s : GenState) (tr : Nat) : GenState :=
  let c := findCause G s (G._net.inputArcs tr) { ok := false, inhib := false, cand := 0 }
  if !c.ok then
    if !c.inhib then presetOf G s c.cand else postsetOf G s c.cand
  else s

/-- Body of the closure loop for the popped transition `tr`. -/
def processTransition (G : ReducingSuccessorGenerator) (s : GenState) (tr : Nat) : GenState :=
  if s.en tr then processEnabled G s tr else processDisabled G s tr

/-- `while (!_unprocessed.empty())` with at most `fuel` iterations. -/
def closure (G : ReducingSuccessorGenerator) : Nat → GenState → GenState
  | 0, s => s
  | fuel + 1, s =>
    match s._unprocessed with
    | [] => s
    | tr :: rest => closure G fuel (processTransition G { s with _unprocessed := rest } tr)

/-- `prepare`; `fuel` bounds the iterations of the closure loop. -/
def prepare (G : ReducingSuccessorGenerator) (fuel : Nat) (s : GenState) (state : Marking) :
    GenState :=
  let s1 := constructEnabled G
    { s with _parent := state, _places_seen := List.replicate G._net._nplaces 0 }
  if s1._ordering.length == 0 then s1
  else if s1._ordering.length == 1 then
    { s1 with _stubborn := s1._stubborn.set (s1._ordering.headD 0) true }
  else
    closure G fuel (G._queries.foldl (seedQuery G) s1)

/-! ### `next` -/

/-- `memcpy(write.marking(), parent.marking(), nplaces * sizeof(MarkVal))`: the
first `nplaces` cells of the buffer are overwritten. -/
def copyMarking (n : Nat) (write parent : Marking) : Marking :=
  (List.range n).map (mark parent) ++ write.drop n

/-- Result of `next`: the returned flag, the scratch state and the buffer. -/
structure NextResult where
  ret : Bool
  state : GenState
  write : Marking
deriving DecidableEq, Repr

/-- The loop of `next` over the remaining discovery order. -/
def nextLoop (G : ReducingSuccessorGenerator) (write : Marking) : List Nat → GenState → NextResult
  | [], s => { ret := false, state := reset G { s with _ordering := [] }, write := write }
  | t :: rest, s =>
    let s1 := { s with _current := t, _ordering := rest }
    if s1.stub t then
      { ret := true, state := s1,
        write := producePostset G._net (consumePreset G._net
          (copyMarking G._net._nplaces write s1._parent) t) t }
    else nextLoop G write rest s1

/-- `next`. -/
def next (G : ReducingSuccessorGenerator) (s : GenState) (write : Marking) : NextResult :=
  nextLoop G write s._ordering s

/-! ### `leastDependentEnabled` -/

/-- Read `_dependency[t]`. -/
def ReducingSuccessorGenerator.dep (G : ReducingSuccessorGenerator) (t : Nat) : Nat :=
  G._dependency.getD t 0

/-- Locals `tLeast` and `foundLeast` of `leastDependentEnabled`. -/
structure Least where
  tLeast : Nat
  foundLeast : Bool
deriving DecidableEq, Repr

/-- Body of the loop of `leastDependentEnabled` for transition `t`. -/
def leastStep (G : ReducingSuccessorGenerator) (s : GenState) (acc : Least) (t : Nat) : Least :=
  if s.en t then
    if !acc.foundLeast then { tLeast := t, foundLeast := true }
    else if G.dep t < G.dep acc.tLeast then { acc with tLeast := t }
    else acc
  else acc

/-- Result of `leastDependentEnabled`: the returned id and the scratch state,
to which the body assigns nothing. -/
structure LeastResult where
  ret : Nat
  state : GenState
deriving DecidableEq, Repr

/-- `leastDependentEnabled`; `tLeast` starts as `uint32_t(-1)`. -/
def leastDependentEnabled (G : ReducingSuccessorGenerator) (s : GenState) : LeastResult :=
  { ret := ((List.range G._net._ntransitions).foldl (leastStep G s)
      { tLeast := 4294967295, foundLeast := false }).tLeast,
    state := s }

/-! ## The search around the generator -/

/-- Modelled from the spec: `SuccessorGenerator` (the unreduced baseline) is not
among the sources.  The spec (4.1): "given a marking, enumerates *all* enabled
transitions and produces successor markings one at a time", "in a single
structural order - no filtering". -/
def allSuccessors (net : PetriNet) (m : Marking) : List Marking :=
  ((List.range net._ntransitions).filter (checkPreset net m)).map fun t =>
    producePostset net (consumePreset net m t) t

/-- Draining `next` (at most `k` calls) into a fresh buffer each time: the
successor markings the generator emits. -/
def drain (G : ReducingSuccessorGenerator) : Nat → GenState → List Marking
  | 0, _ => []
  | k + 1, s =>
    if (next G s (List.replicate G._net._nplaces 0)).ret then
      (next G s (List.replicate G._net._nplaces 0)).write ::
        drain G k (next G s (List.replicate G._net._nplaces 0)).state
    else []

/-- Modelled from the spec: the expansion step of the search driver (`tryReach`
is not among the sources).  The spec (4.4, step 3): "bind the (reducing)
successor generator to this marking and drain it via `next`".  The generator is
in its reset state at each `prepare`, the closure loop runs to its end. -/
def reducedSuccessors (G : ReducingSuccessorGenerator) (m : Marking) : List Marking :=
  drain G ((prepare G G._net._ntransitions (GenState.init G []) m)._ordering.length + 1)
    (prepare G G._net._ntransitions (GenState.init G []) m)

/-- Modelled from the spec: the markings the search driver explores from `m0`
with the successor function `succ` (spec 4.4: pop a marking, expand it, enqueue
every new successor, until the frontier is empty). -/
inductive Reach (succ : Marking → List Marking) (m0 : Marking) : Marking → Prop where
  | start : Reach succ m0 m0
  | step (m m1 : Marking) : Reach succ m0 m → m1 ∈ succ m → Reach succ m0 m1

/-! ## The result printer (`ResultPrinter.cpp`, `options.h`) -/

/-- Modelled from the spec: `ResultPrinter::Result` is declared in a header that
is not among the sources.  The spec (section 3): "Query verdict: one of
{Unknown, Satisfied, NotSatisfied}". -/
inductive Result where
  | Unknown
  | Satisfied
  | NotSatisfied
deriving DecidableEq, Repr

/-- Modelled from the spec: the enumeration `Strategy` is declared in
`ReachabilitySearch.h`, which is not among the sources.  The spec (section 6):
"an enumerated choice among depth-first, breadth-first, heuristic"; the code
names the three values `DFS`, `BFS` and `HEUR`.  `other v` is any further value
of the underlying integer type, the ones the `default:` label of the switch in
`reachable` receives. -/
inductive Strategy where
  | DFS
  | BFS
  | HEUR
  | other (v : Nat)
deriving DecidableEq, Repr

/-- The record `options_t` of `options.h`, with the defaults given there. -/
structure options_t where
  kbound : Int := 0
  modelfile : Option String := none
  queryfile : Option String := none
  disableoverapprox : Bool := false
  enablereduction : Int := 0
  statespaceexploration : Bool := false
  printstatistics : Bool := true
  memorylimit : Nat := 2048
  querynumbers : List Nat := []
  strategy : Strategy := Strategy.HEUR
deriving DecidableEq, Repr

/-- The members `printResult` reads: `options`, `querynames` and, through
`builder->getPlaceNames()`, the map from place names to place ids (an
association list here). -/
structure ResultPrinter where
  options : options_t
  querynames : List String
  placeNames : List (String × Nat)
deriving DecidableEq, Repr

/-- The technique tag printed after the verdict: `STRUCTURAL_REDUCTION` if
`options->enablereduction > 0`, nothing otherwise. -/
def ResultPrinter.reductionTag (P : ResultPrinter) : String :=
  if P.options.enablereduction > 0 then "STRUCTURAL_REDUCTION" else ""

/-- The loop `for(auto& p : query->placeNameForBound()) bound += getPlaceNames().at(p)`
on a `size_t` accumulator; `at` throws on a name that is not in the map
(`none`). -/
def sumBound (P : ResultPrinter) : List String → Nat → Option Nat
  | [], bound => some bound
  | p :: rest, bound =>
    match P.placeNames.lookup p with
    | none => none
    | some id => sumBound P rest ((bound + id) % 18446744073709551616)

/-- The loop `placeBound = std::max<uint32_t>(placeBound, maxPlaceBound[p])`. -/
def maxBound (maxPlaceBound : List Nat) : Nat :=
  maxPlaceBound.foldl (fun placeBound b => max placeBound b) 0

/-- The four-line statistics block of `printResult`, with the blank line the
trailing `std::endl` leaves. -/
def stateSpaceBlock (exploredStates : Nat) (maxTokens : Int) (maxPlaceBound : List Nat) :
    String :=
  "STATE_SPACE STATES " ++ toString exploredStates ++ " TECHNIQUES EXPLICIT\n" ++
  "STATE_SPACE TRANSITIONS " ++ "-1" ++ " TECHNIQUES EXPLICIT\n" ++
  "STATE_SPACE MAX_TOKEN_PER_MARKING " ++ toString maxTokens ++ " TECHNIQUES EXPLICIT\n" ++
  "STATE_SPACE MAX_TOKEN_IN_PLACE " ++ toString (maxBound maxPlaceBound) ++
    " TECHNIQUES EXPLICIT\n" ++ "\n"

/-- The part of `printResult` under the comment `//Print result`: what is
printed for the final verdict `retval` of the query named `name`, before the
closing `std::endl`.  `none` when `at` throws. -/
def printVerdict (P : ResultPrinter) (query : Condition) (name : String) (retval : Result) :
    Option String :=
  match retval with
  | Result.Unknown => some ("\nUnable to decide if " ++ name ++ " is satisfied.")
  | Result.Satisfied =>
    if !P.options.statespaceexploration then
      some ("TRUE TECHNIQUES EXPLICIT " ++ P.reductionTag ++ "\n")
    else some ""
  | Result.NotSatisfied =>
    if !query.placeNameForBound.isEmpty then
      match sumBound P query.placeNameForBound 0 with
      | none => none
      | some bound => some (toString bound ++ " TECHNIQUES EXPLICIT " ++ P.reductionTag)
    else if !P.options.statespaceexploration then
      some ("FALSE TECHNIQUES EXPLICIT " ++ P.reductionTag)
    else some ""

/-- `ResultPrinter::printResult`: the verdict returned and the text written to
the output stream.  `none` stands for the two ways the C++ leaves the function
without a value: `querynames[index]` read past the end of the vector, and `at`
throwing on an unknown place name. -/
def printResult (P : ResultPrinter) (index : Nat) (query : Condition) (result : Result)
    (expandedStates exploredStates discoveredStates : Nat)
    (enabledTransitionsCount : List Nat) (maxTokens : Int) (maxPlaceBound : List Nat) :
    Option (Result × String) :=
  if result = Result.Unknown then some (Result.Unknown, "")
  else if !P.options.statespaceexploration && result != Result.Unknown then
    match P.querynames[index]? with
    | none => none
    | some name =>
      let retval :=
        if result = Result.Satisfied then
          (if query.isInvariant then Result.NotSatisfied else Result.Satisfied)
        else if result = Result.NotSatisfied then
          (if query.isInvariant then Result.Satisfied else Result.NotSatisfied)
        else result
      match printVerdict P query name retval with
      | none => none
      | some line => some (retval, "\n" ++ "FORMULA " ++ name ++ " " ++ line ++ "\n")
  else
    some (Result.Satisfied, "\n" ++ stateSpaceBlock exploredStates maxTokens maxPlaceBound)

/-! ## The search driver (`ReachabilitySearch.cpp`) -/

/-- Modelled from the spec: `StateSet` is not among the sources.  The spec
(section 1): "the deduplicated state store (insert/lookup of markings,
bound/token statistics)"; these are the three statistics `printQuery` reads. -/
structure StateSet where
  discovered : Nat
  maxTokens : Int
  maxPlaceBound : List Nat
deriving DecidableEq, Repr

/-- Modelled from the spec: `searchstate_t` is declared in
`ReachabilitySearch.h`, which is not among the sources; these are the fields
`ReachabilitySearch.cpp` reads and writes (spec 4.4: "statistics" of the driver,
the heuristic query index, and the query-driven mode flag). -/
structure searchstate_t where
  expandedStates : Nat
  exploredStates : Nat
  enabledTransitionsCount : List Nat
  heurquery : Nat
  usequeries : Bool
deriving DecidableEq, Repr

/-- The members of `ReachabilitySearch` its functions read. -/
structure ReachabilitySearch where
  _net : PetriNet
  states : StateSet
  printer : ResultPrinter

/-- `ReachabilitySearch::printQuery`. -/
def printQuery (R : ReachabilitySearch) (query : Condition) (i : Nat) (r : Result)
    (ss : searchstate_t) : Option (Result × String) :=
  printResult R.printer i query r ss.expandedStates ss.exploredStates R.states.discovered
    ss.enabledTransitionsCount R.states.maxTokens R.states.maxPlaceBound

/-- What `checkQueries` leaves behind: the value it returns (the local
`alldone` while the loop runs), the vector `results`, the search state `ss`,
and two observations: the indices of the queries whose `evaluate` was called,
in order, and the text written to the output stream. -/
structure Checked where
  ret : Bool
  results : List Result
  ss : searchstate_t
  evaluated : List Nat
  out : String
deriving DecidableEq, Repr

/-- One iteration of the loop of `checkQueries`, for index `i` and `queries[i]`.
`none` when `results[i]` is read past the end of the vector or `printQuery`
does not return. -/
def checkQuery (R : ReachabilitySearch) (state : Marking) (c : Checked) (i : Nat)
    (query : Condition) : Option Checked :=
  match c.results[i]? with
  | none => none
  | some r =>
    let settled : Option Checked :=
      if r = Result.Unknown then
        if query.evaluate state then
          match printQuery R query i Result.Satisfied c.ss with
          | none => none
          | some (r1, text) =>
            some { c with results := c.results.set i r1, evaluated := c.evaluated ++ [i],
                          out := c.out ++ text }
        else some { c with ret := false, evaluated := c.evaluated ++ [i] }
      else some c
    match settled with
    | none => none
    | some c1 =>
      if i = c1.ss.heurquery ∧ c1.results[i]? ≠ some Result.Unknown then
        some { c1 with ss := { c1.ss with heurquery := c1.ss.heurquery + 1 } }
      else some c1

/-- The loop of `checkQueries` from index `i` on, over the queries left. -/
def checkLoop (R : ReachabilitySearch) (state : Marking) :
    List Condition → Nat → Checked → Option Checked
  | [], _, c => some c
  | query :: rest, i, c =>
    match checkQuery R state c i query with
    | none => none
    | some c1 => checkLoop R state rest (i + 1) c1

/-- `ReachabilitySearch::checkQueries`. -/
def checkQueries (R : ReachabilitySearch) (queries : List Condition) (results : List Result)
    (state : Marking) (ss : searchstate_t) : Option Checked :=
  if !ss.usequeries then
    some { ret := false, results := results, ss := ss, evaluated := [], out := "" }
  else
    checkLoop R state queries 0
      { ret := true, results := results, ss := ss, evaluated := [], out := "" }

/-- The three frontier types `reachable` instantiates `tryReach` with. -/
inductive Frontier where
  | DFSQueue
  | BFSQueue
  | HeuristicQueue
deriving DecidableEq, Repr

/-- One call of `tryReach`: the frontier type it is instantiated with and the
two flags passed on. -/
structure SearchRun where
  frontier : Frontier
  usequeries : Bool
  printstats : Bool
deriving DecidableEq, Repr

/-- What `reachable` leaves behind: the call of `tryReach` it made, if any, the
vector `results`, and the text it wrote itself. -/
structure Reached where
  run : Option SearchRun
  results : List Result
  out : String
deriving DecidableEq, Repr

/-- The loop of `reachable` that clears `usequeries` when a query whose result
is `Unknown` names a bound place.  `none` when `results[i]` is read past the
end of the vector. -/
def boundLoop (results : List Result) : List Condition → Nat → Bool → Option Bool
  | [], _, usequeries => some usequeries
  | query :: rest, i, usequeries =>
    match results[i]? with
    | none => none
    | some r =>
      boundLoop results rest (i + 1)
        (if r = Result.Unknown then usequeries && query.placeNameForBound.isEmpty
         else usequeries)

/-- `ReachabilitySearch::reachable`.  The template `tryReach` is declared in the
header, which is not among the sources: it is a parameter here, the function
from the frontier type and the arguments of the call to the vector `results`
it leaves. -/
def reachable (tryReach : Frontier → List Condition → List Result → Bool → Bool → List Result)
    (queries : List Condition) (results : List Result) (strategy : Strategy)
    (statespacesearch printstats : Bool) : Option Reached :=
  match (if !statespacesearch then boundLoop results queries 0 (!statespacesearch)
         else some (!statespacesearch)) with
  | none => none
  | some usequeries =>
    match (if !usequeries then Strategy.BFS else strategy) with
    | Strategy.DFS =>
      some { run := some ⟨Frontier.DFSQueue, usequeries, printstats⟩,
             results := tryReach Frontier.DFSQueue queries results usequeries printstats,
             out := "" }
    | Strategy.BFS =>
      some { run := some ⟨Frontier.BFSQueue, usequeries, printstats⟩,
             results := tryReach Frontier.BFSQueue queries results usequeries printstats,
             out := "" }
    | Strategy.HEUR =>
      some { run := some ⟨Frontier.HeuristicQueue, usequeries, printstats⟩,
             results := tryReach Frontier.HeuristicQueue queries results usequeries printstats,
             out := "" }
    | Strategy.other _ =>
      some { run := none, results := results, out := "UNSUPPORTED SEARCH STRATEGY\n" }

/-! ## Colours (`Colors.cpp`) -/

/-- A colour with the members its two constructors set: `_tuple`, `_colorType`,
`_colorName` and `_id`.  `_colorType` is a pointer: `none` stands for `nullptr`
(the dot constant), `some a` for the colour type at address `a`.  A
`std::string` is kept as a `String` with one character per `char` (byte) of
the C++ string, a name outside ASCII being the sequence of its bytes: `length`
is `size()`, and positions and counts are those of the C++ string. -/
inductive Color where
  | mk (_tuple : List Color) (_colorType : Option Nat) (_colorName : String) (_id : Nat)
deriving Repr, Inhabited

/-- Member `_tuple`. -/
def Color._tuple : Color → List Color
  | .mk t _ _ _ => t

/-- Member `_colorType`, which `getColorType()` returns. -/
def Color._colorType : Color → Option Nat
  | .mk _ ty _ _ => ty

/-- Member `_colorName`. -/
def Color._colorName : Color → String
  | .mk _ _ n _ => n

/-- Member `_id`, which `getId()` returns. -/
def Color._id : Color → Nat
  | .mk _ _ _ i => i

/-- What a caller reaches through a `ColorType*`.  `Colors.h`, which declares
the class and its virtual members, is not among the sources: `size()`,
`operator[](size_t)` and `operator[](const std::string&)` are taken as they
come (`none` from `atIndex` is an index outside the type, `none` from `atName`
is `nullptr`); `addr` is the address, which pointer comparison and
`operator==` of two colour types look at. -/
structure ColorTypeRef where
  addr : Nat
  size : Nat
  atIndex : Nat → Option Color
  atName : String → Option Color

/-- `Color::operator<`. -/
def Color.lt (a b : Color) : Except String Bool :=
  if a._colorType ≠ b._colorType then Except.error "Cannot compare colors from different types"
  else Except.ok (decide (a._id < b._id))

/-- `Color::operator>`. -/
def Color.gt (a b : Color) : Except String Bool :=
  if a._colorType ≠ b._colorType then Except.error "Cannot compare colors from different types"
  else Except.ok (decide (a._id > b._id))

/-- `Color::operator<=`. -/
def Color.le (a b : Color) : Except String Bool :=
  if a._colorType ≠ b._colorType then Except.error "Cannot compare colors from different types"
  else Except.ok (decide (a._id ≤ b._id))

/-- `Color::operator>=`. -/
def Color.ge (a b : Color) : Except String Bool :=
  if a._colorType ≠ b._colorType then Except.error "Cannot compare colors from different types"
  else Except.ok (decide (a._id ≥ b._id))

/-- `Color::operator++`.  `types` dereferences a colour-type pointer; `none` is
a dereference of `nullptr` or an index outside the type.  `size() - 1` is
computed in `size_t`, `_id + 1` in `uint32_t`. -/
def Color.increment (types : Nat → Option ColorTypeRef) (c : Color) : Option Color :=
  match c._colorType with
  | none => none
  | some a =>
    match types a with
    | none => none
    | some ct =>
      if c._id ≥ (ct.size + 18446744073709551615) % 18446744073709551616 then ct.atIndex 0
      else ct.atIndex ((c._id + 1) % 4294967296)

/-- `Color::operator--`. -/
def Color.decrement (types : Nat → Option ColorTypeRef) (c : Color) : Option Color :=
  match c._colorType with
  | none => none
  | some a =>
    match types a with
    | none => none
    | some ct =>
      if c._id ≤ 0 then ct.atIndex ((ct.size + 18446744073709551615) % 18446744073709551616)
      else ct.atIndex (c._id - 1)

mutual
/-- `Color::toString(const Color*)`.  `isTuple()` is declared in `Colors.h`,
which is not among the sources: it is the parameter `isTuple`. -/
def Color.toString (isTuple : Color → Bool) : Color → String
  | .mk t ty n i =>
    if isTuple (.mk t ty n i) then "(" ++ Color.toStringTuple isTuple t ++ ")" else n
/-- The loop of `Color::toString` over `_tuple`: the elements, with a comma
after each but the last. -/
def Color.toStringTuple (isTuple : Color → Bool) : List Color → String
  | [] => ""
  | [c] => Color.toString isTuple c
  | c :: d :: cs => Color.toString isTuple c ++ "," ++ Color.toStringTuple isTuple (d :: cs)
end

/-- A colour type that is not a product: its address and the vector `_colors`. -/
structure ColorType where
  addr : Nat
  _colors : List Color

/-- `ColorType::addColor(const char*)`: the new colour gets the current size of
`_colors` as its id (a `uint32_t`). -/
def ColorType.addColor (ct : ColorType) (colorName : String) : ColorType :=
  { ct with _colors := ct._colors ++
      [Color.mk [] (some ct.addr) colorName (ct._colors.length % 4294967296)] }

/-- `ColorType::operator[](const char*)`: the first colour of `_colors` whose
`toString()` is `index`, `nullptr` (`none`) if there is none.  (`operator[](i)`
inside the loop is the `i`-th element of `_colors`.) -/
def ColorType.atName (isTuple : Color → Bool) (ct : ColorType) (index : String) :
    Option Color :=
  ct._colors.find? fun c => c.toString isTuple == index

/-- The function `split` of `Colors.cpp` on the characters left, `item` being
the characters read since the last delimiter: `std::getline` gives one item per
delimiter met and one for the characters before the end of the input, if there
are any. -/
def splitItems (delim : Char) : List Char → List Char → List String
  | [], item => if item.isEmpty then [] else [String.mk item]
  | c :: cs, item =>
    if c = delim then String.mk item :: splitItems delim cs []
    else splitItems delim cs (item ++ [c])

/-- The function `split(const std::string&, char)` of `Colors.cpp`. -/
def splitString (s : String) (delim : Char) : List String :=
  splitItems delim s.data []

/-- Outcome of a call that can also throw or run into undefined behaviour. -/
inductive Outcome (α : Type) where
  | ok (a : α)
  | thrown (what : String)
  | undefined

/-- `std::string::substr(pos, count)`: throws `std::out_of_range` when `pos`
is behind the end of the string.  `pos`, `count` and the length count `char`s:
the string holds one character per byte of the C++ string. -/
def substr (s : String) (pos count : Nat) : Outcome String :=
  if pos > s.length then Outcome.thrown "std::out_of_range"
  else Outcome.ok (String.mk ((s.data.drop pos).take count))

/-- A product colour type: its address, the vector `constituents` and the
`cache` of the colours built so far. -/
structure ProductType where
  addr : Nat
  constituents : List ColorTypeRef
  cache : List (Nat × Color)

/-- The loop of `ProductType::operator[](size_t)`: the colour
`(index / div) % mod` of each constituent, `div` being multiplied by `mod` (in
`size_t`) on the way.  `none` for a division by zero or an index outside a
constituent. -/
def ProductType.components : List ColorTypeRef → Nat → Nat → Option (List Color)
  | [], _, _ => some []
  | constituent :: rest, index, div =>
    if div = 0 ∨ constituent.size = 0 then none
    else
      match constituent.atIndex ((index / div) % constituent.size) with
      | none => none
      | some c =>
        match ProductType.components rest index
            ((div * constituent.size) % 18446744073709551616) with
        | none => none
        | some colors => some (c :: colors)

/-- The colour `ProductType::operator[](size_t)` constructs on a cache miss:
`Color(this, index, colors)`, whose id parameter is a `uint32_t`. -/
def ProductType.build (pt : ProductType) (index : Nat) : Option Color :=
  match ProductType.components pt.constituents index 1 with
  | none => none
  | some colors => some (Color.mk colors (some pt.addr) "" (index % 4294967296))

/-- `ProductType::operator[](size_t)`: the colour and the product type with its
cache afterwards. -/
def ProductType.atIndex (pt : ProductType) (index : Nat) : Option (Color × ProductType) :=
  match pt.cache.lookup index with
  | some c => some (c, pt)
  | none =>
    match pt.build index with
    | none => none
    | some c => some (c, { pt with cache := pt.cache ++ [(index, c)] })

/-- The loop of `ProductType::getColor(const std::vector<const Color*>&)` from
constituent `i` on: `none` is undefined behaviour (a missing element of
`colors`, a colour without type), `some none` the early `return nullptr`,
`some (some sum)` the sum at the end. -/
def ProductType.colorSum : List ColorTypeRef → List Color → Nat → Nat → Option (Option Nat)
  | [], _, _, sum => some (some sum)
  | _ :: _, [], _, _ => none
  | constituent :: rest, c :: colors, product, sum =>
    match c._colorType with
    | none => none
    | some a =>
      if a ≠ constituent.addr then some none
      else ProductType.colorSum rest colors
        ((product * constituent.size) % 18446744073709551616)
        ((sum + product * c._id) % 18446744073709551616)

/-- `ProductType::getColor(const std::vector<const Color*>&)`; the inner `none`
is `nullptr`. -/
def ProductType.getColor (pt : ProductType) (colors : List Color) :
    Option (Option Color × ProductType) :=
  if pt.constituents.length ≠ colors.length then some (none, pt)
  else
    match ProductType.colorSum pt.constituents colors 1 0 with
    | none => none
    | some none => some (none, pt)
    | some (some sum) =>
      match pt.atIndex sum with
      | none => none
      | some (c, pt1) => some (some c, pt1)

/-- The loop of `ProductType::getColor(std::vector<uint32_t>)` from constituent
`i` on; `none` when `ids` is too short. -/
def ProductType.idSum : List ColorTypeRef → List Nat → Nat → Nat → Option Nat
  | [], _, _, sum => some sum
  | _ :: _, [], _, _ => none
  | constituent :: rest, id :: ids, product, sum =>
    ProductType.idSum rest ids ((product * constituent.size) % 18446744073709551616)
      ((sum + product * id) % 18446744073709551616)

/-- `ProductType::getColor(std::vector<uint32_t>)`. -/
def ProductType.getColorOfIds (pt : ProductType) (ids : List Nat) :
    Option (Color × ProductType) :=
  match ProductType.idSum pt.constituents ids 1 0 with
  | none => none
  | some sum => pt.atIndex sum

/-- The loop of `ProductType::operator[](const std::string&)`: `none` when
a constituent has no colour of that name (`nullptr` is dereferenced). -/
def ProductType.nameSum : List ColorTypeRef → List String → Nat → Nat → Option Nat
  | constituent :: rest, part :: parts, mult, sum =>
    match constituent.atName part with
    | none => none
    | some c =>
      ProductType.nameSum rest parts ((mult * constituent.size) % 18446744073709551616)
        ((sum + mult * c._id) % 18446744073709551616)
  | _, _, _, sum => some sum

/-- `ProductType::operator[](const std::string&)`; `index.size() - 2` is
computed in `size_t`, `index.length` being the number of `char`s (the string
holds one character per byte of the C++ string).  The inner `none` is
`nullptr`. -/
def ProductType.atName (pt : ProductType) (index : String) :
    Outcome (Option Color × ProductType) :=
  match substr index 1 ((index.length + 18446744073709551614) % 18446744073709551616) with
  | Outcome.thrown what => Outcome.thrown what
  | Outcome.undefined => Outcome.undefined
  | Outcome.ok str =>
    if (splitString str ',').length ≠ pt.constituents.length then Outcome.ok (none, pt)
    else
      match ProductType.nameSum pt.constituents (splitString str ',') 1 0 with
      | none => Outcome.undefined
      | some sum =>
        match pt.atIndex sum with
        | none => Outcome.undefined
        | some (c, pt1) => Outcome.ok (some c, pt1)

/-! ## Colour and arc expressions (`Expressions.h`) -/

/-- The colour expressions: `DotConstantExpression`, `VariableExpression` (the
variable by address), `UserOperatorExpression` (member `_userOperator`),
`SuccessorExpression` and `PredecessorExpression` (member `_color`),
`TupleExpression` (member `_colors`). -/
inductive ColorExpression where
  | dotConstant
  | variable (_variable : Nat)
  | userOperator (_userOperator : Color)
  | successor (_color : ColorExpression)
  | predecessor (_color : ColorExpression)
  | tuple (_colors : List ColorExpression)

/-- The assignment `constantMap[index] = color` on a `std::unordered_map`, kept
as a list of entries with distinct keys. -/
def assignConstant (constantMap : List (Nat × Color)) (index : Nat) (color : Color) :
    List (Nat × Color) :=
  if constantMap.any (fun p => p.1 == index) then
    constantMap.map fun p => if p.1 == index then (index, color) else p
  else constantMap ++ [(index, color)]

/-- The loop `for (auto& constIndexPair : constantMap) constIndexPair.second =
&constIndexPair.second->operator++()` (or `operator--`), `f` being the
operator; `none` when the operator runs into undefined behaviour. -/
def overConstants (f : Color → Option Color) : List (Nat × Color) → Option (List (Nat × Color))
  | [] => some []
  | (k, c) :: rest =>
    match f c with
    | none => none
    | some d =>
      match overConstants f rest with
      | none => none
      | some r => some ((k, d) :: r)

mutual
/-- The method `getConstants(constantMap, index)` of the colour expressions:
the map and the index afterwards.  `dotColor` is the colour
`*ColorType::dotInstance()->begin()`, declared outside the sources. -/
def ColorExpression.getConstants (types : Nat → Option ColorTypeRef) (dotColor : Color) :
    ColorExpression → List (Nat × Color) → Nat → Option (List (Nat × Color) × Nat)
  | .dotConstant, constantMap, index => some (assignConstant constantMap index dotColor, index)
  | .variable _, constantMap, index => some (constantMap, index)
  | .userOperator c, constantMap, index => some (assignConstant constantMap index c, index)
  | .successor e, constantMap, index =>
    match ColorExpression.getConstants types dotColor e constantMap index with
    | none => none
    | some (m1, i1) =>
      match overConstants (fun c => c.increment types) m1 with
      | none => none
      | some m2 => some (m2, i1)
  | .predecessor e, constantMap, index =>
    match ColorExpression.getConstants types dotColor e constantMap index with
    | none => none
    | some (m1, i1) =>
      match overConstants (fun c => c.decrement types) m1 with
      | none => none
      | some m2 => some (m2, i1)
  | .tuple es, constantMap, index =>
    ColorExpression.getConstantsOfTuple types dotColor es constantMap index
/-- The loop of `TupleExpression::getConstants`: each element in turn, `index`
(a `uint32_t`) incremented after each. -/
def ColorExpression.getConstantsOfTuple (types : Nat → Option ColorTypeRef)
    (dotColor : Color) :
    List ColorExpression → List (Nat × Color) → Nat → Option (List (Nat × Color) × Nat)
  | [], constantMap, index => some (constantMap, index)
  | e :: es, constantMap, index =>
    match ColorExpression.getConstants types dotColor e constantMap index with
    | none => none
    | some (m1, i1) =>
      ColorExpression.getConstantsOfTuple types dotColor es m1 ((i1 + 1) % 4294967296)
end

/-- The value of `colorId` with which `UserOperatorExpression::getArcIntervals`
tests the intervals: `getId() + modifier` stored in a `uint32_t` (the loop
`while (colorId < 0)` is never entered, `colorId` being unsigned), then
`% size()`.  `none` for a colour without type or a type of size 0. -/
def userOperatorColorId (types : Nat → Option ColorTypeRef) (c : Color) (modifier : Int) :
    Option Nat :=
  match c._colorType with
  | none => none
  | some a =>
    match types a with
    | none => none
    | some ct =>
      if ct.size = 0 then none
      else some ((((c._id : Int) + modifier) % 4294967296).toNat % ct.size % 4294967296)

/-- The colour id that `getArcIntervals(arcIntervals, cfp, index, modifier)`
ends up testing the intervals with: a successor passes `modifier + 1` on to its
nested expression, a predecessor `modifier - 1`, a user operator tests
`colorId`.  Dot constants and variables test no colour id, a tuple one per
element (`none`); the intervals themselves (`ArcIntervals`, `ColorFixpoint`,
declared outside the sources) are left out, and so is the overflow of the
`int32_t` modifier. -/
def ColorExpression.testedColorId (types : Nat → Option ColorTypeRef) :
    ColorExpression → Int → Option Nat
  | .userOperator c, modifier => userOperatorColorId types c modifier
  | .successor e, modifier => ColorExpression.testedColorId types e (modifier + 1)
  | .predecessor e, modifier => ColorExpression.testedColorId types e (modifier - 1)
  | .dotConstant, _ => none
  | .variable _, _ => none
  | .tuple _, _ => none

/-- An `AllExpression`: its `_sort`. -/
structure AllExpression where
  _sort : ColorTypeRef

/-- `AllExpression::size`. -/
def AllExpression.size (a : AllExpression) : Nat := a._sort.size

/-- A `NumberOfExpression`: `_number`, `_color` and `_all` (`none` is
`nullptr`). -/
structure NumberOfExpression where
  _number : Nat
  _color : List ColorExpression
  _all : Option AllExpression

/-- `NumberOfExpression::weight`: the product is taken in `size_t` and returned
as `uint32_t`. -/
def NumberOfExpression.weight (e : NumberOfExpression) : Nat :=
  match e._all with
  | none => (e._number * e._color.length) % 18446744073709551616 % 4294967296
  | some a => (e._number * a.size) % 18446744073709551616 % 4294967296

/-- `NumberOfExpression::isAll`. -/
def NumberOfExpression.isAll (e : NumberOfExpression) : Bool := e._all.isSome

/-- `NumberOfExpression::isSingleColor`. -/
def NumberOfExpression.isSingleColor (e : NumberOfExpression) : Bool :=
  !e.isAll && e._color.length == 1

/-- `NumberOfExpression::number`. -/
def NumberOfExpression.number (e : NumberOfExpression) : Nat := e._number

/-- `NumberOfExpression::isEligibleForSymmetry`: the result and the vector
`numbers` afterwards. -/
def NumberOfExpression.isEligibleForSymmetry (e : NumberOfExpression) (numbers : List Nat) :
    Bool × List Nat :=
  if e._color.length > 1 then (false, numbers) else (true, numbers ++ [e._number])

/-- The arc expressions: `NumberOfExpression`, `AddExpression` (member
`_constituents`), `SubtractExpression` (`_left`, `_right`),
`ScalarProductExpression` (`_scalar`, `_expr`). -/
inductive ArcExpression where
  | numberOf (e : NumberOfExpression)
  | add (_constituents : List ArcExpression)
  | subtract (_left _right : ArcExpression)
  | scalarProduct (_scalar : Nat) (_expr : ArcExpression)

/-- `dynamic_cast<NumberOfExpression*>`; `none` is the null result. -/
def ArcExpression.asNumberOf : ArcExpression → Option NumberOfExpression
  | .numberOf e => some e
  | _ => none

mutual
/-- The method `weight()` of the arc expressions; an error is the
`WeightException` thrown, with its message.  All arithmetic is `uint32_t`. -/
def ArcExpression.weight : ArcExpression → Except String Nat
  | .numberOf e => Except.ok e.weight
  | .add es => ArcExpression.weightSum es 0
  | .subtract _left _right =>
    match _left.asNumberOf with
    | none => Except.error "Left constituent of subtract is not an all expression!"
    | some left =>
      if !left.isAll then
        Except.error "Left constituent of subtract is not an all expression!"
      else
        match _right.asNumberOf with
        | none =>
          Except.error "Right constituent of subtract is not a single color number of expression!"
        | some right =>
          if !right.isSingleColor then
            Except.error
              "Right constituent of subtract is not a single color number of expression!"
          else
            match ArcExpression.weight _left with
            | Except.error m => Except.error m
            | Except.ok w =>
              Except.ok ((w + 4294967296 - min left.number right.number) % 4294967296)
  | .scalarProduct _scalar _expr =>
    match ArcExpression.weight _expr with
    | Except.error m => Except.error m
    | Except.ok w => Except.ok ((_scalar * w) % 4294967296)
/-- The loop of `AddExpression::weight`, `res` being the sum so far. -/
def ArcExpression.weightSum : List ArcExpression → Nat → Except String Nat
  | [], res => Except.ok res
  | e :: es, res =>
    match ArcExpression.weight e with
    | Except.error m => Except.error m
    | Except.ok w => ArcExpression.weightSum es ((res + w) % 4294967296)
end

mutual
/-- The method `isEligibleForSymmetry(numbers)` of the arc expressions: the
result and the vector `numbers` afterwards.  Subtract and scalar-product
expressions do not override `Expression::isEligibleForSymmetry`, which returns
false. -/
def ArcExpression.isEligibleForSymmetry : ArcExpression → List Nat → Bool × List Nat
  | .numberOf e, numbers => e.isEligibleForSymmetry numbers
  | .add es, numbers =>
    match ArcExpression.eligibleConstituents es numbers with
    | (false, ns) => (false, ns)
    | (true, ns) =>
      if ns.length < 2 then (false, ns)
      else (ns.all fun number => decide (ns.getD 0 0 = number), ns)
  | .subtract _ _, numbers => (false, numbers)
  | .scalarProduct _ _, numbers => (false, numbers)
/-- The first loop of `AddExpression::isEligibleForSymmetry`: false at the
first constituent that is not eligible. -/
def ArcExpression.eligibleConstituents : List ArcExpression → List Nat → Bool × List Nat
  | [], numbers => (true, numbers)
  | e :: es, numbers =>
    match ArcExpression.isEligibleForSymmetry e numbers with
    | (false, ns) => (false, ns)
    | (true, ns) => ArcExpression.eligibleConstituents es ns
end

/-! ## Example nets -/

/-- Arc constructor for the examples. -/
def arc (place tokens : Nat) (inhibitor : Bool) (direction : Int) : Invariant :=
  { place := place, tokens := tokens, inhibitor := inhibitor, direction := direction }

/-- Five places, three transitions: `t0 : p0 -> p1`, `t1 : p1 -> p4`,
`t2 : p2 -> p3`; every input arc is a consumption point (direction 1). -/
def chainNet : PetriNet :=
  { _nplaces := 5, _ntransitions := 3,
    _invariants := [arc 0 1 false 1, arc 1 1 false (-1), arc 1 1 false 1, arc 4 1 false (-1),
                    arc 2 1 false 1, arc 3 1 false (-1)],
    _transitions := [⟨0, 1⟩, ⟨2, 3⟩, ⟨4, 5⟩, ⟨6, 6⟩],
    _placeToPtrs := [0, 1, 2, 3, 3, 3] }

/-- Query "p4 >= 1" on `chainNet`, seeding the producers of `p4`. -/
def goalQuery : Condition :=
  { evaluate := fun m => decide (1 ≤ mark m 4),
    findInteresting := fun _ => [StubCall.presetOf 4],
    isInvariant := false, placeNameForBound := [] }

/-- Query on `chainNet` seeding transition `t0` directly. -/
def seedT0Query : Condition :=
  { evaluate := fun m => decide (1 ≤ mark m 1),
    findInteresting := fun _ => [StubCall.addToStub 0],
    isInvariant := false, placeNameForBound := [] }

/-- Generator for `chainNet` with the single query `goalQuery`. -/
def chainGen : ReducingSuccessorGenerator :=
  ReducingSuccessorGenerator.construct chainNet [goalQuery]

/-- Generator for `chainNet` with the single query `seedT0Query`. -/
def chainGenT0 : ReducingSuccessorGenerator :=
  ReducingSuccessorGenerator.construct chainNet [seedT0Query]

/-- Three places, two transitions in conflict over `p0`: `t0 : p0 -> p1` and
`t1 : p0 -> p2`.  Consumption arcs have direction 1, production arcs
direction -1; both transitions are filed under `p0`. -/
def choiceNet : PetriNet :=
  { _nplaces := 3, _ntransitions := 2,
    _invariants := [arc 0 1 false 1, arc 1 1 false (-1), arc 0 1 false 1, arc 2 1 false (-1)],
    _transitions := [⟨0, 1⟩, ⟨2, 3⟩, ⟨4, 4⟩],
    _placeToPtrs := [0, 2, 2, 2] }

/-- Generator for `choiceNet` with the single query `seedT0Query`, which seeds
`t0` alone. -/
def choiceGen : ReducingSuccessorGenerator :=
  ReducingSuccessorGenerator.construct choiceNet [seedT0Query]

/-- Five places, two transitions, both guarded by an inhibitor arc on `p2`:
`t0 : p0 -> p1`, `t1 : p3 -> p4`.  Consumption arcs have direction 1,
production arcs direction -1, inhibitor arcs direction 0. -/
def inhibNet : PetriNet :=
  { _nplaces := 5, _ntransitions := 2,
    _invariants := [arc 0 1 false 1, arc 2 1 true 0, arc 1 1 false (-1),
                    arc 3 1 false 1, arc 2 1 true 0, arc 4 1 false (-1)],
    _transitions := [⟨0, 2⟩, ⟨3, 5⟩, ⟨6, 6⟩],
    _placeToPtrs := [0, 1, 1, 1, 2, 2] }

/-- Query "p1 >= 1" on `inhibNet`, seeding the producers of `p1`. -/
def inhibQuery : Condition :=
  { evaluate := fun m => decide (1 ≤ mark m 1),
    findInteresting := fun _ => [StubCall.presetOf 1],
    isInvariant := false, placeNameForBound := [] }

/-- Generator for `inhibNet` with the single query `inhibQuery`. -/
def inhibGen : ReducingSuccessorGenerator :=
  ReducingSuccessorGenerator.construct inhibNet [inhibQuery]

/-- Five places, two transitions: `t0 : p0 -> p2` and `t1 : p3 -> p4`, the
latter guarded by an inhibitor arc on `p2`, the place `t0` fills. -/
def fillNet : PetriNet :=
  { _nplaces := 5, _ntransitions := 2,
    _invariants := [arc 0 1 false 1, arc 2 1 false (-1),
                    arc 3 1 false 1, arc 2 1 true 0, arc 4 1 false (-1)],
    _transitions := [⟨0, 1⟩, ⟨2, 4⟩, ⟨5, 5⟩],
    _placeToPtrs := [0, 1, 1, 1, 2, 2] }

/-- Query "p2 >= 1" on `fillNet`, seeding the producers of `p2`. -/
def fillQuery : Condition :=
  { evaluate := fun m => decide (1 ≤ mark m 2),
    findInteresting := fun _ => [StubCall.presetOf 2],
    isInvariant := false, placeNameForBound := [] }

/-- Generator for `fillNet` with the single query `fillQuery`. -/
def fillGen : ReducingSuccessorGenerator :=
  ReducingSuccessorGenerator.construct fillNet [fillQuery]

/-- Five places, three transitions: `ta : p0 -> p3`, `tb : p0 + p1 -> p0 + p2`
(it hands the token of `p0` back), `tg : p2 + p3 -> p4`.  Here consumption arcs
have direction -1, production arcs direction 1, the two arcs of `tb` on `p0`
direction 0. -/
def forkNet : PetriNet :=
  { _nplaces := 5, _ntransitions := 3,
    _invariants := [arc 0 1 false (-1), arc 3 1 false 1,
                    arc 0 1 false 0, arc 1 1 false (-1), arc 0 1 false 0, arc 2 1 false 1,
                    arc 2 1 false (-1), arc 3 1 false (-1), arc 4 1 false 1],
    _transitions := [⟨0, 1⟩, ⟨2, 4⟩, ⟨6, 8⟩, ⟨9, 9⟩],
    _placeToPtrs := [0, 2, 2, 3, 3, 3] }

/-- Generator for `forkNet` with the query "p4 >= 1" seeding the producers of
`p4`. -/
def forkGen : ReducingSuccessorGenerator :=
  ReducingSuccessorGenerator.construct forkNet [goalQuery]

/-- The query of `goalQuery` declared as an invariant query. -/
def invQuery : Condition :=
  { evaluate := fun m => decide (1 ≤ mark m 4),
    findInteresting := fun _ => [StubCall.presetOf 4],
    isInvariant := true, placeNameForBound := [] }

/-- Bound query on place `p4` of `chainNet`; its predicate never holds. -/
def boundQuery : Condition :=
  { evaluate := fun _ => false,
    findInteresting := fun _ => [],
    isInvariant := false, placeNameForBound := ["p4"] }

/-- Printer with the default options, three query names and the five places of
`chainNet`. -/
def chainPrinter : ResultPrinter :=
  { options := {}, querynames := ["goal", "inv", "bound"],
    placeNames := [("p0", 0), ("p1", 1), ("p2", 2), ("p3", 3), ("p4", 4)] }

/-- Search over `chainNet` with one state stored. -/
def chainSearch : ReachabilitySearch :=
  { _net := chainNet, states := ⟨1, 2, [1, 0, 1, 0, 0]⟩, printer := chainPrinter }

/-- Search state in query-driven mode, nothing explored yet. -/
def querySS : searchstate_t :=
  { expandedStates := 0, exploredStates := 1, enabledTransitionsCount := [0, 0, 0],
    heurquery := 0, usequeries := true }

/-- A search that resolves nothing: it returns `results` as it got it. -/
def idleReach : Frontier → List Condition → List Result → Bool → Bool → List Result :=
  fun _ _ results _ _ => results

/-- Printer in pure state-space-exploration mode. -/
def statePrinter : ResultPrinter :=
  { options := { statespaceexploration := true }, querynames := ["goal"], placeNames := [] }

/-- Printer of `chainPrinter` with structural reduction switched on. -/
def reducedPrinter : ResultPrinter :=
  { options := { enablereduction := 1 }, querynames := ["goal", "inv", "bound"],
    placeNames := [("p0", 0), ("p1", 1), ("p2", 2), ("p3", 3), ("p4", 4)] }

/-- Generator for `chainNet` built without queries. -/
def chainGenNoQuery : ReducingSuccessorGenerator :=
  ReducingSuccessorGenerator.construct chainNet []

/-- Three places, two transitions that both take one token from `p0`:
`t0 : p0 -> p1`, guarded by an inhibitor arc on `p2`, and the sink `t1`, which
has no output arc.  Four arcs; both transitions are filed under `p0`. -/
def sinkNet : PetriNet :=
  { _nplaces := 3, _ntransitions := 2,
    _invariants := [arc 0 1 false 1, arc 2 1 true 0, arc 1 1 false (-1), arc 0 1 false 1],
    _transitions := [⟨0, 2⟩, ⟨3, 4⟩, ⟨4, 4⟩],
    _placeToPtrs := [0, 2, 2, 2] }

/-- Query "p0 = 0" on `sinkNet`, registering the consumers of `p0`. -/
def sinkQuery : Condition :=
  { evaluate := fun m => decide (mark m 0 = 0),
    findInteresting := fun _ => [StubCall.postsetOf 0],
    isInvariant := false, placeNameForBound := [] }

/-- Generator for `sinkNet` with the single query `sinkQuery`. -/
def sinkGen : ReducingSuccessorGenerator :=
  ReducingSuccessorGenerator.construct sinkNet [sinkQuery]

/-- Search state of a state-space run: `usequeries` is off. -/
def stateSS : searchstate_t :=
  { expandedStates := 0, exploredStates := 1, enabledTransitionsCount := [0, 0, 0],
    heurquery := 0, usequeries := false }

/-- The reading of `isTuple()` used in the examples: a colour is a tuple when
`_tuple` has more than one element. -/
def tupleBySize : Color → Bool := fun c => decide (1 < c._tuple.length)

/-- The colour type at address `a` after `addColor` was called with each of
`names`, in order, on the empty type. -/
def ColorType.filled (a : Nat) (names : List String) : ColorType :=
  names.foldl ColorType.addColor { addr := a, _colors := [] }

/-- `operator++` applied `k` times. -/
def timesIncrement (types : Nat → Option ColorTypeRef) : Nat → Color → Option Color
  | 0, c => some c
  | k + 1, c => (c.increment types).bind (timesIncrement types k)

/-- The reading of `size()` and `operator[](size_t)` used in the examples for
a colour type that is not a product: the size of `_colors` and its element,
which is what `addColor` and `operator[](const char*)` go by. -/
def ColorType.ref (isTuple : Color → Bool) (ct : ColorType) : ColorTypeRef :=
  { addr := ct.addr, size := ct._colors.length, atIndex := fun i => ct._colors[i]?,
    atName := ct.atName isTuple }

/-- The colour type `{a, b, c}` at address 1. -/
def abcType : ColorType := ColorType.filled 1 ["a", "b", "c"]

/-- The colour type `{x, y}` at address 2. -/
def xyType : ColorType := ColorType.filled 2 ["x", "y"]

/-- The colour types of the examples by address. -/
def colorHeap : Nat → Option ColorTypeRef := fun a =>
  if a = 1 then some (abcType.ref tupleBySize)
  else if a = 2 then some (xyType.ref tupleBySize)
  else none

/-- The product type `abc × xy` at address 3, nothing cached yet. -/
def abcXy : ProductType :=
  { addr := 3, constituents := [abcType.ref tupleBySize, xyType.ref tupleBySize], cache := [] }

/-- The colour `a` of `abcType`. -/
def colorA : Color := Color.mk [] (some 1) "a" 0

/-- The colour `x` of `xyType`. -/
def colorX : Color := Color.mk [] (some 2) "x" 0

/-- A dot colour for the examples. -/
def dotColor : Color := Color.mk [] (some 0) "dot" 0

/-- The arc expression `2'(abc.all)`. -/
def twoAll : NumberOfExpression :=
  { _number := 2, _color := [], _all := some { _sort := abcType.ref tupleBySize } }

/-- The arc expression `1'(a)`. -/
def oneA : NumberOfExpression :=
  { _number := 1, _color := [ColorExpression.userOperator colorA], _all := none }

/-- The arc expression `1'(x)`. -/
def oneX : NumberOfExpression :=
  { _number := 1, _color := [ColorExpression.userOperator colorX], _all := none }

/-! ## Vocabulary of the statements -/

/-- Flag array after `flags[t] = true` for each `t` of `ts` in turn. -/
def setFlags (l : List Bool) (ts : List Nat) : List Bool :=
  ts.foldl (fun l t => l.set t true) l

/-- The scratch state is the one left by the constructor or by a `next` that
returned false: flags cleared, queues empty. -/
def IsReset (G : ReducingSuccessorGenerator) (s : GenState) : Prop :=
  s._enabled = List.replicate G._net._ntransitions false ∧
  s._stubborn = List.replicate G._net._ntransitions false ∧
  s._ordering = [] ∧ s._unprocessed = []

instance (G : ReducingSuccessorGenerator) (s : GenState) : Decidable (IsReset G s) := by
  unfold IsReset; infer_instance

/-- Place `p` is scanned by `constructEnabled`. -/
def scanned (m : Marking) (p : Nat) : Bool := p == 0 || decide (mark m p > 0)

/-- The transitions `constructEnabled` appends to `_ordering`, in order. -/
def discovered (net : PetriNet) (m : Marking) : List Nat :=
  (List.range net._nplaces).flatMap fun p =>
    if scanned m p then (net.filedUnder p).filter (checkPreset net m) else []

/-- The place-to-transition table is a monotone partition of the transition ids
`0 .. ntransitions - 1` over the places, and a transition filed under a place
other than 0 has a non-inhibitor input arc of positive weight on that place. -/
def WellFiled (net : PetriNet) : Prop :=
  net.ptr 0 = 0 ∧ net.ptr net._nplaces = net._ntransitions ∧
  (∀ p < net._nplaces, net.ptr p ≤ net.ptr (p + 1)) ∧
  (∀ p < net._nplaces, p ≠ 0 → ∀ t ∈ net.filedUnder p,
    ∃ i ∈ net.inputArcs t, (net.inv i).place = p ∧ (net.inv i).inhibitor = false ∧
      0 < (net.inv i).tokens)

instance (net : PetriNet) : Decidable (WellFiled net) := by
  unfold WellFiled; infer_instance

/-- The members that only `constructEnabled` and `next` write are the same in
both states. -/
def SameSearch (s r : GenState) : Prop :=
  r._enabled = s._enabled ∧ r._ordering = s._ordering ∧ r._parent = s._parent ∧
  r._current = s._current

/-- Termination measure of the closure loop: cleared stubborn flags plus
pending worklist entries. -/
def mu (s : GenState) : Nat := s._stubborn.count false + s._unprocessed.length

/-- The transitions popped by the closure loop, in order (same recursion as
`closure`). -/
def popped (G : ReducingSuccessorGenerator) : Nat → GenState → List Nat
  | 0, _ => []
  | fuel + 1, s =>
    match s._unprocessed with
    | [] => []
    | tr :: rest => tr :: popped G fuel (processTransition G { s with _unprocessed := rest } tr)

/-- The tables of the generator stay inside their arrays: every entry of
`_transitions` and of `_inhibpost` is a transition id, and the offsets of
`_places` point into `_transitions`. -/
def TablesInRange (G : ReducingSuccessorGenerator) : Prop :=
  (∀ u ∈ G._transitions, u < G._net._ntransitions) ∧
  (∀ l ∈ G._inhibpost, ∀ u ∈ l, u < G._net._ntransitions) ∧
  (∀ p < G._places.length, (G.pl p).pre ≤ G._transitions.length ∧
    (G.pl p).post ≤ G._transitions.length)

instance (G : ReducingSuccessorGenerator) : Decidable (TablesInRange G) := by
  unfold TablesInRange; infer_instance

/-- The transitions registered for place `p` by the primitive owning places-seen
bit `k`: bit 0 `presetOf` (pre-range), bit 1 `postsetOf` (post-range), bit 2
`inhibitorPostsetOf` (`_inhibpost[p]`). -/
def neighbours (G : ReducingSuccessorGenerator) (k p : Nat) : List Nat :=
  match k with
  | 0 => (G.preRange p).map G.tab
  | 1 => (G.postRange p).map G.tab
  | _ => G._inhibpost.getD p []

/-- Common shape of `presetOf`, `postsetOf` and `inhibitorPostsetOf`: test bit
`k` of the places-seen flag, set it, add the neighbours. -/
def register (G : ReducingSuccessorGenerator) (k : Nat) (s : GenState) (p : Nat) : GenState :=
  if (s.seen p).testBit k then s
  else (neighbours G k p).foldl addToStub
    { s with _places_seen := s._places_seen.set p (s.seen p ||| 2 ^ k) }

/-- A places-seen bit that is set vouches for its neighbours being stubborn. -/
def SeenInv (G : ReducingSuccessorGenerator) (s : GenState) : Prop :=
  ∀ k p, (s.seen p).testBit k = true → ∀ u ∈ neighbours G k p, s.stub u = true

/-- Invariant of the scratch state during the closure. -/
def Good (G : ReducingSuccessorGenerator) (s : GenState) : Prop :=
  s._stubborn.length = G._net._ntransitions ∧ SeenInv G s ∧ s._unprocessed.Nodup ∧
  ∀ t ∈ s._unprocessed, s.stub t = true

/-- What a registration does to the scratch state: the search members are kept,
stubborn flags and worklist only grow, a transition is flagged exactly when it
is enqueued, and the measure is kept. -/
def Step (s r : GenState) : Prop :=
  SameSearch s r ∧ (∀ t, s.stub t = true → r.stub t = true) ∧
  (∀ t ∈ s._unprocessed, t ∈ r._unprocessed) ∧
  (∀ t, r.stub t = true → s.stub t = true ∨ t ∈ r._unprocessed) ∧
  (∀ t ∈ r._unprocessed, t ∈ s._unprocessed ∨ s.stub t = false) ∧
  mu r = mu s

/-- Arc `i` is a non-inhibitor arc whose place holds too few tokens in `m`. -/
def shortOf (net : PetriNet) (m : Marking) (i : Nat) : Prop :=
  mark m (net.inv i).place < (net.inv i).tokens ∧ (net.inv i).inhibitor = false

/-- Arc `i` is an inhibitor arc whose place has reached the threshold in `m`. -/
def blockedBy (net : PetriNet) (m : Marking) (i : Nat) : Prop :=
  (net.inv i).tokens ≤ mark m (net.inv i).place ∧ (net.inv i).inhibitor = true

instance (net : PetriNet) (m : Marking) (i : Nat) : Decidable (shortOf net m i) := by
  unfold shortOf; infer_instance

instance (net : PetriNet) (m : Marking) (i : Nat) : Decidable (blockedBy net m i) := by
  unfold blockedBy; infer_instance

/-- What the enabled branch of the closure loop has established for `t`: the
post-range of every consumption input place is stubborn, and, when the net has
inhibitor arcs, `t` has an output arc and the arc at the index where the first
loop stopped has a negative direction, the inhibitor-postset of that arc's
place is stubborn. -/
def EnabledDone (G : ReducingSuccessorGenerator) (s : GenState) (t : Nat) : Prop :=
  (∀ i ∈ G._net.inputArcs t, 0 < (G._net.inv i).direction →
    ∀ u ∈ neighbours G 1 (G._net.inv i).place, s.stub u = true) ∧
  (G._netContainsInhibitorArcs = true →
    (G._net.inv (max (G._net.tr t).inputs (G._net.tr t).outputs)).direction < 0 →
    G._net.outputArcs t ≠ [] →
    ∀ u ∈ neighbours G 2 (G._net.inv (max (G._net.tr t).inputs (G._net.tr t).outputs)).place,
      s.stub u = true)

/-- What the disabled branch of the closure loop has established for `t`. -/
def DisabledDone (G : ReducingSuccessorGenerator) (s : GenState) (t : Nat) : Prop :=
  (∃ i ∈ G._net.inputArcs t, shortOf G._net s._parent i ∧
    (0 < (G._net.inv i).direction ∨
      ∀ u ∈ neighbours G 0 (G._net.inv i).place, s.stub u = true)) ∨
  (∃ i ∈ G._net.inputArcs t, blockedBy G._net s._parent i ∧
    ((G._net.inv i).direction < 0 ∨
      ∀ u ∈ neighbours G 1 (G._net.inv i).place, s.stub u = true)) ∨
  ((∀ i ∈ G._net.inputArcs t, ¬ shortOf G._net s._parent i ∧ ¬ blockedBy G._net s._parent i) ∧
    ∀ u ∈ neighbours G 0 0, s.stub u = true)

/-- Transition `t` has been through the closure loop. -/
def Done (G : ReducingSuccessorGenerator) (s : GenState) (t : Nat) : Prop :=
  (s.en t = true → EnabledDone G s t) ∧ (s.en t = false → DisabledDone G s t)

/-- Every stubborn transition is pending on the worklist or has been through
the loop. -/
def Closed (G : ReducingSuccessorGenerator) (s : GenState) : Prop :=
  ∀ t, s.stub t = true → t ∈ s._unprocessed ∨ Done G s t

/-- The queries only seed transition ids. -/
def SeedsInRange (G : ReducingSuccessorGenerator) (m : Marking) : Prop :=
  ∀ q ∈ G._queries, ∀ c ∈ q.findInteresting m, ∀ t, c = StubCall.addToStub t →
    t < G._net._ntransitions

/-- The scratch state at the head of the closure loop of `prepare`: enabled set
constructed, every query has seeded. -/
def seeded (G : ReducingSuccessorGenerator) (s : GenState) (m : Marking) : GenState :=
  G._queries.foldl (seedQuery G)
    (constructEnabled G { s with _parent := m, _places_seen := List.replicate G._net._nplaces 0 })

/-- Transition `t` once per output arc of `t` into place `p`, for `t` in
increasing id: the producers of `p`. -/
def producersOf (net : PetriNet) (p : Nat) : List Nat :=
  (List.range net._ntransitions).flatMap fun t =>
    ((net.outputArcs t).filter fun i => true && decide ((net.inv i).place = p)).map fun _ => t

/-- Transition `t` once per non-inhibitor input arc of `t` on place `p`, for
`t` in increasing id: the consumers of `p`. -/
def consumersOf (net : PetriNet) (p : Nat) : List Nat :=
  (List.range net._ntransitions).flatMap fun t =>
    ((net.inputArcs t).filter fun i =>
      (!(net.inv i).inhibitor) && decide ((net.inv i).place = p)).map fun _ => t

/-- Transition `t` once per inhibitor input arc of `t` on place `p`, for `t` in
increasing id. -/
def inhibitedBy (net : PetriNet) (p : Nat) : List Nat :=
  (List.range net._ntransitions).flatMap fun t =>
    ((net.inputArcs t).filter fun i =>
      (net.inv i).inhibitor && decide ((net.inv i).place = p)).map fun _ => t

/-- The cells `a .. b - 1` of an array of transition ids. -/
def slice (l : List Nat) (a b : Nat) : List Nat :=
  (List.range' a (b - a)).map fun i => l.getD i 0

/-- Where the post-range of place `p` ends while the flattening loop runs: the
`pre` offset of the next place if already written, else the current offset. -/
def nextPre (places : List place_t) (offset p : Nat) : Nat :=
  if p + 1 < places.length then (places.getD (p + 1) default).pre else offset

/-- Invariant of the flattening loop of `constructPrePost`. -/
def FlatInv (tmp : PrePostTmp) (acc : FlattenAcc) : Prop :=
  acc.offset = acc.transitions.length ∧
  (∀ e ∈ acc.places, e.pre ≤ acc.transitions.length ∧ e.post ≤ acc.transitions.length) ∧
  ∀ p < acc.places.length,
    slice acc.transitions (acc.places.getD p default).pre (acc.places.getD p default).post =
      sortIds (tmp.first.getD p []) ∧
    slice acc.transitions (acc.places.getD p default).post (nextPre acc.places acc.offset p) =
      sortIds (tmp.second.getD p []) ∧
    nextPre acc.places acc.offset p ≤ acc.transitions.length

/-- Tokens transition `t` takes from place `p`: the sum of the weights of its
non-inhibitor input arcs on `p`. -/
def demand (net : PetriNet) (t p : Nat) : Nat :=
  (((net.inputArcs t).filter fun i =>
    (!(net.inv i).inhibitor) && decide ((net.inv i).place = p)).map fun i =>
      (net.inv i).tokens).sum

/-- No two non-inhibitor input arcs of `t` are on the same place. -/
def NoParallelInputs (net : PetriNet) (t : Nat) : Prop :=
  (((net.inputArcs t).filter fun i => !(net.inv i).inhibitor).map fun i =>
    (net.inv i).place).Nodup

instance (net : PetriNet) (t : Nat) : Decidable (NoParallelInputs net t) := by
  unfold NoParallelInputs; infer_instance

/-- Two scratch states hold the same flags, queues, places-seen flags and
parent marking (they may differ in `_current` and in the ghost counter). -/
def Agree (s r : GenState) : Prop :=
  s._enabled = r._enabled ∧ s._stubborn = r._stubborn ∧ s._places_seen = r._places_seen ∧
  s._ordering = r._ordering ∧ s._unprocessed = r._unprocessed ∧ s._parent = r._parent

/-- Every stubborn flag set in `s` is set in `r`. -/
def StubKept (s r : GenState) : Prop := ∀ t, s.stub t = true → r.stub t = true

/-- The places-seen flags only gain bits from `s` to `r`, and stay below 8 if
they were. -/
def SeenGrows (s r : GenState) : Prop :=
  r._places_seen.length = s._places_seen.length ∧
  (∀ p k, (s.seen p).testBit k = true → (r.seen p).testBit k = true) ∧
  ((∀ p, s.seen p < 8) → ∀ p, r.seen p < 8)

/-- Every place name of the bound list of `q` is in the name map of the
printer, so `at` does not throw. -/
def NamesKnown (P : ResultPrinter) (q : Condition) : Prop :=
  ∀ p ∈ q.placeNameForBound, (P.placeNames.lookup p).isSome = true

instance (P : ResultPrinter) (q : Condition) : Decidable (NamesKnown P q) := by
  unfold NamesKnown
  infer_instance

/-- The invariant-polarity table as the spec words it: raw verdict and
`isInvariant()` give the final verdict. -/
def finalVerdict : Result → Bool → Result
  | Result.Satisfied, false => Result.Satisfied
  | Result.Satisfied, true => Result.NotSatisfied
  | Result.NotSatisfied, false => Result.NotSatisfied
  | Result.NotSatisfied, true => Result.Satisfied
  | Result.Unknown, _ => Result.Unknown

/-- The printer can report on each of `queries` when they sit at the indices
`i, i + 1, ...`: either it is in state-space mode (no name is read), or the
indices have a query name and every bound place is known. -/
def Printable (P : ResultPrinter) (i : Nat) (queries : List Condition) : Prop :=
  P.options.statespaceexploration = true ∨
    (i + queries.length ≤ P.querynames.length ∧ ∀ q ∈ queries, NamesKnown P q)

instance (P : ResultPrinter) (i : Nat) (queries : List Condition) :
    Decidable (Printable P i queries) := by
  unfold Printable
  infer_instance

/-- The verdict `printResult` returns for the raw verdict `Satisfied`. -/
def settle (P : ResultPrinter) (q : Condition) : Result :=
  if P.options.statespaceexploration then Result.Satisfied
  else if q.isInvariant then Result.NotSatisfied else Result.Satisfied

/-- The result of query `q` after one `checkQueries` on `state`, from its
result `r` before. -/
def settleAt (P : ResultPrinter) (state : Marking) (q : Condition) (r : Result) : Result :=
  if r = Result.Unknown ∧ q.evaluate state = true then settle P q else r

/-- The vector of results after one `checkQueries`, position by position;
results beyond the queries are kept. -/
def settleAll (P : ResultPrinter) (state : Marking) : List Condition → List Result → List Result
  | q :: qs, r :: rs => settleAt P state q r :: settleAll P state qs rs
  | _, rs => rs

/-- Some query has the result `Unknown` and a predicate that is false on
`state`. -/
def stillUnknown (state : Marking) : List Condition → List Result → Bool
  | q :: qs, r :: rs => (r == Result.Unknown && !q.evaluate state) || stillUnknown state qs rs
  | _, _ => false

/-- The indices, counted from `i`, of the queries whose result is `Unknown`. -/
def unknownsFrom : Nat → List Condition → List Result → List Nat
  | i, _ :: qs, r :: rs =>
    (if r = Result.Unknown then [i] else []) ++ unknownsFrom (i + 1) qs rs
  | _, _, _ => []

/-- Some query whose result is `Unknown` names a bound place. -/
def pendingBound : List Condition → List Result → Bool
  | q :: qs, r :: rs =>
    (r == Result.Unknown && !q.placeNameForBound.isEmpty) || pendingBound qs rs
  | _, _ => false

/-- The sizes of the pre and post vectors of the places below `p`, added up. -/
def sizesBefore (tmp : PrePostTmp) (p : Nat) : Nat :=
  ((List.range p).map fun q =>
    (tmp.first.getD q []).length + (tmp.second.getD q []).length).sum

/-- The number of table entries of the places below `p`: one per output arc
into such a place and one per non-inhibitor input arc on it. -/
def entriesBefore (net : PetriNet) (p : Nat) : Nat :=
  ((List.range p).map fun q => (producersOf net q).length + (consumersOf net q).length).sum

/-- Every input arc of transition `t` is on a place of the net. -/
def InputsInRange (net : PetriNet) (t : Nat) : Prop :=
  ∀ i ∈ net.inputArcs t, (net.inv i).place < net._nplaces

instance (net : PetriNet) (t : Nat) : Decidable (InputsInRange net t) := by
  unfold InputsInRange
  infer_instance

/-- The arc indices read, in order, by the search loop of the disabled branch:
the loop of `findCause` with the index recorded at each iteration. -/
def causeReads (G : ReducingSuccessorGenerator) (s : GenState) : List Nat → Cause → List Nat
  | [], _ => []
  | finv :: rest, c =>
    let inv := G._net.inv finv
    let c1 : Cause :=
      if decide (mark s._parent inv.place < inv.tokens) && !inv.inhibitor then
        { cand := inv.place, inhib := false,
          ok := (s.seen inv.place &&& 1 != 0) || decide (inv.direction > 0) }
      else if decide (mark s._parent inv.place ≥ inv.tokens) && inv.inhibitor then
        { cand := inv.place, inhib := true,
          ok := (s.seen inv.place &&& 2 != 0) || decide (inv.direction < 0) }
      else c
    if c1.ok then [finv] else finv :: causeReads G s rest c1

/-- The indices at which `_net._invariants` is read, in order, while the closure
loop processes the popped transition `tr`.  Enabled branch: the first loop
reads every input arc; then, `_netContainsInhibitorArcs` being set, the test
reads the arc at the index where that loop stopped, and so does every call in
the second loop.  Disabled branch: the reads of the search loop. -/
def arcReads (G : ReducingSuccessorGenerator) (s : GenState) (tr : Nat) : List Nat :=
  if s.en tr then
    G._net.inputArcs tr ++
      (if G._netContainsInhibitorArcs then
        max (G._net.tr tr).inputs (G._net.tr tr).outputs ::
          (if (G._net.inv (max (G._net.tr tr).inputs (G._net.tr tr).outputs)).direction < 0 then
            (G._net.outputArcs tr).map fun _ =>
              max (G._net.tr tr).inputs (G._net.tr tr).outputs
          else [])
      else [])
  else causeReads G s (G._net.inputArcs tr) { ok := false, inhib := false, cand := 0 }

/-- The heuristic query index after the loop of `checkQueries` has run over the
indices `i, i + 1, ...`, the results left at these indices being `rs`, from its
value `h` before. -/
def heurAfter : Nat → List Result → Nat → Nat
  | _, [], h => h
  | i, r :: rs, h => heurAfter (i + 1) rs (if i = h ∧ r ≠ Result.Unknown then h + 1 else h)

/-- The sizes of the constituents. -/
def sizesOf (cts : List ColorTypeRef) : List Nat := cts.map fun ct => ct.size

/-- The mixed-radix value of `ids` over `sizes`: the sum over `i` of `ids[i]`
times the product of the sizes before `i`. -/
def radixValue (sizes ids : List Nat) : Nat :=
  ((List.range ids.length).map fun i => ids.getD i 0 * (sizes.take i).prod).sum

/-- The mixed-radix digits of `m` over `sizes`, least significant first. -/
def radixDigits : List Nat → Nat → List Nat
  | [], _ => []
  | s :: ss, m => (m % s) :: radixDigits ss (m / s)

/-- An id vector is valid for `sizes`: one id per size, each below its size. -/
def ValidIds (sizes ids : List Nat) : Prop :=
  ids.length = sizes.length ∧ ∀ i < ids.length, ids.getD i 0 < sizes.getD i 0

/-- Every constituent holds, at each index below its size, a colour of its own
with that index as id. -/
def WellNumbered (cts : List ColorTypeRef) : Prop :=
  ∀ ct ∈ cts, ∀ k < ct.size,
    ∃ c, ct.atIndex k = some c ∧ c._id = k ∧ c._colorType = some ct.addr

/-- The cache holds, under an index, only the colour `operator[]` constructs
for that index. -/
def CacheSound (pt : ProductType) : Prop :=
  ∀ n c, (n, c) ∈ pt.cache → pt.build n = some c

/-- The operand is a `NumberOfExpression` over an all-expression. -/
def OverAll : ArcExpression → Prop
  | .numberOf e => e._all.isSome = true
  | _ => False

/-- The operand is a `NumberOfExpression` with exactly one colour expression
and no all-expression. -/
def SingleColor : ArcExpression → Prop
  | .numberOf e => e._all.isSome = false ∧ e._color.length = 1
  | _ => False

/-- The firing of `t` from marking `m` as `next` computes it: copy, consume,
produce. -/
def fire (net : PetriNet) (m : Marking) (t : Nat) : Marking :=
  producePostset net (consumePreset net ((List.range net._nplaces).map (mark m)) t) t

/-- Successive calls of `next`, one per output buffer of `ws`, each on the
state left by the previous call. -/
def nextCalls (G : ReducingSuccessorGenerator) : GenState → List Marking → List NextResult
  | _, [] => []
  | s, w :: ws => next G s w :: nextCalls G (next G s w).state ws

end PetriEngine

/-! ## Theorems -/

namespace PetriEngine

/-! ### Arrays -/

theorem getD_set_eq {α : Type} (l : List α) (i j : Nat) (a d : α) :
    (l.set i a).getD j d = if i = j ∧ i < l.length then a else l.getD j d := by
  simp only [List.getD_eq_getElem?_getD, List.getElem?_set]
  by_cases hij : i = j
  · subst hij
    by_cases hi : i < l.length
    · simp [hi]
    · have : l[i]? = none := List.getElem?_eq_none (by omega)
      simp [hi, this]
  · simp [hij]

theorem getD_replicate_eq {α : Type} (n i : Nat) (a : α) :
    (List.replicate n a).getD i a = a := by
  simp only [List.getD_eq_getElem?_getD, List.getElem?_replicate]
  split <;> rfl

theorem length_setFlags (l : List Bool) (ts : List Nat) :
    (setFlags l ts).length = l.length := by
  induction ts generalizing l with
  | nil => rfl
  | cons t ts ih => simp [setFlags, List.foldl_cons] at ih ⊢; rw [ih]; simp

theorem setFlags_append (l : List Bool) (a b : List Nat) :
    setFlags l (a ++ b) = setFlags (setFlags l a) b := by
  simp [setFlags, List.foldl_append]

theorem getD_setFlags (l : List Bool) (ts : List Nat) (t : Nat) :
    (setFlags l ts).getD t false = true ↔ l.getD t false = true ∨ (t ∈ ts ∧ t < l.length) := by
  induction ts generalizing l with
  | nil => simp [setFlags]
  | cons u ts ih =>
    have h := ih (l.set u true)
    simp only [setFlags, List.foldl_cons] at h ⊢
    rw [h, getD_set_eq, List.length_set]
    by_cases hu : u = t
    · subst hu
      by_cases hl : u < l.length
      · simp [hl]
      · have : l.getD u false = false := List.getD_eq_default _ _ (by omega)
        simp [hl, this]
    · have hu2 : ¬ t = u := fun h => hu h.symm
      simp [hu, hu2]

/-! ### `constructEnabled` -/

theorem foldl_enableIfPreset (G : ReducingSuccessorGenerator) (ts : List Nat) (s : GenState) :
    ts.foldl (enableIfPreset G) s =
      { s with _enabled := setFlags s._enabled (ts.filter (checkPreset G._net s._parent)),
               _ordering := s._ordering ++ ts.filter (checkPreset G._net s._parent) } := by
  induction ts generalizing s with
  | nil => simp [setFlags]
  | cons t ts ih =>
    rw [List.foldl_cons, ih]
    cases h : checkPreset G._net s._parent t <;>
      simp [enableIfPreset, h, setFlags, List.filter_cons]

theorem foldl_constructEnabledAt (G : ReducingSuccessorGenerator) (ps : List Nat) (s : GenState) :
    ps.foldl (constructEnabledAt G) s =
      { s with
        _enabled := setFlags s._enabled (ps.flatMap fun p =>
          if scanned s._parent p then (G._net.filedUnder p).filter (checkPreset G._net s._parent)
          else []),
        _ordering := s._ordering ++ ps.flatMap fun p =>
          if scanned s._parent p then (G._net.filedUnder p).filter (checkPreset G._net s._parent)
          else [] } := by
  induction ps generalizing s with
  | nil => simp [setFlags]
  | cons p ps ih =>
    rw [List.foldl_cons, ih]
    cases h : scanned s._parent p
    · have h2 : ¬ ((p == 0 || decide (mark s._parent p > 0)) = true) := by
        simpa [scanned] using h
      simp [constructEnabledAt, h, h2]
    · have h2 : (p == 0 || decide (mark s._parent p > 0)) = true := by
        simpa [scanned] using h
      simp [constructEnabledAt, h, h2, foldl_enableIfPreset, setFlags_append]

theorem constructEnabled_eq (G : ReducingSuccessorGenerator) (s : GenState) :
    constructEnabled G s =
      { s with _enabled := setFlags s._enabled (discovered G._net s._parent),
               _ordering := s._ordering ++ discovered G._net s._parent } := by
  simp [constructEnabled, foldl_constructEnabledAt, discovered]

theorem foldl_rel {α β : Type} (R : β → β → Prop) (hrefl : ∀ b, R b b)
    (htrans : ∀ a b c, R a b → R b c → R a c) (f : β → α → β)
    (h : ∀ b a, R b (f b a)) (l : List α) (b : β) : R b (l.foldl f b) := by
  induction l generalizing b with
  | nil => exact hrefl b
  | cons a l ih => exact htrans _ _ _ (h b a) (ih (f b a))

theorem filter_unscanned (net : PetriNet) (m : Marking) (hw : WellFiled net) (p : Nat)
    (hp : p < net._nplaces) (hs : scanned m p = false) :
    (net.filedUnder p).filter (checkPreset net m) = [] := by
  rw [List.filter_eq_nil_iff]
  intro t ht hchk
  have hp0 : p ≠ 0 := by
    intro h0; simp [scanned, h0] at hs
  have hm : mark m p = 0 := by
    simp [scanned] at hs; exact hs.2
  obtain ⟨i, hi, hpl, hinh, htok⟩ := hw.2.2.2 p hp hp0 t ht
  have := (List.all_eq_true.mp hchk) i hi
  simp [hinh, hpl, hm] at this
  omega

theorem flatMap_filed (net : PetriNet) (m : Marking) (hw : WellFiled net) (k : Nat)
    (hk : k ≤ net._nplaces) :
    ((List.range k).flatMap fun p =>
      if scanned m p then (net.filedUnder p).filter (checkPreset net m) else []) =
      (List.range (net.ptr k)).filter (checkPreset net m) := by
  induction k with
  | zero => simp [hw.1]
  | succ k ih =>
    have hmono := hw.2.2.1 k (by omega)
    have hsplit : List.range (net.ptr (k + 1)) = List.range (net.ptr k) ++ net.filedUnder k := by
      rw [PetriNet.filedUnder, List.range_eq_range', List.range_eq_range']
      have := List.range'_append 0 (net.ptr k) (net.ptr (k + 1) - net.ptr k) 1
      simp only [Nat.zero_add, Nat.one_mul] at this
      rw [this]
      congr 1
      omega
    rw [List.range_succ, List.flatMap_append, ih (by omega), hsplit, List.filter_append]
    congr 1
    cases hs : scanned m k
    · simp [filter_unscanned net m hw k (by omega) hs]
    · simp [hs]

theorem discovered_eq (net : PetriNet) (m : Marking) (hw : WellFiled net) :
    discovered net m = (List.range net._ntransitions).filter (checkPreset net m) := by
  rw [discovered, flatMap_filed net m hw _ (le_refl _), hw.2.1]

theorem mem_discovered (net : PetriNet) (m : Marking) (t : Nat) :
    t ∈ discovered net m ↔
      checkPreset net m t = true ∧
        ∃ p < net._nplaces, (p = 0 ∨ 0 < mark m p) ∧ t ∈ net.filedUnder p := by
  simp only [discovered, List.mem_flatMap, List.mem_range]
  constructor
  · rintro ⟨p, hp, ht⟩
    cases hs : scanned m p
    · simp [hs] at ht
    · simp only [hs, if_true, List.mem_filter] at ht
      refine ⟨ht.2, p, hp, ?_, ht.1⟩
      simpa [scanned] using hs
  · rintro ⟨hc, p, hp, hs, ht⟩
    refine ⟨p, hp, ?_⟩
    have : scanned m p = true := by simpa [scanned] using hs
    simp [this, List.mem_filter, ht, hc]

/-! ### Frame of the registration primitives and of the closure -/

theorem sameSearch_refl (s : GenState) : SameSearch s s := ⟨rfl, rfl, rfl, rfl⟩

theorem sameSearch_trans (a b c : GenState) (h1 : SameSearch a b) (h2 : SameSearch b c) :
    SameSearch a c :=
  ⟨h2.1.trans h1.1, h2.2.1.trans h1.2.1, h2.2.2.1.trans h1.2.2.1, h2.2.2.2.trans h1.2.2.2⟩

theorem addToStub_same (s : GenState) (t : Nat) : SameSearch s (addToStub s t) := by
  unfold addToStub
  split
  · exact ⟨rfl, rfl, rfl, rfl⟩
  · exact sameSearch_refl s

theorem presetOf_same (G : ReducingSuccessorGenerator) (s : GenState) (p : Nat) :
    SameSearch s (presetOf G s p) := by
  unfold presetOf
  split
  · exact sameSearch_refl s
  · exact sameSearch_trans _ _ _ ⟨rfl, rfl, rfl, rfl⟩
      (foldl_rel SameSearch sameSearch_refl sameSearch_trans _
        (fun b a => addToStub_same b _) _ _)

theorem postsetOf_same (G : ReducingSuccessorGenerator) (s : GenState) (p : Nat) :
    SameSearch s (postsetOf G s p) := by
  unfold postsetOf
  split
  · exact sameSearch_refl s
  · exact sameSearch_trans _ _ _ ⟨rfl, rfl, rfl, rfl⟩
      (foldl_rel SameSearch sameSearch_refl sameSearch_trans _
        (fun b a => addToStub_same b _) _ _)

theorem inhibitorPostsetOf_same (G : ReducingSuccessorGenerator) (s : GenState) (p : Nat) :
    SameSearch s (inhibitorPostsetOf G s p) := by
  unfold inhibitorPostsetOf
  split
  · exact sameSearch_refl s
  · exact sameSearch_trans _ _ _ ⟨rfl, rfl, rfl, rfl⟩
      (foldl_rel SameSearch sameSearch_refl sameSearch_trans _
        (fun b a => addToStub_same b _) _ _)

theorem runStubCall_same (G : ReducingSuccessorGenerator) (s : GenState) (c : StubCall) :
    SameSearch s (runStubCall G s c) := by
  cases c with
  | addToStub t => exact addToStub_same s t
  | presetOf p => exact presetOf_same G s p
  | postsetOf p => exact postsetOf_same G s p
  | inhibitorPostsetOf p => exact inhibitorPostsetOf_same G s p

theorem seedQuery_same (G : ReducingSuccessorGenerator) (s : GenState) (q : Condition) :
    SameSearch s (seedQuery G s q) := by
  unfold seedQuery
  exact sameSearch_trans _ _ _ ⟨rfl, rfl, rfl, rfl⟩
    (foldl_rel SameSearch sameSearch_refl sameSearch_trans _
      (fun b a => runStubCall_same G b a) _ _)

theorem processEnabled_same (G : ReducingSuccessorGenerator) (s : GenState) (tr : Nat) :
    SameSearch s (processEnabled G s tr) := by
  unfold processEnabled
  have h1 : SameSearch s ((G._net.inputArcs tr).foldl (fun s i =>
      if (G._net.inv i).direction > 0 then postsetOf G s (G._net.inv i).place else s) s) := by
    apply foldl_rel SameSearch sameSearch_refl sameSearch_trans
    intro b a
    split
    · exact postsetOf_same G b _
    · exact sameSearch_refl b
  simp only []
  split
  · exact sameSearch_trans _ _ _ h1
      (foldl_rel SameSearch sameSearch_refl sameSearch_trans _
        (fun b a => inhibitorPostsetOf_same G b _) _ _)
  · exact h1

theorem processDisabled_same (G : ReducingSuccessorGenerator) (s : GenState) (tr : Nat) :
    SameSearch s (processDisabled G s tr) := by
  unfold processDisabled
  simp only []
  split
  · split
    · exact presetOf_same G s _
    · exact postsetOf_same G s _
  · exact sameSearch_refl s

theorem processTransition_same (G : ReducingSuccessorGenerator) (s : GenState) (tr : Nat) :
    SameSearch s (processTransition G s tr) := by
  unfold processTransition
  split
  · exact processEnabled_same G s tr
  · exact processDisabled_same G s tr

theorem closure_same (G : ReducingSuccessorGenerator) (fuel : Nat) (s : GenState) :
    SameSearch s (closure G fuel s) := by
  induction fuel generalizing s with
  | zero => exact sameSearch_refl s
  | succ fuel ih =>
    unfold closure
    split
    · exact sameSearch_refl s
    · rename_i tr rest _
      have h0 : SameSearch s { s with _unprocessed := rest } := ⟨rfl, rfl, rfl, rfl⟩
      exact sameSearch_trans _ _ _ (sameSearch_trans _ _ _ h0
        (processTransition_same G _ tr)) (ih _)

/-! ### The enabled set -/

theorem prepare_same (G : ReducingSuccessorGenerator) (fuel : Nat) (s : GenState) (m : Marking)
    (hr : IsReset G s) :
    (prepare G fuel s m)._enabled =
        setFlags (List.replicate G._net._ntransitions false) (discovered G._net m) ∧
      (prepare G fuel s m)._ordering = discovered G._net m ∧
      (prepare G fuel s m)._parent = m := by
  obtain ⟨he, _, ho, _⟩ := hr
  unfold prepare
  simp only [constructEnabled_eq, he, ho, List.nil_append]
  split
  · exact ⟨rfl, rfl, rfl⟩
  · split
    · exact ⟨rfl, rfl, rfl⟩
    · have h1 := closure_same G fuel (G._queries.foldl (seedQuery G)
        { s with _parent := m, _places_seen := List.replicate G._net._nplaces 0,
                 _enabled := setFlags (List.replicate G._net._ntransitions false)
                   (discovered G._net m),
                 _ordering := discovered G._net m })
      have h2 := foldl_rel SameSearch sameSearch_refl sameSearch_trans (seedQuery G)
        (fun b a => seedQuery_same G b a) G._queries
        { s with _parent := m, _places_seen := List.replicate G._net._nplaces 0,
                 _enabled := setFlags (List.replicate G._net._ntransitions false)
                   (discovered G._net m),
                 _ordering := discovered G._net m }
      have h3 := sameSearch_trans _ _ _ h2 h1
      exact ⟨h3.1, h3.2.1, h3.2.2.1⟩

theorem prepare_en (G : ReducingSuccessorGenerator) (fuel : Nat) (s : GenState) (m : Marking)
    (hr : IsReset G s) (t : Nat) :
    (prepare G fuel s m).en t = true ↔ t < G._net._ntransitions ∧ t ∈ discovered G._net m := by
  rw [GenState.en, (prepare_same G fuel s m hr).1, getD_setFlags, getD_replicate_eq,
    List.length_replicate]
  constructor
  · rintro (h | h)
    · cases h
    · exact ⟨h.2, h.1⟩
  · rintro ⟨h1, h2⟩
    exact Or.inr ⟨h2, h1⟩

theorem prepare_en_filed (G : ReducingSuccessorGenerator) (fuel : Nat) (s : GenState)
    (m : Marking) (hr : IsReset G s) (hw : WellFiled G._net) (t : Nat) :
    (prepare G fuel s m).en t = true ↔
      t < G._net._ntransitions ∧ checkPreset G._net m t = true := by
  rw [prepare_en G fuel s m hr, discovered_eq G._net m hw, List.mem_filter, List.mem_range]
  tauto

/-- C9: after `prepare` on a reset generator, a transition is flagged enabled
exactly when it passes `checkPreset` and is filed under place 0 or under a place
with a positive marking; when the place-to-transition table is a monotone
partition filing each transition under one of its non-inhibitor input places of
positive weight (or under place 0), the flag is set exactly when `checkPreset`
holds, and the discovery order lists each enabled transition exactly once and
nothing else. -/
theorem prepare_enabled_iff_checkPreset (G : ReducingSuccessorGenerator) (fuel : Nat)
    (s : GenState) (m : Marking) (hr : IsReset G s) :
    (∀ t, (prepare G fuel s m).en t = true ↔
      t < G._net._ntransitions ∧ checkPreset G._net m t = true ∧
        ∃ p < G._net._nplaces, (p = 0 ∨ 0 < mark m p) ∧ t ∈ G._net.filedUnder p) ∧
    (WellFiled G._net →
      (∀ t, (prepare G fuel s m).en t = true ↔
        t < G._net._ntransitions ∧ checkPreset G._net m t = true) ∧
      (prepare G fuel s m)._ordering.Nodup ∧
      (∀ t, t ∈ (prepare G fuel s m)._ordering ↔ (prepare G fuel s m).en t = true) ∧
      (prepare G fuel s m)._ordering =
        (List.range G._net._ntransitions).filter (checkPreset G._net m)) := by
  refine ⟨fun t => ?_, fun hw => ?_⟩
  · rw [prepare_en G fuel s m hr, mem_discovered]
  · have hd := discovered_eq G._net m hw
    have hen : ∀ t, (prepare G fuel s m).en t = true ↔
        t < G._net._ntransitions ∧ checkPreset G._net m t = true :=
      prepare_en_filed G fuel s m hr hw
    refine ⟨hen, ?_, ?_, ?_⟩
    · rw [(prepare_same G fuel s m hr).2.1, hd]
      exact (List.nodup_range _).filter _
    · intro t
      rw [hen, (prepare_same G fuel s m hr).2.1, hd, List.mem_filter, List.mem_range]
    · rw [(prepare_same G fuel s m hr).2.1, hd]

/-- Witness for C9 on `chainNet` with marking `[1,0,1,0,0]`. -/
theorem prepare_enabled_iff_checkPreset_witness :
    IsReset chainGen (GenState.init chainGen []) ∧ WellFiled chainGen._net ∧
      (prepare chainGen 3 (GenState.init chainGen []) [1, 0, 1, 0, 0])._ordering =
        (List.range chainGen._net._ntransitions).filter
          (checkPreset chainGen._net [1, 0, 1, 0, 0]) :=
  ⟨by decide, by decide,
    ((prepare_enabled_iff_checkPreset chainGen 3 (GenState.init chainGen []) [1, 0, 1, 0, 0]
      (by decide)).2 (by decide)).2.2.2⟩

/-! ### The two short-circuits of `prepare` -/

theorem eq_singleton_of_nodup (l : List Nat) (t : Nat) (hn : l.Nodup)
    (hm : ∀ u, u ∈ l ↔ u = t) : l = [t] := by
  match l, hn, hm with
  | [], _, hm => exact absurd ((hm t).2 rfl) (List.not_mem_nil t)
  | [a], _, hm =>
    have : a = t := (hm a).1 (List.mem_singleton.2 rfl)
    rw [this]
  | a :: b :: l, hn, hm =>
    have ha : a = t := (hm a).1 (List.mem_cons_self _ _)
    have hb : b = t := (hm b).1 (List.mem_cons_of_mem _ (List.mem_cons_self _ _))
    have : a ∉ b :: l := (List.nodup_cons.1 hn).1
    exact absurd (by rw [ha, hb]; exact List.mem_cons_self _ _) this

theorem discovered_single (net : PetriNet) (m : Marking) (t : Nat) (hw : WellFiled net)
    (ht : t < net._ntransitions)
    (h1 : ∀ u < net._ntransitions, checkPreset net m u = true ↔ u = t) :
    discovered net m = [t] := by
  rw [discovered_eq net m hw]
  apply eq_singleton_of_nodup _ _ ((List.nodup_range _).filter _)
  intro u
  rw [List.mem_filter, List.mem_range]
  constructor
  · rintro ⟨hu, hc⟩
    exact (h1 u hu).1 hc
  · rintro rfl
    exact ⟨ht, (h1 u ht).2 rfl⟩

theorem discovered_none (net : PetriNet) (m : Marking) (hw : WellFiled net)
    (h0 : ∀ u < net._ntransitions, checkPreset net m u = false) :
    discovered net m = [] := by
  rw [discovered_eq net m hw, List.filter_eq_nil_iff]
  intro u hu
  rw [h0 u (List.mem_range.1 hu)]
  exact Bool.false_ne_true

/-- C1: on a reset generator, when exactly one transition `t` passes its
pre-conditions in the marking (the table filing the transitions properly),
`prepare` flags `t` and nothing else stubborn, makes no `evalAndSet` /
`findInteresting` round, leaves the worklist empty and every places-seen flag
clear. -/
theorem prepare_single_enabled (G : ReducingSuccessorGenerator) (fuel : Nat) (s : GenState)
    (m : Marking) (t : Nat) (hr : IsReset G s) (hw : WellFiled G._net)
    (ht : t < G._net._ntransitions)
    (h1 : ∀ u < G._net._ntransitions, checkPreset G._net m u = true ↔ u = t) :
    (∀ u, (prepare G fuel s m).stub u = true ↔ u = t) ∧
      (prepare G fuel s m).queryCalls = s.queryCalls ∧
      (prepare G fuel s m)._unprocessed = [] ∧
      (prepare G fuel s m)._places_seen = List.replicate G._net._nplaces 0 ∧
      (prepare G fuel s m)._ordering = [t] := by
  have hd := discovered_single G._net m t hw ht h1
  obtain ⟨he, hs, ho, hu⟩ := hr
  unfold prepare
  simp only [constructEnabled_eq, ho, List.nil_append, hd, List.length_singleton]
  refine ⟨fun u => ?_, rfl, hu, rfl, rfl⟩
  simp only [GenState.stub, List.headD_cons, hs, getD_set_eq, List.length_replicate,
    getD_replicate_eq]
  constructor
  · intro h
    by_cases htu : t = u
    · exact htu.symm
    · simp [htu] at h
  · rintro rfl
    simp [ht]

/-- Witness for C1: in `chainNet` with marking `[1,0,0,0,0]` only `t0` is
enabled. -/
theorem prepare_single_enabled_witness :
    IsReset chainGen (GenState.init chainGen []) ∧ WellFiled chainGen._net ∧
      (∀ u < chainGen._net._ntransitions,
        checkPreset chainGen._net [1, 0, 0, 0, 0] u = true ↔ u = 0) ∧
      (prepare chainGen 3 (GenState.init chainGen []) [1, 0, 0, 0, 0]).queryCalls = 0 :=
  ⟨by decide, by decide, by decide,
    (prepare_single_enabled chainGen 3 (GenState.init chainGen []) [1, 0, 0, 0, 0] 0
      (by decide) (by decide) (by decide) (by decide)).2.1⟩

/-- C2: on a reset generator, when no transition passes its pre-conditions in
the marking, the first `next` after `prepare` returns false and the output
buffer is returned as it was. -/
theorem next_false_when_none_enabled (G : ReducingSuccessorGenerator) (fuel : Nat)
    (s : GenState) (m write : Marking) (hr : IsReset G s) (hw : WellFiled G._net)
    (h0 : ∀ u < G._net._ntransitions, checkPreset G._net m u = false) :
    (next G (prepare G fuel s m) write).ret = false ∧
      (next G (prepare G fuel s m) write).write = write := by
  have ho := (prepare_same G fuel s m hr).2.1
  rw [discovered_none G._net m hw h0] at ho
  unfold next
  rw [ho]
  exact ⟨rfl, rfl⟩

/-- Witness for C2: the empty marking of `chainNet` is a deadlock. -/
theorem next_false_when_none_enabled_witness :
    IsReset chainGen (GenState.init chainGen []) ∧ WellFiled chainGen._net ∧
      (∀ u < chainGen._net._ntransitions,
        checkPreset chainGen._net [0, 0, 0, 0, 0] u = false) ∧
      (next chainGen (prepare chainGen 3 (GenState.init chainGen []) [0, 0, 0, 0, 0])
        [7, 7, 7, 7, 7]).write = [7, 7, 7, 7, 7] :=
  ⟨by decide, by decide, by decide,
    (next_false_when_none_enabled chainGen 3 (GenState.init chainGen []) [0, 0, 0, 0, 0]
      [7, 7, 7, 7, 7] (by decide) (by decide) (by decide)).2⟩

/-! ### `next` -/

theorem copyMarking_full (n : Nat) (write parent : Marking) (h : write.length = n) :
    copyMarking n write parent = (List.range n).map (mark parent) := by
  simp [copyMarking, List.drop_eq_nil_of_le (le_of_eq h)]

theorem nextLoop_exhausted (G : ReducingSuccessorGenerator) (write : Marking) (ord : List Nat)
    (s : GenState) (h : ord.filter s.stub = []) :
    (nextLoop G write ord s).ret = false ∧ (nextLoop G write ord s).write = write := by
  induction ord generalizing s with
  | nil => exact ⟨rfl, rfl⟩
  | cons t rest ih =>
    have ht : s.stub t = false := by
      cases hst : s.stub t
      · rfl
      · simp [List.filter_cons, hst] at h
    have hrest : rest.filter s.stub = [] := by
      simpa [List.filter_cons, ht] using h
    have hstub : ({ s with _current := t, _ordering := rest } : GenState).stub = s.stub := rfl
    unfold nextLoop
    simp only [hstub, ht, Bool.false_eq_true, if_false]
    exact ih _ (by rw [hstub]; exact hrest)

theorem nextLoop_fires (G : ReducingSuccessorGenerator) (write : Marking) (ord : List Nat)
    (s : GenState) (t : Nat) (rest : List Nat) (h : ord.filter s.stub = t :: rest) :
    (nextLoop G write ord s).ret = true ∧
      (nextLoop G write ord s).write =
        producePostset G._net (consumePreset G._net
          (copyMarking G._net._nplaces write s._parent) t) t ∧
      (nextLoop G write ord s).state._current = t ∧
      (nextLoop G write ord s).state.stub = s.stub ∧
      (nextLoop G write ord s).state._parent = s._parent ∧
      (nextLoop G write ord s).state._ordering.filter s.stub = rest := by
  induction ord generalizing s with
  | nil => simp at h
  | cons u us ih =>
    have hstub : ({ s with _current := u, _ordering := us } : GenState).stub = s.stub := rfl
    unfold nextLoop
    cases hu : s.stub u
    · have hrest : us.filter s.stub = t :: rest := by
        simpa [List.filter_cons, hu] using h
      simp only [hstub, hu, Bool.false_eq_true, if_false]
      have := ih { s with _current := u, _ordering := us } (by rw [hstub]; exact hrest)
      simpa [hstub] using this
    · have hcons : u :: us.filter s.stub = t :: rest := by
        simpa [List.filter_cons, hu] using h
      obtain ⟨rfl, hr⟩ := List.cons.inj hcons
      simp only [hstub, hu, if_true]
      exact ⟨trivial, trivial, trivial, trivial, trivial, hr⟩

theorem nextCalls_spec (G : ReducingSuccessorGenerator) (fired : List Nat) (s : GenState)
    (ws : List Marking) (hf : s._ordering.filter s.stub = fired)
    (hlen : ws.length = fired.length + 1) (hws : ∀ w ∈ ws, w.length = G._net._nplaces) :
    (nextCalls G s ws).map (fun r => r.ret) = List.replicate fired.length true ++ [false] ∧
      ((nextCalls G s ws).map (fun r => r.write)).take fired.length =
        fired.map (fire G._net s._parent) ∧
      ((nextCalls G s ws).map (fun r => r.state._current)).take fired.length = fired ∧
      ((nextCalls G s ws).map (fun r => r.write)).drop fired.length = ws.drop fired.length := by
  induction fired generalizing s ws with
  | nil =>
    match ws, hlen with
    | [w], _ =>
      have h := nextLoop_exhausted G w s._ordering s hf
      simp [nextCalls, next, h.1, h.2]
  | cons t rest ih =>
    match ws, hlen, hws with
    | w :: ws, hlen, hws =>
      have h := nextLoop_fires G w s._ordering s t rest hf
      have hw : w.length = G._net._nplaces := hws w (List.mem_cons_self _ _)
      have hrec := ih (next G s w).state ws
        (by
          have h4 : (next G s w).state.stub = s.stub := h.2.2.2.1
          rw [h4]; exact h.2.2.2.2.2)
        (by simpa using hlen)
        (fun x hx => hws x (List.mem_cons_of_mem _ hx))
      have hp : (next G s w).state._parent = s._parent := h.2.2.2.2.1
      rw [hp] at hrec
      have hret : (next G s w).ret = true := h.1
      have hwr : (next G s w).write = fire G._net s._parent t := by
        have := h.2.1
        rw [copyMarking_full _ _ _ hw] at this
        exact this
      have hcur : (next G s w).state._current = t := h.2.2.1
      simp only [nextCalls, List.map_cons, List.length_cons, List.take_succ_cons,
        List.replicate_succ, List.cons_append, hret, hwr, hcur, hrec.1, hrec.2.1, hrec.2.2.1,
        List.drop_succ_cons, hrec.2.2.2]
      exact ⟨trivial, trivial, trivial, trivial⟩

/-- C3: after `prepare` on a reset generator, the successive calls of `next`
return true once for each transition of the discovery order that is flagged
stubborn, in that order, and then false; the transitions of the discovery order
that are not flagged are not fired; at each true return the buffer holds the
parent marking with the pre-set of the fired transition consumed and its
post-set produced, whatever the buffer held before; the buffer of the final
call is left as it was. -/
theorem next_fires_stubborn_in_order (G : ReducingSuccessorGenerator) (fuel : Nat)
    (s : GenState) (m : Marking) (ws : List Marking) (hr : IsReset G s)
    (hlen : ws.length =
      ((prepare G fuel s m)._ordering.filter (prepare G fuel s m).stub).length + 1)
    (hws : ∀ w ∈ ws, w.length = G._net._nplaces) :
    (nextCalls G (prepare G fuel s m) ws).map (fun r => r.ret) =
        List.replicate
          ((prepare G fuel s m)._ordering.filter (prepare G fuel s m).stub).length true
          ++ [false] ∧
      ((nextCalls G (prepare G fuel s m) ws).map (fun r => r.write)).take
          ((prepare G fuel s m)._ordering.filter (prepare G fuel s m).stub).length =
        ((prepare G fuel s m)._ordering.filter (prepare G fuel s m).stub).map
          (fire G._net m) ∧
      ((nextCalls G (prepare G fuel s m) ws).map (fun r => r.state._current)).take
          ((prepare G fuel s m)._ordering.filter (prepare G fuel s m).stub).length =
        (prepare G fuel s m)._ordering.filter (prepare G fuel s m).stub ∧
      ((nextCalls G (prepare G fuel s m) ws).map (fun r => r.write)).drop
          ((prepare G fuel s m)._ordering.filter (prepare G fuel s m).stub).length =
        ws.drop ((prepare G fuel s m)._ordering.filter (prepare G fuel s m).stub).length := by
  have hp := prepare_same G fuel s m hr
  have h := nextCalls_spec G ((prepare G fuel s m)._ordering.filter (prepare G fuel s m).stub)
    (prepare G fuel s m) ws rfl hlen hws
  rw [hp.2.2] at h
  exact h

/-- Witness for C3: `chainNet` seeded with `t0`, two buffers with stale
content. -/
theorem next_fires_stubborn_in_order_witness :
    IsReset chainGenT0 (GenState.init chainGenT0 []) ∧
      ((nextCalls chainGenT0 (prepare chainGenT0 3 (GenState.init chainGenT0 [])
        [1, 0, 1, 0, 0]) [[9, 9, 9, 9, 9], [7, 7, 7, 7, 7]]).map (fun r => r.write)).take
          ((prepare chainGenT0 3 (GenState.init chainGenT0 [])
            [1, 0, 1, 0, 0])._ordering.filter
            (prepare chainGenT0 3 (GenState.init chainGenT0 []) [1, 0, 1, 0, 0]).stub).length =
        ((prepare chainGenT0 3 (GenState.init chainGenT0 []) [1, 0, 1, 0, 0])._ordering.filter
          (prepare chainGenT0 3 (GenState.init chainGenT0 []) [1, 0, 1, 0, 0]).stub).map
          (fire chainGenT0._net [1, 0, 1, 0, 0]) :=
  ⟨by decide,
    (next_fires_stubborn_in_order chainGenT0 3 (GenState.init chainGenT0 []) [1, 0, 1, 0, 0]
      [[9, 9, 9, 9, 9], [7, 7, 7, 7, 7]] (by decide) (by decide) (by decide)).2.1⟩

/-! ### Places-seen bits -/

theorem and_pow_ne_zero (x k : Nat) : (x &&& 2 ^ k != 0) = x.testBit k := by
  rw [Nat.and_two_pow]
  cases x.testBit k <;> simp

theorem presetOf_eq_register (G : ReducingSuccessorGenerator) (s : GenState) (p : Nat) :
    presetOf G s p = register G 0 s p := by
  have h := and_pow_ne_zero (s.seen p) 0
  simp only [pow_zero] at h
  simp only [presetOf, register, h, neighbours, List.foldl_map, pow_zero]

theorem postsetOf_eq_register (G : ReducingSuccessorGenerator) (s : GenState) (p : Nat) :
    postsetOf G s p = register G 1 s p := by
  have h := and_pow_ne_zero (s.seen p) 1
  simp only [pow_one] at h
  simp only [postsetOf, register, h, neighbours, List.foldl_map, pow_one]

theorem inhibitorPostsetOf_eq_register (G : ReducingSuccessorGenerator) (s : GenState)
    (p : Nat) : inhibitorPostsetOf G s p = register G 2 s p := by
  have h := and_pow_ne_zero (s.seen p) 2
  have h4 : (2 : Nat) ^ 2 = 4 := by norm_num
  rw [h4] at h
  simp only [inhibitorPostsetOf, register, h, neighbours, h4]

theorem neighbours_lt (G : ReducingSuccessorGenerator) (hT : TablesInRange G) (k p u : Nat)
    (hu : u ∈ neighbours G k p) : u < G._net._ntransitions := by
  have htab : ∀ i, i < G._transitions.length → G.tab i < G._net._ntransitions := by
    intro i hi
    rw [ReducingSuccessorGenerator.tab, List.getD_eq_getElem _ _ hi]
    exact hT.1 _ (List.getElem_mem _)
  have hpl : ∀ q, G._places.length ≤ q → G.pl q = default := by
    intro q hq
    exact List.getD_eq_default _ _ hq
  match k, hu with
  | 0, hu =>
    simp only [neighbours, List.mem_map, ReducingSuccessorGenerator.preRange,
      List.mem_range'_1] at hu
    obtain ⟨i, hi, rfl⟩ := hu
    by_cases hp : p < G._places.length
    · exact htab i (by have := (hT.2.2 p hp).2; omega)
    · have h0 := hpl p (by omega)
      rw [h0] at hi
      simp [default] at hi
  | 1, hu =>
    simp only [neighbours, List.mem_map, ReducingSuccessorGenerator.postRange,
      List.mem_range'_1] at hu
    obtain ⟨i, hi, rfl⟩ := hu
    by_cases hp : p + 1 < G._places.length
    · exact htab i (by have := (hT.2.2 (p + 1) hp).1; omega)
    · have h0 := hpl (p + 1) (by omega)
      rw [h0] at hi
      simp [default] at hi
      omega
  | k + 2, hu =>
    simp only [neighbours] at hu
    by_cases hp : p < G._inhibpost.length
    · rw [List.getD_eq_getElem _ _ hp] at hu
      exact hT.2.1 _ (List.getElem_mem _) u hu
    · rw [List.getD_eq_default _ _ (by omega)] at hu
      cases hu

/-! ### `addToStub` and the registrations keep the invariant -/

theorem step_refl (s : GenState) : Step s s :=
  ⟨sameSearch_refl s, fun _ h => h, fun _ h => h, fun _ h => Or.inl h, fun _ h => Or.inl h, rfl⟩

theorem step_trans (a b c : GenState) (h1 : Step a b) (h2 : Step b c) : Step a c := by
  obtain ⟨s1, m1, u1, n1, o1, e1⟩ := h1
  obtain ⟨s2, m2, u2, n2, o2, e2⟩ := h2
  refine ⟨sameSearch_trans _ _ _ s1 s2, fun t h => m2 t (m1 t h), fun t h => u2 t (u1 t h),
    fun t h => ?_, fun t h => ?_, e2.trans e1⟩
  · rcases n2 t h with h | h
    · rcases n1 t h with h | h
      · exact Or.inl h
      · exact Or.inr (u2 t h)
    · exact Or.inr h
  · rcases o2 t h with h | h
    · exact o1 t h
    · right
      cases hat : a.stub t
      · rfl
      · rw [m1 t hat] at h
        cases h

theorem stub_lt (s : GenState) (t : Nat) (h : s.stub t = true) : t < s._stubborn.length := by
  by_contra hlt
  rw [GenState.stub, List.getD_eq_default _ _ (by omega)] at h
  cases h

theorem count_false_set (l : List Bool) (t : Nat) (ht : t < l.length)
    (hf : l.getD t false = false) : (l.set t true).count false + 1 = l.count false := by
  have hget : l[t] = false := by
    rw [List.getD_eq_getElem _ _ ht] at hf
    exact hf
  have hpos : 0 < l.count false := by
    rw [List.count_pos_iff]
    rw [← hget]
    exact List.getElem_mem _
  rw [List.count_set _ _ _ _ ht, hget]
  simp
  omega

theorem stub_push (s : GenState) (t u : Nat) :
    ({ s with _stubborn := s._stubborn.set t true, _unprocessed := s._unprocessed ++ [t] } : GenState).stub u =
      if t = u ∧ t < s._stubborn.length then true else s.stub u := by
  simp only [GenState.stub, getD_set_eq]

theorem addToStub_spec (G : ReducingSuccessorGenerator) (s : GenState) (t : Nat)
    (hg : Good G s) (ht : t < G._net._ntransitions) :
    Good G (addToStub s t) ∧ Step s (addToStub s t) ∧ (addToStub s t).stub t = true ∧
      (addToStub s t)._places_seen = s._places_seen := by
  obtain ⟨hlen, hseen, hnd, hall⟩ := hg
  unfold addToStub
  cases hst : s.stub t
  · simp only [Bool.not_false, if_true]
    have hstub := stub_push s t
    have hmono : ∀ u, s.stub u = true → ({ s with _stubborn := s._stubborn.set t true, _unprocessed := s._unprocessed ++ [t] } : GenState).stub u = true := by
      intro u hu
      rw [hstub]
      split
      · rfl
      · exact hu
    have htt : ({ s with _stubborn := s._stubborn.set t true, _unprocessed := s._unprocessed ++ [t] } : GenState).stub t = true := by
      rw [hstub]
      simp [hlen, ht]
    refine ⟨⟨?_, ?_, ?_, ?_⟩, ⟨⟨rfl, rfl, rfl, rfl⟩, hmono, ?_, ?_, ?_, ?_⟩, htt, trivial⟩
    · simp [hlen]
    · intro k p hb u hu
      exact hmono u (hseen k p hb u hu)
    · refine List.Nodup.append hnd (List.nodup_singleton t) ?_
      intro a ha hat
      rw [List.mem_singleton] at hat
      subst hat
      rw [hall a ha] at hst
      cases hst
    · intro u hu
      rcases List.mem_append.1 hu with h | h
      · exact hmono u (hall u h)
      · rw [List.mem_singleton] at h
        subst h
        exact htt
    · intro u hu
      exact List.mem_append_left _ hu
    · intro u hu
      rw [hstub] at hu
      by_cases h : t = u ∧ t < s._stubborn.length
      · right
        rw [← h.1]
        exact List.mem_append_right _ (List.mem_singleton.2 rfl)
      · left
        simpa [h] using hu
    · intro u hu
      rcases List.mem_append.1 hu with h | h
      · exact Or.inl h
      · rw [List.mem_singleton] at h
        subst h
        exact Or.inr hst
    · have hc := count_false_set s._stubborn t (by omega) hst
      simp only [mu, List.length_append, List.length_singleton]
      omega
  · simp only [Bool.not_true, Bool.false_eq_true, if_false]
    exact ⟨⟨hlen, hseen, hnd, hall⟩, step_refl s, hst, trivial⟩

theorem foldl_addToStub_spec (G : ReducingSuccessorGenerator) (ts : List Nat) (s : GenState)
    (hg : Good G s) (hts : ∀ t ∈ ts, t < G._net._ntransitions) :
    Good G (ts.foldl addToStub s) ∧ Step s (ts.foldl addToStub s) ∧
      (∀ t ∈ ts, (ts.foldl addToStub s).stub t = true) ∧
      (ts.foldl addToStub s)._places_seen = s._places_seen := by
  induction ts generalizing s with
  | nil => exact ⟨hg, step_refl s, fun t h => absurd h (List.not_mem_nil t), rfl⟩
  | cons a ts ih =>
    obtain ⟨g1, s1, t1, p1⟩ := addToStub_spec G s a hg (hts a (List.mem_cons_self _ _))
    obtain ⟨g2, s2, t2, p2⟩ := ih (addToStub s a) g1
      (fun t h => hts t (List.mem_cons_of_mem _ h))
    refine ⟨g2, step_trans _ _ _ s1 s2, ?_, p2.trans p1⟩
    intro t h
    rcases List.mem_cons.1 h with h | h
    · subst h
      exact s2.2.1 _ t1
    · exact t2 t h

theorem foldl_addToStub_seen (ts : List Nat) (s : GenState) (x : List Nat) :
    ts.foldl addToStub { s with _places_seen := x } =
      { ts.foldl addToStub s with _places_seen := x } := by
  induction ts generalizing s with
  | nil => rfl
  | cons a ts ih =>
    have h : addToStub { s with _places_seen := x } a =
        { addToStub s a with _places_seen := x } := by
      unfold addToStub
      have : ({ s with _places_seen := x } : GenState).stub a = s.stub a := rfl
      rw [this]
      split <;> rfl
    rw [List.foldl_cons, List.foldl_cons, h, ih]

theorem register_spec (G : ReducingSuccessorGenerator) (hT : TablesInRange G) (k : Nat)
    (s : GenState) (p : Nat) (hg : Good G s) :
    Good G (register G k s p) ∧ Step s (register G k s p) ∧
      ∀ u ∈ neighbours G k p, (register G k s p).stub u = true := by
  unfold register
  cases hb : (s.seen p).testBit k
  · simp only [Bool.false_eq_true, if_false]
    rw [foldl_addToStub_seen]
    obtain ⟨hq, hstep, hall, hseen⟩ := foldl_addToStub_spec G (neighbours G k p) s hg
      (fun u hu => neighbours_lt G hT k p u hu)
    refine ⟨⟨hq.1, ?_, hq.2.2.1, hq.2.2.2⟩, hstep, hall⟩
    intro k1 p1 hb1 u hu
    have hs : ({ (neighbours G k p).foldl addToStub s with _places_seen := s._places_seen.set p (s.seen p ||| 2 ^ k) } : GenState).seen p1 =
        if p = p1 ∧ p < s._places_seen.length then s.seen p ||| 2 ^ k else s.seen p1 := by
      simp only [GenState.seen, getD_set_eq]
    rw [hs] at hb1
    show ((neighbours G k p).foldl addToStub s).stub u = true
    by_cases hpp : p = p1 ∧ p < s._places_seen.length
    · rw [if_pos hpp, Nat.testBit_or, Nat.testBit_two_pow] at hb1
      obtain ⟨rfl, _⟩ := hpp
      by_cases hkk : k = k1
      · subst hkk
        exact hall u hu
      · simp only [hkk, decide_False, Bool.or_false] at hb1
        exact hstep.2.1 u (hg.2.1 k1 p hb1 u hu)
    · rw [if_neg hpp] at hb1
      exact hstep.2.1 u (hg.2.1 k1 p1 hb1 u hu)
  · simp only [if_true]
    exact ⟨hg, step_refl s, hg.2.1 k p hb⟩

/-! ### The closure loop -/

theorem presetOf_spec (G : ReducingSuccessorGenerator) (hT : TablesInRange G) (s : GenState)
    (p : Nat) (hg : Good G s) :
    Good G (presetOf G s p) ∧ Step s (presetOf G s p) ∧
      ∀ u ∈ neighbours G 0 p, (presetOf G s p).stub u = true := by
  rw [presetOf_eq_register]
  exact register_spec G hT 0 s p hg

theorem postsetOf_spec (G : ReducingSuccessorGenerator) (hT : TablesInRange G) (s : GenState)
    (p : Nat) (hg : Good G s) :
    Good G (postsetOf G s p) ∧ Step s (postsetOf G s p) ∧
      ∀ u ∈ neighbours G 1 p, (postsetOf G s p).stub u = true := by
  rw [postsetOf_eq_register]
  exact register_spec G hT 1 s p hg

theorem inhibitorPostsetOf_spec (G : ReducingSuccessorGenerator) (hT : TablesInRange G)
    (s : GenState) (p : Nat) (hg : Good G s) :
    Good G (inhibitorPostsetOf G s p) ∧ Step s (inhibitorPostsetOf G s p) ∧
      ∀ u ∈ neighbours G 2 p, (inhibitorPostsetOf G s p).stub u = true := by
  rw [inhibitorPostsetOf_eq_register]
  exact register_spec G hT 2 s p hg

theorem foldl_postset_spec (G : ReducingSuccessorGenerator) (hT : TablesInRange G)
    (arcs : List Nat) (s : GenState) (hg : Good G s) :
    Good G (arcs.foldl (fun s i =>
        if (G._net.inv i).direction > 0 then postsetOf G s (G._net.inv i).place else s) s) ∧
      Step s (arcs.foldl (fun s i =>
        if (G._net.inv i).direction > 0 then postsetOf G s (G._net.inv i).place else s) s) ∧
      ∀ i ∈ arcs, 0 < (G._net.inv i).direction →
        ∀ u ∈ neighbours G 1 (G._net.inv i).place,
          (arcs.foldl (fun s i =>
            if (G._net.inv i).direction > 0 then postsetOf G s (G._net.inv i).place else s)
            s).stub u = true := by
  induction arcs generalizing s with
  | nil => exact ⟨hg, step_refl s, fun i h => absurd h (List.not_mem_nil i)⟩
  | cons a arcs ih =>
    rw [List.foldl_cons]
    by_cases hd : (G._net.inv a).direction > 0
    · rw [if_pos hd]
      obtain ⟨g1, s1, t1⟩ := postsetOf_spec G hT s (G._net.inv a).place hg
      obtain ⟨g2, s2, t2⟩ := ih (postsetOf G s (G._net.inv a).place) g1
      refine ⟨g2, step_trans _ _ _ s1 s2, ?_⟩
      intro i hi hdi u hu
      rcases List.mem_cons.1 hi with h | h
      · subst h
        exact s2.2.1 u (t1 u hu)
      · exact t2 i h hdi u hu
    · rw [if_neg hd]
      obtain ⟨g2, s2, t2⟩ := ih s hg
      refine ⟨g2, s2, ?_⟩
      intro i hi hdi u hu
      rcases List.mem_cons.1 hi with h | h
      · subst h
        exact absurd hdi hd
      · exact t2 i h hdi u hu

theorem foldl_inhib_spec (G : ReducingSuccessorGenerator) (hT : TablesInRange G)
    (l : List Nat) (p : Nat) (s : GenState) (hg : Good G s) :
    Good G (l.foldl (fun s _ => inhibitorPostsetOf G s p) s) ∧
      Step s (l.foldl (fun s _ => inhibitorPostsetOf G s p) s) ∧
      (l ≠ [] → ∀ u ∈ neighbours G 2 p,
        (l.foldl (fun s _ => inhibitorPostsetOf G s p) s).stub u = true) := by
  induction l generalizing s with
  | nil => exact ⟨hg, step_refl s, fun h => absurd rfl h⟩
  | cons a l ih =>
    rw [List.foldl_cons]
    obtain ⟨g1, s1, t1⟩ := inhibitorPostsetOf_spec G hT s p hg
    obtain ⟨g2, s2, _⟩ := ih (inhibitorPostsetOf G s p) g1
    exact ⟨g2, step_trans _ _ _ s1 s2, fun _ u hu => s2.2.1 u (t1 u hu)⟩

theorem processEnabled_spec (G : ReducingSuccessorGenerator) (hT : TablesInRange G)
    (s : GenState) (tr : Nat) (hg : Good G s) :
    Good G (processEnabled G s tr) ∧ Step s (processEnabled G s tr) ∧
      EnabledDone G (processEnabled G s tr) tr := by
  obtain ⟨g1, s1, t1⟩ := foldl_postset_spec G hT (G._net.inputArcs tr) s hg
  unfold processEnabled
  simp only []
  by_cases hc : (G._netContainsInhibitorArcs &&
      decide ((G._net.inv (max (G._net.tr tr).inputs (G._net.tr tr).outputs)).direction < 0))
        = true
  · rw [if_pos hc]
    obtain ⟨g2, s2, t2⟩ := foldl_inhib_spec G hT (G._net.outputArcs tr)
      (G._net.inv (max (G._net.tr tr).inputs (G._net.tr tr).outputs)).place _ g1
    refine ⟨g2, step_trans _ _ _ s1 s2, ?_, ?_⟩
    · intro i hi hd u hu
      exact s2.2.1 u (t1 i hi hd u hu)
    · intro _ _ hne u hu
      exact t2 hne u hu
  · rw [if_neg hc]
    refine ⟨g1, s1, t1, ?_⟩
    intro h1 h2 _ u _
    exact absurd (by simp [h1, h2]) hc

theorem seen_bit0 (x : Nat) : (x &&& 1 != 0) = x.testBit 0 := by
  have h := and_pow_ne_zero x 0
  simpa using h

theorem seen_bit1 (x : Nat) : (x &&& 2 != 0) = x.testBit 1 := by
  have h := and_pow_ne_zero x 1
  simpa using h

theorem findCause_cons (G : ReducingSuccessorGenerator) (s : GenState) (a : Nat)
    (arcs : List Nat) (c0 : Cause) :
    findCause G s (a :: arcs) c0 =
      if shortOf G._net s._parent a then
        (if ((s.seen (G._net.inv a).place).testBit 0 || decide (0 < (G._net.inv a).direction)) = true
          then { ok := true, inhib := false, cand := (G._net.inv a).place }
          else findCause G s arcs { ok := false, inhib := false, cand := (G._net.inv a).place })
      else if blockedBy G._net s._parent a then
        (if ((s.seen (G._net.inv a).place).testBit 1 || decide ((G._net.inv a).direction < 0)) = true
          then { ok := true, inhib := true, cand := (G._net.inv a).place }
          else findCause G s arcs { ok := false, inhib := true, cand := (G._net.inv a).place })
      else if c0.ok = true then c0 else findCause G s arcs c0 := by
  rw [findCause]
  simp only [seen_bit0, seen_bit1]
  by_cases hs : shortOf G._net s._parent a
  · have h1 : (decide (mark s._parent (G._net.inv a).place < (G._net.inv a).tokens) &&
        !(G._net.inv a).inhibitor) = true := by
      simp [hs.1, hs.2]
    rw [if_pos hs]
    simp only [h1, if_true]
    cases hok : ((s.seen (G._net.inv a).place).testBit 0 || decide ((G._net.inv a).direction > 0))
    · simp [hok]
    · simp [hok]
  · have h1 : ¬ (decide (mark s._parent (G._net.inv a).place < (G._net.inv a).tokens) &&
        !(G._net.inv a).inhibitor) = true := by
      intro h
      apply hs
      simpa [shortOf] using h
    rw [if_neg hs]
    simp only [h1, if_false]
    by_cases hb : blockedBy G._net s._parent a
    · have h2 : (decide (mark s._parent (G._net.inv a).place ≥ (G._net.inv a).tokens) &&
          (G._net.inv a).inhibitor) = true := by
        simp [hb.1, hb.2]
      rw [if_pos hb]
      simp only [h2, if_true]
      cases hok : ((s.seen (G._net.inv a).place).testBit 1 ||
          decide ((G._net.inv a).direction < 0))
      · simp [hok]
      · simp [hok]
    · have h2 : ¬ (decide (mark s._parent (G._net.inv a).place ≥ (G._net.inv a).tokens) &&
          (G._net.inv a).inhibitor) = true := by
        intro h
        apply hb
        simpa [blockedBy] using h
      rw [if_neg hb]
      simp only [h2, Bool.false_eq_true, if_false]

theorem findCause_spec (G : ReducingSuccessorGenerator) (s : GenState) (arcs : List Nat)
    (c0 : Cause) (h0 : c0.ok = false) :
    ((findCause G s arcs c0).ok = true → ∃ i ∈ arcs,
      (shortOf G._net s._parent i ∧ (findCause G s arcs c0).inhib = false ∧
        (findCause G s arcs c0).cand = (G._net.inv i).place ∧
        ((s.seen (G._net.inv i).place).testBit 0 = true ∨ 0 < (G._net.inv i).direction)) ∨
      (blockedBy G._net s._parent i ∧ (findCause G s arcs c0).inhib = true ∧
        (findCause G s arcs c0).cand = (G._net.inv i).place ∧
        ((s.seen (G._net.inv i).place).testBit 1 = true ∨ (G._net.inv i).direction < 0))) ∧
    ((findCause G s arcs c0).ok = false →
      (findCause G s arcs c0 = c0 ∧
        ∀ i ∈ arcs, ¬ shortOf G._net s._parent i ∧ ¬ blockedBy G._net s._parent i) ∨
      ∃ i ∈ arcs,
        (shortOf G._net s._parent i ∧ (findCause G s arcs c0).inhib = false ∧
          (findCause G s arcs c0).cand = (G._net.inv i).place) ∨
        (blockedBy G._net s._parent i ∧ (findCause G s arcs c0).inhib = true ∧
          (findCause G s arcs c0).cand = (G._net.inv i).place)) := by
  induction arcs generalizing c0 with
  | nil =>
    refine ⟨fun h => ?_, fun _ => Or.inl ⟨rfl, fun i hi => absurd hi (List.not_mem_nil i)⟩⟩
    rw [findCause, h0] at h
    cases h
  | cons a arcs ih =>
    rw [findCause_cons]
    by_cases hs : shortOf G._net s._parent a
    · rw [if_pos hs]
      by_cases hok : ((s.seen (G._net.inv a).place).testBit 0 ||
          decide (0 < (G._net.inv a).direction)) = true
      · rw [if_pos hok]
        refine ⟨fun _ => ⟨a, List.mem_cons_self _ _, Or.inl ⟨hs, rfl, rfl, ?_⟩⟩,
          fun h => by cases h⟩
        simpa using hok
      · rw [if_neg hok]
        obtain ⟨i1, i2⟩ := ih { ok := false, inhib := false, cand := (G._net.inv a).place } rfl
        refine ⟨fun h => ?_, fun h => ?_⟩
        · obtain ⟨i, hi, hc⟩ := i1 h
          exact ⟨i, List.mem_cons_of_mem _ hi, hc⟩
        · rcases i2 h with ⟨he, _⟩ | ⟨i, hi, hc⟩
          · exact Or.inr ⟨a, List.mem_cons_self _ _, Or.inl ⟨hs, by rw [he], by rw [he]⟩⟩
          · exact Or.inr ⟨i, List.mem_cons_of_mem _ hi, hc⟩
    · rw [if_neg hs]
      by_cases hb : blockedBy G._net s._parent a
      · rw [if_pos hb]
        by_cases hok : ((s.seen (G._net.inv a).place).testBit 1 ||
            decide ((G._net.inv a).direction < 0)) = true
        · rw [if_pos hok]
          refine ⟨fun _ => ⟨a, List.mem_cons_self _ _, Or.inr ⟨hb, rfl, rfl, ?_⟩⟩,
            fun h => by cases h⟩
          simpa using hok
        · rw [if_neg hok]
          obtain ⟨i1, i2⟩ := ih { ok := false, inhib := true, cand := (G._net.inv a).place } rfl
          refine ⟨fun h => ?_, fun h => ?_⟩
          · obtain ⟨i, hi, hc⟩ := i1 h
            exact ⟨i, List.mem_cons_of_mem _ hi, hc⟩
          · rcases i2 h with ⟨he, _⟩ | ⟨i, hi, hc⟩
            · exact Or.inr ⟨a, List.mem_cons_self _ _, Or.inr ⟨hb, by rw [he], by rw [he]⟩⟩
            · exact Or.inr ⟨i, List.mem_cons_of_mem _ hi, hc⟩
      · rw [if_neg hb, if_neg (by rw [h0]; exact Bool.false_ne_true)]
        obtain ⟨i1, i2⟩ := ih c0 h0
        refine ⟨fun h => ?_, fun h => ?_⟩
        · obtain ⟨i, hi, hc⟩ := i1 h
          exact ⟨i, List.mem_cons_of_mem _ hi, hc⟩
        · rcases i2 h with ⟨he, hall⟩ | ⟨i, hi, hc⟩
          · refine Or.inl ⟨he, fun i hi => ?_⟩
            rcases List.mem_cons.1 hi with h | h
            · subst h
              exact ⟨hs, hb⟩
            · exact hall i h
          · exact Or.inr ⟨i, List.mem_cons_of_mem _ hi, hc⟩

theorem processDisabled_spec (G : ReducingSuccessorGenerator) (hT : TablesInRange G)
    (s : GenState) (tr : Nat) (hg : Good G s) :
    Good G (processDisabled G s tr) ∧ Step s (processDisabled G s tr) ∧
      DisabledDone G (processDisabled G s tr) tr := by
  obtain ⟨c1, c2⟩ := findCause_spec G s (G._net.inputArcs tr)
    { ok := false, inhib := false, cand := 0 } rfl
  unfold processDisabled
  simp only []
  cases hok : (findCause G s (G._net.inputArcs tr) { ok := false, inhib := false, cand := 0 }).ok
  · simp only [Bool.not_false, if_true]
    cases hin : (findCause G s (G._net.inputArcs tr)
        { ok := false, inhib := false, cand := 0 }).inhib
    · simp only [Bool.not_false, if_true]
      obtain ⟨g1, s1, t1⟩ := presetOf_spec G hT s (findCause G s (G._net.inputArcs tr)
        { ok := false, inhib := false, cand := 0 }).cand hg
      refine ⟨g1, s1, ?_⟩
      unfold DisabledDone
      rw [s1.1.2.2.1]
      rcases c2 hok with ⟨he, hall⟩ | ⟨i, hi, ⟨hs, _, hc⟩ | ⟨_, hb, _⟩⟩
      · right; right
        refine ⟨hall, ?_⟩
        rw [he] at t1 ⊢
        exact t1
      · left
        rw [hc] at t1 ⊢
        exact ⟨i, hi, hs, Or.inr t1⟩
      · rw [hin] at hb
        cases hb
    · simp only [Bool.not_true, Bool.false_eq_true, if_false]
      obtain ⟨g1, s1, t1⟩ := postsetOf_spec G hT s (findCause G s (G._net.inputArcs tr)
        { ok := false, inhib := false, cand := 0 }).cand hg
      refine ⟨g1, s1, ?_⟩
      unfold DisabledDone
      rw [s1.1.2.2.1]
      rcases c2 hok with ⟨he, _⟩ | ⟨i, hi, ⟨_, hb, _⟩ | ⟨hs, _, hc⟩⟩
      · rw [he] at hin
        cases hin
      · rw [hin] at hb
        cases hb
      · right; left
        rw [hc] at t1 ⊢
        exact ⟨i, hi, hs, Or.inr t1⟩
  · simp only [Bool.not_true, Bool.false_eq_true, if_false]
    refine ⟨hg, step_refl s, ?_⟩
    obtain ⟨i, hi, ⟨hs, _, _, hc⟩ | ⟨hs, _, _, hc⟩⟩ := c1 hok
    · left
      refine ⟨i, hi, hs, ?_⟩
      rcases hc with hc | hc
      · exact Or.inr (hg.2.1 0 _ hc)
      · exact Or.inl hc
    · right; left
      refine ⟨i, hi, hs, ?_⟩
      rcases hc with hc | hc
      · exact Or.inr (hg.2.1 1 _ hc)
      · exact Or.inl hc

theorem processTransition_spec (G : ReducingSuccessorGenerator) (hT : TablesInRange G)
    (s : GenState) (tr : Nat) (hg : Good G s) :
    Good G (processTransition G s tr) ∧ Step s (processTransition G s tr) ∧
      Done G (processTransition G s tr) tr := by
  unfold processTransition
  cases hen : s.en tr
  · simp only [Bool.false_eq_true, if_false]
    obtain ⟨g1, s1, t1⟩ := processDisabled_spec G hT s tr hg
    refine ⟨g1, s1, fun h => ?_, fun _ => t1⟩
    rw [GenState.en, s1.1.1, ← GenState.en, hen] at h
    cases h
  · simp only [if_true]
    obtain ⟨g1, s1, t1⟩ := processEnabled_spec G hT s tr hg
    refine ⟨g1, s1, fun _ => t1, fun h => ?_⟩
    rw [GenState.en, s1.1.1, ← GenState.en, hen] at h
    cases h

theorem done_mono (G : ReducingSuccessorGenerator) (s r : GenState) (t : Nat)
    (hstep : Step s r) (hd : Done G s t) : Done G r t := by
  have hen : r.en t = s.en t := by rw [GenState.en, hstep.1.1, ← GenState.en]
  have hm := hstep.2.1
  refine ⟨fun h => ?_, fun h => ?_⟩
  · obtain ⟨e1, e2⟩ := hd.1 (hen ▸ h)
    exact ⟨fun i hi hdi u hu => hm u (e1 i hi hdi u hu),
      fun h1 h2 h3 u hu => hm u (e2 h1 h2 h3 u hu)⟩
  · have := hd.2 (hen ▸ h)
    unfold DisabledDone at this ⊢
    rw [hstep.1.2.2.1]
    rcases this with ⟨i, hi, hs, hc⟩ | ⟨i, hi, hs, hc⟩ | ⟨hall, hc⟩
    · exact Or.inl ⟨i, hi, hs, hc.imp id (fun h u hu => hm u (h u hu))⟩
    · exact Or.inr (Or.inl ⟨i, hi, hs, hc.imp id (fun h u hu => hm u (h u hu))⟩)
    · exact Or.inr (Or.inr ⟨hall, fun u hu => hm u (hc u hu)⟩)

theorem closed_step (G : ReducingSuccessorGenerator) (s r : GenState) (hstep : Step s r)
    (hc : Closed G s) : Closed G r := by
  intro t ht
  rcases hstep.2.2.2.1 t ht with h | h
  · rcases hc t h with h | h
    · exact Or.inl (hstep.2.2.1 t h)
    · exact Or.inr (done_mono G s r t hstep h)
  · exact Or.inl h

theorem closure_nil (G : ReducingSuccessorGenerator) (fuel : Nat) (s : GenState)
    (h : s._unprocessed = []) : closure G fuel s = s ∧ popped G fuel s = [] := by
  cases fuel with
  | zero => exact ⟨rfl, rfl⟩
  | succ fuel =>
    rw [closure, popped]
    simp only [h]
    exact ⟨trivial, trivial⟩

theorem closure_cons (G : ReducingSuccessorGenerator) (fuel : Nat) (s : GenState) (tr : Nat)
    (rest : List Nat) (h : s._unprocessed = tr :: rest) :
    closure G (fuel + 1) s =
        closure G fuel (processTransition G { s with _unprocessed := rest } tr) ∧
      popped G (fuel + 1) s =
        tr :: popped G fuel (processTransition G { s with _unprocessed := rest } tr) := by
  rw [closure, popped]
  simp only [h]
  exact ⟨trivial, trivial⟩

theorem pop_spec (G : ReducingSuccessorGenerator) (hT : TablesInRange G) (s : GenState)
    (tr : Nat) (rest : List Nat) (hu : s._unprocessed = tr :: rest) (hg : Good G s)
    (hc : Closed G s) :
    Good G (processTransition G { s with _unprocessed := rest } tr) ∧
      Closed G (processTransition G { s with _unprocessed := rest } tr) ∧
      mu (processTransition G { s with _unprocessed := rest } tr) + 1 = mu s ∧
      SameSearch s (processTransition G { s with _unprocessed := rest } tr) ∧
      (∀ t, s.stub t = true →
        (processTransition G { s with _unprocessed := rest } tr).stub t = true) ∧
      (∀ t ∈ (processTransition G { s with _unprocessed := rest } tr)._unprocessed,
        t ∈ rest ∨ s.stub t = false) ∧
      s.stub tr = true ∧ tr ∉ rest := by
  obtain ⟨hlen, hseen, hnd, hall⟩ := hg
  rw [hu] at hnd hall
  have hg1 : Good G { s with _unprocessed := rest } :=
    ⟨hlen, hseen, (List.nodup_cons.1 hnd).2, fun t ht => hall t (List.mem_cons_of_mem _ ht)⟩
  obtain ⟨g2, s2, d2⟩ := processTransition_spec G hT { s with _unprocessed := rest } tr hg1
  have hmu : mu ({ s with _unprocessed := rest } : GenState) + 1 = mu s := by
    simp only [mu, hu, List.length_cons]
    omega
  refine ⟨g2, ?_, ?_, s2.1, s2.2.1, s2.2.2.2.2.1, hall tr (List.mem_cons_self _ _),
    (List.nodup_cons.1 hnd).1⟩
  · intro t ht
    rcases s2.2.2.2.1 t ht with h | h
    · rcases hc t h with h1 | h1
      · rw [hu] at h1
        rcases List.mem_cons.1 h1 with h2 | h2
        · subst h2
          exact Or.inr d2
        · exact Or.inl (s2.2.2.1 t h2)
      · exact Or.inr (done_mono G { s with _unprocessed := rest } _ t s2 h1)
    · exact Or.inl h
  · rw [s2.2.2.2.2.2]
    exact hmu

theorem closure_spec (G : ReducingSuccessorGenerator) (hT : TablesInRange G) (fuel : Nat)
    (s : GenState) (hg : Good G s) (hc : Closed G s) (hmu : mu s ≤ fuel) :
    Good G (closure G fuel s) ∧ (closure G fuel s)._unprocessed = [] ∧
      Closed G (closure G fuel s) ∧ SameSearch s (closure G fuel s) ∧
      (∀ t, s.stub t = true → (closure G fuel s).stub t = true) ∧
      (popped G fuel s).Nodup ∧
      (∀ t ∈ popped G fuel s, t ∈ s._unprocessed ∨ s.stub t = false) ∧
      (popped G fuel s).length ≤ mu s ∧
      (∀ t ∈ popped G fuel s, (closure G fuel s).stub t = true) := by
  induction fuel generalizing s with
  | zero =>
    have hnil : s._unprocessed = [] := by
      apply List.eq_nil_of_length_eq_zero
      simp only [mu] at hmu
      omega
    exact ⟨hg, hnil, hc, sameSearch_refl s, fun _ h => h, List.nodup_nil,
      fun t ht => absurd ht (List.not_mem_nil t), Nat.zero_le _,
      fun t ht => absurd ht (List.not_mem_nil t)⟩
  | succ fuel ih =>
    match hu : s._unprocessed with
    | [] =>
      obtain ⟨h1, h2⟩ := closure_nil G (fuel + 1) s hu
      rw [h1, h2]
      exact ⟨hg, hu, hc, sameSearch_refl s, fun _ h => h, List.nodup_nil,
        fun t ht => absurd ht (List.not_mem_nil t), Nat.zero_le _,
        fun t ht => absurd ht (List.not_mem_nil t)⟩
    | tr :: rest =>
      obtain ⟨h1, h2⟩ := closure_cons G fuel s tr rest hu
      obtain ⟨g2, c2, m2, ss2, mono2, un2, htr, hnot⟩ := pop_spec G hT s tr rest hu hg hc
      obtain ⟨g3, e3, c3, ss3, mono3, nd3, or3, len3, st3⟩ :=
        ih (processTransition G { s with _unprocessed := rest } tr) g2 c2 (by omega)
      rw [h1, h2]
      refine ⟨g3, e3, c3, sameSearch_trans _ _ _ ss2 ss3, fun t h => mono3 t (mono2 t h),
        ?_, ?_, ?_, ?_⟩
      · refine List.nodup_cons.2 ⟨fun hmem => ?_, nd3⟩
        rcases or3 tr hmem with h | h
        · rcases un2 tr h with h | h
          · exact hnot h
          · rw [htr] at h
            cases h
        · rw [mono2 tr htr] at h
          cases h
      · intro t ht
        rcases List.mem_cons.1 ht with h | h
        · subst h
          exact Or.inl (List.mem_cons_self _ _)
        · rcases or3 t h with h | h
          · rcases un2 t h with h | h
            · exact Or.inl (List.mem_cons_of_mem _ h)
            · exact Or.inr h
          · right
            cases hst : s.stub t
            · rfl
            · rw [mono2 t hst] at h
              cases h
      · simp only [List.length_cons]
        omega
      · intro t ht
        rcases List.mem_cons.1 ht with h | h
        · subst h
          exact mono3 _ (mono2 _ htr)
        · exact st3 t h

theorem closure_fuel (G : ReducingSuccessorGenerator) (hT : TablesInRange G) (f1 f2 : Nat)
    (s : GenState) (hg : Good G s) (hc : Closed G s) (h1 : mu s ≤ f1) (h2 : mu s ≤ f2) :
    closure G f1 s = closure G f2 s ∧ popped G f1 s = popped G f2 s := by
  induction f1 generalizing f2 s with
  | zero =>
    have hnil : s._unprocessed = [] := by
      apply List.eq_nil_of_length_eq_zero
      simp only [mu] at h1
      omega
    rw [(closure_nil G 0 s hnil).1, (closure_nil G 0 s hnil).2,
      (closure_nil G f2 s hnil).1, (closure_nil G f2 s hnil).2]
    exact ⟨rfl, rfl⟩
  | succ f1 ih =>
    match hu : s._unprocessed with
    | [] =>
      rw [(closure_nil G (f1 + 1) s hu).1, (closure_nil G (f1 + 1) s hu).2,
        (closure_nil G f2 s hu).1, (closure_nil G f2 s hu).2]
      exact ⟨rfl, rfl⟩
    | tr :: rest =>
      obtain ⟨g2, c2, m2, _⟩ := pop_spec G hT s tr rest hu hg hc
      cases f2 with
      | zero =>
        simp only [mu, hu, List.length_cons] at h2
        omega
      | succ f2 =>
        rw [(closure_cons G f1 s tr rest hu).1, (closure_cons G f1 s tr rest hu).2,
          (closure_cons G f2 s tr rest hu).1, (closure_cons G f2 s tr rest hu).2]
        obtain ⟨e1, e2⟩ := ih f2 _ g2 c2 (by omega) (by omega)
        rw [e1, e2]
        exact ⟨rfl, rfl⟩

/-! ### Seeding and the closure path of `prepare` -/

theorem runStubCall_spec (G : ReducingSuccessorGenerator) (hT : TablesInRange G) (s : GenState)
    (c : StubCall) (hg : Good G s) (hc : ∀ t, c = StubCall.addToStub t → t < G._net._ntransitions) :
    Good G (runStubCall G s c) ∧ Step s (runStubCall G s c) := by
  cases c with
  | addToStub t =>
    obtain ⟨h1, h2, _⟩ := addToStub_spec G s t hg (hc t rfl)
    exact ⟨h1, h2⟩
  | presetOf p =>
    obtain ⟨h1, h2, _⟩ := presetOf_spec G hT s p hg
    exact ⟨h1, h2⟩
  | postsetOf p =>
    obtain ⟨h1, h2, _⟩ := postsetOf_spec G hT s p hg
    exact ⟨h1, h2⟩
  | inhibitorPostsetOf p =>
    obtain ⟨h1, h2, _⟩ := inhibitorPostsetOf_spec G hT s p hg
    exact ⟨h1, h2⟩

theorem foldl_runStubCall_spec (G : ReducingSuccessorGenerator) (hT : TablesInRange G)
    (cs : List StubCall) (s : GenState) (hg : Good G s)
    (hc : ∀ c ∈ cs, ∀ t, c = StubCall.addToStub t → t < G._net._ntransitions) :
    Good G (cs.foldl (runStubCall G) s) ∧ Step s (cs.foldl (runStubCall G) s) := by
  induction cs generalizing s with
  | nil => exact ⟨hg, step_refl s⟩
  | cons c cs ih =>
    obtain ⟨g1, s1⟩ := runStubCall_spec G hT s c hg (hc c (List.mem_cons_self _ _))
    obtain ⟨g2, s2⟩ := ih (runStubCall G s c) g1 (fun c h => hc c (List.mem_cons_of_mem _ h))
    exact ⟨g2, step_trans _ _ _ s1 s2⟩

theorem seedQuery_spec (G : ReducingSuccessorGenerator) (hT : TablesInRange G) (s : GenState)
    (q : Condition) (hg : Good G s)
    (hc : ∀ c ∈ q.findInteresting s._parent, ∀ t, c = StubCall.addToStub t →
      t < G._net._ntransitions) :
    Good G (seedQuery G s q) ∧ Step s (seedQuery G s q) := by
  unfold seedQuery
  have hg1 : Good G { s with queryCalls := s.queryCalls + 1 } := hg
  have hs1 : Step s { s with queryCalls := s.queryCalls + 1 } :=
    ⟨⟨rfl, rfl, rfl, rfl⟩, fun _ h => h, fun _ h => h, fun _ h => Or.inl h,
      fun _ h => Or.inl h, rfl⟩
  obtain ⟨g2, s2⟩ := foldl_runStubCall_spec G hT (q.findInteresting s._parent) _ hg1 hc
  exact ⟨g2, step_trans _ _ _ hs1 s2⟩

theorem foldl_seedQuery_spec (G : ReducingSuccessorGenerator) (hT : TablesInRange G)
    (qs : List Condition) (s : GenState) (hg : Good G s)
    (hc : ∀ q ∈ qs, ∀ c ∈ q.findInteresting s._parent, ∀ t, c = StubCall.addToStub t →
      t < G._net._ntransitions) :
    Good G (qs.foldl (seedQuery G) s) ∧ Step s (qs.foldl (seedQuery G) s) := by
  induction qs generalizing s with
  | nil => exact ⟨hg, step_refl s⟩
  | cons q qs ih =>
    obtain ⟨g1, s1⟩ := seedQuery_spec G hT s q hg (hc q (List.mem_cons_self _ _))
    obtain ⟨g2, s2⟩ := ih (seedQuery G s q) g1 (by
      rw [s1.1.2.2.1]
      exact fun q h => hc q (List.mem_cons_of_mem _ h))
    exact ⟨g2, step_trans _ _ _ s1 s2⟩

theorem seeded_spec (G : ReducingSuccessorGenerator) (hT : TablesInRange G) (s : GenState)
    (m : Marking) (hr : IsReset G s) (hseed : SeedsInRange G m) :
    Good G (seeded G s m) ∧ Closed G (seeded G s m) ∧ mu (seeded G s m) = G._net._ntransitions ∧
      (seeded G s m)._ordering = discovered G._net m ∧ (seeded G s m)._parent = m := by
  obtain ⟨he, hs, ho, hu⟩ := hr
  have hs1 : (constructEnabled G { s with _parent := m, _places_seen := List.replicate G._net._nplaces 0 })._stubborn = List.replicate G._net._ntransitions false := by
    rw [constructEnabled_eq]
    exact hs
  have hu1 : (constructEnabled G { s with _parent := m, _places_seen := List.replicate G._net._nplaces 0 })._unprocessed = [] := by
    rw [constructEnabled_eq]
    exact hu
  have hp1 : (constructEnabled G { s with _parent := m, _places_seen := List.replicate G._net._nplaces 0 })._places_seen = List.replicate G._net._nplaces 0 := by
    rw [constructEnabled_eq]
  have hm1 : (constructEnabled G { s with _parent := m, _places_seen := List.replicate G._net._nplaces 0 })._parent = m := by
    rw [constructEnabled_eq]
  have ho1 : (constructEnabled G { s with _parent := m, _places_seen := List.replicate G._net._nplaces 0 })._ordering = discovered G._net m := by
    rw [constructEnabled_eq]
    simp [ho]
  have hstub : ∀ t, (constructEnabled G { s with _parent := m, _places_seen := List.replicate G._net._nplaces 0 }).stub t = false := by
    intro t
    rw [GenState.stub, hs1, getD_replicate_eq]
  have hg : Good G (constructEnabled G { s with _parent := m, _places_seen := List.replicate G._net._nplaces 0 }) := by
    refine ⟨by rw [hs1, List.length_replicate], ?_, by rw [hu1]; exact List.nodup_nil, ?_⟩
    · intro k p hb
      rw [GenState.seen, hp1, getD_replicate_eq, Nat.zero_testBit] at hb
      cases hb
    · intro t ht
      rw [hu1] at ht
      cases ht
  have hc : Closed G (constructEnabled G { s with _parent := m, _places_seen := List.replicate G._net._nplaces 0 }) := by
    intro t ht
    rw [hstub t] at ht
    cases ht
  have hmu : mu (constructEnabled G { s with _parent := m, _places_seen := List.replicate G._net._nplaces 0 }) = G._net._ntransitions := by
    rw [mu, hs1, hu1, List.count_replicate_self]
    rfl
  obtain ⟨g2, s2⟩ := foldl_seedQuery_spec G hT G._queries _ hg (by rw [hm1]; exact hseed)
  refine ⟨g2, closed_step G _ _ s2 hc, ?_, ?_, ?_⟩
  · exact s2.2.2.2.2.2.trans hmu
  · exact s2.1.2.1.trans ho1
  · exact s2.1.2.2.1.trans hm1

theorem prepare_eq_closure (G : ReducingSuccessorGenerator) (fuel : Nat) (s : GenState)
    (m : Marking) (hr : IsReset G s) (h2 : 2 ≤ (discovered G._net m).length) :
    prepare G fuel s m = closure G fuel (seeded G s m) := by
  obtain ⟨_, _, ho, _⟩ := hr
  have ho1 : (constructEnabled G { s with _parent := m, _places_seen := List.replicate G._net._nplaces 0 })._ordering = discovered G._net m := by
    rw [constructEnabled_eq]
    simp [ho]
  unfold prepare seeded
  simp only [ho1]
  rw [if_neg (by rw [beq_iff_eq]; omega), if_neg (by rw [beq_iff_eq]; omega)]

/-! ### `constructPrePost`: the collecting loop -/

theorem length_pushAt (v : List (List Nat)) (p t : Nat) : (pushAt v p t).length = v.length := by
  simp [pushAt]

theorem getD_pushAt (v : List (List Nat)) (p q t : Nat) :
    (pushAt v q t).getD p [] = if q = p ∧ q < v.length then v.getD p [] ++ [t] else v.getD p [] := by
  rw [pushAt, getD_set_eq]
  by_cases h : q = p ∧ q < v.length
  · rw [if_pos h, if_pos h, h.1]
  · rw [if_neg h, if_neg h]

/-- Pushing `t` once for each selected arc. -/
theorem foldl_pushAt (sel : Nat → Bool) (pl : Nat → Nat) (t : Nat) (as : List Nat)
    (v : List (List Nat)) (p : Nat) (hp : p < v.length) :
    (as.foldl (fun v i => if sel i then pushAt v (pl i) t else v) v).length = v.length ∧
    (as.foldl (fun v i => if sel i then pushAt v (pl i) t else v) v).getD p [] =
      v.getD p [] ++ (as.filter fun i => sel i && decide (pl i = p)).map fun _ => t := by
  induction as generalizing v with
  | nil => simp
  | cons a as ih =>
    rw [List.foldl_cons]
    cases hs : sel a
    · simp only [Bool.false_eq_true, if_false]
      obtain ⟨h1, h2⟩ := ih v hp
      refine ⟨h1, ?_⟩
      rw [h2]
      simp [List.filter_cons, hs]
    · simp only [if_true]
      obtain ⟨h1, h2⟩ := ih (pushAt v (pl a) t) (by rw [length_pushAt]; exact hp)
      refine ⟨by rw [h1, length_pushAt], ?_⟩
      rw [h2, getD_pushAt]
      by_cases hq : pl a = p
      · have : pl a < v.length := by rw [hq]; exact hp
        simp [List.filter_cons, hs, hq, hp]
      · simp [List.filter_cons, hs, hq]

theorem collect_inputs_proj (net : PetriNet) (t : Nat) (as : List Nat) (acc : PrePostTmp) :
    (as.foldl (fun (a : PrePostTmp) finv =>
        if (net.inv finv).inhibitor then
          { a with inhibpost := pushAt a.inhibpost (net.inv finv).place t, containsInhibitor := true }
        else { a with second := pushAt a.second (net.inv finv).place t }) acc).first = acc.first ∧
    (as.foldl (fun (a : PrePostTmp) finv =>
        if (net.inv finv).inhibitor then
          { a with inhibpost := pushAt a.inhibpost (net.inv finv).place t, containsInhibitor := true }
        else { a with second := pushAt a.second (net.inv finv).place t }) acc).second =
      as.foldl (fun v i => if (!(net.inv i).inhibitor) then pushAt v (net.inv i).place t else v)
        acc.second ∧
    (as.foldl (fun (a : PrePostTmp) finv =>
        if (net.inv finv).inhibitor then
          { a with inhibpost := pushAt a.inhibpost (net.inv finv).place t, containsInhibitor := true }
        else { a with second := pushAt a.second (net.inv finv).place t }) acc).inhibpost =
      as.foldl (fun v i => if (net.inv i).inhibitor then pushAt v (net.inv i).place t else v)
        acc.inhibpost := by
  induction as generalizing acc with
  | nil => exact ⟨rfl, rfl, rfl⟩
  | cons a as ih =>
    simp only [List.foldl_cons]
    cases hi : (net.inv a).inhibitor
    · simp only [Bool.false_eq_true, if_false, Bool.not_false, if_true]
      exact ih _
    · simp only [if_true, Bool.not_true, Bool.false_eq_true, if_false]
      exact ih _

theorem collect_outputs_proj (net : PetriNet) (t : Nat) (as : List Nat) (acc : PrePostTmp) :
    (as.foldl (fun (a : PrePostTmp) finv =>
        { a with first := pushAt a.first (net.inv finv).place t }) acc).first =
      as.foldl (fun v i => if true then pushAt v (net.inv i).place t else v) acc.first ∧
    (as.foldl (fun (a : PrePostTmp) finv =>
        { a with first := pushAt a.first (net.inv finv).place t }) acc).second = acc.second ∧
    (as.foldl (fun (a : PrePostTmp) finv =>
        { a with first := pushAt a.first (net.inv finv).place t }) acc).inhibpost =
      acc.inhibpost := by
  induction as generalizing acc with
  | nil => exact ⟨rfl, rfl, rfl⟩
  | cons a as ih =>
    simp only [List.foldl_cons, if_true]
    have := ih { acc with first := pushAt acc.first (net.inv a).place t }
    simp only [if_true] at this
    exact this

theorem collectTransition_spec (net : PetriNet) (acc : PrePostTmp) (t p : Nat)
    (h1 : p < acc.first.length) (h2 : p < acc.second.length) (h3 : p < acc.inhibpost.length) :
    (collectTransition net acc t).first.length = acc.first.length ∧
    (collectTransition net acc t).second.length = acc.second.length ∧
    (collectTransition net acc t).inhibpost.length = acc.inhibpost.length ∧
    (collectTransition net acc t).first.getD p [] = acc.first.getD p [] ++
      ((net.outputArcs t).filter fun i => true && decide ((net.inv i).place = p)).map
        (fun _ => t) ∧
    (collectTransition net acc t).second.getD p [] = acc.second.getD p [] ++
      ((net.inputArcs t).filter fun i =>
        (!(net.inv i).inhibitor) && decide ((net.inv i).place = p)).map (fun _ => t) ∧
    (collectTransition net acc t).inhibpost.getD p [] = acc.inhibpost.getD p [] ++
      ((net.inputArcs t).filter fun i =>
        (net.inv i).inhibitor && decide ((net.inv i).place = p)).map (fun _ => t) := by
  unfold collectTransition
  simp only []
  obtain ⟨a1, a2, a3⟩ := collect_inputs_proj net t (net.inputArcs t) acc
  obtain ⟨b1, b2, b3⟩ := collect_outputs_proj net t (net.outputArcs t)
    ((net.inputArcs t).foldl (fun (a : PrePostTmp) finv =>
        if (net.inv finv).inhibitor then
          { a with inhibpost := pushAt a.inhibpost (net.inv finv).place t, containsInhibitor := true }
        else { a with second := pushAt a.second (net.inv finv).place t }) acc)
  rw [b1, b2, b3, a1, a2, a3]
  obtain ⟨c1, c2⟩ := foldl_pushAt (fun _ => true) (fun i => (net.inv i).place) t
    (net.outputArcs t) acc.first p h1
  obtain ⟨d1, d2⟩ := foldl_pushAt (fun i => !(net.inv i).inhibitor) (fun i => (net.inv i).place) t
    (net.inputArcs t) acc.second p h2
  obtain ⟨e1, e2⟩ := foldl_pushAt (fun i => (net.inv i).inhibitor) (fun i => (net.inv i).place) t
    (net.inputArcs t) acc.inhibpost p h3
  exact ⟨c1, d1, e1, c2, d2, e2⟩

theorem foldl_collectTransition_spec (net : PetriNet) (ts : List Nat) (acc : PrePostTmp)
    (p : Nat) (h1 : p < acc.first.length) (h2 : p < acc.second.length)
    (h3 : p < acc.inhibpost.length) :
    (ts.foldl (collectTransition net) acc).first.length = acc.first.length ∧
    (ts.foldl (collectTransition net) acc).second.length = acc.second.length ∧
    (ts.foldl (collectTransition net) acc).inhibpost.length = acc.inhibpost.length ∧
    (ts.foldl (collectTransition net) acc).first.getD p [] = acc.first.getD p [] ++
      ts.flatMap (fun t => ((net.outputArcs t).filter fun i =>
        true && decide ((net.inv i).place = p)).map (fun _ => t)) ∧
    (ts.foldl (collectTransition net) acc).second.getD p [] = acc.second.getD p [] ++
      ts.flatMap (fun t => ((net.inputArcs t).filter fun i =>
        (!(net.inv i).inhibitor) && decide ((net.inv i).place = p)).map (fun _ => t)) ∧
    (ts.foldl (collectTransition net) acc).inhibpost.getD p [] = acc.inhibpost.getD p [] ++
      ts.flatMap (fun t => ((net.inputArcs t).filter fun i =>
        (net.inv i).inhibitor && decide ((net.inv i).place = p)).map (fun _ => t)) := by
  induction ts generalizing acc with
  | nil => simp
  | cons t ts ih =>
    obtain ⟨a1, a2, a3, a4, a5, a6⟩ := collectTransition_spec net acc t p h1 h2 h3
    obtain ⟨b1, b2, b3, b4, b5, b6⟩ := ih (collectTransition net acc t)
      (by rw [a1]; exact h1) (by rw [a2]; exact h2) (by rw [a3]; exact h3)
    rw [List.foldl_cons, b1, b2, b3, b4, b5, b6, a1, a2, a3, a4, a5, a6]
    simp only [List.flatMap_cons, List.append_assoc]
    exact ⟨trivial, trivial, trivial, trivial, trivial, trivial⟩

theorem collectPrePost_spec (net : PetriNet) (flag : Bool) (p : Nat) (hp : p < net._nplaces) :
    (collectPrePost net flag).first.getD p [] = producersOf net p ∧
    (collectPrePost net flag).second.getD p [] = consumersOf net p ∧
    (collectPrePost net flag).inhibpost.getD p [] = inhibitedBy net p ∧
    (collectPrePost net flag).inhibpost.length = net._nplaces := by
  obtain ⟨_, _, b3, b4, b5, b6⟩ := foldl_collectTransition_spec net
    (List.range net._ntransitions)
    { first := List.replicate net._nplaces [], second := List.replicate net._nplaces [],
      inhibpost := List.replicate net._nplaces [], containsInhibitor := flag } p
    (by simp [hp]) (by simp [hp]) (by simp [hp])
  unfold collectPrePost producersOf consumersOf inhibitedBy
  rw [b4, b5, b6, b3]
  simp [getD_replicate_eq]

/-! ### `constructPrePost`: the flattening loop -/

theorem slice_append_left (l r : List Nat) (a b : Nat) (hb : b ≤ l.length) :
    slice (l ++ r) a b = slice l a b := by
  unfold slice
  apply List.map_congr_left
  intro i hi
  rw [List.mem_range'_1] at hi
  rw [List.getD_eq_getElem?_getD, List.getD_eq_getElem?_getD,
    List.getElem?_append_left (by omega)]

theorem slice_append_right (l r : List Nat) :
    slice (l ++ r) l.length (l.length + r.length) = r := by
  unfold slice
  apply List.ext_getElem
  · simp
  · intro i h1 h2
    simp only [List.getElem_map, List.getElem_range', Nat.one_mul]
    rw [List.getD_eq_getElem?_getD, List.getElem?_append_right (by omega)]
    simp [List.getElem?_eq_getElem h2]

theorem length_sortIds (l : List Nat) : (sortIds l).length = l.length := by
  unfold sortIds
  exact List.length_insertionSort _ l

theorem mem_sortIds (l : List Nat) (u : Nat) : u ∈ sortIds l ↔ u ∈ l := by
  unfold sortIds
  exact (List.perm_insertionSort _ l).mem_iff

theorem getD_append_of_lt {α : Type} (l r : List α) (i : Nat) (d : α) (h : i < l.length) :
    (l ++ r).getD i d = l.getD i d := by
  rw [List.getD_eq_getElem?_getD, List.getD_eq_getElem?_getD, List.getElem?_append_left h]

theorem getD_append_last {α : Type} (l : List α) (a d : α) :
    (l ++ [a]).getD l.length d = a := by
  rw [List.getD_eq_getElem?_getD, List.getElem?_append_right (le_refl _)]
  simp

theorem flattenPlace_inv (tmp : PrePostTmp) (acc : FlattenAcc) (h : FlatInv tmp acc) :
    FlatInv tmp (flattenPlace tmp acc acc.places.length) ∧
      (flattenPlace tmp acc acc.places.length).places.length = acc.places.length + 1 := by
  obtain ⟨hoff, hbnd, hsl⟩ := h
  unfold flattenPlace
  simp only []
  refine ⟨⟨?_, ?_, ?_⟩, by simp⟩
  · simp only [List.length_append, hoff]
  · intro e he
    simp only [List.length_append]
    rcases List.mem_append.1 he with h1 | h1
    · have := hbnd e h1
      omega
    · rw [List.mem_singleton] at h1
      subst h1
      simp only []
      omega
  · intro p hp
    simp only [List.length_append, List.length_singleton] at hp
    by_cases hpk : p < acc.places.length
    · obtain ⟨s1, s2, s3⟩ := hsl p hpk
      have hget : (acc.places ++ [({ pre := acc.offset, post := acc.offset + (sortIds (tmp.first.getD acc.places.length [])).length } : place_t)]).getD p default = acc.places.getD p default :=
        getD_append_of_lt _ _ _ _ hpk
      have hnext : nextPre (acc.places ++ [({ pre := acc.offset, post := acc.offset + (sortIds (tmp.first.getD acc.places.length [])).length } : place_t)]) (acc.offset + (sortIds (tmp.first.getD acc.places.length [])).length + (sortIds (tmp.second.getD acc.places.length [])).length) p = nextPre acc.places acc.offset p := by
        unfold nextPre
        simp only [List.length_append, List.length_singleton]
        rw [if_pos (by omega)]
        by_cases hp1 : p + 1 < acc.places.length
        · rw [if_pos hp1, getD_append_of_lt _ _ _ _ hp1]
        · have : p + 1 = acc.places.length := by omega
          rw [if_neg hp1, this, getD_append_last]
      have hb := hbnd _ (by
        rw [List.getD_eq_getElem _ _ hpk]
        exact List.getElem_mem _ : acc.places.getD p default ∈ acc.places)
      rw [hget, hnext]
      refine ⟨?_, ?_, ?_⟩
      · rw [slice_append_left _ _ _ _ (by simp only [List.length_append]; omega),
          slice_append_left _ _ _ _ hb.2]
        exact s1
      · rw [slice_append_left _ _ _ _ (by simp only [List.length_append]; omega),
          slice_append_left _ _ _ _ s3]
        exact s2
      · simp only [List.length_append]
        omega
    · have hpe : p = acc.places.length := by omega
      subst hpe
      have hnext : nextPre (acc.places ++ [({ pre := acc.offset, post := acc.offset + (sortIds (tmp.first.getD acc.places.length [])).length } : place_t)]) (acc.offset + (sortIds (tmp.first.getD acc.places.length [])).length + (sortIds (tmp.second.getD acc.places.length [])).length) acc.places.length = acc.offset + (sortIds (tmp.first.getD acc.places.length [])).length + (sortIds (tmp.second.getD acc.places.length [])).length := by
        unfold nextPre
        simp only [List.length_append, List.length_singleton]
        rw [if_neg (by omega)]
      rw [getD_append_last, hnext]
      simp only []
      refine ⟨?_, ?_, ?_⟩
      · rw [slice_append_left _ _ _ _ (by simp only [List.length_append]; omega), hoff]
        exact slice_append_right _ _
      · have hl : acc.offset + (sortIds (tmp.first.getD acc.places.length [])).length = (acc.transitions ++ sortIds (tmp.first.getD acc.places.length [])).length := by
          simp only [List.length_append, hoff]
        rw [hl]
        exact slice_append_right _ _
      · simp only [List.length_append]
        omega

theorem foldl_flattenPlace_inv (tmp : PrePostTmp) (k : Nat) :
    FlatInv tmp ((List.range k).foldl (flattenPlace tmp)
        { places := [], transitions := [], offset := 0 }) ∧
      ((List.range k).foldl (flattenPlace tmp)
        { places := [], transitions := [], offset := 0 }).places.length = k := by
  induction k with
  | zero =>
    refine ⟨⟨rfl, fun e he => absurd he (List.not_mem_nil e), fun p hp => ?_⟩, rfl⟩
    simp at hp
  | succ k ih =>
    rw [List.range_succ, List.foldl_append, List.foldl_cons, List.foldl_nil]
    obtain ⟨h1, h2⟩ := ih
    have := flattenPlace_inv tmp _ h1
    rw [h2] at this
    exact this

/-! ### The constructed tables -/

theorem mem_producersOf (net : PetriNet) (p u : Nat) :
    u ∈ producersOf net p ↔
      u < net._ntransitions ∧ ∃ i ∈ net.outputArcs u, (net.inv i).place = p := by
  simp only [producersOf, List.mem_flatMap, List.mem_range, List.mem_map, List.mem_filter,
    Bool.true_and, decide_eq_true_eq]
  constructor
  · rintro ⟨t, ht, i, hi, rfl⟩
    exact ⟨ht, i, hi.1, hi.2⟩
  · rintro ⟨hu, i, hi, hp⟩
    exact ⟨u, hu, i, ⟨hi, hp⟩, rfl⟩

theorem mem_consumersOf (net : PetriNet) (p u : Nat) :
    u ∈ consumersOf net p ↔
      u < net._ntransitions ∧
        ∃ i ∈ net.inputArcs u, (net.inv i).inhibitor = false ∧ (net.inv i).place = p := by
  simp only [consumersOf, List.mem_flatMap, List.mem_range, List.mem_map, List.mem_filter,
    Bool.and_eq_true, Bool.not_eq_true', decide_eq_true_eq]
  constructor
  · rintro ⟨t, ht, i, hi, rfl⟩
    exact ⟨ht, i, hi.1, hi.2⟩
  · rintro ⟨hu, i, hi, hp⟩
    exact ⟨u, hu, i, ⟨hi, hp⟩, rfl⟩

theorem mem_inhibitedBy (net : PetriNet) (p u : Nat) :
    u ∈ inhibitedBy net p ↔
      u < net._ntransitions ∧
        ∃ i ∈ net.inputArcs u, (net.inv i).inhibitor = true ∧ (net.inv i).place = p := by
  simp only [inhibitedBy, List.mem_flatMap, List.mem_range, List.mem_map, List.mem_filter,
    Bool.and_eq_true, decide_eq_true_eq]
  constructor
  · rintro ⟨t, ht, i, hi, rfl⟩
    exact ⟨ht, i, hi.1, hi.2⟩
  · rintro ⟨hu, i, hi, hp⟩
    exact ⟨u, hu, i, ⟨hi, hp⟩, rfl⟩

theorem length_foldl_pushAt (sel : Nat → Bool) (pl : Nat → Nat) (t : Nat) (as : List Nat)
    (v : List (List Nat)) :
    (as.foldl (fun v i => if sel i then pushAt v (pl i) t else v) v).length = v.length := by
  induction as generalizing v with
  | nil => rfl
  | cons a as ih =>
    rw [List.foldl_cons, ih]
    split
    · exact length_pushAt _ _ _
    · rfl

theorem length_collectTransition (net : PetriNet) (acc : PrePostTmp) (t : Nat) :
    (collectTransition net acc t).first.length = acc.first.length ∧
      (collectTransition net acc t).second.length = acc.second.length ∧
      (collectTransition net acc t).inhibpost.length = acc.inhibpost.length := by
  unfold collectTransition
  simp only []
  obtain ⟨a1, a2, a3⟩ := collect_inputs_proj net t (net.inputArcs t) acc
  obtain ⟨b1, b2, b3⟩ := collect_outputs_proj net t (net.outputArcs t)
    ((net.inputArcs t).foldl (fun (a : PrePostTmp) finv =>
        if (net.inv finv).inhibitor then
          { a with inhibpost := pushAt a.inhibpost (net.inv finv).place t, containsInhibitor := true }
        else { a with second := pushAt a.second (net.inv finv).place t }) acc)
  rw [b1, b2, b3, a1, a2, a3]
  exact ⟨length_foldl_pushAt _ _ _ _ _, length_foldl_pushAt _ _ _ _ _,
    length_foldl_pushAt _ _ _ _ _⟩

theorem length_collectPrePost (net : PetriNet) (flag : Bool) :
    (collectPrePost net flag).first.length = net._nplaces ∧
      (collectPrePost net flag).second.length = net._nplaces ∧
      (collectPrePost net flag).inhibpost.length = net._nplaces := by
  unfold collectPrePost
  have h : ∀ (ts : List Nat) (acc : PrePostTmp),
      (ts.foldl (collectTransition net) acc).first.length = acc.first.length ∧
      (ts.foldl (collectTransition net) acc).second.length = acc.second.length ∧
      (ts.foldl (collectTransition net) acc).inhibpost.length = acc.inhibpost.length := by
    intro ts
    induction ts with
    | nil => intro acc; exact ⟨rfl, rfl, rfl⟩
    | cons t ts ih =>
      intro acc
      obtain ⟨a1, a2, a3⟩ := length_collectTransition net acc t
      obtain ⟨b1, b2, b3⟩ := ih (collectTransition net acc t)
      rw [List.foldl_cons]
      exact ⟨b1.trans a1, b2.trans a2, b3.trans a3⟩
  obtain ⟨h1, h2, h3⟩ := h (List.range net._ntransitions)
    { first := List.replicate net._nplaces [], second := List.replicate net._nplaces [],
      inhibpost := List.replicate net._nplaces [], containsInhibitor := flag }
  rw [h1, h2, h3]
  simp

theorem collected_lt (net : PetriNet) (flag : Bool) (p u : Nat) :
    (u ∈ (collectPrePost net flag).first.getD p [] → u < net._ntransitions) ∧
      (u ∈ (collectPrePost net flag).second.getD p [] → u < net._ntransitions) ∧
      (u ∈ (collectPrePost net flag).inhibpost.getD p [] → u < net._ntransitions) := by
  obtain ⟨l1, l2, l3⟩ := length_collectPrePost net flag
  by_cases hp : p < net._nplaces
  · obtain ⟨h1, h2, h3, _⟩ := collectPrePost_spec net flag p hp
    rw [h1, h2, h3]
    exact ⟨fun h => ((mem_producersOf net p u).1 h).1, fun h => ((mem_consumersOf net p u).1 h).1,
      fun h => ((mem_inhibitedBy net p u).1 h).1⟩
  · rw [List.getD_eq_default _ _ (by omega), List.getD_eq_default _ _ (by omega),
      List.getD_eq_default _ _ (by omega)]
    exact ⟨fun h => absurd h (List.not_mem_nil u), fun h => absurd h (List.not_mem_nil u),
      fun h => absurd h (List.not_mem_nil u)⟩

theorem flattened_lt (net : PetriNet) (flag : Bool) (ps : List Nat) (acc : FlattenAcc)
    (h : ∀ u ∈ acc.transitions, u < net._ntransitions) :
    ∀ u ∈ (ps.foldl (flattenPlace (collectPrePost net flag)) acc).transitions,
      u < net._ntransitions := by
  induction ps generalizing acc with
  | nil => exact h
  | cons p ps ih =>
    rw [List.foldl_cons]
    apply ih
    intro u hu
    unfold flattenPlace at hu
    simp only [List.mem_append, mem_sortIds] at hu
    rcases hu with (hu | hu) | hu
    · exact h u hu
    · exact (collected_lt net flag p u).1 hu
    · exact (collected_lt net flag p u).2.1 hu

/-- The tables built by the constructor, for every net: they stay in range, and
for each place the pre-range holds its producers, the post-range its consumers
(each sorted), and `_inhibpost` the transitions it inhibits. -/
theorem construct_spec (net : PetriNet) (queries : List Condition) :
    TablesInRange (ReducingSuccessorGenerator.construct net queries) ∧
      ∀ p < net._nplaces,
        neighbours (ReducingSuccessorGenerator.construct net queries) 0 p =
          sortIds (producersOf net p) ∧
        neighbours (ReducingSuccessorGenerator.construct net queries) 1 p =
          sortIds (consumersOf net p) ∧
        neighbours (ReducingSuccessorGenerator.construct net queries) 2 p =
          inhibitedBy net p := by
  obtain ⟨⟨hoff, hbnd, hsl⟩, hlen⟩ := foldl_flattenPlace_inv (collectPrePost net false)
    net._nplaces
  have hlt := flattened_lt net false (List.range net._nplaces)
    { places := [], transitions := [], offset := 0 }
    (fun u hu => absurd hu (List.not_mem_nil u))
  refine ⟨⟨hlt, ?_, ?_⟩, ?_⟩
  · intro l hl u hu
    obtain ⟨p, hp, rfl⟩ := List.getElem_of_mem hl
    have := (collected_lt net false p u).2.2
    apply this
    have hget : (collectPrePost net false).inhibpost.getD p [] =
        (ReducingSuccessorGenerator.construct net queries)._inhibpost[p] :=
      List.getD_eq_getElem _ _ hp
    rw [hget]
    exact hu
  · intro p hp
    have hmem : (ReducingSuccessorGenerator.construct net queries).pl p ∈
        (ReducingSuccessorGenerator.construct net queries)._places := by
      rw [ReducingSuccessorGenerator.pl, List.getD_eq_getElem _ _ hp]
      exact List.getElem_mem _
    have hall : ∀ e ∈ (ReducingSuccessorGenerator.construct net queries)._places,
        e.pre ≤ (ReducingSuccessorGenerator.construct net queries)._transitions.length ∧
        e.post ≤ (ReducingSuccessorGenerator.construct net queries)._transitions.length := by
      intro e he
      simp only [ReducingSuccessorGenerator.construct, flattenPrePost, List.mem_append,
        List.mem_singleton] at he ⊢
      rcases he with h | h
      · exact hbnd e h
      · subst h
        simp only []
        omega
    exact hall _ hmem
  · intro p hp
    obtain ⟨c1, c2, c3, _⟩ := collectPrePost_spec net false p hp
    obtain ⟨s1, s2, _⟩ := hsl p (by omega)
    have hpl : (ReducingSuccessorGenerator.construct net queries).pl p =
        (((List.range net._nplaces).foldl (flattenPlace (collectPrePost net false))
          { places := [], transitions := [], offset := 0 }).places).getD p default := by
      simp only [ReducingSuccessorGenerator.pl, ReducingSuccessorGenerator.construct,
        flattenPrePost]
      exact getD_append_of_lt _ _ _ _ (by omega)
    have hnx : ((ReducingSuccessorGenerator.construct net queries).pl (p + 1)).pre =
        nextPre (((List.range net._nplaces).foldl (flattenPlace (collectPrePost net false))
          { places := [], transitions := [], offset := 0 }).places)
          (((List.range net._nplaces).foldl (flattenPlace (collectPrePost net false))
          { places := [], transitions := [], offset := 0 }).offset) p := by
      simp only [ReducingSuccessorGenerator.pl, ReducingSuccessorGenerator.construct,
        flattenPrePost, nextPre]
      by_cases hp1 : p + 1 < net._nplaces
      · rw [if_pos (by omega), getD_append_of_lt _ _ _ _ (by omega)]
      · have : p + 1 = (((List.range net._nplaces).foldl
            (flattenPlace (collectPrePost net false))
            { places := [], transitions := [], offset := 0 }).places).length := by omega
        rw [if_neg (by omega), this, getD_append_last]
    refine ⟨?_, ?_, ?_⟩
    · show slice _ ((ReducingSuccessorGenerator.construct net queries).pl p).pre
        ((ReducingSuccessorGenerator.construct net queries).pl p).post = _
      rw [hpl, ← c1]
      exact s1
    · show slice _ ((ReducingSuccessorGenerator.construct net queries).pl p).post
        ((ReducingSuccessorGenerator.construct net queries).pl (p + 1)).pre = _
      rw [hnx, hpl, ← c2]
      exact s2
    · show (collectPrePost net false).inhibpost.getD p [] = _
      exact c3

/-! ### The stubborn set after the closure -/

theorem prepare_closure_spec (G : ReducingSuccessorGenerator) (hT : TablesInRange G)
    (fuel : Nat) (s : GenState) (m : Marking) (hr : IsReset G s) (hseed : SeedsInRange G m)
    (hfuel : G._net._ntransitions ≤ fuel) (h2 : 2 ≤ (prepare G fuel s m)._ordering.length) :
    prepare G fuel s m = closure G fuel (seeded G s m) ∧
      (prepare G fuel s m)._unprocessed = [] ∧
      (prepare G fuel s m)._stubborn.length = G._net._ntransitions ∧
      ∀ t, (prepare G fuel s m).stub t = true → Done G (prepare G fuel s m) t := by
  rw [(prepare_same G fuel s m hr).2.1] at h2
  have he := prepare_eq_closure G fuel s m hr h2
  obtain ⟨g1, c1, m1, _⟩ := seeded_spec G hT s m hr hseed
  obtain ⟨g2, e2, c2, _⟩ := closure_spec G hT fuel (seeded G s m) g1 c1 (by omega)
  rw [he]
  refine ⟨rfl, e2, g2.1, fun t ht => ?_⟩
  rcases c2 t ht with h | h
  · rw [e2] at h
    cases h
  · exact h

/-- C4: after `prepare` has run the closure (reset generator, two or more
transitions in the discovery order, queries seeding transition ids), for every
transition `t` that is flagged enabled and stubborn and every input arc of `t`
with `direction > 0`, every transition in the post-range of the arc's place is
stubborn; for a place of the net, these are the transitions with a
non-inhibitor input arc on that place. -/
theorem stubborn_contains_postset_of_enabled (net : PetriNet) (queries : List Condition)
    (G : ReducingSuccessorGenerator) (hG : G = ReducingSuccessorGenerator.construct net queries)
    (fuel : Nat) (s : GenState) (m : Marking) (hr : IsReset G s) (hseed : SeedsInRange G m)
    (hfuel : net._ntransitions ≤ fuel) (h2 : 2 ≤ (prepare G fuel s m)._ordering.length) :
    ∀ t, (prepare G fuel s m).stub t = true → (prepare G fuel s m).en t = true →
      ∀ i ∈ net.inputArcs t, 0 < (net.inv i).direction →
        (∀ j ∈ G.postRange (net.inv i).place, (prepare G fuel s m).stub (G.tab j) = true) ∧
        ((net.inv i).place < net._nplaces → ∀ u < net._ntransitions,
          (∃ k ∈ net.inputArcs u, (net.inv k).inhibitor = false ∧
            (net.inv k).place = (net.inv i).place) →
          (prepare G fuel s m).stub u = true) := by
  obtain ⟨hT, hn⟩ := construct_spec net queries
  rw [← hG] at hT hn
  have hnet : G._net = net := by rw [hG]; rfl
  intro t hst hen i hi hd
  obtain ⟨_, _, _, hdone⟩ := prepare_closure_spec G hT fuel s m hr hseed (by rw [hnet]; exact hfuel) h2
  have h := ((hdone t hst).1 hen).1
  rw [hnet] at h
  have h1 := h i hi hd
  refine ⟨fun j hj => h1 _ (List.mem_map.2 ⟨j, hj, rfl⟩), fun hp u hu hex => ?_⟩
  apply h1
  rw [(hn _ hp).2.1, mem_sortIds, mem_consumersOf]
  exact ⟨hu, hex⟩

/-- Witness for C4: `choiceNet` in the marking `[1,0,0]`, the query seeding `t0`
alone.  After the seeding only `t0` is stubborn; `t0` is enabled, its input arc
on `p0` has direction 1, `t1` has a non-inhibitor input arc on `p0`, and after
`prepare` the conflicting `t1` is stubborn. -/
theorem stubborn_contains_postset_of_enabled_witness :
    IsReset choiceGen (GenState.init choiceGen []) ∧
      2 ≤ (prepare choiceGen 2 (GenState.init choiceGen []) [1, 0, 0])._ordering.length ∧
      (seeded choiceGen (GenState.init choiceGen []) [1, 0, 0])._stubborn = [true, false] ∧
      (prepare choiceGen 2 (GenState.init choiceGen []) [1, 0, 0]).stub 0 = true ∧
      (prepare choiceGen 2 (GenState.init choiceGen []) [1, 0, 0]).en 0 = true ∧
      0 ∈ choiceNet.inputArcs 0 ∧ 0 < (choiceNet.inv 0).direction ∧
      (∃ k ∈ choiceNet.inputArcs 1, (choiceNet.inv k).inhibitor = false ∧
        (choiceNet.inv k).place = (choiceNet.inv 0).place) ∧
      (prepare choiceGen 2 (GenState.init choiceGen []) [1, 0, 0]).stub 1 = true :=
  ⟨by decide, by decide, by decide, by decide, by decide, by decide, by decide,
    ⟨2, by decide, by decide, by decide⟩,
    (stubborn_contains_postset_of_enabled choiceNet [seedT0Query] choiceGen rfl 2
      (GenState.init choiceGen []) [1, 0, 0] (by decide)
      (by
        intro q hq c hc t ht
        simp only [choiceGen, ReducingSuccessorGenerator.construct, List.mem_singleton] at hq
        subst hq
        simp only [seedT0Query, List.mem_singleton] at hc
        subst hc
        cases ht
        decide)
      (by decide) (by decide) 0 (by decide) (by decide) 0 (by decide) (by decide)).2
      (by decide) 1 (by decide) ⟨2, by decide, by decide, by decide⟩⟩

theorem seeds_seedT0Query (m : Marking) : SeedsInRange chainGenT0 m := by
  intro q hq c hc t ht
  simp only [chainGenT0, ReducingSuccessorGenerator.construct, List.mem_singleton] at hq
  subst hq
  simp only [seedT0Query, List.mem_singleton] at hc
  subst hc
  cases ht
  decide

theorem seeds_goalQuery (m : Marking) : SeedsInRange chainGen m := by
  intro q hq c hc t ht
  simp only [chainGen, ReducingSuccessorGenerator.construct, List.mem_singleton] at hq
  subst hq
  simp only [goalQuery, List.mem_singleton] at hc
  subst hc
  cases ht

theorem seeds_inhibQuery (m : Marking) : SeedsInRange inhibGen m := by
  intro q hq c hc t ht
  simp only [inhibGen, ReducingSuccessorGenerator.construct, List.mem_singleton] at hq
  subst hq
  simp only [inhibQuery, List.mem_singleton] at hc
  subst hc
  cases ht

theorem exists_violated (net : PetriNet) (m : Marking) (t : Nat)
    (h : checkPreset net m t = false) :
    ∃ i ∈ net.inputArcs t, shortOf net m i ∨ blockedBy net m i := by
  unfold checkPreset at h
  rw [List.all_eq_false] at h
  obtain ⟨i, hi, hc⟩ := h
  refine ⟨i, hi, ?_⟩
  cases hinh : (net.inv i).inhibitor
  · left
    simp only [hinh, Bool.false_eq_true, if_false, decide_eq_true_eq, not_le] at hc
    exact ⟨hc, hinh⟩
  · right
    simp only [hinh, if_true, decide_eq_true_eq, not_lt] at hc
    exact ⟨hc, hinh⟩

/-- C5, on `chainNet` with marking `[1,0,1,0,0]` and the query seeding the
producers of `p4`: the closure runs (`t0` and `t2` are enabled), `t1` ends
stubborn and not enabled, and its only input arc, arc 2 on `p1`, is violated.
The producer `t0` of `p1` is not stubborn and nothing was registered for `p1`
(its places-seen flag is 0): the arc has `direction > 0`, on which the loop sets
`ok`.  So no violated input arc of `t1` has all the transitions able to satisfy
it in the stubborn set. -/
theorem disabled_cause_counterexample :
    IsReset chainGen (GenState.init chainGen []) ∧ WellFiled chainNet ∧
      TablesInRange chainGen ∧
      2 ≤ (prepare chainGen 3 (GenState.init chainGen []) [1, 0, 1, 0, 0])._ordering.length ∧
      (prepare chainGen 3 (GenState.init chainGen []) [1, 0, 1, 0, 0]).stub 1 = true ∧
      (prepare chainGen 3 (GenState.init chainGen []) [1, 0, 1, 0, 0]).en 1 = false ∧
      chainNet.inputArcs 1 = [2] ∧ (chainNet.inv 2).place = 1 ∧
      (chainNet.inv 2).direction = 1 ∧ shortOf chainNet [1, 0, 1, 0, 0] 2 ∧
      (chainGen.preRange 1).map chainGen.tab = [0] ∧
      (prepare chainGen 3 (GenState.init chainGen []) [1, 0, 1, 0, 0]).seen 1 = 0 ∧
      (prepare chainGen 3 (GenState.init chainGen []) [1, 0, 1, 0, 0]).stub 0 = false ∧
      ¬ ∃ i ∈ chainNet.inputArcs 1,
        (shortOf chainNet [1, 0, 1, 0, 0] i ∧
          ∀ j ∈ chainGen.preRange (chainNet.inv i).place,
            (prepare chainGen 3 (GenState.init chainGen []) [1, 0, 1, 0, 0]).stub
              (chainGen.tab j) = true) ∨
        (blockedBy chainNet [1, 0, 1, 0, 0] i ∧
          ∀ j ∈ chainGen.postRange (chainNet.inv i).place,
            (prepare chainGen 3 (GenState.init chainGen []) [1, 0, 1, 0, 0]).stub
              (chainGen.tab j) = true) := by
  decide

/-- What the disabled branch of the closure loop leaves behind (reset
generator, two or more transitions in the discovery order, properly filed
table): every transition that is stubborn and not enabled has a violated input
arc on which either the loop stopped through the direction test
(`direction > 0` on a non-inhibitor arc, `direction < 0` on an inhibitor arc)
or all transitions able to satisfy the condition are stubborn: the pre-range
of the place for a non-inhibitor arc, its post-range for an inhibitor arc. -/
theorem stubborn_disabled_has_cause (G : ReducingSuccessorGenerator) (hT : TablesInRange G)
    (fuel : Nat) (s : GenState) (m : Marking) (hr : IsReset G s) (hseed : SeedsInRange G m)
    (hw : WellFiled G._net) (hfuel : G._net._ntransitions ≤ fuel)
    (h2 : 2 ≤ (prepare G fuel s m)._ordering.length) :
    ∀ t, (prepare G fuel s m).stub t = true → (prepare G fuel s m).en t = false →
      ∃ i ∈ G._net.inputArcs t,
        (shortOf G._net m i ∧
          (0 < (G._net.inv i).direction ∨
            ∀ j ∈ G.preRange (G._net.inv i).place,
              (prepare G fuel s m).stub (G.tab j) = true)) ∨
        (blockedBy G._net m i ∧
          ((G._net.inv i).direction < 0 ∨
            ∀ j ∈ G.postRange (G._net.inv i).place,
              (prepare G fuel s m).stub (G.tab j) = true)) := by
  intro t hst hen
  obtain ⟨_, _, hlen, hdone⟩ := prepare_closure_spec G hT fuel s m hr hseed hfuel h2
  have hd := (hdone t hst).2 hen
  unfold DisabledDone at hd
  rw [(prepare_same G fuel s m hr).2.2] at hd
  have htn : t < G._net._ntransitions := by
    rw [← hlen]
    exact stub_lt _ t hst
  have hchk : checkPreset G._net m t = false := by
    cases hc : checkPreset G._net m t
    · rfl
    · have := prepare_en_filed G fuel s m hr hw t
      rw [this.2 ⟨htn, hc⟩] at hen
      cases hen
  rcases hd with ⟨i, hi, hs, hc⟩ | ⟨i, hi, hs, hc⟩ | ⟨hall, _⟩
  · exact ⟨i, hi, Or.inl ⟨hs, hc.imp id (fun h j hj => h _ (List.mem_map.2 ⟨j, hj, rfl⟩))⟩⟩
  · exact ⟨i, hi, Or.inr ⟨hs, hc.imp id (fun h j hj => h _ (List.mem_map.2 ⟨j, hj, rfl⟩))⟩⟩
  · obtain ⟨i, hi, hv⟩ := exists_violated G._net m t hchk
    rcases hv with hv | hv
    · exact absurd hv (hall i hi).1
    · exact absurd hv (hall i hi).2

/-- C6, on `inhibNet` (both transitions guarded by an inhibitor arc on `p2`)
with marking `[1,0,0,1,0]`: the closure runs, `t0` ends enabled and stubborn, it
has an inhibitor input arc on `p2`, `t1` is in `_inhibpost[2]`, and `t1` is not
stubborn.  While `t0` is processed the arc table is read at 0 and 1 (its input
arcs) and then twice at 2, the index where the first loop stopped, which is
its output arc on `p1`: the inhibitor-postset bit is set on `p1`, none on
`p2`. -/
theorem inhibitor_guard_counterexample :
    IsReset inhibGen (GenState.init inhibGen []) ∧ WellFiled inhibNet ∧
      TablesInRange inhibGen ∧
      inhibGen._netContainsInhibitorArcs = true ∧
      2 ≤ (prepare inhibGen 2 (GenState.init inhibGen []) [1, 0, 0, 1, 0])._ordering.length ∧
      (prepare inhibGen 2 (GenState.init inhibGen []) [1, 0, 0, 1, 0]).stub 0 = true ∧
      (prepare inhibGen 2 (GenState.init inhibGen []) [1, 0, 0, 1, 0]).en 0 = true ∧
      1 ∈ inhibNet.inputArcs 0 ∧ (inhibNet.inv 1).inhibitor = true ∧
      (inhibNet.inv 1).place = 2 ∧ 1 ∈ inhibGen._inhibpost.getD 2 [] ∧
      (prepare inhibGen 2 (GenState.init inhibGen []) [1, 0, 0, 1, 0]).stub 1 = false ∧
      arcReads inhibGen (prepare inhibGen 2 (GenState.init inhibGen []) [1, 0, 0, 1, 0]) 0 =
        [0, 1, 2, 2] ∧
      (inhibNet.tr 0).outputs = 2 ∧ (inhibNet.inv 2).place = 1 ∧
      (prepare inhibGen 2 (GenState.init inhibGen []) [1, 0, 0, 1, 0]).seen 1 &&& 4 = 4 ∧
      (prepare inhibGen 2 (GenState.init inhibGen []) [1, 0, 0, 1, 0]).seen 2 = 0 := by
  decide

/-- What the inhibitor step of the enabled branch leaves behind: in a net that
contains inhibitor arcs, after `prepare` has run the closure, for every enabled
transition `t` in the stubborn set that has an output arc, if the arc at index
`outputs(t)` has `direction < 0` then every transition in the inhibitor-postset
of that arc's place is stubborn. -/
theorem stubborn_contains_inhibpost_of_first_output (G : ReducingSuccessorGenerator)
    (hT : TablesInRange G) (fuel : Nat) (s : GenState) (m : Marking) (hr : IsReset G s)
    (hseed : SeedsInRange G m) (hfuel : G._net._ntransitions ≤ fuel)
    (h2 : 2 ≤ (prepare G fuel s m)._ordering.length)
    (hinh : G._netContainsInhibitorArcs = true) :
    ∀ t, (prepare G fuel s m).stub t = true → (prepare G fuel s m).en t = true →
      (G._net.tr t).inputs ≤ (G._net.tr t).outputs → G._net.outputArcs t ≠ [] →
      (G._net.inv (G._net.tr t).outputs).direction < 0 →
      ∀ u ∈ G._inhibpost.getD (G._net.inv (G._net.tr t).outputs).place [],
        (prepare G fuel s m).stub u = true := by
  intro t hst hen hio hne hd u hu
  obtain ⟨_, _, _, hdone⟩ := prepare_closure_spec G hT fuel s m hr hseed hfuel h2
  have h := ((hdone t hst).1 hen).2 hinh
  rw [Nat.max_eq_right hio] at h
  exact h hd hne u hu

theorem seeds_fillQuery (m : Marking) : SeedsInRange fillGen m := by
  intro q hq c hc t ht
  simp only [fillGen, ReducingSuccessorGenerator.construct, List.mem_singleton] at hq
  subst hq
  simp only [fillQuery, List.mem_singleton] at hc
  subst hc
  cases ht

/-- The inhibitor step on `fillNet`: the first output arc of `t0` has
direction -1 and fills `p2`, which inhibits `t1`. -/
theorem stubborn_contains_inhibpost_of_first_output_witness :
    TablesInRange fillGen ∧ IsReset fillGen (GenState.init fillGen []) ∧
      fillGen._netContainsInhibitorArcs = true ∧
      (fillGen._net.inv (fillGen._net.tr 0).outputs).direction < 0 ∧
      fillGen._inhibpost.getD (fillGen._net.inv (fillGen._net.tr 0).outputs).place [] = [1] ∧
      ∀ u ∈ fillGen._inhibpost.getD (fillGen._net.inv (fillGen._net.tr 0).outputs).place [],
        (prepare fillGen 2 (GenState.init fillGen []) [1, 0, 0, 1, 0]).stub u = true :=
  ⟨by decide, by decide, by decide, by decide, by decide,
    stubborn_contains_inhibpost_of_first_output fillGen (by decide) 2
      (GenState.init fillGen []) [1, 0, 0, 1, 0] (by decide) (seeds_fillQuery _) (by decide)
      (by decide) (by decide) 0 (by decide) (by decide) (by decide) (by decide) (by decide)⟩

/-- C7: the closure loop of `prepare` terminates, for every net, marking and
seeding of transition ids: run from the seeded state of a reset generator it
ends with an empty worklist within `ntransitions` iterations (more fuel changes
neither the state reached nor the transitions popped), no transition is popped
twice, a popped transition was on the worklist after seeding or had its
stubborn flag clear then, every flag that was set stays set, and `prepare` is
this loop whenever the discovery order has two or more entries. -/
theorem closure_loop_terminates (net : PetriNet) (queries : List Condition)
    (G : ReducingSuccessorGenerator) (hG : G = ReducingSuccessorGenerator.construct net queries)
    (fuel : Nat) (s : GenState) (m : Marking) (hr : IsReset G s) (hseed : SeedsInRange G m)
    (hfuel : net._ntransitions ≤ fuel) :
    (closure G fuel (seeded G s m))._unprocessed = [] ∧
      closure G fuel (seeded G s m) = closure G net._ntransitions (seeded G s m) ∧
      popped G fuel (seeded G s m) = popped G net._ntransitions (seeded G s m) ∧
      (popped G fuel (seeded G s m)).length ≤ net._ntransitions ∧
      (popped G fuel (seeded G s m)).Nodup ∧
      (∀ t ∈ popped G fuel (seeded G s m),
        t ∈ (seeded G s m)._unprocessed ∨ (seeded G s m).stub t = false) ∧
      (∀ t ∈ popped G fuel (seeded G s m), (closure G fuel (seeded G s m)).stub t = true) ∧
      (∀ t, (seeded G s m).stub t = true → (closure G fuel (seeded G s m)).stub t = true) ∧
      (2 ≤ (prepare G fuel s m)._ordering.length →
        prepare G fuel s m = closure G fuel (seeded G s m)) := by
  obtain ⟨hT, _⟩ := construct_spec net queries
  rw [← hG] at hT
  have hnet : G._net = net := by rw [hG]; rfl
  obtain ⟨g1, c1, m1, _⟩ := seeded_spec G hT s m hr hseed
  rw [hnet] at m1
  obtain ⟨_, e2, _, _, mono2, nd2, or2, len2, st2⟩ :=
    closure_spec G hT fuel (seeded G s m) g1 c1 (by omega)
  obtain ⟨f1, f2⟩ := closure_fuel G hT fuel net._ntransitions (seeded G s m) g1 c1 (by omega)
    (by omega)
  refine ⟨e2, f1, f2, by omega, nd2, or2, st2, mono2, fun h2 => ?_⟩
  rw [(prepare_same G fuel s m hr).2.1] at h2
  exact prepare_eq_closure G fuel s m hr h2

/-- Witness for C7 on `chainNet` with the query seeding the producers of
`p4`. -/
theorem closure_loop_terminates_witness :
    IsReset chainGen (GenState.init chainGen []) ∧
      (closure chainGen 5 (seeded chainGen (GenState.init chainGen []) [1, 0, 1, 0, 0]))._unprocessed
        = [] ∧
      popped chainGen 5 (seeded chainGen (GenState.init chainGen []) [1, 0, 1, 0, 0]) = [1] :=
  ⟨by decide,
    (closure_loop_terminates chainNet [goalQuery] chainGen rfl 5 (GenState.init chainGen [])
      [1, 0, 1, 0, 0] (by decide) (seeds_goalQuery _) (by decide)).1,
    by decide⟩

/-! ### Token arithmetic of a firing -/

theorem mark_set (w : Marking) (p q v : Nat) :
    mark (w.set p v) q = if p = q ∧ p < w.length then v else mark w q := by
  simp only [mark, getD_set_eq]

theorem foldl_consume_exact (net : PetriNet) (as : List Nat) (w : Marking)
    (hnd : ((as.filter fun i => !(net.inv i).inhibitor).map fun i => (net.inv i).place).Nodup)
    (henough : ∀ i ∈ as, (net.inv i).inhibitor = false →
      (net.inv i).tokens ≤ mark w (net.inv i).place)
    (hb : ∀ p, mark w p < 4294967296) (p : Nat) :
    mark (as.foldl (fun w finv =>
        if (net.inv finv).inhibitor then w
        else w.set (net.inv finv).place
          ((mark w (net.inv finv).place + 4294967296 - (net.inv finv).tokens % 4294967296)
            % 4294967296)) w) p +
      ((as.filter fun i => (!(net.inv i).inhibitor) && decide ((net.inv i).place = p)).map
        fun i => (net.inv i).tokens).sum = mark w p := by
  induction as generalizing w with
  | nil => simp
  | cons a as ih =>
    rw [List.foldl_cons]
    cases hinh : (net.inv a).inhibitor
    · simp only [Bool.false_eq_true, if_false]
      have hnd1 : (net.inv a).place ∉
            ((as.filter fun i => !(net.inv i).inhibitor).map fun i => (net.inv i).place) ∧
          ((as.filter fun i => !(net.inv i).inhibitor).map fun i => (net.inv i).place).Nodup := by
        simpa [List.filter_cons, hinh] using hnd
      have htok := henough a (List.mem_cons_self _ _) hinh
      have hba := hb (net.inv a).place
      have hv : (mark w (net.inv a).place + 4294967296 - (net.inv a).tokens % 4294967296)
          % 4294967296 = mark w (net.inv a).place - (net.inv a).tokens := by
        omega
      rw [hv]
      have hstep := ih (w.set (net.inv a).place (mark w (net.inv a).place - (net.inv a).tokens))
        hnd1.2
        (by
          intro i hi hii
          rw [mark_set]
          have hne : ¬ ((net.inv a).place = (net.inv i).place ∧ (net.inv a).place < w.length) := by
            rintro ⟨h, _⟩
            apply hnd1.1
            rw [h]
            exact List.mem_map.2 ⟨i, List.mem_filter.2 ⟨hi, by simp [hii]⟩, rfl⟩
          rw [if_neg hne]
          exact henough i (List.mem_cons_of_mem _ hi) hii)
        (by
          intro q
          rw [mark_set]
          split
          · omega
          · exact hb q)
      rw [mark_set] at hstep
      by_cases hp : (net.inv a).place = p
      · simp only [List.filter_cons, hinh, hp, Bool.not_false, Bool.true_and, decide_True,
          if_true, List.map_cons, List.sum_cons]
        rw [hp] at hstep htok
        by_cases hl : p < w.length
        · rw [if_pos ⟨rfl, hl⟩] at hstep
          omega
        · rw [if_neg (by rintro ⟨_, h⟩; exact hl h)] at hstep
          have h0 : mark w p = 0 := List.getD_eq_default _ _ (by omega)
          omega
      · simp only [List.filter_cons, hinh, hp, Bool.not_false, Bool.true_and, decide_False,
          Bool.false_eq_true, if_false]
        rw [if_neg (by rintro ⟨h, _⟩; exact hp h)] at hstep
        exact hstep
    · simp only [if_true]
      have hnd1 : ((as.filter fun i => !(net.inv i).inhibitor).map
          fun i => (net.inv i).place).Nodup := by
        simpa [List.filter_cons, hinh] using hnd
      have hstep := ih w hnd1 (fun i hi => henough i (List.mem_cons_of_mem _ hi)) hb
      simpa [List.filter_cons, hinh] using hstep

theorem consumePreset_exact (net : PetriNet) (m : Marking) (t : Nat)
    (hc : checkPreset net m t = true) (hnp : NoParallelInputs net t)
    (hb : ∀ p, mark m p < 4294967296) (p : Nat) :
    mark (consumePreset net m t) p + demand net t p = mark m p := by
  unfold consumePreset demand
  apply foldl_consume_exact net (net.inputArcs t) m hnp _ hb
  intro i hi hinh
  have := (List.all_eq_true.mp hc) i hi
  simpa [hinh] using this

theorem checkPreset_enough (net : PetriNet) (m : Marking) (t : Nat)
    (hc : checkPreset net m t = true) :
    ∀ i ∈ net.inputArcs t, (net.inv i).inhibitor = false →
      (net.inv i).tokens ≤ mark m (net.inv i).place := by
  intro i hi hinh
  have := (List.all_eq_true.mp hc) i hi
  simpa [hinh] using this

theorem map_mark_range (m : Marking) (n : Nat) (h : m.length = n) :
    (List.range n).map (mark m) = m := by
  apply List.ext_getElem
  · simp [h]
  · intro i h1 h2
    simp only [List.getElem_map, List.getElem_range, mark]
    exact List.getD_eq_getElem _ _ h2

theorem nextLoop_frame (G : ReducingSuccessorGenerator) (write : Marking) (ord : List Nat)
    (s : GenState) :
    (nextLoop G write ord s).state._parent = s._parent ∧
      (∀ t ∈ (nextLoop G write ord s).state._ordering, t ∈ ord) ∧
      ((nextLoop G write ord s).ret = true →
        (nextLoop G write ord s).state._current ∈ ord ∧
        (nextLoop G write ord s).write =
          producePostset G._net (consumePreset G._net
            (copyMarking G._net._nplaces write s._parent)
            (nextLoop G write ord s).state._current) (nextLoop G write ord s).state._current) := by
  induction ord generalizing s with
  | nil =>
    refine ⟨rfl, fun t ht => ?_, fun h => ?_⟩
    · simp [nextLoop, reset] at ht
    · simp [nextLoop] at h
  | cons u us ih =>
    have hstub : ({ s with _current := u, _ordering := us } : GenState).stub = s.stub := rfl
    unfold nextLoop
    cases hu : s.stub u
    · simp only [hstub, hu, Bool.false_eq_true, if_false]
      obtain ⟨h1, h2, h3⟩ := ih { s with _current := u, _ordering := us }
      refine ⟨h1, fun t ht => List.mem_cons_of_mem _ (h2 t ht), fun h => ?_⟩
      obtain ⟨h4, h5⟩ := h3 h
      exact ⟨List.mem_cons_of_mem _ h4, h5⟩
    · simp only [hstub, hu, if_true]
      exact ⟨trivial, fun t ht => List.mem_cons_of_mem _ ht,
        fun _ => ⟨List.mem_cons_self _ _, trivial⟩⟩

theorem nextCalls_fired (G : ReducingSuccessorGenerator) (ws : List Marking) (s : GenState)
    (hws : ∀ w ∈ ws, w.length = G._net._nplaces) :
    ∀ res ∈ nextCalls G s ws, res.ret = true →
      res.state._current ∈ s._ordering ∧
      res.write = fire G._net s._parent res.state._current := by
  induction ws generalizing s with
  | nil =>
    intro res hres
    cases hres
  | cons w ws ih =>
    intro res hres hret
    obtain ⟨h1, h2, h3⟩ := nextLoop_frame G w s._ordering s
    rw [nextCalls, List.mem_cons] at hres
    rcases hres with h | h
    · subst h
      obtain ⟨h4, h5⟩ := h3 hret
      refine ⟨h4, ?_⟩
      rw [copyMarking_full _ _ _ (hws w (List.mem_cons_self _ _))] at h5
      exact h5
    · obtain ⟨h4, h5⟩ := ih (next G s w).state (fun x hx => hws x (List.mem_cons_of_mem _ hx))
        res h hret
      refine ⟨h2 _ h4, ?_⟩
      rw [h5]
      show fire G._net (nextLoop G w s._ordering s).state._parent _ = _
      rw [h1]

/-- C10: every transition that `next` fires after `prepare` on a reset
generator passed `checkPreset` against the parent marking, so the parent marking
holds at least the weight of each of its non-inhibitor input arcs; the buffer
returned is the parent marking with the pre-set consumed and the post-set
produced; and consuming the pre-set takes from each place exactly the tokens
the arcs of the transition ask for, without going below zero, the pre-set
having one arc per place (no two non-inhibitor input arcs of the transition on
the same place). -/
theorem fired_transition_consumes_exactly (G : ReducingSuccessorGenerator) (fuel : Nat)
    (s : GenState) (m : Marking) (ws : List Marking) (hr : IsReset G s)
    (hm : m.length = G._net._nplaces) (hb : ∀ p, mark m p < 4294967296)
    (hws : ∀ w ∈ ws, w.length = G._net._nplaces) :
    ∀ res ∈ nextCalls G (prepare G fuel s m) ws, res.ret = true →
      checkPreset G._net m res.state._current = true ∧
      (∀ i ∈ G._net.inputArcs res.state._current, (G._net.inv i).inhibitor = false →
        (G._net.inv i).tokens ≤ mark m (G._net.inv i).place) ∧
      res.write = producePostset G._net (consumePreset G._net m res.state._current)
        res.state._current ∧
      (NoParallelInputs G._net res.state._current →
        ∀ p, mark (consumePreset G._net m res.state._current) p +
          demand G._net res.state._current p = mark m p) := by
  intro res hres hret
  obtain ⟨h1, h2⟩ := nextCalls_fired G ws (prepare G fuel s m) hws res hres hret
  obtain ⟨_, ho, hp⟩ := prepare_same G fuel s m hr
  rw [ho] at h1
  rw [hp, fire, map_mark_range m _ hm] at h2
  have hc := ((mem_discovered G._net m _).1 h1).1
  exact ⟨hc, checkPreset_enough G._net m _ hc, h2,
    fun hnp p => consumePreset_exact G._net m _ hc hnp hb p⟩

/-- Witness for C10: `chainNet` seeded with `t0`, marking `[1,0,1,0,0]`; the
first `next` fires `t0`, which passed `checkPreset`; its only input arc takes
the one token of `p0`, and every place holds what it held minus the demand of
`t0`. -/
theorem fired_transition_consumes_exactly_witness :
    IsReset chainGenT0 (GenState.init chainGenT0 []) ∧
      (next chainGenT0 (prepare chainGenT0 3 (GenState.init chainGenT0 []) [1, 0, 1, 0, 0])
        [9, 9, 9, 9, 9]).ret = true ∧
      (next chainGenT0 (prepare chainGenT0 3 (GenState.init chainGenT0 []) [1, 0, 1, 0, 0])
        [9, 9, 9, 9, 9]).state._current = 0 ∧
      demand chainGenT0._net 0 0 = 1 ∧
      consumePreset chainGenT0._net [1, 0, 1, 0, 0] 0 = [0, 0, 1, 0, 0] ∧
      checkPreset chainGenT0._net [1, 0, 1, 0, 0]
        (next chainGenT0 (prepare chainGenT0 3 (GenState.init chainGenT0 []) [1, 0, 1, 0, 0])
          [9, 9, 9, 9, 9]).state._current = true ∧
      ∀ p, mark (consumePreset chainGenT0._net [1, 0, 1, 0, 0]
          (next chainGenT0 (prepare chainGenT0 3 (GenState.init chainGenT0 []) [1, 0, 1, 0, 0])
            [9, 9, 9, 9, 9]).state._current) p +
        demand chainGenT0._net
          (next chainGenT0 (prepare chainGenT0 3 (GenState.init chainGenT0 []) [1, 0, 1, 0, 0])
            [9, 9, 9, 9, 9]).state._current p = mark [1, 0, 1, 0, 0] p :=
  have h := fired_transition_consumes_exactly chainGenT0 3 (GenState.init chainGenT0 [])
      [1, 0, 1, 0, 0] [[9, 9, 9, 9, 9]] (by decide)
      (by decide)
      (by
        intro p
        have h : ∀ q, q < 5 → mark [1, 0, 1, 0, 0] q < 4294967296 := by decide
        by_cases hp : p < 5
        · exact h p hp
        · rw [mark, List.getD_eq_default _ _ (by simp; omega)]
          decide)
      (by decide) _ (List.mem_cons_self _ _) (by decide)
  ⟨by decide, by decide, by decide, by decide, by decide, h.1, h.2.2.2 (by decide)⟩

/-! ### Reduced against full exploration -/

theorem chain_reduced_reach (m : Marking)
    (h : Reach (reducedSuccessors chainGen) [1, 0, 1, 0, 0] m) : m = [1, 0, 1, 0, 0] := by
  induction h with
  | start => rfl
  | step m m1 _ hm ih =>
    subst ih
    have : reducedSuccessors chainGen [1, 0, 1, 0, 0] = [] := by decide
    rw [this] at hm
    cases hm

theorem fork_reduced_reach (m : Marking)
    (h : Reach (reducedSuccessors forkGen) [1, 1, 0, 0, 0] m) :
    m = [1, 1, 0, 0, 0] ∨ m = [0, 1, 0, 1, 0] := by
  induction h with
  | start => exact Or.inl rfl
  | step m m1 _ hm ih =>
    rcases ih with ih | ih
    · subst ih
      have : reducedSuccessors forkGen [1, 1, 0, 0, 0] = [[0, 1, 0, 1, 0]] := by decide
      rw [this, List.mem_singleton] at hm
      exact Or.inr hm
    · subst ih
      have : reducedSuccessors forkGen [0, 1, 0, 1, 0] = [] := by decide
      rw [this] at hm
      cases hm

theorem chain_full_reach (m : Marking)
    (h : Reach (allSuccessors chainNet) [1, 0, 1, 0, 0] m) :
    m ∈ [[1, 0, 1, 0, 0], [0, 1, 1, 0, 0], [1, 0, 0, 1, 0], [0, 0, 1, 0, 1], [0, 1, 0, 1, 0],
      [0, 0, 0, 1, 1]] := by
  induction h with
  | start => decide
  | step m m1 _ hm ih =>
    have hall : ∀ x ∈ [[1, 0, 1, 0, 0], [0, 1, 1, 0, 0], [1, 0, 0, 1, 0], [0, 0, 1, 0, 1],
        [0, 1, 0, 1, 0], [0, 0, 0, 1, 1]],
        ∀ y ∈ allSuccessors chainNet x,
          y ∈ [[1, 0, 1, 0, 0], [0, 1, 1, 0, 0], [1, 0, 0, 1, 0], [0, 0, 1, 0, 1],
            [0, 1, 0, 1, 0], [0, 0, 0, 1, 1]] := by
      decide
    exact hall m ih m1 hm

theorem fork_full_reach (m : Marking)
    (h : Reach (allSuccessors forkNet) [1, 1, 0, 0, 0] m) :
    m ∈ [[1, 1, 0, 0, 0], [0, 1, 0, 1, 0], [1, 0, 1, 0, 0], [0, 0, 1, 1, 0],
      [0, 0, 0, 0, 1]] := by
  induction h with
  | start => decide
  | step m m1 _ hm ih =>
    have hall : ∀ x ∈ [[1, 1, 0, 0, 0], [0, 1, 0, 1, 0], [1, 0, 1, 0, 0], [0, 0, 1, 1, 0],
        [0, 0, 0, 0, 1]],
        ∀ y ∈ allSuccessors forkNet x,
          y ∈ [[1, 1, 0, 0, 0], [0, 1, 0, 1, 0], [1, 0, 1, 0, 0], [0, 0, 1, 1, 0],
            [0, 0, 0, 0, 1]] := by
      decide
    exact hall m ih m1 hm

/-- C8 fails on the code.  `chainNet` (consumption arcs with direction 1), from
`[1,0,1,0,0]`, query "p4 >= 1" seeding the producers of `p4`: the full
exploration visits six markings and reaches `[0,0,1,0,1]`, the reduced one
visits the initial marking only.  `forkNet` (consumption arcs with direction
-1), from `[1,1,0,0,0]`, same query: the full exploration visits five markings
and reaches `[0,0,0,0,1]`, the reduced one stops at `[0,1,0,1,0]`. -/
theorem reduced_search_misses_goal :
    ((∀ m, Reach (allSuccessors chainNet) [1, 0, 1, 0, 0] m →
        m ∈ [[1, 0, 1, 0, 0], [0, 1, 1, 0, 0], [1, 0, 0, 1, 0], [0, 0, 1, 0, 1],
          [0, 1, 0, 1, 0], [0, 0, 0, 1, 1]]) ∧
      (∃ m, Reach (allSuccessors chainNet) [1, 0, 1, 0, 0] m ∧ goalQuery.evaluate m = true) ∧
      ¬ ∃ m, Reach (reducedSuccessors chainGen) [1, 0, 1, 0, 0] m ∧
        goalQuery.evaluate m = true) ∧
    ((∀ m, Reach (allSuccessors forkNet) [1, 1, 0, 0, 0] m →
        m ∈ [[1, 1, 0, 0, 0], [0, 1, 0, 1, 0], [1, 0, 1, 0, 0], [0, 0, 1, 1, 0],
          [0, 0, 0, 0, 1]]) ∧
      (∃ m, Reach (allSuccessors forkNet) [1, 1, 0, 0, 0] m ∧ goalQuery.evaluate m = true) ∧
      ¬ ∃ m, Reach (reducedSuccessors forkGen) [1, 1, 0, 0, 0] m ∧
        goalQuery.evaluate m = true) := by
  refine ⟨⟨chain_full_reach, ⟨[0, 0, 1, 0, 1], ?_, by decide⟩, ?_⟩,
    ⟨fork_full_reach, ⟨[0, 0, 0, 0, 1], ?_, by decide⟩, ?_⟩⟩
  · exact Reach.step [0, 1, 1, 0, 0] _
      (Reach.step [1, 0, 1, 0, 0] _ Reach.start (by decide)) (by decide)
  · rintro ⟨m, hm, he⟩
    rw [chain_reduced_reach m hm] at he
    exact absurd he (by decide)
  · exact Reach.step [0, 0, 1, 1, 0] _
      (Reach.step [1, 0, 1, 0, 0] _
        (Reach.step [1, 1, 0, 0, 0] _ Reach.start (by decide)) (by decide)) (by decide)
  · rintro ⟨m, hm, he⟩
    rcases fork_reduced_reach m hm with h | h
    · rw [h] at he
      exact absurd he (by decide)
    · rw [h] at he
      exact absurd he (by decide)

/-! ### The empty state after `next` -/

theorem nextLoop_false (G : ReducingSuccessorGenerator) (write : Marking) (ord : List Nat)
    (s : GenState) (h : (nextLoop G write ord s).ret = false) :
    (nextLoop G write ord s).state._enabled = List.replicate G._net._ntransitions false ∧
      (nextLoop G write ord s).state._stubborn = List.replicate G._net._ntransitions false ∧
      (nextLoop G write ord s).state._ordering = [] ∧
      (nextLoop G write ord s).write = write := by
  induction ord generalizing s with
  | nil => exact ⟨rfl, rfl, rfl, rfl⟩
  | cons u us ih =>
    have hstub : ({ s with _current := u, _ordering := us } : GenState).stub = s.stub := rfl
    unfold nextLoop at h ⊢
    cases hu : s.stub u
    · simp only [hstub, hu, Bool.false_eq_true, if_false] at h ⊢
      exact ih _ h
    · simp only [hstub, hu, if_true] at h
      cases h

theorem nextLoop_unprocessed (G : ReducingSuccessorGenerator) (write : Marking)
    (ord : List Nat) (s : GenState) :
    (nextLoop G write ord s).state._unprocessed = s._unprocessed ∧
      (nextLoop G write ord s).state._places_seen = s._places_seen := by
  induction ord generalizing s with
  | nil => exact ⟨rfl, rfl⟩
  | cons u us ih =>
    have hstub : ({ s with _current := u, _ordering := us } : GenState).stub = s.stub := rfl
    unfold nextLoop
    cases hu : s.stub u
    · simp only [hstub, hu, Bool.false_eq_true, if_false]
      exact ih _
    · simp only [hstub, hu, if_true]
      exact ⟨trivial, trivial⟩

theorem next_of_reset (G : ReducingSuccessorGenerator) (st : GenState) (w : Marking)
    (h : IsReset G st) : next G st w = { ret := false, state := st, write := w } := by
  obtain ⟨he, hs, ho, _⟩ := h
  unfold next
  rw [ho]
  cases st with
  | mk e sb ps o u p c q =>
    simp only at he hs ho
    subst he hs ho
    rfl

theorem nextCalls_false_reset (G : ReducingSuccessorGenerator) (ws : List Marking)
    (s : GenState) (hu : s._unprocessed = []) :
    ∀ res ∈ nextCalls G s ws, res.ret = false → IsReset G res.state := by
  induction ws generalizing s with
  | nil =>
    intro res hres
    cases hres
  | cons w ws ih =>
    intro res hres hret
    rw [nextCalls, List.mem_cons] at hres
    have hun := (nextLoop_unprocessed G w s._ordering s).1
    rcases hres with h | h
    · subst h
      obtain ⟨h1, h2, h3, _⟩ := nextLoop_false G w s._ordering s hret
      exact ⟨h1, h2, h3, hun.trans hu⟩
    · exact ih (next G s w).state (hun.trans hu) res h hret

theorem prepare_unprocessed (G : ReducingSuccessorGenerator) (hT : TablesInRange G)
    (fuel : Nat) (s : GenState) (m : Marking) (hr : IsReset G s) (hseed : SeedsInRange G m)
    (hfuel : G._net._ntransitions ≤ fuel) : (prepare G fuel s m)._unprocessed = [] := by
  by_cases h2 : 2 ≤ (prepare G fuel s m)._ordering.length
  · exact (prepare_closure_spec G hT fuel s m hr hseed hfuel h2).2.1
  · rw [(prepare_same G fuel s m hr).2.1] at h2
    obtain ⟨_, _, ho, hu⟩ := hr
    unfold prepare
    simp only [constructEnabled_eq, ho, List.nil_append]
    split
    · exact hu
    · split
      · exact hu
      · rename_i h0 h1
        rw [beq_iff_eq] at h0 h1
        omega

/-- C11: after `prepare` on a reset generator (closure run to its end), whenever
a call of `next` returns false the generator is in its empty state: both flag
arrays are all false, the discovery order and the worklist are empty; a further
`next` without a new `prepare` returns false again, leaves the state as it is
and does not touch the buffer. -/
theorem next_false_leaves_empty_state (net : PetriNet) (queries : List Condition)
    (G : ReducingSuccessorGenerator) (hG : G = ReducingSuccessorGenerator.construct net queries)
    (fuel : Nat) (s : GenState) (m : Marking) (ws : List Marking) (hr : IsReset G s)
    (hseed : SeedsInRange G m) (hfuel : net._ntransitions ≤ fuel) :
    ∀ res ∈ nextCalls G (prepare G fuel s m) ws, res.ret = false →
      res.state._enabled = List.replicate net._ntransitions false ∧
      res.state._stubborn = List.replicate net._ntransitions false ∧
      (∀ t, res.state.en t = false) ∧ (∀ t, res.state.stub t = false) ∧
      res.state._ordering = [] ∧ res.state._unprocessed = [] ∧
      ∀ w, next G res.state w = { ret := false, state := res.state, write := w } := by
  obtain ⟨hT, _⟩ := construct_spec net queries
  rw [← hG] at hT
  have hnet : G._net = net := by rw [hG]; rfl
  intro res hres hret
  have hu := prepare_unprocessed G hT fuel s m hr hseed (by rw [hnet]; exact hfuel)
  have hreset := nextCalls_false_reset G ws (prepare G fuel s m) hu res hres hret
  obtain ⟨h1, h2, h3, h4⟩ := hreset
  rw [hnet] at h1 h2
  refine ⟨h1, h2, fun t => ?_, fun t => ?_, h3, h4, fun w => ?_⟩
  · rw [GenState.en, h1, getD_replicate_eq]
  · rw [GenState.stub, h2, getD_replicate_eq]
  · exact next_of_reset G res.state w (by rw [IsReset, hnet]; exact ⟨h1, h2, h3, h4⟩)

/-- Witness for C11 on `chainNet` seeded with `t0`: the second `next` returns
false. -/
theorem next_false_leaves_empty_state_witness :
    IsReset chainGenT0 (GenState.init chainGenT0 []) ∧
      (nextCalls chainGenT0 (prepare chainGenT0 3 (GenState.init chainGenT0 [])
        [1, 0, 1, 0, 0]) [[9, 9, 9, 9, 9], [7, 7, 7, 7, 7]]).map (fun r => r.ret) =
        [true, false] ∧
      ∀ res ∈ nextCalls chainGenT0 (prepare chainGenT0 3 (GenState.init chainGenT0 [])
          [1, 0, 1, 0, 0]) [[9, 9, 9, 9, 9], [7, 7, 7, 7, 7]], res.ret = false →
        res.state._ordering = [] ∧ res.state._unprocessed = [] :=
  ⟨by decide, by decide, fun res hres hret =>
    ⟨(next_false_leaves_empty_state chainNet [seedT0Query] chainGenT0 rfl 3
        (GenState.init chainGenT0 []) [1, 0, 1, 0, 0] [[9, 9, 9, 9, 9], [7, 7, 7, 7, 7]]
        (by decide) (seeds_seedT0Query _) (by decide) res hres hret).2.2.2.2.1,
      (next_false_leaves_empty_state chainNet [seedT0Query] chainGenT0 rfl 3
        (GenState.init chainGenT0 []) [1, 0, 1, 0, 0] [[9, 9, 9, 9, 9], [7, 7, 7, 7, 7]]
        (by decide) (seeds_seedT0Query _) (by decide) res hres hret).2.2.2.2.2.1⟩⟩

/-! ### `prepare` reads the scratch state only through its flags and queues -/

theorem foldl_agree {α : Type} (f : GenState → α → GenState)
    (hf : ∀ s r a, Agree s r → Agree (f s a) (f r a)) (l : List α) (s r : GenState)
    (h : Agree s r) : Agree (l.foldl f s) (l.foldl f r) := by
  induction l generalizing s r with
  | nil => exact h
  | cons a l ih => exact ih _ _ (hf s r a h)

theorem agree_reads (s r : GenState) (h : Agree s r) :
    s.stub = r.stub ∧ s.en = r.en ∧ s.seen = r.seen := by
  obtain ⟨h1, h2, h3, _⟩ := h
  refine ⟨?_, ?_, ?_⟩
  · funext t; rw [GenState.stub, GenState.stub, h2]
  · funext t; rw [GenState.en, GenState.en, h1]
  · funext t; rw [GenState.seen, GenState.seen, h3]

theorem addToStub_agree (s r : GenState) (t : Nat) (h : Agree s r) :
    Agree (addToStub s t) (addToStub r t) := by
  have hst := (agree_reads s r h).1
  obtain ⟨h1, h2, h3, h4, h5, h6⟩ := h
  unfold addToStub
  rw [hst]
  split
  · exact ⟨h1, by rw [h2], h3, h4, by rw [h5], h6⟩
  · exact ⟨h1, h2, h3, h4, h5, h6⟩

theorem presetOf_agree (G : ReducingSuccessorGenerator) (s r : GenState) (p : Nat)
    (h : Agree s r) : Agree (presetOf G s p) (presetOf G r p) := by
  have hseen := (agree_reads s r h).2.2
  unfold presetOf
  rw [hseen]
  split
  · exact h
  · apply foldl_agree (fun s t => addToStub s (G.tab t)) (fun a b x hab => addToStub_agree a b _ hab)
    obtain ⟨h1, h2, h3, h4, h5, h6⟩ := h
    exact ⟨h1, h2, by rw [h3], h4, h5, h6⟩

theorem postsetOf_agree (G : ReducingSuccessorGenerator) (s r : GenState) (p : Nat)
    (h : Agree s r) : Agree (postsetOf G s p) (postsetOf G r p) := by
  have hseen := (agree_reads s r h).2.2
  unfold postsetOf
  rw [hseen]
  split
  · exact h
  · apply foldl_agree (fun s t => addToStub s (G.tab t)) (fun a b x hab => addToStub_agree a b _ hab)
    obtain ⟨h1, h2, h3, h4, h5, h6⟩ := h
    exact ⟨h1, h2, by rw [h3], h4, h5, h6⟩

theorem inhibitorPostsetOf_agree (G : ReducingSuccessorGenerator) (s r : GenState) (p : Nat)
    (h : Agree s r) : Agree (inhibitorPostsetOf G s p) (inhibitorPostsetOf G r p) := by
  have hseen := (agree_reads s r h).2.2
  unfold inhibitorPostsetOf
  rw [hseen]
  split
  · exact h
  · apply foldl_agree _ (fun a b x hab => addToStub_agree a b x hab)
    obtain ⟨h1, h2, h3, h4, h5, h6⟩ := h
    exact ⟨h1, h2, by rw [h3], h4, h5, h6⟩

theorem runStubCall_agree (G : ReducingSuccessorGenerator) (s r : GenState) (c : StubCall)
    (h : Agree s r) : Agree (runStubCall G s c) (runStubCall G r c) := by
  cases c with
  | addToStub t => exact addToStub_agree s r t h
  | presetOf p => exact presetOf_agree G s r p h
  | postsetOf p => exact postsetOf_agree G s r p h
  | inhibitorPostsetOf p => exact inhibitorPostsetOf_agree G s r p h

theorem seedQuery_agree (G : ReducingSuccessorGenerator) (s r : GenState) (q : Condition)
    (h : Agree s r) : Agree (seedQuery G s q) (seedQuery G r q) := by
  unfold seedQuery
  rw [h.2.2.2.2.2]
  apply foldl_agree _ (fun a b x hab => runStubCall_agree G a b x hab)
  obtain ⟨h1, h2, h3, h4, h5, _⟩ := h
  exact ⟨h1, h2, h3, h4, h5, rfl⟩

theorem findCause_agree (G : ReducingSuccessorGenerator) (s r : GenState) (arcs : List Nat)
    (c : Cause) (h : Agree s r) : findCause G s arcs c = findCause G r arcs c := by
  have hseen := (agree_reads s r h).2.2
  have hp := h.2.2.2.2.2
  induction arcs generalizing c with
  | nil => rfl
  | cons a arcs ih =>
    rw [findCause_cons, findCause_cons, hseen, hp]
    simp only [ih]

theorem processEnabled_agree (G : ReducingSuccessorGenerator) (s r : GenState) (tr : Nat)
    (h : Agree s r) : Agree (processEnabled G s tr) (processEnabled G r tr) := by
  unfold processEnabled
  simp only []
  have h1 : Agree
      ((G._net.inputArcs tr).foldl (fun s i =>
        if (G._net.inv i).direction > 0 then postsetOf G s (G._net.inv i).place else s) s)
      ((G._net.inputArcs tr).foldl (fun s i =>
        if (G._net.inv i).direction > 0 then postsetOf G s (G._net.inv i).place else s) r) := by
    apply foldl_agree _ _ _ _ _ h
    intro a b x hab
    split
    · exact postsetOf_agree G a b _ hab
    · exact hab
  split
  · exact foldl_agree _ (fun a b _ hab => inhibitorPostsetOf_agree G a b _ hab) _ _ _ h1
  · exact h1

theorem processDisabled_agree (G : ReducingSuccessorGenerator) (s r : GenState) (tr : Nat)
    (h : Agree s r) : Agree (processDisabled G s tr) (processDisabled G r tr) := by
  unfold processDisabled
  simp only []
  rw [findCause_agree G s r _ _ h]
  split
  · split
    · exact presetOf_agree G s r _ h
    · exact postsetOf_agree G s r _ h
  · exact h

theorem processTransition_agree (G : ReducingSuccessorGenerator) (s r : GenState) (tr : Nat)
    (h : Agree s r) : Agree (processTransition G s tr) (processTransition G r tr) := by
  unfold processTransition
  rw [(agree_reads s r h).2.1]
  split
  · exact processEnabled_agree G s r tr h
  · exact processDisabled_agree G s r tr h

theorem closure_agree (G : ReducingSuccessorGenerator) (fuel : Nat) (s r : GenState)
    (h : Agree s r) : Agree (closure G fuel s) (closure G fuel r) := by
  induction fuel generalizing s r with
  | zero => exact h
  | succ fuel ih =>
    have hu := h.2.2.2.2.1
    match hs : s._unprocessed with
    | [] =>
      rw [(closure_nil G (fuel + 1) s hs).1, (closure_nil G (fuel + 1) r (hu ▸ hs)).1]
      exact h
    | tr :: rest =>
      rw [(closure_cons G fuel s tr rest hs).1, (closure_cons G fuel r tr rest (hu ▸ hs)).1]
      apply ih
      apply processTransition_agree
      obtain ⟨h1, h2, h3, h4, _, h6⟩ := h
      exact ⟨h1, h2, h3, h4, rfl, h6⟩

theorem prepare_agree (G : ReducingSuccessorGenerator) (fuel : Nat) (s r : GenState)
    (m : Marking) (he : s._enabled = r._enabled) (hs : s._stubborn = r._stubborn)
    (ho : s._ordering = r._ordering) (hu : s._unprocessed = r._unprocessed) :
    Agree (prepare G fuel s m) (prepare G fuel r m) := by
  have h1 : Agree (constructEnabled G { s with _parent := m, _places_seen := List.replicate G._net._nplaces 0 }) (constructEnabled G { r with _parent := m, _places_seen := List.replicate G._net._nplaces 0 }) := by
    rw [constructEnabled_eq, constructEnabled_eq]
    exact ⟨by simp only [he], hs, rfl, by simp only [ho], hu, rfl⟩
  unfold prepare
  simp only []
  generalize constructEnabled G { s with _parent := m, _places_seen := List.replicate G._net._nplaces 0 } = s1 at h1 ⊢
  generalize constructEnabled G { r with _parent := m, _places_seen := List.replicate G._net._nplaces 0 } = r1 at h1 ⊢
  have hord : s1._ordering = r1._ordering := h1.2.2.2.1
  rw [hord]
  split
  · exact h1
  · split
    · obtain ⟨a1, a2, a3, a4, a5, a6⟩ := h1
      exact ⟨a1, by simp only [a2], a3, rfl, a5, a6⟩
    · exact closure_agree G fuel _ _
        (foldl_agree _ (fun a b q hab => seedQuery_agree G a b q hab) _ _ _ h1)

theorem prepare_ordering (G : ReducingSuccessorGenerator) (fuel : Nat) (s : GenState)
    (m : Marking) : (prepare G fuel s m)._ordering = s._ordering ++ discovered G._net m := by
  unfold prepare
  simp only [constructEnabled_eq]
  split
  · rfl
  · split
    · rfl
    · have h1 := closure_same G fuel (G._queries.foldl (seedQuery G)
        { s with _parent := m, _places_seen := List.replicate G._net._nplaces 0, _enabled := setFlags s._enabled (discovered G._net m), _ordering := s._ordering ++ discovered G._net m })
      have h2 := foldl_rel SameSearch sameSearch_refl sameSearch_trans (seedQuery G)
        (fun b a => seedQuery_same G b a) G._queries
        { s with _parent := m, _places_seen := List.replicate G._net._nplaces 0, _enabled := setFlags s._enabled (discovered G._net m), _ordering := s._ordering ++ discovered G._net m }
      exact (sameSearch_trans _ _ _ h2 h1).2.1

/-- C12, counterexample: on `chainNet`, `prepare([1,0,0,0,0])` followed directly
by `prepare([0,0,1,0,0])` leaves the discovery order `[t0, t2]` with `t0`
flagged enabled and stubborn, while `prepare([0,0,1,0,0])` on a reset generator
gives the discovery order `[t2]` with `t0` neither enabled nor stubborn. -/
theorem prepare_twice_counterexample :
    IsReset chainGen (GenState.init chainGen []) ∧
      (prepare chainGen 3 (prepare chainGen 3 (GenState.init chainGen []) [1, 0, 0, 0, 0])
        [0, 0, 1, 0, 0])._ordering = [0, 2] ∧
      (prepare chainGen 3 (GenState.init chainGen []) [0, 0, 1, 0, 0])._ordering = [2] ∧
      (prepare chainGen 3 (prepare chainGen 3 (GenState.init chainGen []) [1, 0, 0, 0, 0])
        [0, 0, 1, 0, 0])._enabled = [true, false, true] ∧
      (prepare chainGen 3 (GenState.init chainGen []) [0, 0, 1, 0, 0])._enabled =
        [false, false, true] ∧
      (prepare chainGen 3 (prepare chainGen 3 (GenState.init chainGen []) [1, 0, 0, 0, 0])
        [0, 0, 1, 0, 0])._stubborn = [true, true, false] ∧
      (prepare chainGen 3 (GenState.init chainGen []) [0, 0, 1, 0, 0])._stubborn =
        [false, false, true] := by
  decide

theorem stubKept_refl (s : GenState) : StubKept s s := fun _ h => h

theorem stubKept_trans (a b c : GenState) (h1 : StubKept a b) (h2 : StubKept b c) :
    StubKept a c := fun t h => h2 t (h1 t h)

theorem addToStub_kept (s : GenState) (t : Nat) : StubKept s (addToStub s t) := by
  intro u h
  unfold addToStub
  split
  · rw [stub_push]
    split
    · rfl
    · exact h
  · exact h

theorem register_kept (G : ReducingSuccessorGenerator) (k : Nat) (s : GenState) (p : Nat) :
    StubKept s (register G k s p) := by
  unfold register
  split
  · exact stubKept_refl s
  · have h0 : StubKept s
        { s with _places_seen := s._places_seen.set p (s.seen p ||| 2 ^ k) } := fun _ h => h
    exact stubKept_trans _ _ _ h0
      (foldl_rel StubKept stubKept_refl stubKept_trans addToStub
        (fun b a => addToStub_kept b a) _ _)

theorem runStubCall_kept (G : ReducingSuccessorGenerator) (s : GenState) (c : StubCall) :
    StubKept s (runStubCall G s c) := by
  cases c with
  | addToStub t => exact addToStub_kept s t
  | presetOf p =>
    show StubKept s (presetOf G s p)
    rw [presetOf_eq_register]
    exact register_kept G 0 s p
  | postsetOf p =>
    show StubKept s (postsetOf G s p)
    rw [postsetOf_eq_register]
    exact register_kept G 1 s p
  | inhibitorPostsetOf p =>
    show StubKept s (inhibitorPostsetOf G s p)
    rw [inhibitorPostsetOf_eq_register]
    exact register_kept G 2 s p

theorem seedQuery_kept (G : ReducingSuccessorGenerator) (s : GenState) (q : Condition) :
    StubKept s (seedQuery G s q) := by
  unfold seedQuery
  have h0 : StubKept s { s with queryCalls := s.queryCalls + 1 } := fun _ h => h
  exact stubKept_trans _ _ _ h0
    (foldl_rel StubKept stubKept_refl stubKept_trans _
      (fun b a => runStubCall_kept G b a) _ _)

theorem processTransition_kept (G : ReducingSuccessorGenerator) (s : GenState) (tr : Nat) :
    StubKept s (processTransition G s tr) := by
  unfold processTransition
  split
  · unfold processEnabled
    simp only []
    have h1 : StubKept s ((G._net.inputArcs tr).foldl (fun s i =>
        if (G._net.inv i).direction > 0 then postsetOf G s (G._net.inv i).place else s) s) := by
      apply foldl_rel StubKept stubKept_refl stubKept_trans
      intro b a
      split
      · exact runStubCall_kept G b (StubCall.postsetOf _)
      · exact stubKept_refl b
    split
    · exact stubKept_trans _ _ _ h1
        (foldl_rel StubKept stubKept_refl stubKept_trans _
          (fun b _ => runStubCall_kept G b (StubCall.inhibitorPostsetOf _)) _ _)
    · exact h1
  · unfold processDisabled
    simp only []
    split
    · split
      · exact runStubCall_kept G s (StubCall.presetOf _)
      · exact runStubCall_kept G s (StubCall.postsetOf _)
    · exact stubKept_refl s

theorem closure_kept (G : ReducingSuccessorGenerator) (fuel : Nat) (s : GenState) :
    StubKept s (closure G fuel s) := by
  induction fuel generalizing s with
  | zero => exact stubKept_refl s
  | succ fuel ih =>
    match hs : s._unprocessed with
    | [] =>
      rw [(closure_nil G (fuel + 1) s hs).1]
      exact stubKept_refl s
    | tr :: rest =>
      rw [(closure_cons G fuel s tr rest hs).1]
      have h0 : StubKept s { s with _unprocessed := rest } := fun _ h => h
      exact stubKept_trans _ _ _ (stubKept_trans _ _ _ h0 (processTransition_kept G _ tr))
        (ih _)

theorem prepare_flags (G : ReducingSuccessorGenerator) (fuel : Nat) (s : GenState)
    (m : Marking) :
    (prepare G fuel s m)._enabled = setFlags s._enabled (discovered G._net m) ∧
      StubKept s (prepare G fuel s m) := by
  unfold prepare
  simp only [constructEnabled_eq]
  split
  · exact ⟨rfl, fun _ h => h⟩
  · split
    · refine ⟨rfl, fun t h => ?_⟩
      simp only [GenState.stub, getD_set_eq]
      split
      · rfl
      · exact h
    · have h1 := closure_same G fuel (G._queries.foldl (seedQuery G)
        { s with _parent := m, _places_seen := List.replicate G._net._nplaces 0, _enabled := setFlags s._enabled (discovered G._net m), _ordering := s._ordering ++ discovered G._net m })
      have h2 := foldl_rel SameSearch sameSearch_refl sameSearch_trans (seedQuery G)
        (fun b a => seedQuery_same G b a) G._queries
        { s with _parent := m, _places_seen := List.replicate G._net._nplaces 0, _enabled := setFlags s._enabled (discovered G._net m), _ordering := s._ordering ++ discovered G._net m }
      have h3 := foldl_rel StubKept stubKept_refl stubKept_trans (seedQuery G)
        (fun b a => seedQuery_kept G b a) G._queries
        { s with _parent := m, _places_seen := List.replicate G._net._nplaces 0, _enabled := setFlags s._enabled (discovered G._net m), _ordering := s._ordering ++ discovered G._net m }
      have h0 : StubKept s
          { s with _parent := m, _places_seen := List.replicate G._net._nplaces 0, _enabled := setFlags s._enabled (discovered G._net m), _ordering := s._ordering ++ discovered G._net m } :=
        fun _ h => h
      exact ⟨(sameSearch_trans _ _ _ h2 h1).1,
        stubKept_trans _ _ _ (stubKept_trans _ _ _ h0 h3) (closure_kept G fuel _)⟩

/-- C12, amended: `prepare` resets only the places-seen flags and the parent
marking (its result is the same whatever they held before); it clears neither
the enabled flags, the stubborn flags nor the discovery order.  Once the
expansion of `m1` has been drained (`next` called until it returned false),
the flags and queues are those of a reset generator and `prepare(m2)` gives
the enabled flags, stubborn flags and discovery order it gives on a freshly
reset generator; called directly after `prepare(m1)`, it
appends the transitions discovered for `m2` to the discovery order left by
`m1`, and every enabled flag and every stubborn flag set by `prepare(m1)` is
still set. -/
theorem prepare_after_drain_is_fresh (net : PetriNet) (queries : List Condition)
    (G : ReducingSuccessorGenerator) (hG : G = ReducingSuccessorGenerator.construct net queries)
    (fuel : Nat) (s s0 : GenState) (m1 m2 : Marking) (ws : List Marking) (hr : IsReset G s)
    (hr0 : IsReset G s0) (hseed : SeedsInRange G m1) (hfuel : net._ntransitions ≤ fuel) :
    (∀ res ∈ nextCalls G (prepare G fuel s m1) ws, res.ret = false →
      (prepare G fuel res.state m2)._enabled = (prepare G fuel s0 m2)._enabled ∧
      (prepare G fuel res.state m2)._stubborn = (prepare G fuel s0 m2)._stubborn ∧
      (prepare G fuel res.state m2)._ordering = (prepare G fuel s0 m2)._ordering) ∧
    (prepare G fuel (prepare G fuel s m1) m2)._ordering =
      (prepare G fuel s m1)._ordering ++ (prepare G fuel s0 m2)._ordering ∧
    (∀ t, (prepare G fuel s m1).en t = true →
      (prepare G fuel (prepare G fuel s m1) m2).en t = true) ∧
    (∀ t, (prepare G fuel s m1).stub t = true →
      (prepare G fuel (prepare G fuel s m1) m2).stub t = true) ∧
    (∀ (r : GenState) (seen : List Nat) (parent : Marking),
      prepare G fuel { r with _places_seen := seen, _parent := parent } m2 =
        prepare G fuel r m2) ∧
    (∀ res ∈ nextCalls G (prepare G fuel s m1) ws, res.ret = false → IsReset G res.state) := by
  obtain ⟨hT, _⟩ := construct_spec net queries
  rw [← hG] at hT
  have hnet : G._net = net := by rw [hG]; rfl
  refine ⟨fun res hres hret => ?_, ?_, ?_, ?_, ?_, fun res hres hret => ?_⟩
  · have hu := prepare_unprocessed G hT fuel s m1 hr hseed (by rw [hnet]; exact hfuel)
    obtain ⟨h1, h2, h3, h4⟩ := nextCalls_false_reset G ws (prepare G fuel s m1) hu res hres hret
    obtain ⟨g1, g2, g3, g4⟩ := hr0
    have := prepare_agree G fuel res.state s0 m2 (h1.trans g1.symm) (h2.trans g2.symm)
      (h3.trans g3.symm) (h4.trans g4.symm)
    exact ⟨this.1, this.2.1, this.2.2.2.1⟩
  · rw [prepare_ordering G fuel (prepare G fuel s m1) m2, prepare_ordering G fuel s0 m2, hr0.2.2.1]
    rfl
  · intro t ht
    simp only [GenState.en] at ht ⊢
    rw [(prepare_flags G fuel (prepare G fuel s m1) m2).1, getD_setFlags]
    exact Or.inl ht
  · exact (prepare_flags G fuel (prepare G fuel s m1) m2).2
  · intro r seen parent
    rfl
  · exact nextCalls_false_reset G ws (prepare G fuel s m1)
      (prepare_unprocessed G hT fuel s m1 hr hseed (by rw [hnet]; exact hfuel)) res hres hret

/-- Witness for the amended C12 on `chainNet`: after the single enabled
transition of `[1,0,0,0,0]` has been fired and `next` has returned false,
`prepare([0,0,1,0,0])` gives the discovery order of a fresh generator. -/
theorem prepare_after_drain_is_fresh_witness :
    IsReset chainGen (GenState.init chainGen []) ∧
      (nextCalls chainGen (prepare chainGen 3 (GenState.init chainGen []) [1, 0, 0, 0, 0])
        [[0, 0, 0, 0, 0], [0, 0, 0, 0, 0]]).map (fun r => r.ret) = [true, false] ∧
      ∀ res ∈ nextCalls chainGen (prepare chainGen 3 (GenState.init chainGen [])
          [1, 0, 0, 0, 0]) [[0, 0, 0, 0, 0], [0, 0, 0, 0, 0]], res.ret = false →
        (prepare chainGen 3 res.state [0, 0, 1, 0, 0])._ordering =
          (prepare chainGen 3 (GenState.init chainGen []) [0, 0, 1, 0, 0])._ordering :=
  ⟨by decide, by decide, fun res hres hret =>
    ((prepare_after_drain_is_fresh chainNet [goalQuery] chainGen rfl 3
      (GenState.init chainGen []) (GenState.init chainGen []) [1, 0, 0, 0, 0] [0, 0, 1, 0, 0]
      [[0, 0, 0, 0, 0], [0, 0, 0, 0, 0]] (by decide) (by decide) (seeds_goalQuery _)
      (by decide)).1 res hres hret).2.2⟩

/-! ### The places-seen flags within one `prepare` -/

theorem or_pow_of_testBit (x k : Nat) (h : x.testBit k = true) : x ||| 2 ^ k = x := by
  apply Nat.eq_of_testBit_eq
  intro i
  rw [Nat.testBit_or, Nat.testBit_two_pow]
  by_cases hk : k = i
  · subst hk
    simp [h]
  · simp [hk]

theorem set_getD_self {α : Type} (l : List α) (p : Nat) (d : α) : l.set p (l.getD p d) = l := by
  apply List.ext_getElem
  · simp
  · intro i h1 h2
    rw [List.getElem_set]
    split
    · rename_i hpi
      subst hpi
      exact List.getD_eq_getElem _ _ h2
    · rfl

theorem register_seen (G : ReducingSuccessorGenerator) (k : Nat) (s : GenState) (p : Nat) :
    (register G k s p)._places_seen = s._places_seen.set p (s.seen p ||| 2 ^ k) := by
  unfold register
  cases hb : (s.seen p).testBit k
  · simp only [Bool.false_eq_true, if_false]
    rw [foldl_addToStub_seen]
  · simp only [if_true]
    rw [or_pow_of_testBit _ _ hb, GenState.seen, set_getD_self]

theorem register_seen_at (G : ReducingSuccessorGenerator) (k : Nat) (s : GenState) (p q : Nat) :
    (register G k s p).seen q =
      if p = q ∧ p < s._places_seen.length then s.seen p ||| 2 ^ k else s.seen q := by
  rw [GenState.seen, register_seen, getD_set_eq]
  rfl

theorem register_idem (G : ReducingSuccessorGenerator) (k : Nat) (s : GenState) (p : Nat)
    (hb : (s.seen p).testBit k = true) : register G k s p = s := by
  unfold register
  rw [if_pos hb]

theorem seenGrows_refl (s : GenState) : SeenGrows s s := ⟨rfl, fun _ _ h => h, fun h => h⟩

theorem seenGrows_trans (a b c : GenState) (h1 : SeenGrows a b) (h2 : SeenGrows b c) :
    SeenGrows a c :=
  ⟨h2.1.trans h1.1, fun p k h => h2.2.1 p k (h1.2.1 p k h), fun h => h2.2.2 (h1.2.2 h)⟩

theorem register_grows (G : ReducingSuccessorGenerator) (k : Nat) (hk : k < 3) (s : GenState)
    (p : Nat) : SeenGrows s (register G k s p) := by
  refine ⟨by rw [register_seen, List.length_set], fun q i h => ?_, fun h q => ?_⟩
  · rw [register_seen_at]
    split
    · rename_i hpq
      rw [hpq.1, Nat.testBit_or, h]
      rfl
    · exact h
  · rw [register_seen_at]
    split
    · have h8 : (8 : Nat) = 2 ^ 3 := by norm_num
      rw [h8]
      apply Nat.or_lt_two_pow
      · rw [← h8]
        exact h p
      · exact Nat.pow_lt_pow_right (by norm_num) hk
    · exact h q

theorem addToStub_grows (s : GenState) (t : Nat) : SeenGrows s (addToStub s t) := by
  unfold addToStub
  split
  · exact ⟨rfl, fun _ _ h => h, fun h => h⟩
  · exact seenGrows_refl s

theorem runStubCall_grows (G : ReducingSuccessorGenerator) (s : GenState) (c : StubCall) :
    SeenGrows s (runStubCall G s c) := by
  cases c with
  | addToStub t => exact addToStub_grows s t
  | presetOf p =>
    show SeenGrows s (presetOf G s p)
    rw [presetOf_eq_register]
    exact register_grows G 0 (by norm_num) s p
  | postsetOf p =>
    show SeenGrows s (postsetOf G s p)
    rw [postsetOf_eq_register]
    exact register_grows G 1 (by norm_num) s p
  | inhibitorPostsetOf p =>
    show SeenGrows s (inhibitorPostsetOf G s p)
    rw [inhibitorPostsetOf_eq_register]
    exact register_grows G 2 (by norm_num) s p

theorem seedQuery_grows (G : ReducingSuccessorGenerator) (s : GenState) (q : Condition) :
    SeenGrows s (seedQuery G s q) := by
  unfold seedQuery
  exact seenGrows_trans _ _ _ ⟨rfl, fun _ _ h => h, fun h => h⟩
    (foldl_rel SeenGrows seenGrows_refl seenGrows_trans _
      (fun b a => runStubCall_grows G b a) _ _)

theorem processTransition_grows (G : ReducingSuccessorGenerator) (s : GenState) (tr : Nat) :
    SeenGrows s (processTransition G s tr) := by
  unfold processTransition
  split
  · unfold processEnabled
    simp only []
    have h1 : SeenGrows s ((G._net.inputArcs tr).foldl (fun s i =>
        if (G._net.inv i).direction > 0 then postsetOf G s (G._net.inv i).place else s) s) := by
      apply foldl_rel SeenGrows seenGrows_refl seenGrows_trans
      intro b a
      split
      · exact runStubCall_grows G b (StubCall.postsetOf _)
      · exact seenGrows_refl b
    split
    · exact seenGrows_trans _ _ _ h1
        (foldl_rel SeenGrows seenGrows_refl seenGrows_trans _
          (fun b _ => runStubCall_grows G b (StubCall.inhibitorPostsetOf _)) _ _)
    · exact h1
  · unfold processDisabled
    simp only []
    split
    · split
      · exact runStubCall_grows G s (StubCall.presetOf _)
      · exact runStubCall_grows G s (StubCall.postsetOf _)
    · exact seenGrows_refl s

theorem closure_grows (G : ReducingSuccessorGenerator) (fuel : Nat) (s : GenState) :
    SeenGrows s (closure G fuel s) := by
  induction fuel generalizing s with
  | zero => exact seenGrows_refl s
  | succ fuel ih =>
    match hs : s._unprocessed with
    | [] =>
      rw [(closure_nil G (fuel + 1) s hs).1]
      exact seenGrows_refl s
    | tr :: rest =>
      rw [(closure_cons G fuel s tr rest hs).1]
      have h0 : SeenGrows s { s with _unprocessed := rest } := ⟨rfl, fun _ _ h => h, fun h => h⟩
      exact seenGrows_trans _ _ _ (seenGrows_trans _ _ _ h0 (processTransition_grows G _ tr))
        (ih _)

theorem prepare_seen_lt (G : ReducingSuccessorGenerator) (fuel : Nat) (s : GenState)
    (m : Marking) (q : Nat) : (prepare G fuel s m).seen q < 8 := by
  have h0 : ∀ p, (constructEnabled G { s with _parent := m, _places_seen := List.replicate G._net._nplaces 0 }).seen p < 8 := by
    intro p
    rw [constructEnabled_eq, GenState.seen]
    show (List.replicate G._net._nplaces 0).getD p 0 < 8
    rw [getD_replicate_eq]
    norm_num
  unfold prepare
  simp only []
  split
  · exact h0 q
  · split
    · exact h0 q
    · have h1 := foldl_rel SeenGrows seenGrows_refl seenGrows_trans (seedQuery G)
        (fun b a => seedQuery_grows G b a) G._queries
        (constructEnabled G { s with _parent := m, _places_seen := List.replicate G._net._nplaces 0 })
      have h2 := closure_grows G fuel (G._queries.foldl (seedQuery G)
        (constructEnabled G { s with _parent := m, _places_seen := List.replicate G._net._nplaces 0 }))
      exact (seenGrows_trans _ _ _ h1 h2).2.2 h0 q

theorem register_again (G : ReducingSuccessorGenerator) (k : Nat) (s : GenState) (p : Nat)
    (hp : p < s._places_seen.length) (cs : List StubCall) (fuel : Nat) :
    register G k (closure G fuel (cs.foldl (runStubCall G) (register G k s p))) p =
      closure G fuel (cs.foldl (runStubCall G) (register G k s p)) := by
  apply register_idem
  have h1 : ((register G k s p).seen p).testBit k = true := by
    rw [register_seen_at, if_pos ⟨rfl, hp⟩, Nat.testBit_or, Nat.testBit_two_pow_self]
    simp
  have h2 := foldl_rel SeenGrows seenGrows_refl seenGrows_trans (runStubCall G)
    (fun b a => runStubCall_grows G b a) cs (register G k s p)
  have h3 := closure_grows G fuel (cs.foldl (runStubCall G) (register G k s p))
  exact (seenGrows_trans _ _ _ h2 h3).2.1 p k h1

/-- C13: `presetOf`, `postsetOf` and `inhibitorPostsetOf` are idempotent within
one `prepare`: a second call for the same place, right away or after any
further registrations and closure iterations, returns the state unchanged
(stubborn flags, worklist and places-seen flags alike); each call changes the
places-seen array only at its place, by or-ing its own bit 1, 2 or 4; every
places-seen value is below 8 after `prepare`; and `prepare` clears all
places-seen flags first: its result does not depend on what they held. -/
theorem registrations_idempotent (G : ReducingSuccessorGenerator) (fuel : Nat) (s : GenState)
    (m : Marking) (p : Nat) (hp : p < s._places_seen.length) :
    (presetOf G (presetOf G s p) p = presetOf G s p ∧
      postsetOf G (postsetOf G s p) p = postsetOf G s p ∧
      inhibitorPostsetOf G (inhibitorPostsetOf G s p) p = inhibitorPostsetOf G s p) ∧
    (∀ (cs : List StubCall) (k : Nat),
      presetOf G (closure G k (cs.foldl (runStubCall G) (presetOf G s p))) p =
        closure G k (cs.foldl (runStubCall G) (presetOf G s p)) ∧
      postsetOf G (closure G k (cs.foldl (runStubCall G) (postsetOf G s p))) p =
        closure G k (cs.foldl (runStubCall G) (postsetOf G s p)) ∧
      inhibitorPostsetOf G
          (closure G k (cs.foldl (runStubCall G) (inhibitorPostsetOf G s p))) p =
        closure G k (cs.foldl (runStubCall G) (inhibitorPostsetOf G s p))) ∧
    ((presetOf G s p)._places_seen = s._places_seen.set p (s.seen p ||| 1) ∧
      (postsetOf G s p)._places_seen = s._places_seen.set p (s.seen p ||| 2) ∧
      (inhibitorPostsetOf G s p)._places_seen = s._places_seen.set p (s.seen p ||| 4)) ∧
    (∀ q, (prepare G fuel s m).seen q < 8) ∧
    (∀ x, prepare G fuel { s with _places_seen := x } m = prepare G fuel s m) := by
  have h0 := register_again G 0 s p hp
  have h1 := register_again G 1 s p hp
  have h2 := register_again G 2 s p hp
  have s0 := register_seen G 0 s p
  have s1 := register_seen G 1 s p
  have s2 := register_seen G 2 s p
  simp only [← presetOf_eq_register] at h0 s0
  simp only [← postsetOf_eq_register] at h1 s1
  simp only [← inhibitorPostsetOf_eq_register] at h2 s2
  refine ⟨⟨h0 [] 0, h1 [] 0, h2 [] 0⟩, fun cs k => ⟨h0 cs k, h1 cs k, h2 cs k⟩,
    ⟨s0, s1, s2⟩, prepare_seen_lt G fuel s m, fun x => rfl⟩

/-- Witness for C13 on `chainNet`, place `p1`, from a state whose places-seen
array has been cleared. -/
theorem registrations_idempotent_witness :
    1 < ({ GenState.init chainGen [] with _places_seen := [0, 0, 0, 0, 0] } : GenState)._places_seen.length ∧
      postsetOf chainGen (postsetOf chainGen
        { GenState.init chainGen [] with _places_seen := [0, 0, 0, 0, 0] } 1) 1 =
        postsetOf chainGen { GenState.init chainGen [] with _places_seen := [0, 0, 0, 0, 0] } 1 :=
  ⟨by decide,
    (registrations_idempotent chainGen 3
      { GenState.init chainGen [] with _places_seen := [0, 0, 0, 0, 0] } [1, 0, 1, 0, 0] 1
      (by decide)).1.2.1⟩

/-! ### `printResult` -/

theorem sumBound_some (P : ResultPrinter) (l : List String) (bound : Nat)
    (h : ∀ p ∈ l, (P.placeNames.lookup p).isSome = true) : ∃ b, sumBound P l bound = some b := by
  induction l generalizing bound with
  | nil => exact ⟨bound, rfl⟩
  | cons p rest ih =>
    have hp := h p (List.mem_cons_self _ _)
    obtain ⟨id, hid⟩ := Option.isSome_iff_exists.mp hp
    simp only [sumBound, hid]
    exact ih _ (fun x hx => h x (List.mem_cons_of_mem _ hx))

theorem printVerdict_some (P : ResultPrinter) (query : Condition) (h : NamesKnown P query)
    (name : String) (retval : Result) : ∃ line, printVerdict P query name retval = some line := by
  cases retval with
  | Unknown => exact ⟨_, rfl⟩
  | Satisfied =>
    unfold printVerdict
    simp only []
    split <;> exact ⟨_, rfl⟩
  | NotSatisfied =>
    unfold printVerdict
    simp only []
    split
    · obtain ⟨b, hb⟩ := sumBound_some P _ 0 h
      rw [hb]
      exact ⟨_, rfl⟩
    · split <;> exact ⟨_, rfl⟩

theorem printResult_query (P : ResultPrinter) (index : Nat) (query : Condition) (raw : Result)
    (a b c : Nat) (d : List Nat) (e : Int) (f : List Nat)
    (hq : P.options.statespaceexploration = false) (hi : index < P.querynames.length)
    (hn : NamesKnown P query) (hraw : raw ≠ Result.Unknown) :
    ∃ text, printResult P index query raw a b c d e f =
      some (finalVerdict raw query.isInvariant, text) := by
  have hname : P.querynames[index]? = some (P.querynames[index]) := List.getElem?_eq_getElem hi
  have hret : (if raw = Result.Satisfied then
        (if query.isInvariant then Result.NotSatisfied else Result.Satisfied)
      else if raw = Result.NotSatisfied then
        (if query.isInvariant then Result.Satisfied else Result.NotSatisfied)
      else raw) = finalVerdict raw query.isInvariant := by
    cases raw <;> cases query.isInvariant <;> rfl
  obtain ⟨line, hline⟩ :=
    printVerdict_some P query hn (P.querynames[index]) (finalVerdict raw query.isInvariant)
  have hc : (!P.options.statespaceexploration && raw != Result.Unknown) = true := by
    rw [hq]
    simpa using hraw
  unfold printResult
  rw [if_neg hraw, if_pos hc]
  simp only [hname, hret, hline]
  exact ⟨_, rfl⟩

theorem printResult_statespace (P : ResultPrinter) (index : Nat) (query : Condition)
    (raw : Result) (a b c : Nat) (d : List Nat) (e : Int) (f : List Nat)
    (hq : P.options.statespaceexploration = true) (hraw : raw ≠ Result.Unknown) :
    printResult P index query raw a b c d e f =
      some (Result.Satisfied, "\n" ++ stateSpaceBlock b e f) := by
  unfold printResult
  rw [if_neg hraw, hq]
  rfl

theorem finalVerdict_twice (raw : Result) (inv : Bool) :
    finalVerdict (finalVerdict raw inv) inv = raw := by
  cases raw <;> cases inv <;> rfl

theorem finalVerdict_ne_unknown (raw : Result) (inv : Bool) (h : raw ≠ Result.Unknown) :
    finalVerdict raw inv ≠ Result.Unknown := by
  cases raw <;> cases inv <;> simp [finalVerdict] at h ⊢

/-- C20: with `statespaceexploration` off, for a query whose index has a name
and whose bound places are known to the printer, and for a raw verdict
`Satisfied` or `NotSatisfied`, `printResult` returns the final verdict of the
invariant-polarity table (Satisfied/false gives Satisfied, Satisfied/true gives
NotSatisfied, NotSatisfied/false gives NotSatisfied, NotSatisfied/true gives
Satisfied, the second component being `isInvariant()`); the table applied twice
gives back the raw verdict, and so does `printResult` called on its own
verdict. -/
theorem printResult_polarity_table (P : ResultPrinter) (index : Nat) (query : Condition)
    (raw : Result) (expandedStates exploredStates discoveredStates : Nat)
    (enabledTransitionsCount : List Nat) (maxTokens : Int) (maxPlaceBound : List Nat)
    (hq : P.options.statespaceexploration = false) (hi : index < P.querynames.length)
    (hn : NamesKnown P query) (hraw : raw = Result.Satisfied ∨ raw = Result.NotSatisfied) :
    (∃ text, printResult P index query raw expandedStates exploredStates discoveredStates
        enabledTransitionsCount maxTokens maxPlaceBound =
      some (finalVerdict raw query.isInvariant, text)) ∧
    (finalVerdict Result.Satisfied false = Result.Satisfied ∧
      finalVerdict Result.Satisfied true = Result.NotSatisfied ∧
      finalVerdict Result.NotSatisfied false = Result.NotSatisfied ∧
      finalVerdict Result.NotSatisfied true = Result.Satisfied) ∧
    finalVerdict (finalVerdict raw query.isInvariant) query.isInvariant = raw ∧
    (∃ text, printResult P index query (finalVerdict raw query.isInvariant) expandedStates
        exploredStates discoveredStates enabledTransitionsCount maxTokens maxPlaceBound =
      some (raw, text)) := by
  have hne : raw ≠ Result.Unknown := by
    rcases hraw with h | h <;> rw [h] <;> decide
  refine ⟨printResult_query P index query raw _ _ _ _ _ _ hq hi hn hne, ⟨rfl, rfl, rfl, rfl⟩,
    finalVerdict_twice _ _, ?_⟩
  have h2 := printResult_query P index query (finalVerdict raw query.isInvariant)
    expandedStates exploredStates discoveredStates enabledTransitionsCount maxTokens
    maxPlaceBound hq hi hn (finalVerdict_ne_unknown _ _ hne)
  rw [finalVerdict_twice] at h2
  exact h2

/-- Witness for C20: the invariant query at index 1 of `chainPrinter`, raw
verdict `Satisfied`: the verdict returned is `NotSatisfied`. -/
theorem printResult_polarity_table_witness :
    chainPrinter.options.statespaceexploration = false ∧ 1 < chainPrinter.querynames.length ∧
      NamesKnown chainPrinter invQuery ∧
      ∃ text, printResult chainPrinter 1 invQuery Result.Satisfied 0 1 1 [0, 0, 0] 2
        [1, 0, 1, 0, 0] = some (Result.NotSatisfied, text) :=
  ⟨by decide, by decide, by decide,
    (printResult_polarity_table chainPrinter 1 invQuery Result.Satisfied 0 1 1 [0, 0, 0] 2
      [1, 0, 1, 0, 0] (by decide) (by decide) (by decide) (Or.inl rfl)).1⟩

/-! ### `reachable`: the choice of the frontier -/

theorem pendingBound_iff (queries : List Condition) (results : List Result) :
    pendingBound queries results = true ↔
      ∃ (i : Nat) (q : Condition), queries[i]? = some q ∧ results[i]? = some Result.Unknown ∧
        q.placeNameForBound ≠ [] := by
  induction queries generalizing results with
  | nil =>
    constructor
    · intro h
      simp [pendingBound] at h
    · rintro ⟨i, q, h, _⟩
      simp at h
  | cons q0 qs ih =>
    cases results with
    | nil =>
      constructor
      · intro h
        simp [pendingBound] at h
      · rintro ⟨i, q, _, h, _⟩
        simp at h
    | cons r rs =>
      simp only [pendingBound, Bool.or_eq_true, Bool.and_eq_true, beq_iff_eq,
        Bool.not_eq_true', List.isEmpty_eq_false]
      constructor
      · rintro (⟨h1, h2⟩ | h)
        · exact ⟨0, q0, by simp, by simp [h1], h2⟩
        · obtain ⟨i, q, h1, h2, h3⟩ := (ih rs).mp h
          exact ⟨i + 1, q, by simpa using h1, by simpa using h2, h3⟩
      · rintro ⟨i, q, h1, h2, h3⟩
        cases i with
        | zero =>
          simp only [List.getElem?_cons_zero, Option.some.injEq] at h1 h2
          subst h1 h2
          exact Or.inl ⟨rfl, h3⟩
        | succ i =>
          simp only [List.getElem?_cons_succ] at h1 h2
          exact Or.inr ((ih rs).mpr ⟨i, q, h1, h2, h3⟩)

theorem boundLoop_spec (results : List Result) (queries : List Condition) (i : Nat)
    (usequeries : Bool) (hlen : i + queries.length ≤ results.length) :
    boundLoop results queries i usequeries =
      some (usequeries && !pendingBound queries (results.drop i)) := by
  induction queries generalizing i usequeries with
  | nil => simp [boundLoop, pendingBound]
  | cons q qs ih =>
    have hi : i < results.length := by
      simp only [List.length_cons] at hlen
      omega
    have hget : results[i]? = some results[i] := List.getElem?_eq_getElem hi
    have hdrop : results.drop i = results[i] :: results.drop (i + 1) :=
      List.drop_eq_getElem_cons hi
    have hlen2 : i + 1 + qs.length ≤ results.length := by
      simp only [List.length_cons] at hlen
      omega
    simp only [boundLoop, hget]
    rw [ih (i + 1) _ hlen2, hdrop]
    simp only [pendingBound]
    by_cases hr : results[i] = Result.Unknown
    · simp only [hr, if_true, beq_self_eq_true, Bool.true_and]
      cases usequeries <;> cases q.placeNameForBound.isEmpty <;> simp
    · have hb : (results[i] == Result.Unknown) = false := by simpa using hr
      simp only [hr, if_false, hb, Bool.false_and, Bool.false_or]

theorem reachable_usequeries (results : List Result) (queries : List Condition)
    (statespacesearch : Bool) (hlen : queries.length ≤ results.length) :
    (if !statespacesearch then boundLoop results queries 0 (!statespacesearch)
      else some (!statespacesearch)) =
      some (!statespacesearch && !pendingBound queries results) := by
  cases statespacesearch with
  | true => rfl
  | false =>
    have h := boundLoop_spec results queries 0 true (by omega)
    simp only [List.drop_zero] at h
    simpa using h

/-- C14: when at least one query whose result is still `Unknown` has a
non-empty `placeNameForBound`, `reachable` instantiates `tryReach` with
`BFSQueue` (and `usequeries` false), whatever strategy value, state-space flag
and statistics flag it was called with; `results` is what that search
leaves. -/
theorem reachable_bound_forces_bfs
    (tryReach : Frontier → List Condition → List Result → Bool → Bool → List Result)
    (queries : List Condition) (results : List Result)
    (hlen : queries.length ≤ results.length)
    (hpend : ∃ (i : Nat) (q : Condition), queries[i]? = some q ∧ results[i]? = some Result.Unknown ∧
      q.placeNameForBound ≠ []) :
    ∀ (strategy : Strategy) (statespacesearch printstats : Bool),
      reachable tryReach queries results strategy statespacesearch printstats =
        some { run := some ⟨Frontier.BFSQueue, false, printstats⟩,
               results := tryReach Frontier.BFSQueue queries results false printstats,
               out := "" } := by
  intro strategy statespacesearch printstats
  have hp := (pendingBound_iff queries results).mpr hpend
  unfold reachable
  rw [reachable_usequeries results queries statespacesearch hlen, hp]
  simp

/-- Witness for C14: a bound query with result `Unknown`, depth-first
requested. -/
theorem reachable_bound_forces_bfs_witness :
    reachable idleReach [goalQuery, boundQuery] [Result.Unknown, Result.Unknown] Strategy.DFS
        false true =
      some { run := some ⟨Frontier.BFSQueue, false, true⟩,
             results := idleReach Frontier.BFSQueue [goalQuery, boundQuery]
               [Result.Unknown, Result.Unknown] false true,
             out := "" } :=
  reachable_bound_forces_bfs idleReach [goalQuery, boundQuery]
    [Result.Unknown, Result.Unknown] (by decide) ⟨1, boundQuery, by simp, by simp, by decide⟩
    Strategy.DFS false true

/-- C15: when `statespacesearch` is false and no query with an `Unknown` result
names a bound place, `reachable` instantiates `tryReach` with the frontier of
the requested strategy (`DFS`: `DFSQueue`, `BFS`: `BFSQueue`, `HEUR`:
`HeuristicQueue`) and with `usequeries` true; bound queries whose result is
terminal are not looked at. -/
theorem reachable_honours_strategy
    (tryReach : Frontier → List Condition → List Result → Bool → Bool → List Result)
    (queries : List Condition) (results : List Result) (printstats : Bool)
    (hlen : queries.length ≤ results.length)
    (hno : ∀ (i : Nat) (q : Condition), queries[i]? = some q → results[i]? = some Result.Unknown →
      q.placeNameForBound = []) :
    reachable tryReach queries results Strategy.DFS false printstats =
        some { run := some ⟨Frontier.DFSQueue, true, printstats⟩,
               results := tryReach Frontier.DFSQueue queries results true printstats,
               out := "" } ∧
    reachable tryReach queries results Strategy.BFS false printstats =
        some { run := some ⟨Frontier.BFSQueue, true, printstats⟩,
               results := tryReach Frontier.BFSQueue queries results true printstats,
               out := "" } ∧
    reachable tryReach queries results Strategy.HEUR false printstats =
        some { run := some ⟨Frontier.HeuristicQueue, true, printstats⟩,
               results := tryReach Frontier.HeuristicQueue queries results true printstats,
               out := "" } := by
  have hp : pendingBound queries results = false := by
    rw [Bool.eq_false_iff]
    intro h
    obtain ⟨i, q, h1, h2, h3⟩ := (pendingBound_iff queries results).mp h
    exact h3 (hno i q h1 h2)
  unfold reachable
  rw [reachable_usequeries results queries false hlen, hp]
  simp

/-- Witness for C15: the bound query is already `Satisfied`, the other query
is `Unknown` and names no place: depth-first is run, with `usequeries` set. -/
theorem reachable_honours_strategy_witness :
    reachable idleReach [goalQuery, boundQuery] [Result.Unknown, Result.Satisfied] Strategy.DFS
        false true =
      some { run := some ⟨Frontier.DFSQueue, true, true⟩,
             results := idleReach Frontier.DFSQueue [goalQuery, boundQuery]
               [Result.Unknown, Result.Satisfied] true true,
             out := "" } :=
  (reachable_honours_strategy idleReach [goalQuery, boundQuery]
    [Result.Unknown, Result.Satisfied] true (by decide)
    (fun i q h1 h2 => by
      match i, h1, h2 with
      | 0, h1, _ =>
        simp only [List.getElem?_cons_zero, Option.some.injEq] at h1
        rw [← h1]
        rfl
      | 1, _, h2 => simp at h2
      | i + 2, h1, _ => simp at h1)).1

/-- C16, counterexample: with `statespacesearch` set, a strategy value that is
none of `DFS`, `BFS`, `HEUR` is overwritten by `BFS` before the switch: the
breadth-first search runs and nothing is printed by `reachable`. -/
theorem unsupported_strategy_counterexample :
    reachable idleReach [goalQuery] [Result.Unknown] (Strategy.other 7) true false =
      some { run := some ⟨Frontier.BFSQueue, false, false⟩,
             results := [Result.Unknown], out := "" } := by
  rfl

/-- C16, amended: for a strategy value other than `DFS`, `BFS` and `HEUR`,
`reachable` prints `UNSUPPORTED SEARCH STRATEGY`, runs no search and leaves
`results` unchanged when `statespacesearch` is false and no query with an
`Unknown` result names a bound place; when `statespacesearch` is true or such
a query exists, the value is overridden and the breadth-first frontier runs. -/
theorem reachable_unsupported_strategy
    (tryReach : Frontier → List Condition → List Result → Bool → Bool → List Result)
    (queries : List Condition) (results : List Result) (v : Nat)
    (statespacesearch printstats : Bool) (hlen : queries.length ≤ results.length) :
    (statespacesearch = false →
      (∀ (i : Nat) (q : Condition), queries[i]? = some q → results[i]? = some Result.Unknown →
        q.placeNameForBound = []) →
      reachable tryReach queries results (Strategy.other v) statespacesearch printstats =
        some { run := none, results := results, out := "UNSUPPORTED SEARCH STRATEGY\n" }) ∧
    ((statespacesearch = true ∨
        ∃ (i : Nat) (q : Condition), queries[i]? = some q ∧ results[i]? = some Result.Unknown ∧
          q.placeNameForBound ≠ []) →
      reachable tryReach queries results (Strategy.other v) statespacesearch printstats =
        some { run := some ⟨Frontier.BFSQueue, false, printstats⟩,
               results := tryReach Frontier.BFSQueue queries results false printstats,
               out := "" }) := by
  constructor
  · intro hs hno
    have hp : pendingBound queries results = false := by
      rw [Bool.eq_false_iff]
      intro h
      obtain ⟨i, q, h1, h2, h3⟩ := (pendingBound_iff queries results).mp h
      exact h3 (hno i q h1 h2)
    unfold reachable
    rw [reachable_usequeries results queries statespacesearch hlen, hp, hs]
    simp
  · intro h
    unfold reachable
    rw [reachable_usequeries results queries statespacesearch hlen]
    rcases h with hs | hpend
    · rw [hs]
      simp
    · rw [(pendingBound_iff queries results).mpr hpend]
      simp

/-- Witness for C16 (amended): query mode, one plain query with result
`Unknown`, strategy value 7: the message is printed and no search runs. -/
theorem reachable_unsupported_strategy_witness :
    reachable idleReach [goalQuery] [Result.Unknown] (Strategy.other 7) false false =
      some { run := none, results := [Result.Unknown],
             out := "UNSUPPORTED SEARCH STRATEGY\n" } :=
  (reachable_unsupported_strategy idleReach [goalQuery] [Result.Unknown] 7 false false
    (by decide)).1 rfl
    (fun i q h1 _ => by
      match i, h1 with
      | 0, h1 =>
        simp only [List.getElem?_cons_zero, Option.some.injEq] at h1
        rw [← h1]
        rfl
      | i + 1, h1 => simp at h1)

/-! ### `checkQueries` -/

theorem getElem?_append_cons {α : Type} (pre : List α) (r : α) (rest : List α) :
    (pre ++ r :: rest)[pre.length]? = some r := by
  induction pre with
  | nil => simp
  | cons a pre ih => simpa using ih

theorem set_append_cons {α : Type} (pre : List α) (r x : α) (rest : List α) :
    (pre ++ r :: rest).set pre.length x = pre ++ x :: rest := by
  induction pre with
  | nil => simp
  | cons a pre ih => simp

theorem settle_ne_unknown (P : ResultPrinter) (q : Condition) : settle P q ≠ Result.Unknown := by
  unfold settle
  split
  · decide
  · split <;> decide

theorem printQuery_satisfied (R : ReachabilitySearch) (query : Condition) (i : Nat)
    (ss : searchstate_t)
    (h : R.printer.options.statespaceexploration = true ∨
      (i < R.printer.querynames.length ∧ NamesKnown R.printer query)) :
    ∃ text, printQuery R query i Result.Satisfied ss = some (settle R.printer query, text) := by
  unfold printQuery settle
  cases hq : R.printer.options.statespaceexploration with
  | true =>
    rw [printResult_statespace R.printer i query Result.Satisfied _ _ _ _ _ _ hq (by decide)]
    exact ⟨_, rfl⟩
  | false =>
    rw [hq] at h
    rcases h with h | ⟨hi, hn⟩
    · exact absurd h (by decide)
    · obtain ⟨text, ht⟩ := printResult_query R.printer i query Result.Satisfied ss.expandedStates
        ss.exploredStates R.states.discovered ss.enabledTransitionsCount R.states.maxTokens
        R.states.maxPlaceBound hq hi hn (by decide)
      refine ⟨text, ?_⟩
      rw [ht]
      cases query.isInvariant <;> rfl

theorem checkQuery_spec (R : ReachabilitySearch) (state : Marking) (c : Checked) (i : Nat)
    (query : Condition) (pre : List Result) (r : Result) (rest : List Result)
    (hres : c.results = pre ++ r :: rest) (hi : pre.length = i)
    (hp : R.printer.options.statespaceexploration = true ∨
      (i < R.printer.querynames.length ∧ NamesKnown R.printer query)) :
    ∃ c1, checkQuery R state c i query = some c1 ∧
      c1.results = pre ++ settleAt R.printer state query r :: rest ∧
      c1.ret = (c.ret && !(r == Result.Unknown && !query.evaluate state)) ∧
      c1.evaluated = c.evaluated ++ (if r = Result.Unknown then [i] else []) := by
  have hget : c.results[i]? = some r := by
    rw [hres, ← hi]
    exact getElem?_append_cons pre r rest
  have hfin : ∀ c0 : Checked, ∃ c1,
      (if i = c0.ss.heurquery ∧ c0.results[i]? ≠ some Result.Unknown then
          some { c0 with ss := { c0.ss with heurquery := c0.ss.heurquery + 1 } }
        else some c0) = some c1 ∧
      c1.results = c0.results ∧ c1.ret = c0.ret ∧ c1.evaluated = c0.evaluated := by
    intro c0
    split
    · exact ⟨_, rfl, rfl, rfl, rfl⟩
    · exact ⟨_, rfl, rfl, rfl, rfl⟩
  unfold checkQuery
  simp only [hget]
  by_cases hr : r = Result.Unknown
  · subst hr
    by_cases he : query.evaluate state = true
    · obtain ⟨text, ht⟩ := printQuery_satisfied R query i c.ss hp
      simp only [if_true, he, ht]
      obtain ⟨c1, h1, h2, h3, h4⟩ := hfin { c with results := c.results.set i (settle R.printer query), evaluated := c.evaluated ++ [i], out := c.out ++ text }
      refine ⟨c1, h1, ?_, ?_, ?_⟩
      · rw [h2]
        show c.results.set i (settle R.printer query) = _
        rw [hres, ← hi, set_append_cons]
        simp [settleAt, he]
      · rw [h3]
        simp [he]
      · rw [h4]
    · have he2 : query.evaluate state = false := by simpa using he
      simp only [if_true, he2, Bool.false_eq_true, if_false]
      obtain ⟨c1, h1, h2, h3, h4⟩ := hfin { c with ret := false, evaluated := c.evaluated ++ [i] }
      refine ⟨c1, h1, ?_, ?_, ?_⟩
      · rw [h2]
        show c.results = _
        rw [hres]
        simp [settleAt, he2]
      · rw [h3]
        simp [he2]
      · rw [h4]
  · simp only [hr, if_false]
    obtain ⟨c1, h1, h2, h3, h4⟩ := hfin c
    refine ⟨c1, h1, ?_, ?_, ?_⟩
    · rw [h2, hres]
      simp [settleAt, hr]
    · rw [h3]
      simp [hr]
    · rw [h4]
      simp

theorem checkLoop_spec (R : ReachabilitySearch) (state : Marking) (queries : List Condition)
    (i : Nat) (c : Checked) (pre rest : List Result)
    (hres : c.results = pre ++ rest) (hi : pre.length = i)
    (hlen : queries.length ≤ rest.length) (hp : Printable R.printer i queries) :
    ∃ c1, checkLoop R state queries i c = some c1 ∧
      c1.results = pre ++ settleAll R.printer state queries rest ∧
      c1.ret = (c.ret && !stillUnknown state queries rest) ∧
      c1.evaluated = c.evaluated ++ unknownsFrom i queries rest := by
  induction queries generalizing i c pre rest with
  | nil =>
    refine ⟨c, rfl, ?_, ?_, ?_⟩
    · simpa [settleAll] using hres
    · simp [stillUnknown]
    · simp [unknownsFrom]
  | cons q qs ih =>
    cases rest with
    | nil => simp at hlen
    | cons r rest =>
      have hp1 : R.printer.options.statespaceexploration = true ∨
          (i < R.printer.querynames.length ∧ NamesKnown R.printer q) := by
        rcases hp with h | ⟨h1, h2⟩
        · exact Or.inl h
        · refine Or.inr ⟨?_, h2 q (List.mem_cons_self _ _)⟩
          simp only [List.length_cons] at h1
          omega
      have hp2 : Printable R.printer (i + 1) qs := by
        rcases hp with h | ⟨h1, h2⟩
        · exact Or.inl h
        · refine Or.inr ⟨?_, fun x hx => h2 x (List.mem_cons_of_mem _ hx)⟩
          simp only [List.length_cons] at h1
          omega
      obtain ⟨c1, h1, h2, h3, h4⟩ := checkQuery_spec R state c i q pre r rest hres hi hp1
      have hlen2 : qs.length ≤ rest.length := by
        simp only [List.length_cons] at hlen
        omega
      obtain ⟨c2, g1, g2, g3, g4⟩ := ih (i + 1) c1
        (pre ++ [settleAt R.printer state q r]) rest (by rw [h2]; simp) (by simp [hi]) hlen2 hp2
      refine ⟨c2, ?_, ?_, ?_, ?_⟩
      · simp only [checkLoop, h1]
        exact g1
      · rw [g2]
        simp [settleAll]
      · rw [g3, h3]
        simp only [stillUnknown]
        cases c.ret <;> cases (r == Result.Unknown && !q.evaluate state) <;> simp
      · rw [g4, h4]
        simp [unknownsFrom]

theorem checkQueries_spec (R : ReachabilitySearch) (queries : List Condition)
    (results : List Result) (state : Marking) (ss : searchstate_t)
    (hu : ss.usequeries = true) (hlen : queries.length ≤ results.length)
    (hp : Printable R.printer 0 queries) :
    ∃ c, checkQueries R queries results state ss = some c ∧
      c.results = settleAll R.printer state queries results ∧
      c.ret = !stillUnknown state queries results ∧
      c.evaluated = unknownsFrom 0 queries results := by
  obtain ⟨c, h1, h2, h3, h4⟩ := checkLoop_spec R state queries 0
    { ret := true, results := results, ss := ss, evaluated := [], out := "" } [] results rfl rfl
    hlen hp
  refine ⟨c, ?_, ?_, ?_, ?_⟩
  · unfold checkQueries
    rw [hu]
    exact h1
  · simpa using h2
  · simpa using h3
  · simpa using h4

theorem checkQueries_off (R : ReachabilitySearch) (queries : List Condition)
    (results : List Result) (state : Marking) (ss : searchstate_t)
    (hu : ss.usequeries = false) :
    checkQueries R queries results state ss =
      some { ret := false, results := results, ss := ss, evaluated := [], out := "" } := by
  unfold checkQueries
  rw [hu]
  rfl

theorem settleAll_getElem?_some (P : ResultPrinter) (state : Marking) (qs : List Condition)
    (rs : List Result) (j : Nat) (q : Condition) (r : Result)
    (hq : qs[j]? = some q) (hr : rs[j]? = some r) :
    (settleAll P state qs rs)[j]? = some (settleAt P state q r) := by
  induction qs generalizing rs j with
  | nil => simp at hq
  | cons q0 qs ih =>
    cases rs with
    | nil => simp at hr
    | cons r0 rs =>
      cases j with
      | zero =>
        simp only [List.getElem?_cons_zero, Option.some.injEq] at hq hr
        subst hq hr
        simp [settleAll]
      | succ j =>
        simp only [List.getElem?_cons_succ] at hq hr
        simp only [settleAll, List.getElem?_cons_succ]
        exact ih rs j hq hr

theorem settleAll_getElem?_none (P : ResultPrinter) (state : Marking) (qs : List Condition)
    (rs : List Result) (j : Nat) (hq : qs[j]? = none) :
    (settleAll P state qs rs)[j]? = rs[j]? := by
  induction qs generalizing rs j with
  | nil => simp [settleAll]
  | cons q0 qs ih =>
    cases rs with
    | nil => simp [settleAll]
    | cons r0 rs =>
      cases j with
      | zero => simp at hq
      | succ j =>
        simp only [List.getElem?_cons_succ] at hq
        simp only [settleAll, List.getElem?_cons_succ]
        exact ih rs j hq

theorem settleAt_terminal (P : ResultPrinter) (state : Marking) (q : Condition) (r : Result)
    (hr : r ≠ Result.Unknown) : settleAt P state q r = r := by
  simp [settleAt, hr]

theorem settleAt_unknown_iff (P : ResultPrinter) (state : Marking) (q : Condition)
    (r : Result) :
    settleAt P state q r = Result.Unknown ↔ r = Result.Unknown ∧ q.evaluate state = false := by
  unfold settleAt
  by_cases hr : r = Result.Unknown
  · cases he : q.evaluate state with
    | true => simpa [hr, he] using settle_ne_unknown P q
    | false => simp [hr, he]
  · simp [hr]

theorem settleAll_keeps (P : ResultPrinter) (state : Marking) (qs : List Condition)
    (rs : List Result) (j : Nat) (r : Result) (hj : rs[j]? = some r)
    (hr : r ≠ Result.Unknown) : (settleAll P state qs rs)[j]? = some r := by
  cases hq : qs[j]? with
  | none => rw [settleAll_getElem?_none P state qs rs j hq, hj]
  | some q =>
    rw [settleAll_getElem?_some P state qs rs j q r hq hj, settleAt_terminal P state q r hr]

theorem settleAll_unknown_was (P : ResultPrinter) (state : Marking) (qs : List Condition)
    (rs : List Result) (j : Nat) (h : (settleAll P state qs rs)[j]? = some Result.Unknown) :
    rs[j]? = some Result.Unknown := by
  cases hq : qs[j]? with
  | none => rw [← settleAll_getElem?_none P state qs rs j hq, h]
  | some q =>
    cases hr : rs[j]? with
    | none =>
      have hl : (settleAll P state qs rs).length = rs.length := by
        clear h hq hr
        induction qs generalizing rs with
        | nil => simp [settleAll]
        | cons q0 qs ih =>
          cases rs with
          | nil => simp [settleAll]
          | cons r0 rs => simp [settleAll, ih rs]
      have h1 : rs.length ≤ j := by
        rw [List.getElem?_eq_none_iff] at hr
        exact hr
      have h2 : (settleAll P state qs rs)[j]? = none := by
        rw [List.getElem?_eq_none_iff, hl]
        exact h1
      rw [h2] at h
      exact absurd h (by simp)
    | some r =>
      rw [settleAll_getElem?_some P state qs rs j q r hq hr] at h
      have h3 := (settleAt_unknown_iff P state q r).mp (Option.some.inj h)
      rw [h3.1]

theorem mem_unknownsFrom (i : Nat) (qs : List Condition) (rs : List Result) (k : Nat)
    (h : k ∈ unknownsFrom i qs rs) : ∃ j, k = i + j ∧ rs[j]? = some Result.Unknown := by
  induction qs generalizing i rs with
  | nil => simp [unknownsFrom] at h
  | cons q0 qs ih =>
    cases rs with
    | nil => simp [unknownsFrom] at h
    | cons r0 rs =>
      simp only [unknownsFrom, List.mem_append] at h
      rcases h with h | h
      · by_cases hr : r0 = Result.Unknown
        · simp only [hr, if_true, List.mem_singleton] at h
          exact ⟨0, by omega, by simp [hr]⟩
        · simp [hr] at h
      · obtain ⟨j, h1, h2⟩ := ih (i + 1) rs h
        exact ⟨j + 1, by omega, by simpa using h2⟩

theorem stillUnknown_false_iff (P : ResultPrinter) (state : Marking) (qs : List Condition)
    (rs : List Result) (hlen : qs.length ≤ rs.length) :
    stillUnknown state qs rs = false ↔
      ∀ j, j < qs.length → (settleAll P state qs rs)[j]? ≠ some Result.Unknown := by
  induction qs generalizing rs with
  | nil => simp [stillUnknown]
  | cons q0 qs ih =>
    cases rs with
    | nil => simp at hlen
    | cons r0 rs =>
      have hlen2 : qs.length ≤ rs.length := by
        simp only [List.length_cons] at hlen
        omega
      simp only [stillUnknown, settleAll, Bool.or_eq_false_iff, ih rs hlen2]
      constructor
      · rintro ⟨h1, h2⟩ j hj
        cases j with
        | zero =>
          simp only [List.getElem?_cons_zero, ne_eq, Option.some.injEq]
          rw [settleAt_unknown_iff]
          rintro ⟨ha, hb⟩
          simp [ha, hb] at h1
        | succ j =>
          simp only [List.getElem?_cons_succ]
          exact h2 j (by simp only [List.length_cons] at hj; omega)
      · intro h
        constructor
        · have h0 := h 0 (by simp)
          simp only [List.getElem?_cons_zero, ne_eq, Option.some.injEq] at h0
          rw [settleAt_unknown_iff] at h0
          cases hr : (r0 == Result.Unknown) with
          | false => simp
          | true =>
            cases he : q0.evaluate state with
            | true => simp
            | false =>
              exact absurd ⟨by simpa using hr, he⟩ h0
        · intro j hj
          have hs := h (j + 1) (by simp only [List.length_cons]; omega)
          simpa using hs

/-- C17, counterexample: in query mode, with the default printer options, an
invariant query whose result is `Unknown` and whose predicate holds on the
state gets `NotSatisfied` stored by `checkQueries`, not `Satisfied`. -/
theorem checkQueries_invariant_counterexample :
    querySS.usequeries = true ∧ invQuery.isInvariant = true ∧
      invQuery.evaluate [0, 0, 1, 0, 1] = true ∧
      (checkQueries chainSearch [invQuery] [Result.Unknown] [0, 0, 1, 0, 1] querySS).map
        (fun c => c.results) = some [Result.NotSatisfied] := by
  decide

/-- C17, amended: in query mode (`usequeries` set), for every query whose
result is `Unknown` before `checkQueries` and whose predicate evaluates to true
on the state, the result stored is the verdict `printResult` returns for the
raw verdict `Satisfied`: `Satisfied` for a query that is not an invariant
query, `NotSatisfied` for an invariant query when the printer has
`statespaceexploration` off (the polarity flip is applied to the result kept
inside the search loop), `Satisfied` when it has it on; it is never
`Unknown`. -/
theorem checkQueries_stores_printed_verdict (R : ReachabilitySearch)
    (queries : List Condition) (results : List Result) (state : Marking) (ss : searchstate_t)
    (i : Nat) (q : Condition)
    (hu : ss.usequeries = true) (hlen : queries.length ≤ results.length)
    (hp : Printable R.printer 0 queries)
    (hq : queries[i]? = some q) (hr : results[i]? = some Result.Unknown)
    (he : q.evaluate state = true) :
    ∃ c, checkQueries R queries results state ss = some c ∧
      (q.isInvariant = false → c.results[i]? = some Result.Satisfied) ∧
      (q.isInvariant = true → R.printer.options.statespaceexploration = false →
        c.results[i]? = some Result.NotSatisfied) ∧
      (R.printer.options.statespaceexploration = true →
        c.results[i]? = some Result.Satisfied) ∧
      c.results[i]? ≠ some Result.Unknown := by
  obtain ⟨c, h1, h2, _, _⟩ := checkQueries_spec R queries results state ss hu hlen hp
  have h3 : c.results[i]? = some (settle R.printer q) := by
    rw [h2, settleAll_getElem?_some R.printer state queries results i q Result.Unknown hq hr]
    simp [settleAt, he]
  refine ⟨c, h1, ?_, ?_, ?_, ?_⟩
  · intro hinv
    rw [h3]
    simp [settle, hinv]
  · intro hinv hs
    rw [h3]
    simp [settle, hinv, hs]
  · intro hs
    rw [h3]
    simp [settle, hs]
  · rw [h3]
    intro h
    exact settle_ne_unknown R.printer q (Option.some.inj h)

/-- Witness for C17 (amended): the plain query and the invariant query, both
`Unknown`, on a marking of `chainNet` with a token on `p4`: the invariant query
at index 1 gets `NotSatisfied`. -/
theorem checkQueries_stores_printed_verdict_witness :
    querySS.usequeries = true ∧ invQuery.evaluate [0, 0, 1, 0, 1] = true ∧
      ∃ c, checkQueries chainSearch [goalQuery, invQuery] [Result.Unknown, Result.Unknown]
          [0, 0, 1, 0, 1] querySS = some c ∧
        c.results[1]? = some Result.NotSatisfied := by
  obtain ⟨c, h1, _, h3, _⟩ := checkQueries_stores_printed_verdict chainSearch
    [goalQuery, invQuery] [Result.Unknown, Result.Unknown] [0, 0, 1, 0, 1] querySS 1 invQuery
    (by decide) (by decide) (by decide) (by simp) (by simp) (by decide)
  exact ⟨by decide, by decide, c, h1, h3 rfl rfl⟩

/-- C18: `checkQueries` keeps every result that is `Satisfied` or
`NotSatisfied` and does not evaluate the query it belongs to; a result that is
`Unknown` after the call was `Unknown` before; a query whose result was
`Unknown` and whose predicate is false on the state stays `Unknown`; and with
`usequeries` false the call returns at once: no result changes and no query is
evaluated (whatever the vectors hold). -/
theorem checkQueries_keeps_terminal (R : ReachabilitySearch) (queries : List Condition)
    (results : List Result) (state : Marking) (ss : searchstate_t) :
    (ss.usequeries = false →
      checkQueries R queries results state ss =
        some { ret := false, results := results, ss := ss, evaluated := [], out := "" }) ∧
    (queries.length ≤ results.length → Printable R.printer 0 queries →
      ∃ c, checkQueries R queries results state ss = some c ∧
        (∀ (i : Nat) (r : Result), results[i]? = some r → r ≠ Result.Unknown →
          c.results[i]? = some r ∧ i ∉ c.evaluated) ∧
        (∀ (i : Nat), c.results[i]? = some Result.Unknown →
          results[i]? = some Result.Unknown) ∧
        (∀ (i : Nat) (q : Condition), queries[i]? = some q →
          results[i]? = some Result.Unknown → q.evaluate state = false →
          c.results[i]? = some Result.Unknown)) := by
  refine ⟨checkQueries_off R queries results state ss, fun hlen hp => ?_⟩
  cases hu : ss.usequeries with
  | false =>
    refine ⟨_, checkQueries_off R queries results state ss hu, ?_, ?_, ?_⟩
    · intro i r hi _
      exact ⟨hi, List.not_mem_nil i⟩
    · intro i h
      exact h
    · intro i q _ hr _
      exact hr
  | true =>
    obtain ⟨c, h1, h2, _, h4⟩ := checkQueries_spec R queries results state ss hu hlen hp
    refine ⟨c, h1, ?_, ?_, ?_⟩
    · intro i r hi hr
      refine ⟨?_, ?_⟩
      · rw [h2]
        exact settleAll_keeps R.printer state queries results i r hi hr
      · intro hmem
        rw [h4] at hmem
        obtain ⟨j, hj1, hj2⟩ := mem_unknownsFrom 0 queries results i hmem
        have hij : i = j := by omega
        rw [← hij, hi] at hj2
        exact hr (Option.some.inj hj2)
    · intro i h
      rw [h2] at h
      exact settleAll_unknown_was R.printer state queries results i h
    · intro i q hq hr he
      rw [h2, settleAll_getElem?_some R.printer state queries results i q Result.Unknown hq hr]
      simp [settleAt, he]

/-- Witness for C18: three queries of which the first is already `Satisfied`,
the second (an invariant query) already `NotSatisfied`, the third `Unknown`
with a false predicate: nothing changes and only index 2 is evaluated. -/
theorem checkQueries_keeps_terminal_witness :
    [goalQuery, invQuery, boundQuery].length ≤
        [Result.Satisfied, Result.NotSatisfied, Result.Unknown].length ∧
      Printable chainSearch.printer 0 [goalQuery, invQuery, boundQuery] ∧
      ∃ c, checkQueries chainSearch [goalQuery, invQuery, boundQuery]
          [Result.Satisfied, Result.NotSatisfied, Result.Unknown] [0, 0, 1, 0, 1] querySS =
            some c ∧
        c.results[0]? = some Result.Satisfied ∧ 0 ∉ c.evaluated ∧
        c.results[2]? = some Result.Unknown := by
  obtain ⟨c, h1, h2, _, h4⟩ := (checkQueries_keeps_terminal chainSearch
    [goalQuery, invQuery, boundQuery] [Result.Satisfied, Result.NotSatisfied, Result.Unknown]
    [0, 0, 1, 0, 1] querySS).2 (by decide) (by decide)
  have h0 := h2 0 Result.Satisfied (by simp) (by decide)
  exact ⟨by decide, by decide, c, h1, h0.1, h0.2, h4 2 boundQuery (by simp) (by simp) rfl⟩

/-- C19: `checkQueries` returns true if and only if `usequeries` is set and no
query has the result `Unknown` after the call; in particular it returns
`usequeries` for an empty query list, and false whenever `usequeries` is
false. -/
theorem checkQueries_returns_alldone (R : ReachabilitySearch) (queries : List Condition)
    (results : List Result) (state : Marking) (ss : searchstate_t) :
    (queries.length ≤ results.length → Printable R.printer 0 queries →
      ∃ c, checkQueries R queries results state ss = some c ∧
        (c.ret = true ↔
          ss.usequeries = true ∧
            ∀ (i : Nat), i < queries.length → c.results[i]? ≠ some Result.Unknown)) ∧
    (checkQueries R [] results state ss).map (fun c => c.ret) = some ss.usequeries ∧
    (ss.usequeries = false →
      (checkQueries R queries results state ss).map (fun c => c.ret) = some false) := by
  refine ⟨fun hlen hp => ?_, ?_, ?_⟩
  · cases hu : ss.usequeries with
    | false =>
      refine ⟨_, checkQueries_off R queries results state ss hu, ?_⟩
      simp
    | true =>
      obtain ⟨c, h1, h2, h3, _⟩ := checkQueries_spec R queries results state ss hu hlen hp
      refine ⟨c, h1, ?_⟩
      rw [h3, h2]
      simp only [Bool.not_eq_true', true_and]
      exact stillUnknown_false_iff R.printer state queries results hlen
  · cases hu : ss.usequeries with
    | false => rw [checkQueries_off R [] results state ss hu]; rfl
    | true =>
      unfold checkQueries
      rw [hu]
      rfl
  · intro hu
    rw [checkQueries_off R queries results state ss hu]
    rfl

/-- Witness for C19: both queries hold on the marking, so every result is
terminal after the call and `checkQueries` returns true. -/
theorem checkQueries_returns_alldone_witness :
    [goalQuery, invQuery].length ≤ [Result.Unknown, Result.Unknown].length ∧
      Printable chainSearch.printer 0 [goalQuery, invQuery] ∧
      ∃ c, checkQueries chainSearch [goalQuery, invQuery] [Result.Unknown, Result.Unknown]
          [0, 0, 1, 0, 1] querySS = some c ∧
        (c.ret = true ↔
          querySS.usequeries = true ∧
            ∀ (i : Nat), i < [goalQuery, invQuery].length →
              c.results[i]? ≠ some Result.Unknown) :=
  ⟨by decide, by decide,
    (checkQueries_returns_alldone chainSearch [goalQuery, invQuery]
      [Result.Unknown, Result.Unknown] [0, 0, 1, 0, 1] querySS).1 (by decide) (by decide)⟩

/-! ### What `printResult` prints -/

theorem foldl_max_spec (l : List Nat) (b : Nat) :
    b ≤ l.foldl (fun placeBound x => max placeBound x) b ∧
      (∀ x ∈ l, x ≤ l.foldl (fun placeBound x => max placeBound x) b) ∧
      (l.foldl (fun placeBound x => max placeBound x) b = b ∨
        l.foldl (fun placeBound x => max placeBound x) b ∈ l) := by
  induction l generalizing b with
  | nil => simp
  | cons a l ih =>
    obtain ⟨h1, h2, h3⟩ := ih (max b a)
    simp only [List.foldl_cons]
    refine ⟨le_trans (le_max_left b a) h1, ?_, ?_⟩
    · intro x hx
      rcases List.mem_cons.1 hx with rfl | hx
      · exact le_trans (le_max_right b _) h1
      · exact h2 x hx
    · rcases h3 with h | h
      · rcases max_choice b a with hm | hm
        · left
          rw [h, hm]
        · right
          rw [h, hm]
          exact List.mem_cons_self _ _
      · right
        exact List.mem_cons_of_mem _ h

theorem maxBound_spec (l : List Nat) :
    (∀ b ∈ l, b ≤ maxBound l) ∧ (l ≠ [] → maxBound l ∈ l) ∧ maxBound [] = 0 := by
  obtain ⟨_, h2, h3⟩ := foldl_max_spec l 0
  refine ⟨h2, fun hne => ?_, rfl⟩
  rcases h3 with h | h
  · match l, hne, h2, h with
    | a :: l, _, h2, h =>
      have ha : a ≤ maxBound (a :: l) := h2 a (List.mem_cons_self _ _)
      have h0 : maxBound (a :: l) = 0 := h
      have : a = maxBound (a :: l) := by omega
      rw [← this]
      exact List.mem_cons_self _ _
  · exact h

/-- C21, counterexample: in state-space-exploration mode the raw verdict
`NotSatisfied` on a query that is not an invariant query comes back as
`Satisfied`, where the invariant-polarity table gives `NotSatisfied`. -/
theorem statespace_verdict_counterexample :
    statePrinter.options.statespaceexploration = true ∧ goalQuery.isInvariant = false ∧
      finalVerdict Result.NotSatisfied false = Result.NotSatisfied ∧
      (printResult statePrinter 0 goalQuery Result.NotSatisfied 0 1 1 [0, 0, 0] 2
        [1, 0, 1, 0, 0]).map Prod.fst = some Result.Satisfied := by
  decide

/-- C21, amended: in state-space-exploration mode, for every raw verdict
`Satisfied` or `NotSatisfied`, `printResult` returns `Satisfied`, whatever the
raw verdict and `isInvariant()`, after printing the statistics block and
nothing else; the verdict returned is the one of the invariant-polarity table
only for Satisfied/false and NotSatisfied/true. -/
theorem printResult_statespace_verdict (P : ResultPrinter) (index : Nat) (query : Condition)
    (raw : Result) (expandedStates exploredStates discoveredStates : Nat)
    (enabledTransitionsCount : List Nat) (maxTokens : Int) (maxPlaceBound : List Nat)
    (hq : P.options.statespaceexploration = true)
    (hraw : raw = Result.Satisfied ∨ raw = Result.NotSatisfied) :
    printResult P index query raw expandedStates exploredStates discoveredStates
        enabledTransitionsCount maxTokens maxPlaceBound =
      some (Result.Satisfied, "\n" ++ stateSpaceBlock exploredStates maxTokens maxPlaceBound) ∧
    (Result.Satisfied = finalVerdict raw query.isInvariant ↔
      (raw = Result.Satisfied ∧ query.isInvariant = false) ∨
        (raw = Result.NotSatisfied ∧ query.isInvariant = true)) := by
  constructor
  · unfold printResult
    have hne : raw ≠ Result.Unknown := by
      rcases hraw with h | h <;> rw [h] <;> decide
    rw [if_neg hne, hq]
    rfl
  · rcases hraw with h | h <;> rw [h] <;> cases query.isInvariant <;> simp [finalVerdict]

/-- Witness for C21 (amended): raw `NotSatisfied` in state-space mode. -/
theorem printResult_statespace_verdict_witness :
    (printResult statePrinter 0 goalQuery Result.NotSatisfied 0 1 1 [0, 0, 0] 2
        [1, 0, 1, 0, 0]).map Prod.fst = some Result.Satisfied :=
  congrArg (Option.map Prod.fst)
    (printResult_statespace_verdict statePrinter 0 goalQuery Result.NotSatisfied 0 1 1
      [0, 0, 0] 2 [1, 0, 1, 0, 0] (by decide) (Or.inr rfl)).1

/-- C22: in state-space-exploration mode, for every raw verdict other than
`Unknown`, `printResult` prints a line break, then the four lines
`STATE_SPACE STATES <exploredStates> TECHNIQUES EXPLICIT`,
`STATE_SPACE TRANSITIONS -1 TECHNIQUES EXPLICIT`,
`STATE_SPACE MAX_TOKEN_PER_MARKING <maxTokens> TECHNIQUES EXPLICIT`,
`STATE_SPACE MAX_TOKEN_IN_PLACE <b> TECHNIQUES EXPLICIT` in this order, then a
line break, and nothing else; `b` is at least every element of `maxPlaceBound`,
is one of them when the vector is not empty, and is 0 when it is empty. -/
theorem printResult_statespace_block (P : ResultPrinter) (index : Nat) (query : Condition)
    (raw : Result) (expandedStates exploredStates discoveredStates : Nat)
    (enabledTransitionsCount : List Nat) (maxTokens : Int) (maxPlaceBound : List Nat)
    (hq : P.options.statespaceexploration = true) (hraw : raw ≠ Result.Unknown) :
    (printResult P index query raw expandedStates exploredStates discoveredStates
        enabledTransitionsCount maxTokens maxPlaceBound).map Prod.snd =
      some ("\n" ++ "STATE_SPACE STATES " ++ toString exploredStates ++ " TECHNIQUES EXPLICIT\n" ++
        "STATE_SPACE TRANSITIONS -1 TECHNIQUES EXPLICIT\n" ++
        "STATE_SPACE MAX_TOKEN_PER_MARKING " ++ toString maxTokens ++ " TECHNIQUES EXPLICIT\n" ++
        "STATE_SPACE MAX_TOKEN_IN_PLACE " ++ toString (maxBound maxPlaceBound) ++
        " TECHNIQUES EXPLICIT\n" ++ "\n") ∧
    (∀ b ∈ maxPlaceBound, b ≤ maxBound maxPlaceBound) ∧
    (maxPlaceBound ≠ [] → maxBound maxPlaceBound ∈ maxPlaceBound) ∧
    maxBound [] = 0 := by
  refine ⟨?_, maxBound_spec maxPlaceBound⟩
  rw [printResult_statespace P index query raw _ _ _ _ _ _ hq hraw]
  simp only [Option.map, stateSpaceBlock, String.append_assoc]
  rfl

/-- Witness for C22: one state explored, at most 2 tokens in a marking, place
bounds `[1, 0, 3, 0, 0]`. -/
theorem printResult_statespace_block_witness :
    (printResult statePrinter 0 goalQuery Result.Satisfied 0 1 1 [0, 0, 0] 2
        [1, 0, 3, 0, 0]).map Prod.snd =
      some ("\nSTATE_SPACE STATES 1 TECHNIQUES EXPLICIT\n" ++
        "STATE_SPACE TRANSITIONS -1 TECHNIQUES EXPLICIT\n" ++
        "STATE_SPACE MAX_TOKEN_PER_MARKING 2 TECHNIQUES EXPLICIT\n" ++
        "STATE_SPACE MAX_TOKEN_IN_PLACE 3 TECHNIQUES EXPLICIT\n\n") :=
  ((printResult_statespace_block statePrinter 0 goalQuery Result.Satisfied 0 1 1 [0, 0, 0] 2
    [1, 0, 3, 0, 0] (by decide) (by decide)).1).trans rfl

theorem printResult_plain (P : ResultPrinter) (index : Nat) (query : Condition) (raw : Result)
    (a b c : Nat) (d : List Nat) (e : Int) (f : List Nat)
    (hq : P.options.statespaceexploration = false) (hi : index < P.querynames.length)
    (hb : query.placeNameForBound = []) (hraw : raw ≠ Result.Unknown) :
    printResult P index query raw a b c d e f =
      some (finalVerdict raw query.isInvariant,
        "\n" ++ "FORMULA " ++ P.querynames[index] ++ " " ++
          (if finalVerdict raw query.isInvariant = Result.Satisfied then
            "TRUE TECHNIQUES EXPLICIT " ++ P.reductionTag ++ "\n"
          else "FALSE TECHNIQUES EXPLICIT " ++ P.reductionTag) ++ "\n") := by
  have hname : P.querynames[index]? = some (P.querynames[index]) := List.getElem?_eq_getElem hi
  have hc : (!P.options.statespaceexploration && raw != Result.Unknown) = true := by
    rw [hq]
    simpa using hraw
  unfold printResult
  rw [if_neg hraw, if_pos hc]
  simp only [hname]
  cases raw with
  | Unknown => exact absurd rfl hraw
  | Satisfied =>
    cases hinv : query.isInvariant <;> simp [printVerdict, finalVerdict, hq, hb]
  | NotSatisfied =>
    cases hinv : query.isInvariant <;> simp [printVerdict, finalVerdict, hq, hb]

theorem verdict_lines_differ (name tag : String) :
    "\n" ++ "FORMULA " ++ name ++ " " ++ ("TRUE TECHNIQUES EXPLICIT " ++ tag ++ "\n") ++ "\n" ≠
      "\n" ++ "FORMULA " ++ name ++ " " ++ ("FALSE TECHNIQUES EXPLICIT " ++ tag) ++ "\n" := by
  intro h
  have h2 := congrArg String.data h
  simp only [String.data_append, List.append_assoc] at h2
  have h3 := List.append_cancel_left h2
  have h4 := List.append_cancel_left h3
  have h5 := List.append_cancel_left h4
  have h6 := List.append_cancel_left h5
  simp at h6

/-- C23: with `statespaceexploration` off, for a query that names no bound
place (its index having a name) and a raw verdict `Satisfied` or
`NotSatisfied`, `printResult` prints `FORMULA <name> TRUE TECHNIQUES EXPLICIT `
exactly when it returns `Satisfied` and `FORMULA <name> FALSE TECHNIQUES
EXPLICIT ` exactly when it returns `NotSatisfied`, each followed by the
reduction tag, which is `STRUCTURAL_REDUCTION` exactly when
`enablereduction > 0` and empty otherwise; the verdict returned is the same for
every value of `enablereduction`. -/
theorem printResult_verdict_line (P : ResultPrinter) (index : Nat) (query : Condition)
    (raw : Result) (expandedStates exploredStates discoveredStates : Nat)
    (enabledTransitionsCount : List Nat) (maxTokens : Int) (maxPlaceBound : List Nat)
    (hq : P.options.statespaceexploration = false) (hi : index < P.querynames.length)
    (hb : query.placeNameForBound = [])
    (hraw : raw = Result.Satisfied ∨ raw = Result.NotSatisfied) :
    ∃ v text, printResult P index query raw expandedStates exploredStates discoveredStates
        enabledTransitionsCount maxTokens maxPlaceBound = some (v, text) ∧
      (v = Result.Satisfied ∨ v = Result.NotSatisfied) ∧
      (text = "\n" ++ "FORMULA " ++ P.querynames[index] ++ " " ++
          ("TRUE TECHNIQUES EXPLICIT " ++ P.reductionTag ++ "\n") ++ "\n" ↔
        v = Result.Satisfied) ∧
      (text = "\n" ++ "FORMULA " ++ P.querynames[index] ++ " " ++
          ("FALSE TECHNIQUES EXPLICIT " ++ P.reductionTag) ++ "\n" ↔
        v = Result.NotSatisfied) ∧
      (P.reductionTag = "STRUCTURAL_REDUCTION" ↔ 0 < P.options.enablereduction) ∧
      (P.reductionTag = "" ↔ P.options.enablereduction ≤ 0) ∧
      ∀ n : Int,
        (printResult { P with options := { P.options with enablereduction := n } } index query
          raw expandedStates exploredStates discoveredStates enabledTransitionsCount maxTokens
          maxPlaceBound).map Prod.fst = some v := by
  have hne : raw ≠ Result.Unknown := by
    rcases hraw with h | h <;> rw [h] <;> decide
  have hv : finalVerdict raw query.isInvariant = Result.Satisfied ∨
      finalVerdict raw query.isInvariant = Result.NotSatisfied := by
    rcases hraw with h | h <;> rw [h] <;> cases query.isInvariant <;> simp [finalVerdict]
  refine ⟨_, _, printResult_plain P index query raw _ _ _ _ _ _ hq hi hb hne, hv, ?_, ?_, ?_, ?_,
    ?_⟩
  · rcases hv with h | h
    · simp [h]
    · rw [h]
      simp only [reduceCtorEq, if_false, iff_false]
      exact fun h2 => verdict_lines_differ _ _ h2.symm
  · rcases hv with h | h
    · rw [h]
      simp only [if_true, reduceCtorEq, iff_false]
      exact verdict_lines_differ _ _
    · simp [h]
  · unfold ResultPrinter.reductionTag
    split
    · rename_i h
      simp [h]
    · rename_i h
      constructor
      · intro h2
        exact absurd h2 (by decide)
      · intro h2
        exact absurd h2 h
  · unfold ResultPrinter.reductionTag
    split
    · rename_i h
      constructor
      · intro h2
        exact absurd h2 (by decide)
      · intro h2
        omega
    · rename_i h
      simp only [true_iff]
      omega
  · intro n
    rw [printResult_plain { P with options := { P.options with enablereduction := n } } index
      query raw _ _ _ _ _ _ hq hi hb hne]
    rfl

/-- Witness for C23: the invariant query at index 1 with raw verdict
`Satisfied`, structural reduction on: the `FALSE` line with the tag is printed
exactly when the verdict returned is `NotSatisfied` (which it is). -/
theorem printResult_verdict_line_witness :
    reducedPrinter.options.statespaceexploration = false ∧
      invQuery.placeNameForBound = [] ∧
      ∃ v text, printResult reducedPrinter 1 invQuery Result.Satisfied 0 1 1 [0, 0, 0] 2
          [1, 0, 1, 0, 0] = some (v, text) ∧
        (text = "\n" ++ "FORMULA " ++ "inv" ++ " " ++
            ("FALSE TECHNIQUES EXPLICIT " ++ reducedPrinter.reductionTag) ++ "\n" ↔
          v = Result.NotSatisfied) := by
  obtain ⟨v, text, h1, _, _, h4, _⟩ := printResult_verdict_line reducedPrinter 1 invQuery
    Result.Satisfied 0 1 1 [0, 0, 0] 2 [1, 0, 1, 0, 0] (by decide) (by decide) (by decide)
    (Or.inl rfl)
  exact ⟨by decide, by decide, v, text, h1, h4⟩

/-- C24: for the bound query on `p4` of `chainNet`, final verdict
`NotSatisfied`, the number printed is 4, the id of `p4` in the name map,
whatever `maxPlaceBound` holds (7 tokens recorded for `p4` here); and when the
final verdict is `Satisfied` the `TRUE` line is printed, without any number. -/
theorem printed_bound_is_place_id :
    chainPrinter.placeNames.lookup "p4" = some 4 ∧
    printResult chainPrinter 2 boundQuery Result.NotSatisfied 0 1 1 [0, 0, 0] 7
        [1, 0, 1, 0, 7] =
      some (Result.NotSatisfied, "\nFORMULA bound 4 TECHNIQUES EXPLICIT \n") ∧
    (∀ maxPlaceBound : List Nat,
      printResult chainPrinter 2 boundQuery Result.NotSatisfied 0 1 1 [0, 0, 0] 7
          maxPlaceBound =
        printResult chainPrinter 2 boundQuery Result.NotSatisfied 0 1 1 [0, 0, 0] 7 []) ∧
    printResult chainPrinter 2 boundQuery Result.Satisfied 0 1 1 [0, 0, 0] 7 [1, 0, 1, 0, 7] =
      some (Result.Satisfied, "\nFORMULA bound TRUE TECHNIQUES EXPLICIT \n\n") := by
  refine ⟨by decide, by decide, fun _ => rfl, by decide⟩

/-! ### The offsets of the flattened table -/

theorem sizesBefore_succ (tmp : PrePostTmp) (k : Nat) :
    sizesBefore tmp (k + 1) =
      sizesBefore tmp k + ((tmp.first.getD k []).length + (tmp.second.getD k []).length) := by
  simp [sizesBefore, List.range_succ]

theorem entriesBefore_succ (net : PetriNet) (k : Nat) :
    entriesBefore net (k + 1) =
      entriesBefore net k + ((producersOf net k).length + (consumersOf net k).length) := by
  simp [entriesBefore, List.range_succ]

theorem entriesBefore_mono (net : PetriNet) (p q : Nat) (h : p ≤ q) :
    entriesBefore net p ≤ entriesBefore net q := by
  induction q with
  | zero =>
    have : p = 0 := by omega
    rw [this]
  | succ q ih =>
    by_cases hp : p = q + 1
    · rw [hp]
    · have := ih (by omega)
      rw [entriesBefore_succ]
      omega

theorem flatten_offsets (tmp : PrePostTmp) (k : Nat) :
    ((List.range k).foldl (flattenPlace tmp)
        { places := [], transitions := [], offset := 0 }).offset = sizesBefore tmp k ∧
      ∀ p < k, ((List.range k).foldl (flattenPlace tmp)
          { places := [], transitions := [], offset := 0 }).places.getD p default =
        { pre := sizesBefore tmp p, post := sizesBefore tmp p + (tmp.first.getD p []).length } := by
  induction k with
  | zero =>
    refine ⟨rfl, fun p hp => ?_⟩
    omega
  | succ k ih =>
    obtain ⟨h1, h2⟩ := ih
    have hlen := (foldl_flattenPlace_inv tmp k).2
    rw [List.range_succ, List.foldl_append, List.foldl_cons, List.foldl_nil]
    refine ⟨?_, fun p hp => ?_⟩
    · simp only [flattenPlace, h1, length_sortIds, sizesBefore_succ]
      omega
    · simp only [flattenPlace]
      by_cases hpk : p < k
      · rw [getD_append_of_lt _ _ _ _ (by omega)]
        exact h2 p hpk
      · have key : ∀ (l : List place_t) (a : place_t) (n : Nat), l.length = n →
            (l ++ [a]).getD n default = a := by
          intro l a n h
          subst h
          exact getD_append_last l a default
        have hpk2 : p = k := by omega
        rw [hpk2, key _ _ _ hlen, h1, length_sortIds]

theorem sizesBefore_collect (net : PetriNet) (p : Nat) (hp : p ≤ net._nplaces) :
    sizesBefore (collectPrePost net false) p = entriesBefore net p := by
  unfold sizesBefore entriesBefore
  congr 1
  apply List.map_congr_left
  intro q hq
  rw [List.mem_range] at hq
  obtain ⟨h1, h2, _, _⟩ := collectPrePost_spec net false q (by omega)
  rw [h1, h2]

theorem construct_offsets (net : PetriNet) (queries : List Condition) :
    (∀ p < net._nplaces,
      (ReducingSuccessorGenerator.construct net queries).pl p =
        { pre := entriesBefore net p,
          post := entriesBefore net p + (producersOf net p).length }) ∧
    (ReducingSuccessorGenerator.construct net queries).pl net._nplaces =
      { pre := entriesBefore net net._nplaces, post := entriesBefore net net._nplaces } ∧
    (ReducingSuccessorGenerator.construct net queries)._transitions.length =
      entriesBefore net net._nplaces := by
  obtain ⟨h1, h2⟩ := flatten_offsets (collectPrePost net false) net._nplaces
  obtain ⟨⟨hoff, _, _⟩, hlen⟩ := foldl_flattenPlace_inv (collectPrePost net false) net._nplaces
  have hs := sizesBefore_collect net net._nplaces (le_refl _)
  refine ⟨fun p hp => ?_, ?_, ?_⟩
  · simp only [ReducingSuccessorGenerator.pl, ReducingSuccessorGenerator.construct,
      flattenPrePost]
    rw [getD_append_of_lt _ _ _ _ (by omega), h2 p hp, sizesBefore_collect net p (by omega),
      (collectPrePost_spec net false p hp).1]
  · simp only [ReducingSuccessorGenerator.pl, ReducingSuccessorGenerator.construct,
      flattenPrePost]
    have key : ∀ (l : List place_t) (a : place_t) (n : Nat), l.length = n →
        (l ++ [a]).getD n default = a := by
      intro l a n h
      subst h
      exact getD_append_last l a default
    rw [key _ _ _ hlen, h1, hs]
  · simp only [ReducingSuccessorGenerator.construct, flattenPrePost]
    rw [← hoff, h1, hs]

theorem offsetOf_eq (net : PetriNet) (tmp : PrePostTmp) :
    offsetOf net tmp = sizesBefore tmp net._nplaces % 4294967296 ∧
      ntransOf net tmp = sizesBefore tmp net._nplaces % 18446744073709551616 := by
  unfold offsetOf ntransOf
  induction net._nplaces with
  | zero => exact ⟨rfl, rfl⟩
  | succ k ih =>
    obtain ⟨h1, h2⟩ := ih
    rw [List.range_succ, List.foldl_append, List.foldl_append, List.foldl_cons, List.foldl_nil,
      List.foldl_cons, List.foldl_nil, h1, h2, sizesBefore_succ, length_sortIds, length_sortIds]
    constructor <;> omega

theorem exists_range_of_lt (net : PetriNet) (n i : Nat) (hi : i < entriesBefore net n) :
    ∃ p < n, entriesBefore net p ≤ i ∧ i < entriesBefore net (p + 1) := by
  induction n with
  | zero => simp [entriesBefore] at hi
  | succ n ih =>
    by_cases h : i < entriesBefore net n
    · obtain ⟨p, hp, h1, h2⟩ := ih h
      exact ⟨p, by omega, h1, h2⟩
    · exact ⟨n, by omega, by omega, hi⟩

/-- C25: the offsets `constructPrePost` fills in: `_places[0].pre = 0`;
`_places[p].pre <= _places[p].post <= _places[p+1].pre` for every place `p`;
`_places[nplaces].pre = _places[nplaces].post` = the length of the flattened
array = the total number of entries (one per output arc into a place, one per
non-inhibitor input arc on a place); every index of the array lies in the
ranges of exactly one place; and `assert(offset == ntrans)` holds, the 32-bit
`offset` being equal to the count as long as the table has fewer than 2^32
entries. -/
theorem constructPrePost_offsets (net : PetriNet) (queries : List Condition) :
    ((ReducingSuccessorGenerator.construct net queries).pl 0).pre = 0 ∧
    (∀ p < net._nplaces,
      ((ReducingSuccessorGenerator.construct net queries).pl p).pre ≤
          ((ReducingSuccessorGenerator.construct net queries).pl p).post ∧
        ((ReducingSuccessorGenerator.construct net queries).pl p).post ≤
          ((ReducingSuccessorGenerator.construct net queries).pl (p + 1)).pre) ∧
    ((ReducingSuccessorGenerator.construct net queries).pl net._nplaces).pre =
      (ReducingSuccessorGenerator.construct net queries)._transitions.length ∧
    ((ReducingSuccessorGenerator.construct net queries).pl net._nplaces).post =
      (ReducingSuccessorGenerator.construct net queries)._transitions.length ∧
    (ReducingSuccessorGenerator.construct net queries)._transitions.length =
      entriesBefore net net._nplaces ∧
    (∀ i < (ReducingSuccessorGenerator.construct net queries)._transitions.length,
      ∃ p < net._nplaces,
        (((ReducingSuccessorGenerator.construct net queries).pl p).pre ≤ i ∧
          i < ((ReducingSuccessorGenerator.construct net queries).pl (p + 1)).pre) ∧
        ∀ q < net._nplaces,
          ((ReducingSuccessorGenerator.construct net queries).pl q).pre ≤ i →
          i < ((ReducingSuccessorGenerator.construct net queries).pl (q + 1)).pre → q = p) ∧
    (entriesBefore net net._nplaces < 4294967296 → offsetAssertion net = true) := by
  obtain ⟨h1, h2, h3⟩ := construct_offsets net queries
  have hpre : ∀ p ≤ net._nplaces,
      ((ReducingSuccessorGenerator.construct net queries).pl p).pre = entriesBefore net p := by
    intro p hp
    by_cases hlt : p < net._nplaces
    · rw [h1 p hlt]
    · have : p = net._nplaces := by omega
      rw [this, h2]
  refine ⟨?_, ?_, ?_, ?_, h3, ?_, ?_⟩
  · rw [hpre 0 (Nat.zero_le _)]
    rfl
  · intro p hp
    rw [hpre (p + 1) (by omega), h1 p hp, entriesBefore_succ]
    constructor
    · show entriesBefore net p ≤ entriesBefore net p + (producersOf net p).length
      omega
    · show entriesBefore net p + (producersOf net p).length ≤ _
      omega
  · rw [h2, h3]
  · rw [h2, h3]
  · intro i hi
    rw [h3] at hi
    obtain ⟨p, hp, a1, a2⟩ := exists_range_of_lt net net._nplaces i hi
    refine ⟨p, hp, ?_, ?_⟩
    · rw [hpre p (by omega), hpre (p + 1) (by omega)]
      exact ⟨a1, a2⟩
    · intro q hq b1 b2
      rw [hpre q (by omega)] at b1
      rw [hpre (q + 1) (by omega)] at b2
      by_contra hne
      rcases Nat.lt_or_gt_of_ne hne with hlt | hgt
      · have := entriesBefore_mono net (q + 1) p (by omega)
        omega
      · have := entriesBefore_mono net (p + 1) q (by omega)
        omega
  · intro hsmall
    obtain ⟨o1, o2⟩ := offsetOf_eq net (collectPrePost net false)
    have hs := sizesBefore_collect net net._nplaces (le_refl _)
    unfold offsetAssertion
    rw [o1, o2, hs, beq_iff_eq]
    omega

/-- Witness for C25 on `chainNet`: six entries, the sentinel entry points
behind the last one, and the assertion holds. -/
theorem constructPrePost_offsets_witness :
    entriesBefore chainNet chainNet._nplaces < 4294967296 ∧
      (chainGen.pl chainNet._nplaces).pre = chainGen._transitions.length ∧
      chainGen._transitions.length = 6 ∧ offsetAssertion chainNet = true :=
  ⟨by decide,
    (constructPrePost_offsets chainNet [goalQuery]).2.2.1,
    ((constructPrePost_offsets chainNet [goalQuery]).2.2.2.2.1).trans (by decide),
    (constructPrePost_offsets chainNet [goalQuery]).2.2.2.2.2.2 (by decide)⟩

/-! ### The contents of the flattened table -/

theorem count_tagged (g : Nat → List Nat) (n t : Nat) :
    ((List.range n).flatMap fun u => (g u).map fun _ => u).count t =
      if t < n then (g t).length else 0 := by
  induction n with
  | zero => simp
  | succ n ih =>
    rw [List.range_succ, List.flatMap_append, List.count_append, ih]
    simp only [List.flatMap_cons, List.flatMap_nil, List.append_nil, List.map_const',
      List.count_replicate, beq_iff_eq]
    by_cases h1 : t < n
    · have h2 : ¬ n = t := by omega
      have h3 : t < n + 1 := by omega
      simp [h1, h2, h3]
    · by_cases h2 : n = t
      · subst h2
        simp
      · have h3 : ¬ t < n + 1 := by omega
        simp [h1, h2, h3]

theorem sorted_tagged (g : Nat → List Nat) (n : Nat) :
    ((List.range n).flatMap fun u => (g u).map fun _ => u).Sorted (· ≤ ·) := by
  induction n with
  | zero => simp
  | succ n ih =>
    rw [List.range_succ, List.flatMap_append]
    simp only [List.flatMap_cons, List.flatMap_nil, List.append_nil, List.map_const']
    simp only [List.map_const'] at ih
    unfold List.Sorted at ih ⊢
    rw [List.pairwise_append]
    refine ⟨ih, ?_, ?_⟩
    · simp [List.pairwise_replicate]
    · intro a ha b hb
      rw [List.mem_flatMap] at ha
      obtain ⟨u, hu, hau⟩ := ha
      rw [List.mem_range] at hu
      rw [List.mem_replicate] at hau hb
      omega

theorem count_sortIds (l : List Nat) (t : Nat) : (sortIds l).count t = l.count t :=
  (List.perm_insertionSort _ l).count_eq t

theorem sorted_sortIds (l : List Nat) : (sortIds l).Sorted (· ≤ ·) :=
  List.sorted_insertionSort _ l

/-- C26: after construction, for every place `p` and transition `t` of the
net, `t` occurs in the pre-range of `p` as many times as `t` has output arcs
into `p`, and in the post-range of `p` as many times as `t` has non-inhibitor
input arcs on `p`; both ranges are sorted in non-decreasing transition id. -/
theorem constructPrePost_ranges (net : PetriNet) (queries : List Condition) (p t : Nat)
    (hp : p < net._nplaces) (ht : t < net._ntransitions) :
    (neighbours (ReducingSuccessorGenerator.construct net queries) 0 p).count t =
      ((net.outputArcs t).filter fun i => decide ((net.inv i).place = p)).length ∧
    (neighbours (ReducingSuccessorGenerator.construct net queries) 1 p).count t =
      ((net.inputArcs t).filter fun i =>
        (!(net.inv i).inhibitor) && decide ((net.inv i).place = p)).length ∧
    (neighbours (ReducingSuccessorGenerator.construct net queries) 0 p).Sorted (· ≤ ·) ∧
    (neighbours (ReducingSuccessorGenerator.construct net queries) 1 p).Sorted (· ≤ ·) := by
  obtain ⟨h0, h1, _⟩ := (construct_spec net queries).2 p hp
  rw [h0, h1]
  refine ⟨?_, ?_, sorted_sortIds _, sorted_sortIds _⟩
  · rw [count_sortIds, producersOf, count_tagged, if_pos ht]
    simp
  · rw [count_sortIds, consumersOf, count_tagged, if_pos ht]

/-- Witness for C26 on `chainNet`: `t0` occurs once in the pre-range of `p1`,
`t1` once in its post-range. -/
theorem constructPrePost_ranges_witness :
    (neighbours chainGen 0 1).count 0 = 1 ∧ (neighbours chainGen 1 1).count 1 = 1 :=
  ⟨((constructPrePost_ranges chainNet [goalQuery] 1 0 (by decide) (by decide)).1).trans
      (by decide),
    ((constructPrePost_ranges chainNet [goalQuery] 1 1 (by decide) (by decide)).2.1).trans
      (by decide)⟩

theorem checkForInhibitor_iff (net : PetriNet) :
    checkForInhibitor net = true ↔
      ∃ t < net._ntransitions, ∃ i ∈ net.inputArcs t, (net.inv i).inhibitor = true := by
  simp only [checkForInhibitor, List.any_eq_true, List.mem_range]

/-- C27: after construction, for every place `p` of the net, `_inhibpost[p]`
holds exactly the transitions with an inhibitor input arc on `p`, each once per
such arc, in non-decreasing transition id; the post-range of `p` holds only
transitions with a non-inhibitor input arc on `p`; `_netContainsInhibitorArcs`
is true exactly when some input arc of some transition is an inhibitor arc,
and, the input arcs being on places of the net, exactly when some
`_inhibpost[p]` is not empty. -/
theorem inhibpost_table (net : PetriNet) (queries : List Condition) :
    (∀ p < net._nplaces,
      (∀ u, u ∈ (ReducingSuccessorGenerator.construct net queries)._inhibpost.getD p [] ↔
        u < net._ntransitions ∧
          ∃ i ∈ net.inputArcs u, (net.inv i).inhibitor = true ∧ (net.inv i).place = p) ∧
      (∀ t < net._ntransitions,
        ((ReducingSuccessorGenerator.construct net queries)._inhibpost.getD p []).count t =
          ((net.inputArcs t).filter fun i =>
            (net.inv i).inhibitor && decide ((net.inv i).place = p)).length) ∧
      ((ReducingSuccessorGenerator.construct net queries)._inhibpost.getD p []).Sorted (· ≤ ·) ∧
      (∀ u, u ∈ neighbours (ReducingSuccessorGenerator.construct net queries) 1 p ↔
        u < net._ntransitions ∧
          ∃ i ∈ net.inputArcs u, (net.inv i).inhibitor = false ∧ (net.inv i).place = p)) ∧
    ((ReducingSuccessorGenerator.construct net queries)._netContainsInhibitorArcs = true ↔
      ∃ t < net._ntransitions, ∃ i ∈ net.inputArcs t, (net.inv i).inhibitor = true) ∧
    ((∀ t < net._ntransitions, InputsInRange net t) →
      ((ReducingSuccessorGenerator.construct net queries)._netContainsInhibitorArcs = true ↔
        ∃ p < net._nplaces,
          (ReducingSuccessorGenerator.construct net queries)._inhibpost.getD p [] ≠ [])) := by
  have hinh : ∀ p < net._nplaces,
      (ReducingSuccessorGenerator.construct net queries)._inhibpost.getD p [] =
        inhibitedBy net p := fun p hp => ((construct_spec net queries).2 p hp).2.2
  refine ⟨fun p hp => ⟨fun u => ?_, fun t ht => ?_, ?_, fun u => ?_⟩,
    checkForInhibitor_iff net, fun hin => ?_⟩
  · rw [hinh p hp]
    exact mem_inhibitedBy net p u
  · rw [hinh p hp, inhibitedBy, count_tagged, if_pos ht]
  · rw [hinh p hp]
    exact sorted_tagged _ _
  · rw [((construct_spec net queries).2 p hp).2.1, mem_sortIds]
    exact mem_consumersOf net p u
  · rw [show (ReducingSuccessorGenerator.construct net queries)._netContainsInhibitorArcs =
      checkForInhibitor net from rfl, checkForInhibitor_iff]
    constructor
    · rintro ⟨t, ht, i, hi, h⟩
      refine ⟨(net.inv i).place, hin t ht i hi, ?_⟩
      rw [hinh _ (hin t ht i hi)]
      intro hnil
      have hmem : t ∈ inhibitedBy net (net.inv i).place :=
        (mem_inhibitedBy net _ t).2 ⟨ht, i, hi, h, rfl⟩
      rw [hnil] at hmem
      exact absurd hmem (List.not_mem_nil t)
    · rintro ⟨p, hp, hne⟩
      rw [hinh p hp] at hne
      obtain ⟨u, hu⟩ := List.exists_mem_of_ne_nil _ hne
      obtain ⟨h1, i, hi, h2, _⟩ := (mem_inhibitedBy net p u).1 hu
      exact ⟨u, h1, i, hi, h2⟩

/-- Witness for C27 on `inhibNet`: every input arc is on a place of the net,
and the flag is set exactly when some `_inhibpost[p]` is not empty. -/
theorem inhibpost_table_witness :
    (∀ t < inhibNet._ntransitions, InputsInRange inhibNet t) ∧
      (inhibGen._netContainsInhibitorArcs = true ↔
        ∃ p < inhibNet._nplaces, inhibGen._inhibpost.getD p [] ≠ []) :=
  ⟨by decide, (inhibpost_table inhibNet [inhibQuery]).2.2 (by decide)⟩

/-! ### The dependency counts -/

theorem construct_pre (net : PetriNet) (queries : List Condition) (p : Nat)
    (hp : p ≤ net._nplaces) :
    ((ReducingSuccessorGenerator.construct net queries).pl p).pre = entriesBefore net p := by
  obtain ⟨h1, h2, _⟩ := construct_offsets net queries
  by_cases hlt : p < net._nplaces
  · rw [h1 p hlt]
  · have : p = net._nplaces := by omega
    rw [this, h2]

theorem postRange_length (net : PetriNet) (queries : List Condition) (p : Nat)
    (hp : p < net._nplaces) :
    ((ReducingSuccessorGenerator.construct net queries).postRange p).length =
      (consumersOf net p).length := by
  obtain ⟨h1, _, _⟩ := construct_offsets net queries
  simp only [ReducingSuccessorGenerator.postRange, List.length_range',
    construct_pre net queries (p + 1) (by omega), h1 p hp, entriesBefore_succ]
  omega

theorem dependency_getD (net : PetriNet) (queries : List Condition) (t : Nat)
    (ht : t < net._ntransitions) :
    (ReducingSuccessorGenerator.construct net queries)._dependency.getD t 0 =
      dependencyOf net (ReducingSuccessorGenerator.construct net queries)._places t := by
  have hlen : t < ((List.range net._ntransitions).map
      (dependencyOf net (ReducingSuccessorGenerator.construct net queries)._places)).length := by
    simp [ht]
  show ((List.range net._ntransitions).map
    (dependencyOf net (ReducingSuccessorGenerator.construct net queries)._places)).getD t 0 = _
  rw [List.getD_eq_getElem _ _ hlen]
  simp

theorem dependencyOf_construct (net : PetriNet) (queries : List Condition) (t : Nat)
    (hin : InputsInRange net t) :
    dependencyOf net (ReducingSuccessorGenerator.construct net queries)._places t =
      ((net.inputArcs t).map fun i =>
        ((ReducingSuccessorGenerator.construct net queries).postRange
          (net.inv i).place).length).sum % 4294967296 := by
  unfold dependencyOf
  rw [List.sum_nat_mod ((net.inputArcs t).map fun i =>
    ((ReducingSuccessorGenerator.construct net queries).postRange (net.inv i).place).length)]
  congr 2
  rw [List.map_map]
  apply List.map_congr_left
  intro i hi
  have hp := hin i hi
  obtain ⟨h1, _, _⟩ := construct_offsets net queries
  have hpre := construct_pre net queries ((net.inv i).place + 1) (by omega)
  have hpost := h1 _ hp
  simp only [ReducingSuccessorGenerator.pl] at hpre hpost
  simp only [Function.comp, ReducingSuccessorGenerator.postRange, List.length_range',
    ReducingSuccessorGenerator.pl, hpre, hpost, entriesBefore_succ]
  omega

theorem findCause_dependency (G : ReducingSuccessorGenerator) (d : List Nat) (s : GenState)
    (l : List Nat) (c : Cause) :
    findCause { G with _dependency := d } s l c = findCause G s l c := by
  induction l generalizing c with
  | nil => rfl
  | cons finv rest ih =>
    simp only [findCause]
    rw [ih]

theorem processTransition_dependency (G : ReducingSuccessorGenerator) (d : List Nat)
    (s : GenState) (tr : Nat) :
    processTransition { G with _dependency := d } s tr = processTransition G s tr := by
  have h1 : processEnabled { G with _dependency := d } s tr = processEnabled G s tr := rfl
  have h2 : processDisabled { G with _dependency := d } s tr = processDisabled G s tr := by
    unfold processDisabled
    rw [findCause_dependency]
    rfl
  unfold processTransition
  rw [h1, h2]

theorem closure_dependency (G : ReducingSuccessorGenerator) (d : List Nat) (fuel : Nat)
    (s : GenState) : closure { G with _dependency := d } fuel s = closure G fuel s := by
  induction fuel generalizing s with
  | zero => rfl
  | succ fuel ih =>
    match hs : s._unprocessed with
    | [] =>
      rw [(closure_nil { G with _dependency := d } (fuel + 1) s hs).1,
        (closure_nil G (fuel + 1) s hs).1]
    | tr :: rest =>
      rw [(closure_cons { G with _dependency := d } fuel s tr rest hs).1,
        (closure_cons G fuel s tr rest hs).1, processTransition_dependency, ih]

theorem prepare_dependency (G : ReducingSuccessorGenerator) (d : List Nat) (fuel : Nat)
    (s : GenState) (m : Marking) :
    prepare { G with _dependency := d } fuel s m = prepare G fuel s m := by
  have h1 : ∀ r, constructEnabled { G with _dependency := d } r = constructEnabled G r :=
    fun _ => rfl
  have h2 : seedQuery { G with _dependency := d } = seedQuery G := rfl
  unfold prepare
  simp only [h1, h2, closure_dependency]

theorem nextLoop_dependency (G : ReducingSuccessorGenerator) (d : List Nat) (write : Marking)
    (ord : List Nat) (s : GenState) :
    nextLoop { G with _dependency := d } write ord s = nextLoop G write ord s := by
  induction ord generalizing s with
  | nil => rfl
  | cons t rest ih =>
    unfold nextLoop
    simp only []
    split
    · rfl
    · exact ih _

/-- C28: after construction, the dependency count of a transition `t` of the
net (its input arcs being on places of the net) is the sum, over all input arcs
of `t`, inhibitor arcs included, of the number of entries of the post-range of
the arc's place, which is the number of non-inhibitor input arcs on that place
(those of `t` included); the sum is kept in 32 bits.  The counts are the same
whatever the queries, and `prepare` and `next` do not read them: with any other
counts in their place they return the same. -/
theorem dependency_counts (net : PetriNet) (queries : List Condition) (t : Nat)
    (ht : t < net._ntransitions) (hin : InputsInRange net t) :
    (ReducingSuccessorGenerator.construct net queries)._dependency.getD t 0 =
      ((net.inputArcs t).map fun i =>
        ((ReducingSuccessorGenerator.construct net queries).postRange
          (net.inv i).place).length).sum % 4294967296 ∧
    (∀ p < net._nplaces,
      ((ReducingSuccessorGenerator.construct net queries).postRange p).length =
        (consumersOf net p).length) ∧
    (((net.inputArcs t).map fun i => (consumersOf net (net.inv i).place).length).sum <
        4294967296 →
      (ReducingSuccessorGenerator.construct net queries)._dependency.getD t 0 =
        ((net.inputArcs t).map fun i => (consumersOf net (net.inv i).place).length).sum) ∧
    (∀ queries2 : List Condition,
      (ReducingSuccessorGenerator.construct net queries2)._dependency =
        (ReducingSuccessorGenerator.construct net queries)._dependency) ∧
    (∀ (d : List Nat) (fuel : Nat) (s : GenState) (m write : Marking),
      prepare { ReducingSuccessorGenerator.construct net queries with _dependency := d } fuel
          s m = prepare (ReducingSuccessorGenerator.construct net queries) fuel s m ∧
      next { ReducingSuccessorGenerator.construct net queries with _dependency := d } s
          write = next (ReducingSuccessorGenerator.construct net queries) s write) := by
  have hsum : ((net.inputArcs t).map fun i =>
      ((ReducingSuccessorGenerator.construct net queries).postRange (net.inv i).place).length) =
      ((net.inputArcs t).map fun i => (consumersOf net (net.inv i).place).length) := by
    apply List.map_congr_left
    intro i hi
    exact postRange_length net queries _ (hin i hi)
  have hdep := (dependency_getD net queries t ht).trans (dependencyOf_construct net queries t hin)
  refine ⟨hdep, fun p hp => postRange_length net queries p hp, fun hlt => ?_, fun _ => rfl,
    fun d fuel s m write => ⟨prepare_dependency _ d fuel s m, nextLoop_dependency _ d write _ s⟩⟩
  rw [hdep, hsum]
  exact Nat.mod_eq_of_lt hlt

/-- Witness for C28 on `chainNet`: `t1` has one input arc, on `p1`, whose only
consumer is `t1` itself. -/
theorem dependency_counts_witness :
    InputsInRange chainNet 1 ∧ chainGen._dependency.getD 1 0 = 1 :=
  ⟨by decide,
    ((dependency_counts chainNet [goalQuery] 1 (by decide) (by decide)).2.2.1
      (by decide)).trans (by decide)⟩

/-! ### `leastDependentEnabled` -/

theorem least_loop (G : ReducingSuccessorGenerator) (s : GenState) (k : Nat) :
    (((List.range k).foldl (leastStep G s)
        { tLeast := 4294967295, foundLeast := false }).foundLeast = false →
      ((List.range k).foldl (leastStep G s)
        { tLeast := 4294967295, foundLeast := false }).tLeast = 4294967295 ∧
      ∀ t < k, s.en t = false) ∧
    (((List.range k).foldl (leastStep G s)
        { tLeast := 4294967295, foundLeast := false }).foundLeast = true →
      ((List.range k).foldl (leastStep G s)
        { tLeast := 4294967295, foundLeast := false }).tLeast < k ∧
      s.en ((List.range k).foldl (leastStep G s)
        { tLeast := 4294967295, foundLeast := false }).tLeast = true ∧
      (∀ t < k, s.en t = true →
        G.dep ((List.range k).foldl (leastStep G s)
          { tLeast := 4294967295, foundLeast := false }).tLeast ≤ G.dep t) ∧
      (∀ t < k, s.en t = true →
        G.dep t = G.dep ((List.range k).foldl (leastStep G s)
          { tLeast := 4294967295, foundLeast := false }).tLeast →
        ((List.range k).foldl (leastStep G s)
          { tLeast := 4294967295, foundLeast := false }).tLeast ≤ t)) := by
  induction k with
  | zero =>
    refine ⟨fun _ => ⟨rfl, fun t ht => ?_⟩, fun h => ?_⟩
    · omega
    · simp at h
  | succ k ih =>
    rw [List.range_succ, List.foldl_append, List.foldl_cons, List.foldl_nil]
    generalize (List.range k).foldl (leastStep G s)
      { tLeast := 4294967295, foundLeast := false } = acc at ih ⊢
    obtain ⟨ih1, ih2⟩ := ih
    unfold leastStep
    cases hen : s.en k with
    | false =>
      simp only [Bool.false_eq_true, if_false]
      refine ⟨fun hf => ?_, fun hf => ?_⟩
      · obtain ⟨a1, a2⟩ := ih1 hf
        refine ⟨a1, fun t ht => ?_⟩
        by_cases htk : t = k
        · rw [htk]
          exact hen
        · exact a2 t (by omega)
      · obtain ⟨a1, a2, a3, a4⟩ := ih2 hf
        refine ⟨by omega, a2, fun t ht het => ?_, fun t ht het => ?_⟩
        · by_cases htk : t = k
          · rw [htk, hen] at het
            exact absurd het (by decide)
          · exact a3 t (by omega) het
        · by_cases htk : t = k
          · rw [htk, hen] at het
            exact absurd het (by decide)
          · exact a4 t (by omega) het
    | true =>
      simp only [if_true]
      cases hf : acc.foundLeast with
      | false =>
        simp only [Bool.not_false, if_true]
        obtain ⟨_, a2⟩ := ih1 hf
        refine ⟨fun h => absurd h (by decide), fun _ => ⟨by omega, hen, fun t ht het => ?_,
          fun t ht het _ => ?_⟩⟩
        · by_cases htk : t = k
          · rw [htk]
          · rw [a2 t (by omega)] at het
            exact absurd het (by decide)
        · by_cases htk : t = k
          · omega
          · rw [a2 t (by omega)] at het
            exact absurd het (by decide)
      | true =>
        simp only [Bool.not_true, Bool.false_eq_true, if_false]
        obtain ⟨a1, a2, a3, a4⟩ := ih2 hf
        by_cases hlt : G.dep k < G.dep acc.tLeast
        · simp only [hlt, if_true]
          refine ⟨fun h => ?_, fun _ => ⟨by omega, hen, fun t ht het => ?_,
            fun t ht het heq => ?_⟩⟩
          · exact absurd h (by decide)
          · by_cases htk : t = k
            · rw [htk]
            · have := a3 t (by omega) het
              omega
          · by_cases htk : t = k
            · omega
            · have := a3 t (by omega) het
              omega
        · simp only [hlt, if_false]
          refine ⟨fun h => ?_, fun _ => ⟨by omega, a2, fun t ht het => ?_,
            fun t ht het heq => ?_⟩⟩
          · exact absurd (hf.symm.trans h) (by decide)
          · by_cases htk : t = k
            · rw [htk]
              omega
            · exact a3 t (by omega) het
          · by_cases htk : t = k
            · omega
            · exact a4 t (by omega) het heq

/-- C29: when some transition of the net is flagged enabled,
`leastDependentEnabled` returns an enabled transition whose dependency count is
minimal among the enabled ones, the one with the smallest id among those of
minimal count; when none is enabled it returns 4294967295; the transition count
fitting 32 bits, 4294967295 is returned exactly when none is enabled; and the
scratch state is left as it was. -/
theorem leastDependentEnabled_spec (G : ReducingSuccessorGenerator) (s : GenState) :
    ((∃ t < G._net._ntransitions, s.en t = true) →
      (leastDependentEnabled G s).ret < G._net._ntransitions ∧
      s.en (leastDependentEnabled G s).ret = true ∧
      (∀ t < G._net._ntransitions, s.en t = true →
        G.dep (leastDependentEnabled G s).ret ≤ G.dep t) ∧
      (∀ t < G._net._ntransitions, s.en t = true →
        G.dep t = G.dep (leastDependentEnabled G s).ret →
        (leastDependentEnabled G s).ret ≤ t)) ∧
    ((∀ t < G._net._ntransitions, s.en t = false) →
      (leastDependentEnabled G s).ret = 4294967295) ∧
    (G._net._ntransitions ≤ 4294967295 →
      ((leastDependentEnabled G s).ret = 4294967295 ↔
        ∀ t < G._net._ntransitions, s.en t = false)) ∧
    (leastDependentEnabled G s).state = s := by
  obtain ⟨h1, h2⟩ := least_loop G s G._net._ntransitions
  have hsome : (∃ t < G._net._ntransitions, s.en t = true) →
      ((List.range G._net._ntransitions).foldl (leastStep G s)
        { tLeast := 4294967295, foundLeast := false }).foundLeast = true := by
    rintro ⟨t, ht, het⟩
    cases hf : ((List.range G._net._ntransitions).foldl (leastStep G s)
        { tLeast := 4294967295, foundLeast := false }).foundLeast
    · rw [(h1 hf).2 t ht] at het
      exact absurd het (by decide)
    · rfl
  have hnone : (∀ t < G._net._ntransitions, s.en t = false) →
      ((List.range G._net._ntransitions).foldl (leastStep G s)
        { tLeast := 4294967295, foundLeast := false }).foundLeast = false := by
    intro hall
    cases hf : ((List.range G._net._ntransitions).foldl (leastStep G s)
        { tLeast := 4294967295, foundLeast := false }).foundLeast
    · rfl
    · obtain ⟨a1, a2, _⟩ := h2 hf
      rw [hall _ a1] at a2
      exact absurd a2 (by decide)
  refine ⟨fun hex => h2 (hsome hex), fun hall => (h1 (hnone hall)).1, fun hn => ?_, rfl⟩
  constructor
  · intro hret t ht
    cases het : s.en t
    · rfl
    · have hlt := (h2 (hsome ⟨t, ht, het⟩)).1
      have hret2 : ((List.range G._net._ntransitions).foldl (leastStep G s)
        { tLeast := 4294967295, foundLeast := false }).tLeast = 4294967295 := hret
      omega
  · intro hall
    exact (h1 (hnone hall)).1

/-- Witness for C29 on `chainNet` after `prepare` on `[1,0,1,0,0]`: `t0` and
`t2` are enabled, both with dependency count 1; `t0` is returned. -/
theorem leastDependentEnabled_spec_witness :
    (∃ t < chainGen._net._ntransitions,
        (prepare chainGen 3 (GenState.init chainGen []) [1, 0, 1, 0, 0]).en t = true) ∧
      (leastDependentEnabled chainGen
        (prepare chainGen 3 (GenState.init chainGen []) [1, 0, 1, 0, 0])).ret = 0 := by
  have hex : ∃ t < chainGen._net._ntransitions,
      (prepare chainGen 3 (GenState.init chainGen []) [1, 0, 1, 0, 0]).en t = true :=
    ⟨0, by decide, by decide⟩
  obtain ⟨_, _, _, h4⟩ := (leastDependentEnabled_spec chainGen
    (prepare chainGen 3 (GenState.init chainGen []) [1, 0, 1, 0, 0])).1 hex
  have h0 := h4 0 (by decide) (by decide) (by decide)
  exact ⟨hex, by omega⟩

/-! ### A generator without seeds -/

theorem foldl_seedQuery_empty (G : ReducingSuccessorGenerator) (qs : List Condition)
    (r : GenState) (h : ∀ q ∈ qs, q.findInteresting r._parent = []) :
    (qs.foldl (seedQuery G) r)._stubborn = r._stubborn ∧
      (qs.foldl (seedQuery G) r)._unprocessed = r._unprocessed ∧
      (qs.foldl (seedQuery G) r)._parent = r._parent := by
  induction qs generalizing r with
  | nil => exact ⟨rfl, rfl, rfl⟩
  | cons q qs ih =>
    have hq : seedQuery G r q = { r with queryCalls := r.queryCalls + 1 } := by
      unfold seedQuery
      rw [h q (List.mem_cons_self _ _)]
      rfl
    rw [List.foldl_cons, hq]
    exact ih _ (fun x hx => h x (List.mem_cons_of_mem _ hx))

theorem prepare_unseeded (G : ReducingSuccessorGenerator) (fuel : Nat) (s : GenState)
    (m : Marking) (hr : IsReset G s) (hq : ∀ q ∈ G._queries, q.findInteresting m = [])
    (h2 : 2 ≤ (discovered G._net m).length) :
    (prepare G fuel s m)._stubborn = List.replicate G._net._ntransitions false := by
  rw [prepare_eq_closure G fuel s m hr h2]
  obtain ⟨_, hs, _, hu⟩ := hr
  have hstart : (constructEnabled G
      { s with _parent := m, _places_seen := List.replicate G._net._nplaces 0 })._parent = m := by
    rw [constructEnabled_eq]
  obtain ⟨a1, a2, _⟩ := foldl_seedQuery_empty G G._queries (constructEnabled G
    { s with _parent := m, _places_seen := List.replicate G._net._nplaces 0 })
    (by rw [hstart]; exact hq)
  have c1 : (constructEnabled G
      { s with _parent := m, _places_seen := List.replicate G._net._nplaces 0 })._stubborn =
      s._stubborn := by
    rw [constructEnabled_eq]
  have c2 : (constructEnabled G
      { s with _parent := m, _places_seen := List.replicate G._net._nplaces 0 })._unprocessed =
      s._unprocessed := by
    rw [constructEnabled_eq]
  have hun : (seeded G s m)._unprocessed = [] := by
    unfold seeded
    rw [a2, c2]
    exact hu
  rw [(closure_nil G fuel (seeded G s m) hun).1]
  unfold seeded
  rw [a1, c1]
  exact hs

/-- C30: on a reset generator whose queries register nothing for the marking
(in particular one built without queries), when two or more transitions pass
their pre-conditions `prepare` leaves every stubborn flag clear and the first
`next` returns false, the buffer untouched, although the marking is not a
deadlock; when exactly one transition passes, the first `next` returns true
with that transition fired. -/
theorem no_seed_no_successor (G : ReducingSuccessorGenerator) (fuel : Nat) (s : GenState)
    (m write : Marking) (hr : IsReset G s) (hw : WellFiled G._net)
    (hq : ∀ q ∈ G._queries, q.findInteresting m = []) :
    (2 ≤ ((List.range G._net._ntransitions).filter (checkPreset G._net m)).length →
      (prepare G fuel s m)._stubborn = List.replicate G._net._ntransitions false ∧
      (∀ t, (prepare G fuel s m).stub t = false) ∧
      (next G (prepare G fuel s m) write).ret = false ∧
      (next G (prepare G fuel s m) write).write = write ∧
      ∃ t < G._net._ntransitions, checkPreset G._net m t = true) ∧
    (∀ t < G._net._ntransitions,
      (∀ u < G._net._ntransitions, checkPreset G._net m u = true ↔ u = t) →
      (next G (prepare G fuel s m) write).ret = true ∧
      (next G (prepare G fuel s m) write).write =
        producePostset G._net (consumePreset G._net
          (copyMarking G._net._nplaces write m) t) t) := by
  constructor
  · intro h2
    have hd : 2 ≤ (discovered G._net m).length := by
      rw [discovered_eq G._net m hw]
      exact h2
    have hstub := prepare_unseeded G fuel s m hr hq hd
    have hall : ∀ t, (prepare G fuel s m).stub t = false := by
      intro t
      rw [GenState.stub, hstub, getD_replicate_eq]
    refine ⟨hstub, hall, ?_, ?_, ?_⟩
    · exact (nextLoop_exhausted G write _ _ (by
        rw [List.filter_eq_nil_iff]
        intro t _
        rw [hall t]
        exact Bool.false_ne_true)).1
    · exact (nextLoop_exhausted G write _ _ (by
        rw [List.filter_eq_nil_iff]
        intro t _
        rw [hall t]
        exact Bool.false_ne_true)).2
    · match hf : (List.range G._net._ntransitions).filter (checkPreset G._net m) with
      | [] =>
        rw [hf] at h2
        simp at h2
      | t :: _ =>
        have hmem : t ∈ (List.range G._net._ntransitions).filter (checkPreset G._net m) := by
          rw [hf]
          exact List.mem_cons_self _ _
        rw [List.mem_filter, List.mem_range] at hmem
        exact ⟨t, hmem.1, hmem.2⟩
  · intro t ht h1
    have hd := discovered_single G._net m t hw ht h1
    obtain ⟨_, hs, ho, _⟩ := hr
    have hord : (prepare G fuel s m)._ordering = [t] := by
      unfold prepare
      simp only [constructEnabled_eq, ho, List.nil_append, hd, List.length_singleton]
      rfl
    have hst : (prepare G fuel s m).stub t = true := by
      unfold prepare
      simp only [constructEnabled_eq, ho, List.nil_append, hd, List.length_singleton]
      simp [GenState.stub, hs, getD_set_eq, ht]
    have hpar : (prepare G fuel s m)._parent = m := by
      unfold prepare
      simp only [constructEnabled_eq, ho, List.nil_append, hd, List.length_singleton]
      rfl
    obtain ⟨a1, a2, _⟩ := nextLoop_fires G write (prepare G fuel s m)._ordering
      (prepare G fuel s m) t [] (by rw [hord]; simp [hst])
    rw [hpar] at a2
    exact ⟨a1, a2⟩

/-- Witness for C30: `chainNet` with a generator built without queries; in
`[1,0,1,0,0]` both `t0` and `t2` are enabled and `next` returns false at
once. -/
theorem no_seed_no_successor_witness :
    IsReset chainGenNoQuery (GenState.init chainGenNoQuery []) ∧
      WellFiled chainGenNoQuery._net ∧
      2 ≤ ((List.range chainGenNoQuery._net._ntransitions).filter
        (checkPreset chainGenNoQuery._net [1, 0, 1, 0, 0])).length ∧
      (next chainGenNoQuery
        (prepare chainGenNoQuery 3 (GenState.init chainGenNoQuery []) [1, 0, 1, 0, 0])
        [0, 0, 0, 0, 0]).ret = false :=
  ⟨by decide, by decide, by decide,
    ((no_seed_no_successor chainGenNoQuery 3 (GenState.init chainGenNoQuery [])
      [1, 0, 1, 0, 0] [0, 0, 0, 0, 0] (by decide) (by decide)
      (fun q h => absurd h (List.not_mem_nil q))).1 (by decide)).2.2.1⟩

/-! ### The arc reads of the closure loop -/

/-- C31: on `sinkNet` (well filed, with an inhibitor arc) in the marking
`[1,0,0]` the closure loop pops `t0` and `t1`; `t1` is enabled and has no
output arc, its arc range is `[3, 4)`, and while it is processed the arc table
is read at index 3 and then at index 4, which is `inputs(t1 + 1)` and the size
of the table. -/
theorem arc_read_past_range :
    WellFiled sinkNet ∧ sinkGen._netContainsInhibitorArcs = true ∧
    popped sinkGen 2 (seeded sinkGen (GenState.init sinkGen []) [1, 0, 0]) = [0, 1] ∧
    (prepare sinkGen 2 (GenState.init sinkGen []) [1, 0, 0]).en 1 = true ∧
    (sinkNet.tr 1).inputs = 3 ∧ (sinkNet.tr 2).inputs = 4 ∧
    sinkNet.outputArcs 1 = [] ∧
    arcReads sinkGen (prepare sinkGen 2 (GenState.init sinkGen []) [1, 0, 0]) 1 = [3, 4] ∧
    sinkNet._invariants.length = 4 := by
  decide

/-! ### The heuristic query index -/

theorem checkQuery_heur (R : ReachabilitySearch) (state : Marking) (c : Checked) (i : Nat)
    (query : Condition) (pre : List Result) (r : Result) (rest : List Result)
    (hres : c.results = pre ++ r :: rest) (hi : pre.length = i)
    (hp : R.printer.options.statespaceexploration = true ∨
      (i < R.printer.querynames.length ∧ NamesKnown R.printer query)) :
    ∃ c1, checkQuery R state c i query = some c1 ∧
      c1.results = pre ++ settleAt R.printer state query r :: rest ∧
      c1.ss.heurquery =
        (if i = c.ss.heurquery ∧ settleAt R.printer state query r ≠ Result.Unknown then
          c.ss.heurquery + 1 else c.ss.heurquery) := by
  have hget : c.results[i]? = some r := by
    rw [hres, ← hi]
    exact getElem?_append_cons pre r rest
  have hfin : ∀ (c0 : Checked) (x : Result), c0.results[i]? = some x → ∃ c1,
      (if i = c0.ss.heurquery ∧ c0.results[i]? ≠ some Result.Unknown then
          some { c0 with ss := { c0.ss with heurquery := c0.ss.heurquery + 1 } }
        else some c0) = some c1 ∧
      c1.results = c0.results ∧
      c1.ss.heurquery = (if i = c0.ss.heurquery ∧ x ≠ Result.Unknown then
        c0.ss.heurquery + 1 else c0.ss.heurquery) := by
    intro c0 x hx
    rw [hx]
    by_cases hc : i = c0.ss.heurquery ∧ x ≠ Result.Unknown
    · have hc2 : i = c0.ss.heurquery ∧ some x ≠ some Result.Unknown :=
        ⟨hc.1, fun h => hc.2 (Option.some.inj h)⟩
      rw [if_pos hc2, if_pos hc]
      exact ⟨_, rfl, rfl, rfl⟩
    · have hc2 : ¬ (i = c0.ss.heurquery ∧ some x ≠ some Result.Unknown) := by
        rintro ⟨h1, h2⟩
        exact hc ⟨h1, fun h => h2 (by rw [h])⟩
      rw [if_neg hc2, if_neg hc]
      exact ⟨_, rfl, rfl, rfl⟩
  unfold checkQuery
  simp only [hget]
  by_cases hr : r = Result.Unknown
  · subst hr
    by_cases he : query.evaluate state = true
    · obtain ⟨text, ht⟩ := printQuery_satisfied R query i c.ss hp
      simp only [if_true, he, ht]
      have hset : c.results.set i (settle R.printer query) =
          pre ++ settleAt R.printer state query Result.Unknown :: rest := by
        rw [hres, ← hi, set_append_cons]
        simp [settleAt, he]
      obtain ⟨c1, h1, h2, h3⟩ := hfin { c with results := c.results.set i (settle R.printer query), evaluated := c.evaluated ++ [i], out := c.out ++ text }
        (settleAt R.printer state query Result.Unknown) (by
          show (c.results.set i (settle R.printer query))[i]? = _
          rw [hset, ← hi]
          exact getElem?_append_cons _ _ _)
      exact ⟨c1, h1, h2.trans hset, h3⟩
    · have he2 : query.evaluate state = false := by simpa using he
      simp only [if_true, he2, Bool.false_eq_true, if_false]
      have hsame : settleAt R.printer state query Result.Unknown = Result.Unknown := by
        simp [settleAt, he2]
      obtain ⟨c1, h1, h2, h3⟩ := hfin { c with ret := false, evaluated := c.evaluated ++ [i] }
        Result.Unknown hget
      refine ⟨c1, h1, ?_, ?_⟩
      · rw [h2, hsame]
        exact hres
      · rw [h3, hsame]
  · simp only [hr, if_false]
    have hsame : settleAt R.printer state query r = r := by
      simp [settleAt, hr]
    obtain ⟨c1, h1, h2, h3⟩ := hfin c r hget
    refine ⟨c1, h1, ?_, ?_⟩
    · rw [h2, hsame]
      exact hres
    · rw [h3, hsame]

theorem checkLoop_heur (R : ReachabilitySearch) (state : Marking) (queries : List Condition)
    (i : Nat) (c : Checked) (pre rest : List Result)
    (hres : c.results = pre ++ rest) (hi : pre.length = i)
    (hlen : queries.length ≤ rest.length) (hp : Printable R.printer i queries) :
    ∃ c1, checkLoop R state queries i c = some c1 ∧
      c1.ss.heurquery =
        heurAfter i ((settleAll R.printer state queries rest).take queries.length)
          c.ss.heurquery := by
  induction queries generalizing i c pre rest with
  | nil => exact ⟨c, rfl, rfl⟩
  | cons q qs ih =>
    cases rest with
    | nil => simp at hlen
    | cons r rest =>
      have hp1 : R.printer.options.statespaceexploration = true ∨
          (i < R.printer.querynames.length ∧ NamesKnown R.printer q) := by
        rcases hp with h | ⟨h1, h2⟩
        · exact Or.inl h
        · refine Or.inr ⟨?_, h2 q (List.mem_cons_self _ _)⟩
          simp only [List.length_cons] at h1
          omega
      have hp2 : Printable R.printer (i + 1) qs := by
        rcases hp with h | ⟨h1, h2⟩
        · exact Or.inl h
        · refine Or.inr ⟨?_, fun x hx => h2 x (List.mem_cons_of_mem _ hx)⟩
          simp only [List.length_cons] at h1
          omega
      obtain ⟨c1, h1, h2, h3⟩ := checkQuery_heur R state c i q pre r rest hres hi hp1
      have hlen2 : qs.length ≤ rest.length := by
        simp only [List.length_cons] at hlen
        omega
      obtain ⟨c2, g1, g2⟩ := ih (i + 1) c1
        (pre ++ [settleAt R.printer state q r]) rest (by rw [h2]; simp) (by simp [hi]) hlen2 hp2
      refine ⟨c2, ?_, ?_⟩
      · simp only [checkLoop, h1]
        exact g1
      · rw [g2, h3]
        simp only [settleAll, List.length_cons, List.take_succ_cons, heurAfter]

theorem heurAfter_spec (rs : List Result) (i h : Nat) :
    (h < i → heurAfter i rs h = h) ∧
    (i ≤ h →
      h ≤ heurAfter i rs h ∧
      (∀ j, h ≤ j → j < heurAfter i rs h → ∃ r, rs[j - i]? = some r ∧ r ≠ Result.Unknown) ∧
      (heurAfter i rs h < i + rs.length → rs[heurAfter i rs h - i]? = some Result.Unknown) ∧
      (i + rs.length ≤ h → heurAfter i rs h = h) ∧
      (h < i + rs.length → heurAfter i rs h ≤ i + rs.length)) := by
  induction rs generalizing i h with
  | nil =>
    refine ⟨fun _ => rfl, fun hih => ⟨le_refl _, fun j h1 h2 => ?_, fun h1 => ?_, fun _ => rfl,
      fun h1 => ?_⟩⟩
    · simp only [heurAfter] at h2
      omega
    · simp only [heurAfter, List.length_nil] at h1
      omega
    · simp only [List.length_nil] at h1
      omega
  | cons r rs ih =>
    constructor
    · intro hlt
      have hne : ¬ (i = h ∧ r ≠ Result.Unknown) := by
        rintro ⟨h1, _⟩
        omega
      simp only [heurAfter, if_neg hne]
      exact (ih (i + 1) h).1 (by omega)
    · intro hih
      by_cases hc : i = h ∧ r ≠ Result.Unknown
      · simp only [heurAfter, if_pos hc, List.length_cons]
        obtain ⟨a1, a2, a3, a4, a5⟩ := (ih (i + 1) (h + 1)).2 (by omega)
        refine ⟨by omega, fun j h1 h2 => ?_, fun h1 => ?_, fun h1 => ?_, fun h1 => ?_⟩
        · by_cases hj : j = h
          · refine ⟨r, ?_, hc.2⟩
            have : j - i = 0 := by omega
            rw [this]
            exact List.getElem?_cons_zero
          · obtain ⟨x, hx1, hx2⟩ := a2 j (by omega) h2
            refine ⟨x, ?_, hx2⟩
            have : j - i = (j - (i + 1)) + 1 := by omega
            rw [this, List.getElem?_cons_succ]
            exact hx1
        · have := a3 (by omega)
          have he : heurAfter (i + 1) rs (h + 1) - i =
              (heurAfter (i + 1) rs (h + 1) - (i + 1)) + 1 := by omega
          rw [he, List.getElem?_cons_succ]
          exact this
        · omega
        · by_cases hl : h + 1 < i + 1 + rs.length
          · have := a5 hl
            omega
          · have := a4 (by omega)
            omega
      · simp only [heurAfter, if_neg hc, List.length_cons]
        by_cases hih2 : i = h
        · have hru : r = Result.Unknown := by
            by_contra hne
            exact hc ⟨hih2, hne⟩
          have hH := (ih (i + 1) h).1 (by omega)
          rw [hH]
          refine ⟨le_refl _, fun j h1 h2 => ?_, fun _ => ?_, fun h1 => ?_, fun _ => ?_⟩
          · omega
          · have : h - i = 0 := by omega
            rw [this, hru]
            exact List.getElem?_cons_zero
          · omega
          · omega
        · obtain ⟨a1, a2, a3, a4, a5⟩ := (ih (i + 1) h).2 (by omega)
          refine ⟨a1, fun j h1 h2 => ?_, fun h1 => ?_, fun h1 => ?_, fun h1 => ?_⟩
          · obtain ⟨x, hx1, hx2⟩ := a2 j h1 h2
            refine ⟨x, ?_, hx2⟩
            have : j - i = (j - (i + 1)) + 1 := by omega
            rw [this, List.getElem?_cons_succ]
            exact hx1
          · have := a3 (by omega)
            have he : heurAfter (i + 1) rs h - i = (heurAfter (i + 1) rs h - (i + 1)) + 1 := by
              omega
            rw [he, List.getElem?_cons_succ]
            exact this
          · exact a4 (by omega)
          · have := a5 (by omega)
            omega

theorem settleAll_length (P : ResultPrinter) (state : Marking) (qs : List Condition)
    (rs : List Result) : (settleAll P state qs rs).length = rs.length := by
  induction qs generalizing rs with
  | nil => simp [settleAll]
  | cons q0 qs ih =>
    cases rs with
    | nil => simp [settleAll]
    | cons r0 rs => simp [settleAll, ih rs]

/-- C32, counterexample: with `usequeries` off `checkQueries` returns before its
loop: the heuristic index stays 0 although the result at index 0 is
`Satisfied` and there is one query, so that the least index from 0 on that is
past the queries or has an `Unknown` result is 1. -/
theorem heurquery_counterexample :
    stateSS.usequeries = false ∧ stateSS.heurquery = 0 ∧
      (checkQueries chainSearch [goalQuery] [Result.Satisfied] [0, 0, 1, 0, 1] stateSS).map
        (fun c => (c.ss.heurquery, c.results)) = some (0, [Result.Satisfied]) := by
  decide

/-- C32, amended: when `usequeries` is set, with `h` the heuristic index before
the call and `n` the number of queries, the index after the call is the least
`j >= h` such that `j >= n` or the result at `j` is `Unknown` after the call:
it is at least `h`, it is itself past the queries or at an `Unknown` result,
and every `j` from `h` up to it is a query with a terminal result.  When
`usequeries` is not set the search state is left as it was. -/
theorem checkQueries_advances_heurquery (R : ReachabilitySearch) (queries : List Condition)
    (results : List Result) (state : Marking) (ss : searchstate_t) :
    (ss.usequeries = true → queries.length ≤ results.length →
      Printable R.printer 0 queries →
      ∃ c, checkQueries R queries results state ss = some c ∧
        ss.heurquery ≤ c.ss.heurquery ∧
        (queries.length ≤ c.ss.heurquery ∨
          c.results[c.ss.heurquery]? = some Result.Unknown) ∧
        (∀ j, ss.heurquery ≤ j → j < c.ss.heurquery →
          j < queries.length ∧ ∃ r, c.results[j]? = some r ∧ r ≠ Result.Unknown)) ∧
    (ss.usequeries = false →
      (checkQueries R queries results state ss).map (fun c => c.ss) = some ss) := by
  constructor
  · intro hu hlen hp
    obtain ⟨c, h1, h2, _, _⟩ := checkQueries_spec R queries results state ss hu hlen hp
    obtain ⟨c1, g1, g2⟩ := checkLoop_heur R state queries 0
      { ret := true, results := results, ss := ss, evaluated := [], out := "" } [] results rfl
      rfl hlen hp
    have hsame : c1 = c := by
      have h3 : checkQueries R queries results state ss = some c1 := by
        unfold checkQueries
        rw [hu]
        exact g1
      rw [h1] at h3
      exact (Option.some.inj h3).symm
    subst hsame
    have g3 : c1.ss.heurquery =
        heurAfter 0 ((settleAll R.printer state queries results).take queries.length)
          ss.heurquery := g2
    obtain ⟨a1, a2, a3, a4, a5⟩ :=
      (heurAfter_spec ((settleAll R.printer state queries results).take queries.length) 0
        ss.heurquery).2 (Nat.zero_le _)
    have hl := settleAll_length R.printer state queries results
    have htl : ((settleAll R.printer state queries results).take queries.length).length =
        queries.length := by
      rw [List.length_take, hl]
      omega
    rw [htl] at a3 a4 a5
    simp only [Nat.zero_add, Nat.sub_zero] at a2 a3 a4 a5
    rw [← g3] at a1 a2 a3 a4 a5
    refine ⟨c1, h1, a1, ?_, fun j hj1 hj2 => ?_⟩
    · by_cases hlt : c1.ss.heurquery < queries.length
      · right
        have := a3 hlt
        rw [List.getElem?_take_of_lt hlt] at this
        rw [h2]
        exact this
      · left
        omega
    · have hjn : j < queries.length := by
        by_cases hh : ss.heurquery < queries.length
        · have := a5 hh
          omega
        · have := a4 (by omega)
          omega
      obtain ⟨r, hr1, hr2⟩ := a2 j hj1 hj2
      rw [List.getElem?_take_of_lt hjn] at hr1
      refine ⟨hjn, r, ?_, hr2⟩
      rw [h2]
      exact hr1
  · intro hu
    rw [checkQueries_off R queries results state ss hu]
    rfl

/-- Witness for C32 (amended): three queries, the first already `Satisfied`,
the second settled by this call, the third left `Unknown`: the index moves from
0 to 2. -/
theorem checkQueries_advances_heurquery_witness :
    querySS.usequeries = true ∧
      ∃ c, checkQueries chainSearch [goalQuery, invQuery, boundQuery]
          [Result.Satisfied, Result.Unknown, Result.Unknown] [0, 0, 1, 0, 1] querySS = some c ∧
        querySS.heurquery ≤ c.ss.heurquery ∧
        ([goalQuery, invQuery, boundQuery].length ≤ c.ss.heurquery ∨
          c.results[c.ss.heurquery]? = some Result.Unknown) := by
  obtain ⟨c, h1, h2, h3, _⟩ := (checkQueries_advances_heurquery chainSearch
    [goalQuery, invQuery, boundQuery] [Result.Satisfied, Result.Unknown, Result.Unknown]
    [0, 0, 1, 0, 1] querySS).1 (by decide) (by decide) (by decide)
  exact ⟨by decide, c, h1, h2, h3⟩

/-! ## Colours: successor, predecessor and comparison -/

theorem foldl_addColor (names : List String) : ∀ ct : ColorType,
    (names.foldl ColorType.addColor ct)._colors =
      ct._colors ++ (names.enumFrom ct._colors.length).map
        (fun p => Color.mk [] (some ct.addr) p.2 (p.1 % 4294967296)) ∧
    (names.foldl ColorType.addColor ct).addr = ct.addr := by
  induction names with
  | nil => intro ct; simp
  | cons n ns ih =>
    intro ct
    have h := ih (ct.addColor n)
    simp only [List.foldl_cons]
    refine ⟨?_, h.2⟩
    rw [h.1]
    simp [ColorType.addColor, List.enumFrom_cons]

theorem filled_length (a : Nat) (names : List String) :
    (ColorType.filled a names)._colors.length = names.length := by
  unfold ColorType.filled
  rw [(foldl_addColor names _).1]
  simp

theorem filled_getElem? (a : Nat) (names : List String) (i : Nat) (hi : i < names.length)
    (h2 : names.length ≤ 4294967296) :
    (ColorType.filled a names)._colors[i]? =
      some (Color.mk [] (some a) (names.getD i "") i) := by
  unfold ColorType.filled
  rw [(foldl_addColor names _).1]
  have hm : i % 4294967296 = i := Nat.mod_eq_of_lt (by omega)
  simp [List.getElem?_enumFrom, List.getElem?_eq_getElem hi, List.getD_eq_getElem?_getD, hm]

theorem filled_increment (types : Nat → Option ColorTypeRef)
    (a : Nat) (names : List String) (ct : ColorTypeRef) (h2 : names.length ≤ 4294967296)
    (ht : types a = some ct) (hsize : ct.size = (ColorType.filled a names)._colors.length)
    (hidx : ∀ k, ct.atIndex k = (ColorType.filled a names)._colors[k]?)
    (i : Nat) (hi : i < names.length) :
    (Color.mk [] (some a) (names.getD i "") i).increment types =
      some (Color.mk [] (some a) (names.getD ((i + 1) % names.length) "")
        ((i + 1) % names.length)) := by
  simp only [Color.increment, Color._colorType, Color._id, ht, hsize, hidx, filled_length]
  have hs : (names.length + 18446744073709551615) % 18446744073709551616 =
      names.length - 1 := by omega
  rw [hs]
  by_cases hc : i ≥ names.length - 1
  · rw [if_pos hc]
    have hz : (i + 1) % names.length = 0 := by
      have : i + 1 = names.length := by omega
      rw [this]; exact Nat.mod_self _
    rw [hz]
    exact filled_getElem? a names 0 (by omega) h2
  · rw [if_neg hc]
    have hz : (i + 1) % names.length = i + 1 := Nat.mod_eq_of_lt (by omega)
    have hm : (i + 1) % 4294967296 = i + 1 := Nat.mod_eq_of_lt (by omega)
    rw [hz, hm]
    exact filled_getElem? a names (i + 1) (by omega) h2

theorem filled_decrement (types : Nat → Option ColorTypeRef)
    (a : Nat) (names : List String) (ct : ColorTypeRef) (h2 : names.length ≤ 4294967296)
    (ht : types a = some ct) (hsize : ct.size = (ColorType.filled a names)._colors.length)
    (hidx : ∀ k, ct.atIndex k = (ColorType.filled a names)._colors[k]?)
    (i : Nat) (hi : i < names.length) :
    (Color.mk [] (some a) (names.getD i "") i).decrement types =
      some (Color.mk [] (some a) (names.getD ((i + names.length - 1) % names.length) "")
        ((i + names.length - 1) % names.length)) := by
  simp only [Color.decrement, Color._colorType, Color._id, ht, hsize, hidx, filled_length]
  have hs : (names.length + 18446744073709551615) % 18446744073709551616 =
      names.length - 1 := by omega
  rw [hs]
  by_cases hc : i ≤ 0
  · rw [if_pos hc]
    have hz : (i + names.length - 1) % names.length = names.length - 1 := by
      have : i + names.length - 1 = names.length - 1 := by omega
      rw [this]; exact Nat.mod_eq_of_lt (by omega)
    rw [hz]
    exact filled_getElem? a names (names.length - 1) (by omega) h2
  · rw [if_neg hc]
    have hz : (i + names.length - 1) % names.length = i - 1 := by
      have : i + names.length - 1 = (i - 1) + names.length := by omega
      rw [this, Nat.add_mod_right]; exact Nat.mod_eq_of_lt (by omega)
    rw [hz]
    exact filled_getElem? a names (i - 1) (by omega) h2

theorem filled_timesIncrement (types : Nat → Option ColorTypeRef)
    (a : Nat) (names : List String) (ct : ColorTypeRef) (h2 : names.length ≤ 4294967296)
    (ht : types a = some ct) (hsize : ct.size = (ColorType.filled a names)._colors.length)
    (hidx : ∀ k, ct.atIndex k = (ColorType.filled a names)._colors[k]?) :
    ∀ (k i : Nat), i < names.length →
      timesIncrement types k (Color.mk [] (some a) (names.getD i "") i) =
        some (Color.mk [] (some a) (names.getD ((i + k) % names.length) "")
          ((i + k) % names.length)) := by
  intro k
  induction k with
  | zero =>
    intro i hi
    simp only [timesIncrement, Nat.add_zero, Nat.mod_eq_of_lt hi]
  | succ k ih =>
    intro i hi
    simp only [timesIncrement, filled_increment types a names ct h2 ht hsize hidx i hi,
      Option.some_bind]
    rw [ih _ (Nat.mod_lt _ (by omega))]
    have : ((i + 1) % names.length + k) % names.length = (i + (k + 1)) % names.length := by
      rw [Nat.mod_add_mod]; congr 1; omega
    rw [this]

/-- C34: in a colour type filled by `addColor` with `n ≥ 1` names (at most
`2^32`, the ids being 32-bit), whose `size()` and `operator[](size_t)` are the
size and the elements of `_colors`, the colour added `i`-th has id `i`;
`operator++` returns the colour of the type with id `(i + 1) mod n` and
`operator--` the one with id `(i + n - 1) mod n`; `--(++c) = c = ++(--c)`, and
`++` applied `n` times returns `c`. -/
theorem increment_decrement_cycle
    (types : Nat → Option ColorTypeRef) (a : Nat) (names : List String) (ct : ColorTypeRef)
    (h1 : 1 ≤ names.length) (h2 : names.length ≤ 4294967296)
    (ht : types a = some ct) (hsize : ct.size = (ColorType.filled a names)._colors.length)
    (hidx : ∀ k, ct.atIndex k = (ColorType.filled a names)._colors[k]?)
    (i : Nat) (hi : i < names.length) :
    ∃ c, (ColorType.filled a names)._colors[i]? = some c ∧ c._id = i ∧
      c.increment types = (ColorType.filled a names)._colors[(i + 1) % names.length]? ∧
      c.decrement types =
        (ColorType.filled a names)._colors[(i + names.length - 1) % names.length]? ∧
      (∃ d, c.increment types = some d ∧ d._id = (i + 1) % names.length ∧
        d.decrement types = some c) ∧
      (∃ e, c.decrement types = some e ∧ e._id = (i + names.length - 1) % names.length ∧
        e.increment types = some c) ∧
      timesIncrement types names.length c = some c := by
  have hlt1 : (i + 1) % names.length < names.length := Nat.mod_lt _ (by omega)
  have hlt2 : (i + names.length - 1) % names.length < names.length := Nat.mod_lt _ (by omega)
  have hinc := filled_increment types a names ct h2 ht hsize hidx
  have hdec := filled_decrement types a names ct h2 ht hsize hidx
  have hback1 : ((i + 1) % names.length + names.length - 1) % names.length = i := by
    have e : (i + 1) % names.length + names.length - 1 =
        (i + 1) % names.length + (names.length - 1) := by omega
    rw [e, Nat.mod_add_mod]
    have e2 : i + 1 + (names.length - 1) = i + names.length := by omega
    rw [e2, Nat.add_mod_right]; exact Nat.mod_eq_of_lt hi
  have hback2 : ((i + names.length - 1) % names.length + 1) % names.length = i := by
    rw [Nat.mod_add_mod]
    have e2 : i + names.length - 1 + 1 = i + names.length := by omega
    rw [e2, Nat.add_mod_right]; exact Nat.mod_eq_of_lt hi
  refine ⟨Color.mk [] (some a) (names.getD i "") i, filled_getElem? a names i hi h2, rfl,
    ?_, ?_, ?_, ?_, ?_⟩
  · rw [hinc i hi, filled_getElem? a names _ hlt1 h2]
  · rw [hdec i hi, filled_getElem? a names _ hlt2 h2]
  · refine ⟨_, hinc i hi, rfl, ?_⟩
    rw [hdec _ hlt1, hback1]
  · refine ⟨_, hdec i hi, rfl, ?_⟩
    rw [hinc _ hlt2, hback2]
  · rw [filled_timesIncrement types a names ct h2 ht hsize hidx names.length i hi,
      Nat.add_mod_right, Nat.mod_eq_of_lt hi]

theorem increment_decrement_cycle_witness :
    ∃ c, abcType._colors[2]? = some c ∧ c._id = 2 ∧
      c.increment colorHeap = abcType._colors[(2 + 1) % 3]? ∧
      c.decrement colorHeap = abcType._colors[(2 + 3 - 1) % 3]? ∧
      (∃ d, c.increment colorHeap = some d ∧ d._id = (2 + 1) % 3 ∧
        d.decrement colorHeap = some c) ∧
      (∃ e, c.decrement colorHeap = some e ∧ e._id = (2 + 3 - 1) % 3 ∧
        e.increment colorHeap = some c) ∧
      timesIncrement colorHeap 3 c = some c :=
  increment_decrement_cycle colorHeap 1 ["a", "b", "c"] (abcType.ref tupleBySize) (by decide)
    (by decide) rfl rfl (fun _ => rfl) 2 (by decide)

/-- C35: each of `<`, `>`, `<=`, `>=` on two colours fails with "Cannot compare
colors from different types" exactly when their colour types differ; on colours
of one type they compare the ids, so exactly one of `a < b`, `b < a`,
`id(a) = id(b)` holds, `a <= b` is the negation of `a > b` and `a >= b` the
negation of `a < b`. -/
theorem comparisons_by_id (a b : Color) :
    (a._colorType ≠ b._colorType →
      a.lt b = Except.error "Cannot compare colors from different types" ∧
      a.gt b = Except.error "Cannot compare colors from different types" ∧
      a.le b = Except.error "Cannot compare colors from different types" ∧
      a.ge b = Except.error "Cannot compare colors from different types") ∧
    (a._colorType = b._colorType →
      a.lt b = Except.ok (decide (a._id < b._id)) ∧
      a.gt b = Except.ok (decide (a._id > b._id)) ∧
      a.le b = Except.ok (decide (a._id ≤ b._id)) ∧
      a.ge b = Except.ok (decide (a._id ≥ b._id)) ∧
      b.lt a = Except.ok (decide (b._id < a._id)) ∧
      ((a.lt b = Except.ok true ∧ b.lt a = Except.ok false ∧ a._id ≠ b._id) ∨
       (a.lt b = Except.ok false ∧ b.lt a = Except.ok true ∧ a._id ≠ b._id) ∨
       (a.lt b = Except.ok false ∧ b.lt a = Except.ok false ∧ a._id = b._id)) ∧
      a.le b = (a.gt b).map (fun r => !r) ∧
      a.ge b = (a.lt b).map (fun r => !r)) := by
  constructor
  · intro h
    simp only [Color.lt, Color.gt, Color.le, Color.ge, if_pos h, and_self]
  · intro h
    have h' : ¬ (a._colorType ≠ b._colorType) := fun k => k h
    have h'' : ¬ (b._colorType ≠ a._colorType) := fun k => k h.symm
    simp only [Color.lt, Color.gt, Color.le, Color.ge, if_neg h', if_neg h'', Except.map,
      true_and]
    refine ⟨?_, ?_, ?_⟩
    · rcases Nat.lt_trichotomy a._id b._id with hlt | heq | hgt
      · left
        refine ⟨by simp [hlt], by simp; omega, by omega⟩
      · right; right
        refine ⟨by simp [heq], by simp [heq], heq⟩
      · right; left
        refine ⟨by simp; omega, by simp [hgt], by omega⟩
    · congr 1
      by_cases hx : a._id ≤ b._id
      · simp [hx, Nat.not_lt.mpr hx]
      · simp [hx, Nat.lt_of_not_le hx]
    · congr 1
      by_cases hx : b._id ≤ a._id
      · simp [hx, Nat.not_lt.mpr hx]
      · simp [hx, Nat.lt_of_not_le hx]

theorem comparisons_by_id_witness :
    ((Color.mk [] (some 1) "a" 0)._colorType ≠ (Color.mk [] (some 2) "x" 0)._colorType ∧
      (Color.mk [] (some 1) "a" 0).lt (Color.mk [] (some 2) "x" 0) =
        Except.error "Cannot compare colors from different types") ∧
    ((Color.mk [] (some 1) "a" 0)._colorType = (Color.mk [] (some 1) "b" 1)._colorType ∧
      (Color.mk [] (some 1) "a" 0).lt (Color.mk [] (some 1) "b" 1) =
        Except.ok (decide ((Color.mk [] (some 1) "a" 0)._id < (Color.mk [] (some 1) "b" 1)._id)) ∧
      (Color.mk [] (some 1) "a" 0).ge (Color.mk [] (some 1) "b" 1) =
        ((Color.mk [] (some 1) "a" 0).lt (Color.mk [] (some 1) "b" 1)).map (fun r => !r)) :=
  ⟨⟨by decide, ((comparisons_by_id (Color.mk [] (some 1) "a" 0)
      (Color.mk [] (some 2) "x" 0)).1 (by decide)).1⟩,
   ⟨rfl, ((comparisons_by_id (Color.mk [] (some 1) "a" 0)
      (Color.mk [] (some 1) "b" 1)).2 rfl).1,
    ((comparisons_by_id (Color.mk [] (some 1) "a" 0)
      (Color.mk [] (some 1) "b" 1)).2 rfl).2.2.2.2.2.2.2⟩⟩

/-! ## Product colour types: the mixed-radix encoding -/

theorem radixValue_nil (sizes : List Nat) : radixValue sizes [] = 0 := by
  simp [radixValue]

theorem radixValue_cons (s : Nat) (ss : List Nat) (d : Nat) (ds : List Nat) :
    radixValue (s :: ss) (d :: ds) = d + s * radixValue ss ds := by
  simp only [radixValue, List.length_cons, List.range_succ_eq_map, List.map_cons, List.map_map,
    List.sum_cons, List.take_zero, List.prod_nil, Nat.mul_one]
  congr 1
  rw [← List.sum_map_mul_left]
  congr 1
  apply List.map_congr_left
  intro i _
  simp only [Function.comp, List.getD_cons_succ, List.take_succ_cons, List.prod_cons]
  exact Nat.mul_left_comm _ _ _

theorem validIds_nil_left (ids : List Nat) : ValidIds [] ids ↔ ids = [] := by
  constructor
  · intro h
    exact List.length_eq_zero.mp h.1
  · intro h
    subst h
    exact ⟨rfl, fun i hi => absurd hi (Nat.not_lt_zero _)⟩

theorem validIds_cons (s : Nat) (ss : List Nat) (d : Nat) (ds : List Nat) :
    ValidIds (s :: ss) (d :: ds) ↔ d < s ∧ ValidIds ss ds := by
  constructor
  · intro h
    refine ⟨by simpa using h.2 0 (by simp), by simpa using h.1, ?_⟩
    intro i hi
    have := h.2 (i + 1) (by simpa using hi)
    simpa using this
  · intro h
    refine ⟨by simpa using h.2.1, ?_⟩
    intro i hi
    cases i with
    | zero => simpa using h.1
    | succ j =>
      have := h.2.2 j (by simpa using hi)
      simpa using this

theorem validIds_cons_left (s : Nat) (ss : List Nat) (ids : List Nat)
    (h : ValidIds (s :: ss) ids) : ∃ d ds, ids = d :: ds ∧ d < s ∧ ValidIds ss ds := by
  cases ids with
  | nil => exact absurd h.1 (by simp)
  | cons d ds => exact ⟨d, ds, rfl, (validIds_cons s ss d ds).mp h⟩

theorem radixValue_lt (sizes : List Nat) : ∀ ids, ValidIds sizes ids →
    radixValue sizes ids < sizes.prod := by
  induction sizes with
  | nil =>
    intro ids h
    rw [(validIds_nil_left ids).mp h, radixValue_nil]
    simp
  | cons s ss ih =>
    intro ids h
    obtain ⟨d, ds, rfl, hd, hv⟩ := validIds_cons_left s ss ids h
    rw [radixValue_cons, List.prod_cons]
    have h1 := ih ds hv
    have h2 : s * (radixValue ss ds + 1) ≤ s * ss.prod := Nat.mul_le_mul_left s h1
    rw [Nat.mul_add, Nat.mul_one] at h2
    omega

theorem radixDigits_value (sizes : List Nat) : ∀ ids, ValidIds sizes ids →
    radixDigits sizes (radixValue sizes ids) = ids := by
  induction sizes with
  | nil =>
    intro ids h
    rw [(validIds_nil_left ids).mp h]
    rfl
  | cons s ss ih =>
    intro ids h
    obtain ⟨d, ds, rfl, hd, hv⟩ := validIds_cons_left s ss ids h
    have hs : 0 < s := by omega
    rw [radixValue_cons]
    simp only [radixDigits, Nat.add_mul_mod_self_left, Nat.mod_eq_of_lt hd,
      Nat.add_mul_div_left _ _ hs, Nat.div_eq_of_lt hd, Nat.zero_add, ih ds hv]

theorem radixValue_digits (sizes : List Nat) : ∀ n, n < sizes.prod →
    ValidIds sizes (radixDigits sizes n) ∧ radixValue sizes (radixDigits sizes n) = n := by
  induction sizes with
  | nil =>
    intro n hn
    simp only [List.prod_nil] at hn
    refine ⟨(validIds_nil_left _).mpr rfl, ?_⟩
    simp only [radixDigits, radixValue_nil]
    omega
  | cons s ss ih =>
    intro n hn
    rw [List.prod_cons] at hn
    have hs : 0 < s := by
      rcases Nat.eq_zero_or_pos s with h0 | h0
      · rw [h0, Nat.zero_mul] at hn; exact absurd hn (Nat.not_lt_zero _)
      · exact h0
    have hq : n / s < ss.prod := Nat.div_lt_of_lt_mul hn
    have h := ih (n / s) hq
    simp only [radixDigits]
    refine ⟨(validIds_cons _ _ _ _).mpr ⟨Nat.mod_lt _ hs, h.1⟩, ?_⟩
    rw [radixValue_cons, h.2]
    exact Nat.mod_add_div n s

theorem sizes_prod_pos (cts : List ColorTypeRef) (hsz : ∀ ct ∈ cts, 1 ≤ ct.size) :
    1 ≤ (sizesOf cts).prod := by
  induction cts with
  | nil => simp [sizesOf]
  | cons ct rest ih =>
    have h1 := hsz ct (List.mem_cons_self _ _)
    have h2 := ih (fun c hc => hsz c (List.mem_cons_of_mem _ hc))
    simp only [sizesOf, List.map_cons, List.prod_cons] at h2 ⊢
    exact Nat.mul_le_mul h1 h2

theorem components_spec (cts : List ColorTypeRef) : ∀ (n P : Nat),
    (∀ ct ∈ cts, 1 ≤ ct.size) → WellNumbered cts → 1 ≤ P →
    P * (sizesOf cts).prod < 18446744073709551616 →
    ∃ cs, ProductType.components cts n P = some cs ∧
      cs.map Color._id = radixDigits (sizesOf cts) (n / P) ∧
      List.Forall₂ (fun ct col => ct.atIndex col._id = some col) cts cs ∧
      List.Forall₂ (fun ct col => col._colorType = some ct.addr) cts cs := by
  induction cts with
  | nil =>
    intro n P _ _ _ _
    exact ⟨[], rfl, rfl, List.Forall₂.nil, List.Forall₂.nil⟩
  | cons ct rest ih =>
    intro n P hsz hw hP hb
    have hs : 1 ≤ ct.size := hsz ct (List.mem_cons_self _ _)
    have hsz' : ∀ c ∈ rest, 1 ≤ c.size := fun c hc => hsz c (List.mem_cons_of_mem _ hc)
    have hw' : WellNumbered rest := fun c hc => hw c (List.mem_cons_of_mem _ hc)
    have hpr := sizes_prod_pos rest hsz'
    simp only [sizesOf, List.map_cons, List.prod_cons] at hb
    have hpr' : 1 ≤ (List.map (fun ct => ct.size) rest).prod := hpr
    have hmul : P * ct.size ≤ P * (ct.size * (List.map (fun ct => ct.size) rest).prod) :=
      Nat.mul_le_mul_left P (Nat.le_mul_of_pos_right _ hpr')
    have hmod : (P * ct.size) % 18446744073709551616 = P * ct.size :=
      Nat.mod_eq_of_lt (by omega)
    obtain ⟨c, hat, hid, hty⟩ := hw ct (List.mem_cons_self _ _) ((n / P) % ct.size)
      (Nat.mod_lt _ (by omega))
    have hb' : P * ct.size * (sizesOf rest).prod < 18446744073709551616 := by
      rw [Nat.mul_assoc]; exact hb
    obtain ⟨cs, hcs, hids, hat', hty'⟩ := ih n (P * ct.size) hsz' hw'
      (Nat.mul_le_mul hP hs) hb'
    refine ⟨c :: cs, ?_, ?_, ?_, ?_⟩
    · have hn : ¬ (P = 0 ∨ ct.size = 0) := by omega
      simp only [ProductType.components, if_neg hn, hat, hmod, hcs]
    · simp only [List.map_cons, sizesOf, radixDigits, hid]
      congr 1
      rw [hids, Nat.div_div_eq_div_mul]
      rfl
    · exact List.Forall₂.cons (by rw [hid]; exact hat) hat'
    · exact List.Forall₂.cons hty hty'

theorem idSum_spec (cts : List ColorTypeRef) : ∀ (ids : List Nat) (P S : Nat),
    ValidIds (sizesOf cts) ids → S < P →
    P * (sizesOf cts).prod < 18446744073709551616 →
    ProductType.idSum cts ids P S = some (S + P * radixValue (sizesOf cts) ids) := by
  induction cts with
  | nil =>
    intro ids P S hv _ _
    rw [(validIds_nil_left ids).mp hv]
    simp [ProductType.idSum, radixValue_nil]
  | cons ct rest ih =>
    intro ids P S hv hS hb
    obtain ⟨d, ds, rfl, hd, hv'⟩ := validIds_cons_left _ _ ids hv
    have hpr : 1 ≤ (sizesOf rest).prod := Nat.lt_of_le_of_lt (Nat.zero_le _)
      (radixValue_lt _ ds hv')
    simp only [sizesOf, List.map_cons, List.prod_cons] at hb
    have hpr' : 1 ≤ (List.map (fun ct => ct.size) rest).prod := hpr
    have hmul : P * ct.size ≤ P * (ct.size * (List.map (fun ct => ct.size) rest).prod) :=
      Nat.mul_le_mul_left P (Nat.le_mul_of_pos_right _ hpr')
    have hd1 : P * (d + 1) ≤ P * ct.size := Nat.mul_le_mul_left P hd
    rw [Nat.mul_add, Nat.mul_one] at hd1
    have hmod : (P * ct.size) % 18446744073709551616 = P * ct.size :=
      Nat.mod_eq_of_lt (by omega)
    have hmod2 : (S + P * d) % 18446744073709551616 = S + P * d :=
      Nat.mod_eq_of_lt (by omega)
    have hb' : P * ct.size * (sizesOf rest).prod < 18446744073709551616 := by
      rw [Nat.mul_assoc]; exact hb
    have h := ih ds (P * ct.size) (S + P * d) hv' (by omega) hb'
    simp only [ProductType.idSum, hmod, hmod2, h, sizesOf, List.map_cons, radixValue_cons]
    congr 1
    rw [Nat.mul_add, Nat.mul_assoc, Nat.add_assoc]

theorem colorSum_eq_idSum (cts : List ColorTypeRef) (cs : List Color)
    (h : List.Forall₂ (fun ct col => col._colorType = some ct.addr) cts cs) :
    ∀ (P S : Nat), ProductType.colorSum cts cs P S =
      (ProductType.idSum cts (cs.map Color._id) P S).map some := by
  induction h with
  | nil => intro P S; rfl
  | cons hty _ ih =>
    intro P S
    simp only [ProductType.colorSum, hty, ne_eq, not_true_eq_false, if_false, List.map_cons,
      ProductType.idSum, ih]

theorem mem_of_lookup {α : Type} (k : Nat) (v : α) :
    ∀ l : List (Nat × α), l.lookup k = some v → (k, v) ∈ l := by
  intro l
  induction l with
  | nil => intro h; simp at h
  | cons p ps ih =>
    intro h
    obtain ⟨k1, v1⟩ := p
    by_cases hk : k = k1
    · subst hk
      simp only [List.lookup_cons, beq_self_eq_true] at h
      cases h
      exact List.mem_cons_self _ _
    · have hk' : (k == k1) = false := by simpa using hk
      simp only [List.lookup_cons, hk'] at h
      exact List.mem_cons_of_mem _ (ih h)

theorem atIndex_spec (pt : ProductType) (n : Nat) (c : Color) (hc : CacheSound pt)
    (hb : pt.build n = some c) :
    ∃ pt1, pt.atIndex n = some (c, pt1) ∧ CacheSound pt1 ∧
      pt1.constituents = pt.constituents ∧ pt1.addr = pt.addr := by
  cases hl : pt.cache.lookup n with
  | some c1 =>
    have h1 := hc n c1 (mem_of_lookup n c1 _ hl)
    rw [hb] at h1
    cases h1
    exact ⟨pt, by simp only [ProductType.atIndex, hl], hc, rfl, rfl⟩
  | none =>
    refine ⟨{ pt with cache := pt.cache ++ [(n, c)] }, by
      simp only [ProductType.atIndex, hl, hb], ?_, rfl, rfl⟩
    intro m d hm
    rcases List.mem_append.mp hm with h | h
    · exact hc m d h
    · simp only [List.mem_singleton, Prod.mk.injEq] at h
      obtain ⟨rfl, rfl⟩ := h
      exact hb

theorem build_spec (pt : ProductType) (n : Nat)
    (hsz : ∀ ct ∈ pt.constituents, 1 ≤ ct.size) (hw : WellNumbered pt.constituents)
    (hp : (sizesOf pt.constituents).prod < 18446744073709551616) :
    ∃ cs, pt.build n = some (Color.mk cs (some pt.addr) "" (n % 4294967296)) ∧
      cs.map Color._id = radixDigits (sizesOf pt.constituents) n ∧
      List.Forall₂ (fun ct col => ct.atIndex col._id = some col) pt.constituents cs ∧
      List.Forall₂ (fun ct col => col._colorType = some ct.addr) pt.constituents cs := by
  obtain ⟨cs, h1, h2, h3, h4⟩ := components_spec pt.constituents n 1 hsz hw (Nat.le_refl _)
    (by rw [Nat.one_mul]; exact hp)
  rw [Nat.div_one] at h2
  exact ⟨cs, by simp only [ProductType.build, h1], h2, h3, h4⟩

theorem getColor_spec (pt : ProductType) (n : Nat) (cs : List Color)
    (hn : n < (sizesOf pt.constituents).prod)
    (hp : (sizesOf pt.constituents).prod < 18446744073709551616) (hc : CacheSound pt)
    (hb : pt.build n = some (Color.mk cs (some pt.addr) "" (n % 4294967296)))
    (hids : cs.map Color._id = radixDigits (sizesOf pt.constituents) n)
    (hty : List.Forall₂ (fun ct col => col._colorType = some ct.addr) pt.constituents cs) :
    ∃ pt2, pt.getColor cs =
      some (some (Color.mk cs (some pt.addr) "" (n % 4294967296)), pt2) := by
  have hlen : ¬ (pt.constituents.length ≠ cs.length) := fun k => k hty.length_eq
  have hd := radixValue_digits (sizesOf pt.constituents) n hn
  have hsum := idSum_spec pt.constituents (cs.map Color._id) 1 0 (by rw [hids]; exact hd.1)
    (by decide) (by rw [Nat.one_mul]; exact hp)
  rw [hids, hd.2, Nat.zero_add, Nat.one_mul] at hsum
  obtain ⟨pt2, h2, _⟩ := atIndex_spec pt n _ hc hb
  refine ⟨pt2, ?_⟩
  simp only [ProductType.getColor, if_neg hlen, colorSum_eq_idSum _ _ hty, hids, hsum,
    Option.map_some', h2]

/-- C33: for a product type whose constituents have sizes `>= 1` and hold at
each index their colour with that id, whose colour count fits `size_t` and
whose cache holds only colours built by `operator[]`: `getColor(ids)` on a
valid id vector returns the colour whose components are the colours `ids[i]`
of the constituents and whose id is the mixed-radix value of `ids` (the id is
32-bit: the value modulo `2^32`, the value itself when the product has at most
`2^32` colours); `getColor` on the components of `(*this)[n]`, `n` below the
number of colours, returns that same colour, of id `n`; and distinct valid id
vectors give colours with distinct components and, up to `2^32` colours,
distinct ids. -/
theorem product_encoding_inverse (pt : ProductType)
    (hsz : ∀ ct ∈ pt.constituents, 1 ≤ ct.size) (hw : WellNumbered pt.constituents)
    (hp : (sizesOf pt.constituents).prod < 18446744073709551616) (hc : CacheSound pt) :
    (∀ ids, ValidIds (sizesOf pt.constituents) ids →
      ∃ c pt1, pt.getColorOfIds ids = some (c, pt1) ∧
        c._id = radixValue (sizesOf pt.constituents) ids % 4294967296 ∧
        ((sizesOf pt.constituents).prod ≤ 4294967296 →
          c._id = radixValue (sizesOf pt.constituents) ids) ∧
        c._tuple.map Color._id = ids ∧
        List.Forall₂ (fun ct col => ct.atIndex col._id = some col) pt.constituents c._tuple ∧
        CacheSound pt1 ∧ pt1.constituents = pt.constituents) ∧
    (∀ n, n < (sizesOf pt.constituents).prod →
      ∃ c pt1, pt.atIndex n = some (c, pt1) ∧ c._id = n % 4294967296 ∧
        ((sizesOf pt.constituents).prod ≤ 4294967296 → c._id = n) ∧
        ∃ pt2, pt1.getColor c._tuple = some (some c, pt2)) ∧
    (∀ ids ids1, ValidIds (sizesOf pt.constituents) ids →
      ValidIds (sizesOf pt.constituents) ids1 → ids ≠ ids1 →
      ∀ c p c1 p1, pt.getColorOfIds ids = some (c, p) →
        pt.getColorOfIds ids1 = some (c1, p1) →
        c._tuple.map Color._id ≠ c1._tuple.map Color._id ∧
        ((sizesOf pt.constituents).prod ≤ 4294967296 → c._id ≠ c1._id)) := by
  have part1 : ∀ ids, ValidIds (sizesOf pt.constituents) ids →
      ∃ c pt1, pt.getColorOfIds ids = some (c, pt1) ∧
        c._id = radixValue (sizesOf pt.constituents) ids % 4294967296 ∧
        c._tuple.map Color._id = ids ∧
        List.Forall₂ (fun ct col => ct.atIndex col._id = some col) pt.constituents c._tuple ∧
        CacheSound pt1 ∧ pt1.constituents = pt.constituents := by
    intro ids hv
    have hsum := idSum_spec pt.constituents ids 1 0 hv (by decide)
      (by rw [Nat.one_mul]; exact hp)
    rw [Nat.zero_add, Nat.one_mul] at hsum
    obtain ⟨cs, hb, hids, hat, _⟩ := build_spec pt (radixValue (sizesOf pt.constituents) ids)
      hsz hw hp
    obtain ⟨pt1, h1, hc1, hk1, _⟩ := atIndex_spec pt _ _ hc hb
    rw [radixDigits_value _ ids hv] at hids
    exact ⟨Color.mk cs (some pt.addr) "" (radixValue (sizesOf pt.constituents) ids % 4294967296),
      pt1, by simp only [ProductType.getColorOfIds, hsum, h1], rfl, hids, hat, hc1, hk1⟩
  refine ⟨?_, ?_, ?_⟩
  · intro ids hv
    obtain ⟨c, pt1, h1, h2, h3, h4, h5, h6⟩ := part1 ids hv
    refine ⟨c, pt1, h1, h2, ?_, h3, h4, h5, h6⟩
    intro hsmall
    rw [h2]
    exact Nat.mod_eq_of_lt (Nat.lt_of_lt_of_le (radixValue_lt _ ids hv) hsmall)
  · intro n hn
    obtain ⟨cs, hb, hids, _, hty⟩ := build_spec pt n hsz hw hp
    obtain ⟨pt1, h1, hc1, hk1, ha1⟩ := atIndex_spec pt _ _ hc hb
    have hb1 : pt1.build n = some (Color.mk cs (some pt1.addr) "" (n % 4294967296)) := by
      simp only [ProductType.build, hk1, ha1] at hb ⊢
      exact hb
    obtain ⟨pt2, h2⟩ := getColor_spec pt1 n cs (by rw [hk1]; exact hn) (by rw [hk1]; exact hp)
      hc1 hb1 (by rw [hk1]; exact hids) (by rw [hk1]; exact hty)
    rw [ha1] at h2
    exact ⟨Color.mk cs (some pt.addr) "" (n % 4294967296), pt1, h1, rfl,
      fun hsmall => Nat.mod_eq_of_lt (Nat.lt_of_lt_of_le hn hsmall), pt2, h2⟩
  · intro ids ids1 hv hv1 hne c p c1 p1 hg hg1
    obtain ⟨d, q, h1, h2, h3, _⟩ := part1 ids hv
    obtain ⟨d1, q1, k1, k2, k3, _⟩ := part1 ids1 hv1
    rw [hg] at h1
    rw [hg1] at k1
    cases h1
    cases k1
    refine ⟨by rw [h3, k3]; exact hne, ?_⟩
    intro hsmall heq
    rw [h2, k2, Nat.mod_eq_of_lt (Nat.lt_of_lt_of_le (radixValue_lt _ ids hv) hsmall),
      Nat.mod_eq_of_lt (Nat.lt_of_lt_of_le (radixValue_lt _ ids1 hv1) hsmall)] at heq
    apply hne
    rw [← radixDigits_value _ ids hv, ← radixDigits_value _ ids1 hv1, heq]

theorem filled_wellNumbered (isTuple : Color → Bool) (a : Nat) (names : List String)
    (h2 : names.length ≤ 4294967296) (k : Nat)
    (hk : k < ((ColorType.filled a names).ref isTuple).size) :
    ∃ c, ((ColorType.filled a names).ref isTuple).atIndex k = some c ∧ c._id = k ∧
      c._colorType = some ((ColorType.filled a names).ref isTuple).addr := by
  have hk' : k < names.length := by
    simpa only [ColorType.ref, filled_length] using hk
  refine ⟨_, filled_getElem? a names k hk' h2, rfl, ?_⟩
  simp only [ColorType.ref, ColorType.filled, (foldl_addColor names _).2, Color._colorType]

theorem abcXy_wellNumbered : WellNumbered abcXy.constituents := by
  intro ct hct k hk
  simp only [abcXy, List.mem_cons, List.mem_singleton, List.not_mem_nil, or_false] at hct
  rcases hct with rfl | rfl
  · exact filled_wellNumbered tupleBySize 1 ["a", "b", "c"] (by decide) k hk
  · exact filled_wellNumbered tupleBySize 2 ["x", "y"] (by decide) k hk

theorem abcXy_sizes : ∀ ct ∈ abcXy.constituents, 1 ≤ ct.size := by
  intro ct hct
  simp only [abcXy, List.mem_cons, List.mem_singleton, List.not_mem_nil, or_false] at hct
  rcases hct with rfl | rfl <;> decide

theorem product_encoding_inverse_witness :
    ∃ c pt1, abcXy.getColorOfIds [2, 1] = some (c, pt1) ∧ c._id = 5 ∧
      c._tuple.map Color._id = [2, 1] := by
  obtain ⟨c, pt1, h1, _, h3, h4, _⟩ := (product_encoding_inverse abcXy abcXy_sizes
    abcXy_wellNumbered (by decide) (fun _ _ h => absurd h (List.not_mem_nil _))).1 [2, 1]
    ⟨rfl, by decide⟩
  exact ⟨c, pt1, h1, by rw [h3 (by decide)]; decide, h4⟩

/-! ## Product colour types: parsing a printed colour -/

/-- C36, on the product type `abc × xy`: the empty string has no
comma-separated part, which differs from the two constituents, yet
`operator[](const std::string&)` does not return `nullptr` on it: `substr(1, ..)`
throws `std::out_of_range`.  Strings of one or three parts do give `nullptr`,
and the printed form of each of the six colours parses back to that colour. -/
theorem parse_empty_string_throws :
    splitString "" ',' = [] ∧ abcXy.constituents.length = 2 ∧
    abcXy.atName "" = Outcome.thrown "std::out_of_range" ∧
    abcXy.atName "(a)" = Outcome.ok (none, abcXy) ∧
    abcXy.atName "(a,x,a)" = Outcome.ok (none, abcXy) ∧
    abcXy.atName "(" = Outcome.ok (none, abcXy) ∧
    ∀ n < 6, ∃ c pt1, abcXy.atIndex n = some (c, pt1) ∧ c._id = n ∧
      ∃ pt2, pt1.atName (c.toString tupleBySize) = Outcome.ok (some c, pt2) := by
  refine ⟨rfl, rfl, rfl, rfl, rfl, rfl, ?_⟩
  intro n hn
  interval_cases n
  · exact ⟨_, _, rfl, rfl, _, rfl⟩
  · exact ⟨_, _, rfl, rfl, _, rfl⟩
  · exact ⟨_, _, rfl, rfl, _, rfl⟩
  · exact ⟨_, _, rfl, rfl, _, rfl⟩
  · exact ⟨_, _, rfl, rfl, _, rfl⟩
  · exact ⟨_, _, rfl, rfl, _, rfl⟩

/-! ## Colour expressions -/

/-- C39, on the colour `a` (id 0) of the type `{a, b, c}` under one
predecessor (modifier -1): the colour id tested is 0, because `0 + (-1)` is
stored as the unsigned `4294967295`, which is 0 modulo 3; the mathematical
`(0 + (-1)) mod 3` is 2, the id of the colour `operator--` returns.  Under one
successor the tested id is 1, the id of the colour `operator++` returns. -/
theorem tested_color_id_wraps :
    abcType._colors[0]? = some colorA ∧ (abcType.ref tupleBySize).size = 3 ∧
    (ColorExpression.predecessor (ColorExpression.userOperator colorA)).testedColorId
      colorHeap 0 = some 0 ∧
    ((0 : Int) + (-1)) % 3 = 2 ∧
    (colorA.decrement colorHeap).map Color._id = some 2 ∧
    (ColorExpression.successor (ColorExpression.userOperator colorA)).testedColorId
      colorHeap 0 = some 1 ∧
    (colorA.increment colorHeap).map Color._id = some 1 := by
  refine ⟨rfl, rfl, ?_, by decide, by decide, ?_, by decide⟩
  · decide
  · decide

/-- C40, on the tuple `(a, succ(x))` with an empty constant map: after
`getConstants` position 0 holds `b`, the successor of `a`, not `a`; position 1
holds `y`, the successor of `x`.  The loop of
`SuccessorExpression::getConstants` runs over every entry of the map. -/
theorem successor_constants_shift_all :
    ((ColorExpression.tuple [ColorExpression.userOperator colorA,
        ColorExpression.successor (ColorExpression.userOperator colorX)]).getConstants
        colorHeap dotColor [] 0).map
      (fun r => (r.1.map fun p => (p.1, p.2._colorName, p.2._id), r.2)) =
      some ([(0, "b", 1), (1, "y", 1)], 2) ∧
    colorA._colorName = "a" ∧
    ((ColorExpression.successor (ColorExpression.userOperator colorX)).getConstants
        colorHeap dotColor [(0, colorA)] 1).map
      (fun r => r.1.map fun p => (p.1, p.2._colorName, p.2._id)) =
      some [(0, "b", 1), (1, "y", 1)] := by
  decide

/-! ## Arc expressions: weight and symmetry -/

theorem weight_subtract_left (l r : ArcExpression) (h : ¬ OverAll l) :
    (ArcExpression.subtract l r).weight =
      Except.error "Left constituent of subtract is not an all expression!" := by
  cases l with
  | numberOf nl =>
    have h' : nl._all.isSome = false := by
      simpa [OverAll] using h
    simp [ArcExpression.weight, ArcExpression.asNumberOf, NumberOfExpression.isAll, h']
  | add es => simp [ArcExpression.weight, ArcExpression.asNumberOf]
  | subtract a b => simp [ArcExpression.weight, ArcExpression.asNumberOf]
  | scalarProduct k e => simp [ArcExpression.weight, ArcExpression.asNumberOf]

theorem weight_subtract_right (l r : ArcExpression) (hl : OverAll l) (h : ¬ SingleColor r) :
    (ArcExpression.subtract l r).weight =
      Except.error "Right constituent of subtract is not a single color number of expression!" := by
  cases l with
  | numberOf nl =>
    have hl' : nl._all.isSome = true := hl
    cases r with
    | numberOf nr =>
      have h' : nr.isSingleColor = false := by
        simp only [SingleColor, not_and] at h
        simp only [NumberOfExpression.isSingleColor, NumberOfExpression.isAll]
        cases hs : nr._all.isSome with
        | true => simp
        | false => simpa using h hs
      simp [ArcExpression.weight, ArcExpression.asNumberOf, NumberOfExpression.isAll, hl', h']
    | add es => simp [ArcExpression.weight, ArcExpression.asNumberOf,
        NumberOfExpression.isAll, hl']
    | subtract a b => simp [ArcExpression.weight, ArcExpression.asNumberOf,
        NumberOfExpression.isAll, hl']
    | scalarProduct k e => simp [ArcExpression.weight, ArcExpression.asNumberOf,
        NumberOfExpression.isAll, hl']
  | add es => exact absurd hl (by simp [OverAll])
  | subtract a b => exact absurd hl (by simp [OverAll])
  | scalarProduct k e => exact absurd hl (by simp [OverAll])

theorem weight_subtract_ok (nl nr : NumberOfExpression) (a : AllExpression)
    (hl : nl._all = some a) (hr : nr._all = none) (hc : nr._color.length = 1) :
    (ArcExpression.subtract (ArcExpression.numberOf nl) (ArcExpression.numberOf nr)).weight =
      Except.ok ((nl._number * a._sort.size % 4294967296 + 4294967296 -
        min nl._number nr._number) % 4294967296) := by
  have hm : nl._number * a._sort.size % 18446744073709551616 % 4294967296 =
      nl._number * a._sort.size % 4294967296 :=
    Nat.mod_mod_of_dvd _ (by decide)
  simp [ArcExpression.weight, ArcExpression.asNumberOf, NumberOfExpression.isAll,
    NumberOfExpression.isSingleColor, NumberOfExpression.weight, NumberOfExpression.number,
    AllExpression.size, hl, hr, hc, hm]

/-- C37: `SubtractExpression::weight` throws a `WeightException` exactly when
the left operand is not a number-of expression over an all-expression or the
right operand is not a number-of expression with exactly one colour expression
and no all-expression; otherwise it returns, in 32-bit arithmetic,
`left.number * |sort| - min(left.number, right.number)`, and when the sort has
at least one colour and the product fits 32 bits the subtraction does not
underflow and the result is that number. -/
theorem subtract_weight (l r : ArcExpression) :
    ((∃ what, (ArcExpression.subtract l r).weight = Except.error what) ↔
      (¬ OverAll l ∨ ¬ SingleColor r)) ∧
    (¬ OverAll l → (ArcExpression.subtract l r).weight =
      Except.error "Left constituent of subtract is not an all expression!") ∧
    (OverAll l → ¬ SingleColor r → (ArcExpression.subtract l r).weight =
      Except.error "Right constituent of subtract is not a single color number of expression!") ∧
    (∀ nl nr a, l = ArcExpression.numberOf nl → r = ArcExpression.numberOf nr →
      nl._all = some a → nr._all = none → nr._color.length = 1 →
      (ArcExpression.subtract l r).weight =
        Except.ok ((nl._number * a._sort.size % 4294967296 + 4294967296 -
          min nl._number nr._number) % 4294967296) ∧
      (1 ≤ a._sort.size → nl._number * a._sort.size < 4294967296 →
        min nl._number nr._number ≤ nl._number * a._sort.size ∧
        (ArcExpression.subtract l r).weight =
          Except.ok (nl._number * a._sort.size - min nl._number nr._number))) := by
  have hok : ∀ nl nr a, l = ArcExpression.numberOf nl → r = ArcExpression.numberOf nr →
      nl._all = some a → nr._all = none → nr._color.length = 1 →
      (ArcExpression.subtract l r).weight =
        Except.ok ((nl._number * a._sort.size % 4294967296 + 4294967296 -
          min nl._number nr._number) % 4294967296) := by
    intro nl nr a hl hr h1 h2 h3
    subst hl
    subst hr
    exact weight_subtract_ok nl nr a h1 h2 h3
  refine ⟨⟨?_, ?_⟩, weight_subtract_left l r, weight_subtract_right l r, ?_⟩
  · rintro ⟨what, hw⟩
    by_contra hcon
    have hcon' : OverAll l ∧ SingleColor r := by
      constructor
      · by_contra k; exact hcon (Or.inl k)
      · by_contra k; exact hcon (Or.inr k)
    obtain ⟨hL, hR⟩ := hcon'
    cases l with
    | numberOf nl =>
      cases r with
      | numberOf nr =>
        have hL' : nl._all.isSome = true := hL
        obtain ⟨a, ha⟩ := Option.isSome_iff_exists.mp hL'
        have hR' : nr._all.isSome = false ∧ nr._color.length = 1 := hR
        have hnone : nr._all = none := by
          cases hn : nr._all with
          | none => rfl
          | some x => rw [hn] at hR'; exact absurd hR'.1 (by simp)
        rw [hok nl nr a rfl rfl ha hnone hR'.2] at hw
        cases hw
      | add es => exact hR
      | subtract a b => exact hR
      | scalarProduct k e => exact hR
    | add es => exact hL
    | subtract a b => exact hL
    | scalarProduct k e => exact hL
  · intro h
    by_cases hL : OverAll l
    · rcases h with h | h
      · exact absurd hL h
      · exact ⟨_, weight_subtract_right l r hL h⟩
    · exact ⟨_, weight_subtract_left l r hL⟩
  · intro nl nr a hl hr h1 h2 h3
    refine ⟨hok nl nr a hl hr h1 h2 h3, ?_⟩
    intro hs hfit
    have hmin : min nl._number nr._number ≤ nl._number * a._sort.size :=
      Nat.le_trans (Nat.min_le_left _ _) (Nat.le_mul_of_pos_right _ hs)
    refine ⟨hmin, ?_⟩
    rw [hok nl nr a hl hr h1 h2 h3, Nat.mod_eq_of_lt hfit]
    congr 1
    omega

theorem subtract_weight_witness :
    (ArcExpression.subtract (ArcExpression.numberOf twoAll) (ArcExpression.numberOf oneA)).weight
      = Except.ok (twoAll._number * (abcType.ref tupleBySize).size -
          min twoAll._number oneA._number) ∧
    (ArcExpression.subtract (ArcExpression.numberOf oneA) (ArcExpression.numberOf oneA)).weight
      = Except.error "Left constituent of subtract is not an all expression!" :=
  ⟨(((subtract_weight (ArcExpression.numberOf twoAll) (ArcExpression.numberOf oneA)).2.2.2
      twoAll oneA { _sort := abcType.ref tupleBySize } rfl rfl rfl rfl rfl).2
      (by decide) (by decide)).2,
   (subtract_weight (ArcExpression.numberOf oneA) (ArcExpression.numberOf oneA)).2.1
      (by simp [OverAll, oneA])⟩

theorem eligible_false (e : ArcExpression)
    (hne : ∀ nums, (e.isEligibleForSymmetry nums).1 = false) :
    ∀ (es : List ArcExpression) (numbers : List Nat), e ∈ es →
      (ArcExpression.eligibleConstituents es numbers).1 = false := by
  intro es
  induction es with
  | nil => intro numbers h; exact absurd h (List.not_mem_nil _)
  | cons e1 es1 ih =>
    intro numbers h
    cases hres : ArcExpression.isEligibleForSymmetry e1 numbers with
    | mk b ns1 =>
      cases b with
      | false => simp only [ArcExpression.eligibleConstituents, hres]
      | true =>
        have hmem : e ∈ es1 := by
          rcases List.mem_cons.mp h with h1 | h1
          · subst h1
            have := hne numbers
            rw [hres] at this
            exact absurd this (by simp)
          · exact h1
        simp only [ArcExpression.eligibleConstituents, hres]
        exact ih ns1 hmem

theorem eligible_numbers (ns : List NumberOfExpression) :
    ∀ (numbers : List Nat), (∀ n ∈ ns, n._color.length ≤ 1) →
      ArcExpression.eligibleConstituents (ns.map ArcExpression.numberOf) numbers =
        (true, numbers ++ ns.map (fun n => n._number)) := by
  induction ns with
  | nil => intro numbers _; simp [ArcExpression.eligibleConstituents]
  | cons n rest ih =>
    intro numbers h
    have h1 : ¬ (n._color.length > 1) := by
      have := h n (List.mem_cons_self _ _)
      omega
    have h2 := ih (numbers ++ [n._number]) (fun m hm => h m (List.mem_cons_of_mem _ hm))
    simp only [List.map_cons, ArcExpression.eligibleConstituents,
      ArcExpression.isEligibleForSymmetry, NumberOfExpression.isEligibleForSymmetry,
      if_neg h1, h2, List.append_assoc, List.singleton_append]

theorem add_eligible_false (es : List ArcExpression) (numbers : List Nat)
    (h : (ArcExpression.eligibleConstituents es numbers).1 = false) :
    ((ArcExpression.add es).isEligibleForSymmetry numbers).1 = false := by
  cases hres : ArcExpression.eligibleConstituents es numbers with
  | mk b ns1 =>
    rw [hres] at h
    simp only at h
    subst h
    simp only [ArcExpression.isEligibleForSymmetry, hres]

/-- C38: an add expression over number-of expressions, asked with an empty
`numbers` vector, is eligible for symmetry exactly when it has at least two
constituents, none with more than one colour expression, all of the same
multiplicity; and an add expression with a constituent that is never eligible,
such as a subtract or a scalar-product expression, is not eligible. -/
theorem add_symmetry_eligible (ns : List NumberOfExpression) :
    (((ArcExpression.add (ns.map ArcExpression.numberOf)).isEligibleForSymmetry []).1 = true ↔
      2 ≤ ns.length ∧ (∀ n ∈ ns, n._color.length ≤ 1) ∧
        (∀ n ∈ ns, ∀ m ∈ ns, n._number = m._number)) ∧
    (∀ (es : List ArcExpression) (numbers : List Nat) (e : ArcExpression), e ∈ es →
      (∀ nums, (e.isEligibleForSymmetry nums).1 = false) →
      ((ArcExpression.add es).isEligibleForSymmetry numbers).1 = false) ∧
    (∀ l r nums, ((ArcExpression.subtract l r).isEligibleForSymmetry nums).1 = false) ∧
    (∀ k e nums, ((ArcExpression.scalarProduct k e).isEligibleForSymmetry nums).1 = false) := by
  refine ⟨?_, ?_, ?_, ?_⟩
  · by_cases hcol : ∀ n ∈ ns, n._color.length ≤ 1
    · have hnum := eligible_numbers ns [] hcol
      simp only [List.nil_append] at hnum
      by_cases hlen : 2 ≤ ns.length
      · have hl : ¬ ((ns.map fun n => n._number).length < 2) := by
          simp only [List.length_map]; omega
        simp only [ArcExpression.isEligibleForSymmetry, hnum, if_neg hl, List.all_eq_true,
          decide_eq_true_eq, List.mem_map, forall_exists_index, and_imp,
          forall_apply_eq_imp_iff₂]
        constructor
        · intro h
          refine ⟨hlen, hcol, ?_⟩
          intro n hn m hm
          rw [← h n hn, ← h m hm]
        · rintro ⟨_, _, h⟩
          intro n hn
          cases ns with
          | nil => exact absurd hn (List.not_mem_nil _)
          | cons n0 rest =>
            simp only [List.map_cons, List.getD_cons_zero]
            exact h n0 (List.mem_cons_self _ _) n hn
      · have hl : (ns.map fun n => n._number).length < 2 := by
          simp only [List.length_map]; omega
        simp only [ArcExpression.isEligibleForSymmetry, hnum, if_pos hl]
        constructor
        · intro h; exact absurd h (by simp)
        · rintro ⟨h, _⟩; exact absurd h hlen
    · constructor
      · intro h
        exfalso
        simp only [not_forall] at hcol
        obtain ⟨n, hn, hbig⟩ := hcol
        have hne : ∀ nums,
            ((ArcExpression.numberOf n).isEligibleForSymmetry nums).1 = false := by
          intro nums
          have hb : n._color.length > 1 := by omega
          simp only [ArcExpression.isEligibleForSymmetry,
            NumberOfExpression.isEligibleForSymmetry, if_pos hb]
        have := add_eligible_false _ [] (eligible_false _ hne
          (ns.map ArcExpression.numberOf) [] (List.mem_map.mpr ⟨n, hn, rfl⟩))
        rw [this] at h
        exact absurd h (by simp)
      · rintro ⟨_, h, _⟩
        exact absurd h hcol
  · intro es numbers e he hne
    exact add_eligible_false es numbers (eligible_false e hne es numbers he)
  · intro l r nums
    simp only [ArcExpression.isEligibleForSymmetry]
  · intro k e nums
    simp only [ArcExpression.isEligibleForSymmetry]

theorem add_symmetry_eligible_witness :
    (2 ≤ [oneA, oneX].length ∧ (∀ n ∈ [oneA, oneX], n._color.length ≤ 1) ∧
      (∀ n ∈ [oneA, oneX], ∀ m ∈ [oneA, oneX], n._number = m._number)) ∧
    ((ArcExpression.add ([oneA, oneX].map ArcExpression.numberOf)).isEligibleForSymmetry []).1
      = true :=
  ⟨⟨by decide, by simp [oneA, oneX], by simp [oneA, oneX]⟩,
   (add_symmetry_eligible [oneA, oneX]).1.mpr
     ⟨by decide, by simp [oneA, oneX], by simp [oneA, oneX]⟩⟩

end PetriEngine
